import Mathlib

/-!
# PASAQ solver: game utilities, bounds estimator, binary search driver and the
# generic MIP model builder

Shallow embedding of `src/protect/PASAQ.cc` and `src/protect/lin_prog.cc`.

Conventions of the embedding:

* `double` values are modelled twice. In the statements that do not depend on
  rounding they are elements of a linearly ordered field `α` (exact
  arithmetic); the C library function `exp` is a parameter `exp : α → α`, which
  the theorems instantiate with `Real.exp`. In the statements that depend on
  rounding (the search loop, the bounds, the quantal response, the secant
  slopes) they are the binary64 numbers of IEEE 754, `Binary64.Double`: finite
  numbers with a sign (also for zero), the two infinities and NaN, every
  operation rounded to nearest, ties to even, and every operation rounded
  separately; `PASAQ.OnDouble` repeats the functions of `PASAQ.cc` on this
  type, with `exp : Double → Double` a parameter.
* `size_t` values are natural numbers and every `size_t` operation that can
  wrap is reduced modulo `2 ^ 64`; a conversion to `int` is the two's
  complement reading of the low 32 bits.
* a thrown C++ exception is an `Except.error`; a call that throws leaves the
  object it was called on as it was.
* `v[i]` on a `std::vector` is `List.getD v i 0`.
-/

namespace PASAQ

/-- Payoff matrix of a game (`struct PayoffMatrix`, four `vector<int>`). -/
structure PayoffMatrix where
  R_d : List Int
  P_d : List Int
  R_a : List Int
  P_a : List Int
  deriving Repr, DecidableEq

section Utility

variable {α : Type} [LinearOrderedField α]

/-- Expected attacker utility on attacking target `i`, given strategy `x`. -/
def U_a (i : Nat) (x : List α) (Pm : PayoffMatrix) : α :=
  x.getD i 0 * ((Pm.P_a.getD i 0 : Int) : α) + (1 - x.getD i 0) * ((Pm.R_a.getD i 0 : Int) : α)

/-- Expected defender utility if the adversary attacks target `i`, given strategy `x`. -/
def U_d (i : Nat) (x : List α) (Pm : PayoffMatrix) : α :=
  x.getD i 0 * ((Pm.R_d.getD i 0 : Int) : α) + (1 - x.getD i 0) * ((Pm.P_d.getD i 0 : Int) : α)

/-- Quantal response of the attacker on target `i` (`q_i`). -/
def q_i (exp : α → α) (i : Nat) (s : List α) (Pm : PayoffMatrix) (lambda : α) : α :=
  let T := Pm.P_a.length
  let sum := (List.range T).foldl (fun sum j => sum + exp (lambda * U_a j s Pm)) 0
  exp (lambda * U_a i s Pm) / sum

/-- Expected defender utility (`UD`). -/
def UD (exp : α → α) (x : List α) (Pm : PayoffMatrix) (lambda : α) : α :=
  (List.range x.length).foldl (fun sum i => sum + q_i exp i x Pm lambda * U_d i x Pm) 0

/-- Expected attacker utility (`UA`). -/
def UA (exp : α → α) (x : List α) (Pm : PayoffMatrix) (lambda : α) : α :=
  (List.range x.length).foldl (fun sum i => sum + q_i exp i x Pm lambda * U_a i x Pm) 0

/-- Estimate of the lower and upper bound of the defender utility
(`EstimateBounds`): the expected utility of the uniform strategy with coverage
`max(numRes * (1 / T), 1.0)` and the sum of all defender rewards. -/
def EstimateBounds (exp : α → α) (numRes : Int) (Pm : PayoffMatrix) (lambda : α) : α × α :=
  let T := Pm.P_a.length
  let uniform_strategy : List α := List.replicate T (max ((numRes : α) * (1 / (T : α))) 1)
  (UD exp uniform_strategy Pm lambda,
   Pm.R_d.foldl (fun second reward => second + ((reward : Int) : α)) 0)

/-- State of the loop of `BinarySearchMethod`: the bracket `L`, `U`, the
strategy `x`, and (ghost) the thresholds passed to the oracle so far. -/
structure SearchState (α : Type) where
  L : α
  U : α
  x : List α
  probes : List α

/-- The `while (U - L > e)` loop of `BinarySearchMethod`; `oracle r` stands for
`CheckFeasibility(r, numRes, Pm, A, K, lambda)`. `none` when the fuel runs out
before the loop condition fails. -/
def BinarySearchLoop (oracle : α → Bool × List α) (e : α) :
    Nat → SearchState α → Option (SearchState α)
  | 0, s => if s.U - s.L > e then none else some s
  | fuel + 1, s =>
    if s.U - s.L > e then
      let r := (s.U + s.L) / 2
      let f_x_pair := oracle r
      let x := f_x_pair.2
      if f_x_pair.1 then
        BinarySearchLoop oracle e fuel ⟨r, s.U, x, s.probes ++ [r]⟩
      else
        BinarySearchLoop oracle e fuel ⟨s.L, r, x, s.probes ++ [r]⟩
    else some s

/-- Main algorithm for finding the strategy (`BinarySearchMethod`). The
feasibility oracle `CheckFeasibility`, which runs the external solver, is a
parameter. -/
def BinarySearchMethod (exp : α → α)
    (CheckFeasibility : α → Int → PayoffMatrix → List (List α) → α → α → Bool × List α)
    (fuel : Nat) (e : α) (numRes : Int) (Pm : PayoffMatrix) (A : List (List α))
    (lambda : α) (K : α) : Option (α × List α) :=
  let pair := EstimateBounds exp numRes Pm lambda
  let L := pair.1
  let U := pair.2
  (BinarySearchLoop (fun r => CheckFeasibility r numRes Pm A K lambda) e fuel ⟨L, U, [], []⟩).map
    (fun s => (s.L, s.x))

end Utility

/-- The toy instance of the specification: two targets with symmetric payoffs
`R_d = [30, 30]`, `P_d = [-15, -15]`, `R_a = [30, 30]`, `P_a = [-30, -30]`. -/
def toy : PayoffMatrix :=
  { R_d := [30, 30], P_d := [-15, -15], R_a := [30, 30], P_a := [-30, -30] }

/-- A payoff matrix with two targets whose defender rewards are negative. -/
def negative_rewards : PayoffMatrix :=
  { R_d := [-1, -1], P_d := [-2, -2], R_a := [1, 1], P_a := [-1, -1] }

/-- A feasibility oracle that reports every threshold up to 50 achievable with
the strategy `[1/2, 1/2]`, and every larger one not achievable, returning the
strategy `[0, 0]` with that answer. -/
def oracle_50 {α : Type} [LinearOrderedField α] (r : α) (_numRes : Int) (_Pm : PayoffMatrix)
    (_A : List (List α)) (_K : α) (_lambda : α) : Bool × List α :=
  if r ≤ 50 then (true, [1 / 2, 1 / 2]) else (false, [0, 0])

/-- A feasibility oracle that is monotone with threshold 40. -/
def oracle_40 {α : Type} [LinearOrderedField α] (r : α) (_numRes : Int) (_Pm : PayoffMatrix)
    (_A : List (List α)) (_K : α) (_lambda : α) : Bool × List α :=
  (decide (r ≤ 40), [])

end PASAQ

namespace LinProg

/-- Number of values of the type `size_t` (unsigned 64-bit). -/
def SIZE_MOD : Nat := 2 ^ 64

/-- Addition of two `size_t` values. -/
def size_add (a b : Nat) : Nat := (a + b) % SIZE_MOD

/-- Subtraction of two `size_t` values. -/
def size_sub (a b : Nat) : Nat := (a % SIZE_MOD + SIZE_MOD - b % SIZE_MOD) % SIZE_MOD

/-- Conversion of a `size_t` value to `int` (two's complement, 32 bits). -/
def to_int (n : Nat) : Int := Int.bmod (n : Int) (2 ^ 32)

/-- Direction of optimisation (`GLP_MIN`, `GLP_MAX`). -/
inductive glp_dir where
  | GLP_MIN
  | GLP_MAX
  deriving Repr, DecidableEq

/-- Control parameters of the integer optimiser (`glp_iocp`); only the field
`presolve` is used by the program. -/
structure glp_iocp where
  presolve : Bool
  deriving Repr, DecidableEq

/-- Calls made on the external solver object `glp_prob *lp`, in the order in
which they are issued. -/
inductive glp_call (D : Type) where
  | create_prob
  | set_prob_name (name : String)
  | set_obj_dir (dir : glp_dir)
  | add_cols (ncs : Int)
  | set_col_name (j : Int) (name : String)
  | add_rows (nrs : Int)
  | set_row_name (i : Int) (name : String)
  | set_row_bnds (i : Int) (type : Int) (lb : D) (ub : D)
  | set_col_bnds (j : Int) (type : Int) (lb : D) (ub : D)
  | set_col_kind (j : Int) (kind : Int)
  | set_obj_coef (j : Int) (coef : D)
  | load_matrix (ne : Int) (ia : List Int) (ja : List Int) (ar : List D)
  | intopt (parm : Option glp_iocp)
  deriving Repr, DecidableEq

/-- Exceptions thrown by the methods of `lin_prog`. -/
inductive Error where
  /-- Thrown as `std::invalid_argument(var + " does not exist.")`. -/
  | does_not_exist (var : String)
  /-- Thrown as `std::invalid_argument(to_string(index) + " is out of bounds ... for " + var)`. -/
  | out_of_bounds (index : Nat) (var : String)
  /-- Thrown as `std::invalid_argument("Must add row before adding constrains")`. -/
  | must_add_row
  /-- Thrown as `std::bad_alloc()` by `declare_variables` on a declared name. -/
  | bad_alloc
  /-- Thrown as `std::logic_error("LP has to be run before getting objective")`. -/
  | not_run
  deriving Repr, DecidableEq

/-- Private state of the class `lin_prog`; the member `variables` is the field
`variable_names`. -/
structure lin_prog (D : Type) where
  num_vars : Nat
  cur_row : Nat
  rows : List Int
  cols : List Int
  vals : List D
  variable_names : List String
  offsets : List Nat
  name : String
  has_run : Bool
  lp : List (glp_call D)
  deriving Repr, DecidableEq

section Builder

variable {D : Type} [Zero D]

/-- Constructor `lin_prog::lin_prog(string name)`. -/
def lin_prog.init (name : String) : lin_prog D :=
  { num_vars := 1
    name := name
    rows := [0]
    cols := [0]
    vals := [0]
    has_run := false
    cur_row := 0
    variable_names := []
    offsets := []
    lp := [.create_prob, .set_prob_name name, .set_obj_dir .GLP_MIN] }

/-- True if the variable name has been declared (`lin_prog::has`). -/
def lin_prog.has (m : lin_prog D) (var : String) : Bool :=
  m.variable_names.contains var

/-- The loop `for (i = i; i < i + n; i++) if (variables[i] == var) return ...`
of `get_bounds`, started at position `i` with `n` iterations left. -/
def get_bounds_loop (variable_names : List String) (offsets : List Nat) (var : String) :
    Nat → Nat → Option (Nat × Nat)
  | _, 0 => none
  | i, n + 1 =>
    if variable_names.getD i "" = var then
      some (offsets.getD i 0, size_sub (offsets.getD (i + 1) 0) 1)
    else get_bounds_loop variable_names offsets var (i + 1) n

/-- Inclusive bounds of the columns the variable uses (`lin_prog::get_bounds`). -/
def lin_prog.get_bounds (m : lin_prog D) (var : String) : Except Error (Nat × Nat) :=
  if !m.has var then .error (.does_not_exist var)
  else
    match get_bounds_loop m.variable_names m.offsets var 0 (m.variable_names.length - 1) with
    | some bounds => .ok bounds
    | none => .ok (m.offsets.getLast?.getD 0, size_sub m.num_vars 1)

/-- Declare a variable group (`lin_prog::declare_variables`). -/
def lin_prog.declare_variables (m : lin_prog D) (name : String) (num : Nat) :
    Except Error (lin_prog D) :=
  if m.has name then .error .bad_alloc
  else
    .ok { m with
      lp := m.lp ++ [.add_cols (to_int num)] ++
        (List.range num).map (fun i =>
          .set_col_name (to_int (size_add m.num_vars i)) (name ++ toString i))
      variable_names := m.variable_names ++ [name]
      offsets := m.offsets ++ [m.num_vars]
      num_vars := size_add m.num_vars num }

/-- Add a term to the current row (`lin_prog::add_constraint`). -/
def lin_prog.add_constraint (m : lin_prog D) (var : String) (index : Nat) (value : D) :
    Except Error (lin_prog D) :=
  match m.get_bounds var with
  | .error err => .error err
  | .ok bounds =>
    if index < 1 ∨ size_add (size_sub index 1) bounds.1 > bounds.2 then
      .error (.out_of_bounds index var)
    else if m.cur_row < 1 then .error .must_add_row
    else
      .ok { m with
        rows := m.rows ++ [to_int m.cur_row]
        cols := m.cols ++ [to_int (size_add bounds.1 (size_sub index 1))]
        vals := m.vals ++ [value] }

/-- Set the bounds of the current row (`lin_prog::set_row_bnd`). -/
def lin_prog.set_row_bnd (m : lin_prog D) (type : Int) (lvalue rvalue : D) : lin_prog D :=
  { m with lp := m.lp ++ [.set_row_bnds (to_int m.cur_row) type lvalue rvalue] }

/-- Set the bounds of a variable (`lin_prog::set_var_bnd`). -/
def lin_prog.set_var_bnd (m : lin_prog D) (var : String) (index : Nat) (type : Int)
    (lvalue rvalue : D) : Except Error (lin_prog D) :=
  match m.get_bounds var with
  | .error err => .error err
  | .ok bounds =>
    if index < 1 ∨ size_add (size_sub index 1) bounds.1 > bounds.2 then
      .error (.out_of_bounds index var)
    else
      .ok { m with
        lp := m.lp ++
          [.set_col_bnds (to_int (size_add bounds.1 (size_sub index 1))) type lvalue rvalue] }

/-- Set the kind of a variable (`lin_prog::set_var_kind`). -/
def lin_prog.set_var_kind (m : lin_prog D) (var : String) (index : Nat) (type : Int) :
    Except Error (lin_prog D) :=
  match m.get_bounds var with
  | .error err => .error err
  | .ok bounds =>
    if index < 1 ∨ size_add (size_sub index 1) bounds.1 > bounds.2 then
      .error (.out_of_bounds index var)
    else
      .ok { m with
        lp := m.lp ++ [.set_col_kind (to_int (size_add bounds.1 (size_sub index 1))) type] }

/-- Set an objective coefficient (`lin_prog::set_objective_var`). -/
def lin_prog.set_objective_var (m : lin_prog D) (var : String) (index : Nat) (value : D) :
    Except Error (lin_prog D) :=
  match m.get_bounds var with
  | .error err => .error err
  | .ok bounds =>
    if index < 1 ∨ size_add (size_sub index 1) bounds.1 > bounds.2 then
      .error (.out_of_bounds index var)
    else
      .ok { m with
        lp := m.lp ++ [.set_obj_coef (to_int (size_add bounds.1 (size_sub index 1))) value] }

/-- Set the objective to maximise (`lin_prog::set_max`). -/
def lin_prog.set_max (m : lin_prog D) : lin_prog D :=
  { m with lp := m.lp ++ [.set_obj_dir .GLP_MAX] }

/-- Set the objective to minimise (`lin_prog::set_min`). -/
def lin_prog.set_min (m : lin_prog D) : lin_prog D :=
  { m with lp := m.lp ++ [.set_obj_dir .GLP_MIN] }

/-- Add a new row of constraints (`lin_prog::add_row()`). -/
def lin_prog.add_row (m : lin_prog D) : lin_prog D :=
  { m with lp := m.lp ++ [.add_rows 1], cur_row := size_add m.cur_row 1 }

/-- Add a new row with a name (`lin_prog::add_row(string name)`). -/
def lin_prog.add_row_named (m : lin_prog D) (name : String) : lin_prog D :=
  let m1 := m.add_row
  { m1 with lp := m1.lp ++ [.set_row_name (to_int m1.cur_row) name] }

/-- Successive `declare_variables` calls, stopping at the first one that throws. -/
def lin_prog.declare_all (m : lin_prog D) : List (String × Nat) → Except Error (lin_prog D)
  | [] => .ok m
  | d :: ds =>
    match m.declare_variables d.1 d.2 with
    | .error err => .error err
    | .ok m1 => m1.declare_all ds

/-- A call of one of the model-building methods. -/
inductive Call (D : Type) where
  | declare_variables (name : String) (num : Nat)
  | add_row
  | add_row_named (name : String)
  | add_constraint (var : String) (index : Nat) (value : D)

/-- The model after a call; a call that throws leaves the model as it was. -/
def lin_prog.call (m : lin_prog D) : Call D → lin_prog D
  | .declare_variables name num =>
    match m.declare_variables name num with
    | .ok m1 => m1
    | .error _ => m
  | .add_row => m.add_row
  | .add_row_named name => m.add_row_named name
  | .add_constraint var index value =>
    match m.add_constraint var index value with
    | .ok m1 => m1
    | .error _ => m

/-- The model after a sequence of calls. -/
def lin_prog.calls (m : lin_prog D) (cs : List (Call D)) : lin_prog D :=
  cs.foldl lin_prog.call m

/-- The groups declared by a sequence of calls on a model whose declared names
are `seen`: name and size of every `declare_variables` call that does not throw. -/
def declared_groups (seen : List String) : List (Call D) → List (String × Nat)
  | [] => []
  | .declare_variables name num :: cs =>
    if seen.contains name then declared_groups seen cs
    else (name, num) :: declared_groups (seen ++ [name]) cs
  | _ :: cs => declared_groups seen cs

/-- First column of the group at position `i` among the declared groups `ds`. -/
def first_col (ds : List (String × Nat)) (i : Nat) : Nat :=
  1 + ((ds.take i).map Prod.snd).sum

/-- Last column of the group at position `i` among the declared groups `ds`. -/
def last_col (ds : List (String × Nat)) (i : Nat) : Nat :=
  ((ds.take (i + 1)).map Prod.snd).sum

end Builder

/-- Largest value of the type `int` (32-bit). -/
def INT_MAX : Nat := 2 ^ 31 - 1

/-- The model `m` holds exactly the declared groups `ds` (name and size, in the
order of declaration): the registry lists their names, every offset is the
first column of its group, the column counter is one more than the number of
columns, and the column counter has not wrapped. -/
def Layout {D : Type} (m : lin_prog D) (ds : List (String × Nat)) : Prop :=
  m.variable_names = ds.map Prod.fst ∧
  m.offsets = (List.range ds.length).map (first_col ds) ∧
  m.num_vars = 1 + (ds.map Prod.snd).sum ∧
  (ds.map Prod.fst).Nodup ∧
  1 + (ds.map Prod.snd).sum < SIZE_MOD

/-- The calls that declare the groups `x` and `z` with 10 columns each and add
one row. -/
def model_xz_calls : List (Call ℚ) :=
  [.declare_variables "x" 10, .declare_variables "z" 10, .add_row]

/-- A model with the groups `x` (10 columns) and `z` (10 columns) and one row. -/
def model_xz : lin_prog ℚ :=
  (lin_prog.init "lp").calls model_xz_calls

/-- The groups `x` (10 columns), `z` (10 columns) and `a` (3 columns). -/
def groups_xza : List (String × Nat) :=
  [("x", 10), ("z", 10), ("a", 3)]

/-- Number of `add_row` calls (with or without a name) in a sequence of calls. -/
def row_calls {D : Type} : List (Call D) → Nat
  | [] => 0
  | .add_row :: cs => row_calls cs + 1
  | .add_row_named _ :: cs => row_calls cs + 1
  | .declare_variables _ _ :: cs => row_calls cs
  | .add_constraint _ _ _ :: cs => row_calls cs

end LinProg

namespace LinProg

/-- Multiplication of two `size_t` values. -/
def size_mul (a b : Nat) : Nat := (a * b) % SIZE_MOD

/-- Bound kind `GLP_FR` of `glpk.h`: free (unbounded) variable. -/
def GLP_FR : Int := 1

/-- Bound kind `GLP_LO` of `glpk.h`: variable with lower bound. -/
def GLP_LO : Int := 2

/-- Bound kind `GLP_UP` of `glpk.h`: variable with upper bound. -/
def GLP_UP : Int := 3

/-- Bound kind `GLP_DB` of `glpk.h`: double-bounded variable. -/
def GLP_DB : Int := 4

/-- Bound kind `GLP_FX` of `glpk.h`: fixed variable. -/
def GLP_FX : Int := 5

/-- Variable kind `GLP_CV` of `glpk.h`: continuous variable. -/
def GLP_CV : Int := 1

/-- Variable kind `GLP_IV` of `glpk.h`: integer variable. -/
def GLP_IV : Int := 2

/-- Variable kind `GLP_BV` of `glpk.h`: binary variable. -/
def GLP_BV : Int := 3

/-- The external MIP solver. Its answers are functions of the calls made so far
on the problem object: `init_iocp` is `glp_init_iocp`, `intopt` the termination
status of `glp_intopt`, `get_obj_val` is `glp_get_obj_val` and `get_col_prim`
is `glp_get_col_prim`. -/
structure glp_solver (D : Type) where
  init_iocp : glp_iocp → glp_iocp
  intopt : List (glp_call D) → Option glp_iocp → Int
  get_obj_val : List (glp_call D) → D
  get_col_prim : List (glp_call D) → Int → D

section Solve

variable {D : Type}

/-- Load the triplet lists into the solver (`lin_prog::apply_constraints`). -/
def lin_prog.apply_constraints (m : lin_prog D) : lin_prog D :=
  { m with lp := m.lp ++ [.load_matrix (to_int (size_sub m.rows.length 1)) m.rows m.cols m.vals] }

/-- Run mixed integer optimisation (`lin_prog::run`); the result is the model
after the call and the status returned by `glp_intopt`. -/
def lin_prog.run (m : lin_prog D) (solver : glp_solver D) (parm : Option glp_iocp) :
    lin_prog D × Int :=
  let parm := parm.map (fun p => solver.init_iocp { p with presolve := true })
  let m := m.apply_constraints
  let m := { m with has_run := true }
  ({ m with lp := m.lp ++ [.intopt parm] }, solver.intopt m.lp parm)

/-- Objective value of the solved model (`lin_prog::get_obj_val`). -/
def lin_prog.get_obj_val (m : lin_prog D) (solver : glp_solver D) : Except Error D :=
  if !m.has_run then .error .not_run
  else .ok (solver.get_obj_val m.lp)

/-- Value of a variable of the solved model (`lin_prog::get_var_val`). The body
ends with the expression statement `glp_get_col_prim(lp, ...)` and has no
`return`: when no exception is thrown control flows off the end of the function
and no value is returned (`none`). -/
def lin_prog.get_var_val (m : lin_prog D) (solver : glp_solver D) (var : String) (index : Nat) :
    Except Error (Option D) :=
  if !m.has_run then .error .not_run
  else
    match m.get_bounds var with
    | .error err => .error err
    | .ok bounds =>
      if index < 1 ∨ size_add (size_sub index 1) bounds.1 > bounds.2 then
        .error (.out_of_bounds index var)
      else
        let _discarded := solver.get_col_prim m.lp (to_int (size_add bounds.1 (size_sub index 1)))
        .ok none

/-- The loop `for (i = 1; i <= n; i++) body`, stopped by the first exception. -/
def for_up_to {σ ε : Type} (n : Nat) (body : σ → Nat → Except ε σ) (s : σ) : Except ε σ :=
  match n with
  | 0 => .ok s
  | n + 1 =>
    match for_up_to n body s with
    | .error err => .error err
    | .ok s1 => body s1 (n + 1)

/-- The sparse entries `(row, column, coefficient)` loaded into the solver: the
three lists read in parallel, without the placeholder at position 0. -/
def lin_prog.triplets (m : lin_prog D) : List (Int × Int × D) :=
  (List.zip m.rows (List.zip m.cols m.vals)).tail

/-- The terms of row `i`: the sparse entries whose row index is `i`. -/
def lin_prog.row_terms (m : lin_prog D) (i : Int) : List (Int × Int × D) :=
  m.triplets.filter (fun t => decide (t.1 = i))

end Solve

section Semantics

variable {α : Type} [LinearOrderedField α]

/-- Value of row `i` of the constraint matrix under the column values `v`. -/
def lin_prog.row_activity (m : lin_prog α) (v : Int → α) (i : Int) : α :=
  ((m.row_terms i).map (fun t => t.2.2 * v t.2.1)).sum

/-- Meaning of a bound kind of the solver interface for a value `x`: free,
lower-only, upper-only, double-bounded or fixed (at the lower bound). -/
def bnd_ok (type : Int) (lb ub x : α) : Prop :=
  if type = GLP_LO then lb ≤ x
  else if type = GLP_UP then x ≤ ub
  else if type = GLP_DB then lb ≤ x ∧ x ≤ ub
  else if type = GLP_FX then x = lb
  else True

/-- Meaning of a variable kind of the solver interface for a value `x`:
continuous, integer or binary. -/
def kind_ok (kind : Int) (x : α) : Prop :=
  if kind = GLP_BV then x = 0 ∨ x = 1
  else if kind = GLP_IV then ∃ n : Int, x = (n : α)
  else True

/-- The column values `v` satisfy every row bound, variable bound and variable
kind set by the solver calls `calls`, the rows being those of the model `m`. -/
def lin_prog.satisfies (m : lin_prog α) (calls : List (glp_call α)) (v : Int → α) : Prop :=
  ∀ c ∈ calls,
    match c with
    | .set_row_bnds i type lb ub => bnd_ok type lb ub (m.row_activity v i)
    | .set_col_bnds j type lb ub => bnd_ok type lb ub (v j)
    | .set_col_kind j kind => kind_ok kind (v j)
    | _ => True

end Semantics

end LinProg

namespace PASAQ

open LinProg

section Formulation

variable {α : Type} [LinearOrderedField α]

/-- Symbol `theta` of target `i`: `exp(lambda * R_a[i])`. -/
def theta (exp : α → α) (i : Nat) (Pm : PayoffMatrix) (lambda : α) : α :=
  exp (lambda * ((Pm.R_a.getD i 0 : Int) : α))

/-- Symbol `alpha` of target `i`: `R_d[i] - P_d[i]`. -/
def alpha (i : Nat) (Pm : PayoffMatrix) (_lambda : α) : α :=
  ((Pm.R_d.getD i 0 - Pm.P_d.getD i 0 : Int) : α)

/-- Symbol `beta` of target `i`: `lambda * (R_a[i] - P_a[i])`. -/
def beta (i : Nat) (Pm : PayoffMatrix) (lambda : α) : α :=
  lambda * ((Pm.R_a.getD i 0 - Pm.P_a.getD i 0 : Int) : α)

/-- Curve `f1(i, x) = exp(-beta(i) * x)`. -/
def f1 (exp : α → α) (i : Nat) (x : α) (Pm : PayoffMatrix) (lambda : α) : α :=
  exp (-beta i Pm lambda * x)

/-- Curve `f2(i, x) = x * exp(-beta(i) * x)`. -/
def f2 (exp : α → α) (i : Nat) (x : α) (Pm : PayoffMatrix) (lambda : α) : α :=
  x * exp (-beta i Pm lambda * x)

/-- Local variable `y_ik` of `set_pasaq_obj`: slope of `f1` over segment `k`. -/
def y_ik (exp : α → α) (Pm : PayoffMatrix) (lambda : α) (K : Int) (i : Nat) (k : Int) : α :=
  let k_ : α := (k : α)
  let left := (k_ - 1) / (K : α)
  let right := k_ / (K : α)
  (f1 exp i right Pm lambda - f1 exp i left Pm lambda) / (right - left)

/-- Local variable `u_ik` of `set_pasaq_obj`: slope of `f2` over segment `k`. -/
def u_ik (exp : α → α) (Pm : PayoffMatrix) (lambda : α) (K : Int) (i : Nat) (k : Int) : α :=
  let k_ : α := (k : α)
  let left := (k_ - 1) / (K : α)
  let right := k_ / (K : α)
  (f2 exp i right Pm lambda - f2 exp i left Pm lambda) / (right - left)

/-- Final value of the local variable `coef_val` of `set_pasaq_obj`: the first
value `coef * y_ik`, with `coef = theta_ * (r - P_d[i])`, is overwritten by
`0 - (theta_ * alpha_ * u_ik)`. -/
def coef_val (exp : α → α) (r : α) (Pm : PayoffMatrix) (lambda : α) (K : Int) (i : Nat)
    (k : Int) : α :=
  let theta_ := theta exp i Pm lambda
  let alpha_ := alpha i Pm lambda
  let coef := theta_ * (r - ((Pm.P_d.getD i 0 : Int) : α))
  let _coef_val := coef * y_ik exp Pm lambda K i k
  0 - (theta_ * alpha_ * u_ik exp Pm lambda K i k)

/-- Objective of the feasibility program (`set_pasaq_obj`); `K` is an `int`. -/
def set_pasaq_obj (exp : α → α) (LP : lin_prog α) (r : α) (Pm : PayoffMatrix) (lambda : α)
    (K : Int) : Except Error (lin_prog α) :=
  let T := Pm.P_a.length
  let LP := LP.set_max
  for_up_to T (fun LP i =>
    for_up_to K.toNat (fun LP k =>
      LP.set_objective_var "x" ((((i : Int) - 1) * K + (k : Int)).toNat)
        (coef_val exp r Pm lambda K i k)) LP) LP

/-- Constraint (11): the sum of all `x_ik` is at most the number of resources. -/
def set_pasaq_constraint_11 (LP : lin_prog α) (T K : Nat) (num_res : Int) :
    Except Error (lin_prog α) :=
  let LP := LP.add_row_named "(11)"
  let LP := LP.set_row_bnd GLP_UP 0 (num_res : α)
  for_up_to T (fun LP i =>
    for_up_to K (fun LP k =>
      LP.add_constraint "x" (size_add (size_mul (size_sub i 1) K) k) 1) LP) LP

/-- Constraint (12): every `x_ik` lies between 0 and `1/K`. -/
def set_pasaq_constraint_12 (LP : lin_prog α) (T K : Nat) : Except Error (lin_prog α) :=
  for_up_to T (fun LP i =>
    for_up_to K (fun LP k =>
      LP.set_var_bnd "x" (size_add (size_mul (size_sub i 1) K) k) GLP_DB 0 (1 / (K : α))) LP) LP

/-- Constraint (13): one row per `(i, k)` with the terms `-1 * x_ik` and
`(1/K) * z_ik` and upper bound 0. -/
def set_pasaq_constraint_13 (LP : lin_prog α) (T K : Nat) : Except Error (lin_prog α) :=
  for_up_to T (fun LP i =>
    for_up_to K (fun LP k =>
      let LP := LP.add_row_named ("13-" ++ toString i ++ " " ++ toString k)
      let LP := LP.set_row_bnd GLP_UP 0 0
      match LP.add_constraint "x" (size_add (size_mul (size_sub i 1) K) k) (-1) with
      | .error err => .error err
      | .ok LP =>
        LP.add_constraint "z" (size_add (size_mul (size_sub i 1) K) k) (1 / (K : α))) LP) LP

/-- Constraint (14): one row per `(i, k)` with `k ≤ K - 1`, with the terms
`1 * x_i(k+1)` and `-1 * z_ik` and upper bound 0. -/
def set_pasaq_constraint_14 (LP : lin_prog α) (T K : Nat) : Except Error (lin_prog α) :=
  for_up_to T (fun LP i =>
    for_up_to (size_sub K 1) (fun LP k =>
      let LP := LP.add_row_named ("14-" ++ toString i ++ toString k)
      let LP := LP.set_row_bnd GLP_UP 0 0
      match LP.add_constraint "x"
          (size_add (size_add (size_mul (size_sub i 1) K) k) 1) 1 with
      | .error err => .error err
      | .ok LP =>
        LP.add_constraint "z" (size_add (size_mul (size_sub i 1) K) k) (-1)) LP) LP

/-- Constraint (15): every `z_ik` is binary, and a row bounds it by 0 and 1. -/
def set_pasaq_constraint_15 (LP : lin_prog α) (T K : Nat) : Except Error (lin_prog α) :=
  for_up_to T (fun LP i =>
    for_up_to K (fun LP k =>
      match LP.set_var_kind "z" (size_add (size_mul (size_sub i 1) K) k) GLP_BV with
      | .error err => .error err
      | .ok LP =>
        let LP := LP.add_row_named ("15-" ++ toString i ++ toString k)
        match LP.add_constraint "z" (size_add (size_mul (size_sub i 1) K) k) 1 with
        | .error err => .error err
        | .ok LP => .ok (LP.set_row_bnd GLP_DB 0 1)) LP) LP

/-- Constraint (16): for `i = 1, ..., T - 1` a row fixed at 0 with the terms
`1 * x_ik` for every `k` and `-A[i][j] * a_j` for `j = 1, ..., A[1].size()`. -/
def set_pasaq_constraint_16 (LP : lin_prog α) (T K : Nat) (A : List (List α)) :
    Except Error (lin_prog α) :=
  for_up_to (T - 1) (fun LP i =>
    let LP := LP.add_row_named ("16-" ++ toString i)
    let LP := LP.set_row_bnd GLP_FX 0 0
    match for_up_to K (fun LP k =>
        LP.add_constraint "x" (size_add (size_mul (size_sub i 1) K) k) 1) LP with
    | .error err => .error err
    | .ok LP =>
      for_up_to (A.getD 1 []).length (fun LP j =>
        LP.add_constraint "a" j (-((A.getD i []).getD j 0))) LP) LP

/-- Constraint (17): the sum of all `a_j` is at most 1. -/
def set_pasaq_constraint_17 (LP : lin_prog α) (_T _K : Nat) (A : List (List α)) :
    Except Error (lin_prog α) :=
  let LP := LP.add_row_named "(17)"
  let LP := LP.set_row_bnd GLP_UP 0 1
  for_up_to (A.getD 1 []).length (fun LP j => LP.add_constraint "a" j 1) LP

/-- Constraint (18): for `j = 1, ..., A[1].size() - 1` the variable `a_j` lies
between 0 and 1. -/
def set_pasaq_constraint_18 (LP : lin_prog α) (_T _K : Nat) (A : List (List α)) :
    Except Error (lin_prog α) :=
  for_up_to ((A.getD 1 []).length - 1) (fun LP j => LP.set_var_bnd "a" j GLP_DB 0 1) LP

/-- Conversion of a `double` to `int`: truncation towards zero. -/
def double_to_int [FloorRing α] (x : α) : Int :=
  if 0 ≤ x then Int.floor x else Int.ceil x

/-- Conversion of a non-negative `double` to `size_t`: truncation. -/
def double_to_size [FloorRing α] (x : α) : Nat :=
  Nat.floor x

/-- Build the feasibility program for the threshold `r`, solve it and read the
result back (`CheckFeasibility`). Parameters standing for the environment:
`exp` and `to_string` are the library functions on `double`, `solver` is the
external solver, and `observed var index` is the value the caller observes for the
call `get_var_val(var, index)` when that call returns no value. A write
`result.second[i]` outside the vector is dropped. -/
def CheckFeasibility [FloorRing α] (exp : α → α) (to_string : α → String)
    (solver : glp_solver α) (observed : String → Nat → α) (r : α) (num_res : Int)
    (Pm : PayoffMatrix) (A : List (List α)) (K : α) (lambda : α) :
    Except Error (Bool × List α) :=
  let T := Pm.P_a.length
  let LP : lin_prog α := lin_prog.init ("Check Feasibility r = " ++ to_string r)
  match LP.declare_variables "x" (double_to_size ((T : α) * K)) with
  | .error err => .error err
  | .ok LP =>
  match LP.declare_variables "z" (double_to_size ((T : α) * K)) with
  | .error err => .error err
  | .ok LP =>
  match LP.declare_variables "a" (A.getD 1 []).length with
  | .error err => .error err
  | .ok LP =>
  match set_pasaq_obj exp LP r Pm lambda (double_to_int K) with
  | .error err => .error err
  | .ok LP =>
  match set_pasaq_constraint_11 LP T (double_to_size K) num_res with
  | .error err => .error err
  | .ok LP =>
  match set_pasaq_constraint_12 LP T (double_to_size K) with
  | .error err => .error err
  | .ok LP =>
  match set_pasaq_constraint_13 LP T (double_to_size K) with
  | .error err => .error err
  | .ok LP =>
  match set_pasaq_constraint_14 LP T (double_to_size K) with
  | .error err => .error err
  | .ok LP =>
  match set_pasaq_constraint_15 LP T (double_to_size K) with
  | .error err => .error err
  | .ok LP =>
  match set_pasaq_constraint_16 LP T (double_to_size K) A with
  | .error err => .error err
  | .ok LP =>
  match set_pasaq_constraint_17 LP T (double_to_size K) A with
  | .error err => .error err
  | .ok LP =>
  match set_pasaq_constraint_18 LP T (double_to_size K) A with
  | .error err => .error err
  | .ok LP =>
  let LP := (LP.run solver (some { presolve := true })).1
  match LP.get_obj_val solver with
  | .error err => .error err
  | .ok obj_val =>
  let first := decide (obj_val = 0)
  let second : List α := List.replicate T 0
  match for_up_to T (fun second i =>
      match for_up_to (double_to_size K) (fun sum k =>
          match LP.get_var_val solver "x" (double_to_size (((i - 1 : Nat) : α) * K + (k : α))) with
          | .error err => .error err
          | .ok x =>
            .ok (sum + x.getD (observed "x" (double_to_size (((i - 1 : Nat) : α) * K + (k : α))))))
          (0 : α) with
      | .error err => .error err
      | .ok sum => .ok (second.set i sum)) second with
  | .error err => .error err
  | .ok second =>
  match for_up_to T (fun (u : Unit) i =>
      for_up_to (double_to_size K) (fun (u : Unit) k =>
        match LP.get_var_val solver "z" (double_to_size (((i - 1 : Nat) : α) * K + (k : α))) with
        | .error err => .error err
        | .ok _ => .ok u) u) () with
  | .error err => .error err
  | .ok _ =>
  match for_up_to (A.getD 1 []).length (fun (u : Unit) j =>
      match LP.get_var_val solver "a" j with
      | .error err => .error err
      | .ok _ => .ok u) () with
  | .error err => .error err
  | .ok _ => .ok (first, second)

end Formulation

end PASAQ

namespace LinProg

/-- A solver that reports success, objective value 0 and the primal value 7
for every column, whatever model it is given. -/
def constant_solver : glp_solver ℚ :=
  { init_iocp := fun _ => { presolve := false }
    intopt := fun _ _ => 0
    get_obj_val := fun _ => 0
    get_col_prim := fun _ _ => 7 }

end LinProg

namespace PASAQ

open LinProg

/-- A fresh model with the variable groups of an instance with two targets,
one segment and two schedules: `x` (columns 1..2), `z` (columns 3..4) and `a`
(columns 5..6). -/
def model_212 {D : Type} [Zero D] : lin_prog D :=
  (lin_prog.init "lp").calls
    [.declare_variables "x" 2, .declare_variables "z" 2, .declare_variables "a" 2]

/-- An assignment matrix shaped as `create_strategy` builds it for two targets
and two schedules: an empty row 0, then one row per target whose position `j`
holds the contribution of the schedule `schedules[j]`. -/
def A_212 : List (List ℚ) :=
  [[], [1 / 2, 1 / 4], [1 / 8, 1 / 16]]

/-- A payoff matrix with two targets that differ in the defender reward. -/
def two_rewards : PayoffMatrix :=
  { R_d := [1, 2], P_d := [0, 0], R_a := [0, 0], P_a := [0, 0] }

end PASAQ

namespace PASAQ

open LinProg

/-- Column index of the variable `x_ik` (`x_index`). -/
def x_index (_T K i k : Int) : Int :=
  (i - 1) * K + k

/-- Column index of the variable `z_ik` (`z_index`). -/
def z_index (T K i k : Int) : Int :=
  (T * K) + (i - 1) * K + k

/-- Column index of the variable `a_j` (`a_index`). -/
def a_index (T K j : Int) : Int :=
  (T * K) * 2 + j

/-- The variable groups `CheckFeasibility` declares for `T` targets, `K`
segments and `J` schedules. -/
def pasaq_groups (T K J : Nat) : List (String × Nat) :=
  [("x", T * K), ("z", T * K), ("a", J)]

/-- The model holds the variable groups of a PASAQ instance with `T` targets,
`K` segments and `J` schedules, and all its columns are within the `int` index
range of the solver. -/
def Groups {D : Type} (T K J : Nat) (m : lin_prog D) : Prop :=
  Layout m (pasaq_groups T K J) ∧ 2 * (T * K) + J ≤ INT_MAX

/-- The triplet lists of the model are consistent: equal lengths with the
placeholder in front, and no stored row above the row cursor. -/
def RowsOk {D : Type} (m : lin_prog D) : Prop :=
  m.rows.length = m.cols.length ∧ m.cols.length = m.vals.length ∧ m.rows ≠ [] ∧
  ∀ r ∈ m.rows, r ≤ (m.cur_row : Int)

/-- A model ready for the constraint functions of a PASAQ instance. -/
def Ready {D : Type} (T K J : Nat) (m : lin_prog D) : Prop :=
  Groups T K J m ∧ RowsOk m

/-- The model `m1` is the model `m` after `d` more rows, the sparse entries
`(rs, cs, vs)` and the solver calls `calls`; nothing else has changed. -/
def Step {D : Type} (m m1 : lin_prog D) (d : Nat) (rs cs : List Int) (vs : List D)
    (calls : List (glp_call D)) : Prop :=
  m1.cur_row = m.cur_row + d ∧ m1.rows = m.rows ++ rs ∧ m1.cols = m.cols ++ cs ∧
  m1.vals = m.vals ++ vs ∧ m1.lp = m.lp ++ calls ∧
  m1.variable_names = m.variable_names ∧ m1.offsets = m.offsets ∧ m1.num_vars = m.num_vars

/-- The model `m1` extends the model `m`: rows, sparse entries and solver calls
were appended, and every new entry lies in a row created after `m`. -/
def Extends {D : Type} (m m1 : lin_prog D) : Prop :=
  ∃ (d : Nat) (rs cs : List Int) (vs : List D) (calls : List (glp_call D)),
    Step m m1 d rs cs vs calls ∧ rs.length = cs.length ∧ cs.length = vs.length ∧
    ∀ r ∈ rs, (m.cur_row : Int) < r ∧ r ≤ ((m.cur_row + d : Nat) : Int)

/-- A fresh model with the variable groups of an instance with one target, two
segments and one schedule: `x` (columns 1..2), `z` (columns 3..4), `a`
(column 5). -/
def model_121 {D : Type} [Zero D] : lin_prog D :=
  (lin_prog.init "lp").calls
    [.declare_variables "x" 2, .declare_variables "z" 2, .declare_variables "a" 1]

end PASAQ

namespace Protect

/-- Defender activity (`struct Activity`). -/
structure Activity (α : Type) where
  number : Int
  time : Int
  effectiveness : α
  deriving Repr, DecidableEq

/-- A visit of a patrol area with an activity (`struct Patrol`). -/
structure Patrol (α : Type) where
  area_num : Nat
  activity : Activity α
  deriving Repr, DecidableEq

/-- Data of a game (`struct ProtectData`). -/
structure ProtectData (α : Type) where
  PatrolAreas : List (List Int)
  d_rewards : List Int
  d_penalties : List Int
  a_rewards : List Int
  a_penalties : List Int
  activities : List (Activity α)

/-- The inner loop of `generate_compact_schedules`: every schedule of `result`
is copied to `result_extension` with `i` pushed at its back. -/
def result_extension (result : List (List Int)) (i : Int) : List (List Int) :=
  result.foldl (fun ext schedule => ext ++ [schedule ++ [i]]) []

/-- Generate the compact schedules up to size `n` (`generate_compact_schedules`):
starting from the empty schedule, the pass for `i = 0, ..., n - 1` inserts the
extension of the result at its end. -/
def generate_compact_schedules {α : Type} (n : Int) (_data : ProtectData α) : List (List Int) :=
  (List.range n.toNat).foldl (fun result (i : Nat) => result ++ result_extension result (i : Int))
    [[]]

end Protect

namespace Protect

section Schedules

variable {α : Type} [LinearOrder α] [Zero α]

/-- The element read through `schedule[i]`; a read outside the vector is
undefined in the source and yields a patrol of area 0 here. -/
def patrol_at (schedule : List (Patrol α)) (i : Nat) : Patrol α :=
  schedule.getD i ⟨0, ⟨0, 0, 0⟩⟩

/-- The loop `for (j = ...; j < schedule.size(); j++)` of `reduce_schedule` for
the position `i`, from the index `j` on; `patrol` is a reference to
`schedule[i]`. The result is the schedule when the loop ends or breaks. `fuel`
bounds the number of iterations. -/
def reduce_schedule_inner (i : Nat) : Nat → Nat → List (Patrol α) → List (Patrol α)
  | 0, _, schedule => schedule
  | fuel + 1, j, schedule =>
    if j < schedule.length then
      if i ≠ j ∧ (patrol_at schedule i).area_num = (patrol_at schedule j).area_num then
        if (patrol_at schedule i).activity.effectiveness ≥
            (patrol_at schedule j).activity.effectiveness then
          reduce_schedule_inner i fuel (j + 1) (schedule.eraseIdx j)
        else
          schedule.eraseIdx i
      else
        reduce_schedule_inner i fuel (j + 1) schedule
    else schedule

/-- The loop `for (i = ...; i < schedule.size(); i++)` of `reduce_schedule`,
from the index `i` on. -/
def reduce_schedule_outer : Nat → Nat → List (Patrol α) → List (Patrol α)
  | 0, _, schedule => schedule
  | fuel + 1, i, schedule =>
    if i < schedule.length then
      reduce_schedule_outer fuel (i + 1)
        (reduce_schedule_inner i (schedule.length + 1) 0 schedule)
    else schedule

/-- Reduce a schedule by removing repeated areas (`reduce_schedule`). Every
iteration of a loop increases its index and no iteration makes the schedule
longer, so the length plus one bounds the iterations of each loop. -/
def reduce_schedule (schedule : List (Patrol α)) : List (Patrol α) :=
  reduce_schedule_outer (schedule.length + 1) 0 schedule

/-- The area of the element that `max_element` finds in `s1`; for an empty
schedule the source dereferences the end iterator, and the area is 0 here. -/
def max_area (s1 : List (Patrol α)) : Nat :=
  s1.foldl (fun largest patrol => if largest < patrol.area_num then patrol.area_num else largest)
    ((s1.head?.map (fun patrol => patrol.area_num)).getD 0)

/-- Comparison of two schedules (`schedule_equals`): the activities of `s1` are
stored by area in a vector of `max_area + 1` zeros, and every patrol of `s2`
must find its activity number at its area. -/
def schedule_equals (s1 s2 : List (Patrol α)) : Bool :=
  let activities : List Int :=
    s1.foldl (fun activities patrol => activities.set patrol.area_num patrol.activity.number)
      (List.replicate (max_area s1 + 1) 0)
  s2.all (fun patrol =>
    !(decide (patrol.area_num > activities.length) ||
      decide (activities.getD patrol.area_num 0 ≠ patrol.activity.number)))

/-- The loop `for (j = ...; j < schedules.size(); j++)` of `reduce_schedules`
for the position `i`, from the index `j` on. -/
def reduce_schedules_inner (i : Nat) :
    Nat → Nat → List (List (Patrol α)) → List (List (Patrol α))
  | 0, _, schedules => schedules
  | fuel + 1, j, schedules =>
    if j < schedules.length then
      if schedule_equals (schedules.getD i []) (schedules.getD j []) then
        reduce_schedules_inner i fuel (j + 1) (schedules.eraseIdx j)
      else
        reduce_schedules_inner i fuel (j + 1) schedules
    else schedules

/-- The loop `for (i = ...; i < schedules.size(); i++)` of `reduce_schedules`,
from the index `i` on; the inner loop starts at `j = i`. -/
def reduce_schedules_outer : Nat → Nat → List (List (Patrol α)) → List (List (Patrol α))
  | 0, _, schedules => schedules
  | fuel + 1, i, schedules =>
    if i < schedules.length then
      reduce_schedules_outer fuel (i + 1)
        (reduce_schedules_inner i (schedules.length + 1) i schedules)
    else schedules

/-- Reduce a set of schedules (`reduce_schedules`): every schedule is reduced,
then the loops that remove duplicates run. -/
def reduce_schedules (schedules : List (List (Patrol α))) : List (List (Patrol α)) :=
  let schedules := schedules.map reduce_schedule
  reduce_schedules_outer (schedules.length + 1) 0 schedules

end Schedules

/-- A schedule with one patrol: area 0 with the activity number 1. -/
def visit_0 : List (Patrol ℚ) := [⟨0, ⟨1, 1, 1 / 2⟩⟩]

/-- A schedule with one patrol: area 1 with the activity number 2. -/
def visit_1 : List (Patrol ℚ) := [⟨1, ⟨2, 1, 1 / 2⟩⟩]

end Protect

namespace PASAQ

/-- A payoff matrix without targets. -/
def no_targets : PayoffMatrix :=
  { R_d := [], P_d := [], R_a := [], P_a := [] }

/-- The positions of the payoff vectors that `set_pasaq_obj` reads: the loop
`for (i = 1; i <= T; i++)` passes every `i` to `theta` and `alpha`, which read
`R_a[i]`, `R_d[i]`, `P_d[i]`, and reads `P_d[i]` itself. -/
def set_pasaq_obj_reads (Pm : PayoffMatrix) : List Nat :=
  (List.range Pm.P_a.length).map (fun n => n + 1)

/-- The positions `(i, j)` of the assignment matrix that `set_pasaq_constraint_16`
reads as `A[i][j]`: `i = 1, ..., T - 1` and `j = 1, ..., A[1].size()`. -/
def set_pasaq_constraint_16_reads {α : Type} (T : Nat) (A : List (List α)) : List (Nat × Nat) :=
  (List.range (T - 1)).flatMap (fun n =>
    (List.range (A.getD 1 []).length).map (fun l => (n + 1, l + 1)))

/-- The positions of `result.second`, a vector of `T` entries, that the recovery
loop of `CheckFeasibility` writes: `i = 1, ..., T`. -/
def recovery_writes (T : Nat) : List Nat :=
  (List.range T).map (fun n => n + 1)

end PASAQ

namespace LinProg

/-- The call `c` with the problem name replaced by `nm`. -/
def glp_call.rename {D : Type} (nm : String) : glp_call D → glp_call D
  | .set_prob_name _ => .set_prob_name nm
  | c => c

/-- The model `m` under the name `nm`: the member `name` and the name given to
the solver are replaced, everything else is kept. -/
def lin_prog.rename {D : Type} (nm : String) (m : lin_prog D) : lin_prog D :=
  { m with name := nm, lp := m.lp.map (glp_call.rename nm) }

/-- The answers of the solver do not depend on the name of the problem. -/
def glp_solver.name_blind {D : Type} (solver : glp_solver D) : Prop :=
  ∀ (nm : String) (calls : List (glp_call D)),
    solver.get_obj_val (calls.map (glp_call.rename nm)) = solver.get_obj_val calls

end LinProg

namespace PASAQ

open LinProg

section Assembly

variable {α : Type} [LinearOrderedField α]

/-- The part of `CheckFeasibility` that assembles the program on the problem
object `LP`: the three declarations, the objective and the constraints (11)
to (18), in the order of the source. -/
def build_model [FloorRing α] (exp : α → α) (LP : lin_prog α) (r : α) (num_res : Int)
    (Pm : PayoffMatrix) (A : List (List α)) (K : α) (lambda : α) : Except Error (lin_prog α) :=
  let T := Pm.P_a.length
  match LP.declare_variables "x" (double_to_size ((T : α) * K)) with
  | .error err => .error err
  | .ok LP =>
  match LP.declare_variables "z" (double_to_size ((T : α) * K)) with
  | .error err => .error err
  | .ok LP =>
  match LP.declare_variables "a" (A.getD 1 []).length with
  | .error err => .error err
  | .ok LP =>
  match set_pasaq_obj exp LP r Pm lambda (double_to_int K) with
  | .error err => .error err
  | .ok LP =>
  match set_pasaq_constraint_11 LP T (double_to_size K) num_res with
  | .error err => .error err
  | .ok LP =>
  match set_pasaq_constraint_12 LP T (double_to_size K) with
  | .error err => .error err
  | .ok LP =>
  match set_pasaq_constraint_13 LP T (double_to_size K) with
  | .error err => .error err
  | .ok LP =>
  match set_pasaq_constraint_14 LP T (double_to_size K) with
  | .error err => .error err
  | .ok LP =>
  match set_pasaq_constraint_15 LP T (double_to_size K) with
  | .error err => .error err
  | .ok LP =>
  match set_pasaq_constraint_16 LP T (double_to_size K) A with
  | .error err => .error err
  | .ok LP =>
  match set_pasaq_constraint_17 LP T (double_to_size K) A with
  | .error err => .error err
  | .ok LP => set_pasaq_constraint_18 LP T (double_to_size K) A

/-- The program that `CheckFeasibility` assembles for the threshold `r`, on a
new problem object named after `r`. -/
def feasibility_model [FloorRing α] (exp : α → α) (to_string : α → String) (r : α)
    (num_res : Int) (Pm : PayoffMatrix) (A : List (List α)) (K : α) (lambda : α) :
    Except Error (lin_prog α) :=
  build_model exp (lin_prog.init ("Check Feasibility r = " ++ to_string r)) r num_res Pm A K
    lambda

/-- The part of `CheckFeasibility` after the program is assembled: the solver
runs, the verdict is read from the objective value and the strategy from the
values of the variables. -/
def read_back [FloorRing α] (solver : glp_solver α) (observed : String → Nat → α)
    (LP : lin_prog α) (T : Nat) (A : List (List α)) (K : α) : Except Error (Bool × List α) :=
  let LP := (LP.run solver (some { presolve := true })).1
  match LP.get_obj_val solver with
  | .error err => .error err
  | .ok obj_val =>
  let first := decide (obj_val = 0)
  let second : List α := List.replicate T 0
  match for_up_to T (fun second i =>
      match for_up_to (double_to_size K) (fun sum k =>
          match LP.get_var_val solver "x" (double_to_size (((i - 1 : Nat) : α) * K + (k : α))) with
          | .error err => .error err
          | .ok x =>
            .ok (sum + x.getD (observed "x" (double_to_size (((i - 1 : Nat) : α) * K + (k : α))))))
          (0 : α) with
      | .error err => .error err
      | .ok sum => .ok (second.set i sum)) second with
  | .error err => .error err
  | .ok second =>
  match for_up_to T (fun (u : Unit) i =>
      for_up_to (double_to_size K) (fun (u : Unit) k =>
        match LP.get_var_val solver "z" (double_to_size (((i - 1 : Nat) : α) * K + (k : α))) with
        | .error err => .error err
        | .ok _ => .ok u) u) () with
  | .error err => .error err
  | .ok _ =>
  match for_up_to (A.getD 1 []).length (fun (u : Unit) j =>
      match LP.get_var_val solver "a" j with
      | .error err => .error err
      | .ok _ => .ok u) () with
  | .error err => .error err
  | .ok _ => .ok (first, second)

end Assembly

end PASAQ

namespace LinProg

/-- Return code `GLP_EFAIL` of `glp_intopt` (`glpk.h`): the search failed. -/
def GLP_EFAIL : Int := 5

/-- A solver whose search fails (`glp_intopt` returns `GLP_EFAIL`) and whose
problem object then reports the objective value 0 and the value 0 for every
column. -/
def failing_solver : glp_solver ℚ :=
  { init_iocp := fun _ => { presolve := false }
    intopt := fun _ _ => GLP_EFAIL
    get_obj_val := fun _ => 0
    get_col_prim := fun _ _ => 0 }

/-- Whether the solver call is `glp_set_prob_name`. -/
def glp_call.is_set_prob_name {D : Type} : glp_call D → Bool
  | .set_prob_name _ => true
  | _ => false

/-- What the solver is given apart from the problem name: the triplet lists
of the constraint matrix and every solver call but `glp_set_prob_name`
(objective direction and coefficients, rows, columns, bounds and kinds). -/
def lin_prog.solver_input {D : Type} (m : lin_prog D) :
    List Int × List Int × List D × List (glp_call D) :=
  (m.rows, m.cols, m.vals, m.lp.filter (fun c => !c.is_set_prob_name))

end LinProg

namespace PASAQ

open LinProg

/-- The feasibility oracle as `BinarySearchMethod` calls it: the pair returned
by `CheckFeasibility`. An exception thrown by `CheckFeasibility` ends the search
in the source; here the oracle then answers `(false, [])`. -/
def feasibility_oracle {α : Type} [LinearOrderedField α] [FloorRing α] (exp : α → α)
    (to_string : α → String) (solver : glp_solver α) (observed : String → Nat → α) (r : α)
    (num_res : Int) (Pm : PayoffMatrix) (A : List (List α)) (K : α) (lambda : α) :
    Bool × List α :=
  match CheckFeasibility exp to_string solver observed r num_res Pm A K lambda with
  | .ok f_x_pair => f_x_pair
  | .error _ => (false, [])

/-- An assignment matrix for two targets and two schedules, shaped as
`create_strategy` builds it: an unused row 0, then one row per target; each
schedule covers one target. -/
def A_toy {α : Type} [LinearOrderedField α] : List (List α) :=
  [[], [1, 0], [0, 1]]

end PASAQ

/-! ## Definitions: `double` arithmetic (IEEE 754 binary64) -/

namespace Binary64

/-- Search for a number of bits: the first `B`, from the given one on, with
`n < 2 ^ (2 ^ B)`; the first argument bounds the number of steps. -/
def find_bits (n : Nat) : Nat → Nat → Nat
  | 0, B => B
  | fuel + 1, B => if n < 2 ^ (2 ^ B) then B else find_bits n fuel (B + 1)

/-- Binary search for the position of the leading bit of `n`: with
`2 ^ k ≤ n < 2 ^ (k + 2 ^ b)` the result `r` has `2 ^ r ≤ n < 2 ^ (r + 1)`. -/
def leading_bit (n : Nat) : Nat → Nat → Nat
  | 0, k => k
  | b + 1, k => if 2 ^ (k + 2 ^ b) ≤ n then leading_bit n b (k + 2 ^ b) else leading_bit n b k

/-- The position `r` of the leading bit of `n ≥ 1`: `2 ^ r ≤ n < 2 ^ (r + 1)`. -/
def nat_log2 (n : Nat) : Nat :=
  leading_bit n (find_bits n n 0) 0

/-- The integer `l` with `2 ^ l ≤ q < 2 ^ (l + 1)`, for a rational `q > 0`. -/
def ilog2 (q : ℚ) : Int :=
  if q < (2 : ℚ) ^ ((nat_log2 q.num.natAbs : Int) - (nat_log2 q.den : Int)) then
    (nat_log2 q.num.natAbs : Int) - (nat_log2 q.den : Int) - 1
  else (nat_log2 q.num.natAbs : Int) - (nat_log2 q.den : Int)

/-- Exponent of the last place of a `double` of magnitude `q`: 52 places below
the leading bit for a normal number, `-1074` for a subnormal one. -/
def ulp_exp (q : ℚ) : Int :=
  max (ilog2 q - 52) (-1074)

/-- Round to the nearest integer, ties to even. -/
def round_half_even (t : ℚ) : Int :=
  if t - (⌊t⌋ : ℚ) < 1 / 2 then ⌊t⌋
  else if 1 / 2 < t - (⌊t⌋ : ℚ) then ⌊t⌋ + 1
  else if ⌊t⌋ % 2 = 0 then ⌊t⌋ else ⌊t⌋ + 1

/-- The magnitude `q ≥ 0` rounded to the nearest multiple of its last place,
ties to even (the rounding mode `roundTiesToEven`), before the overflow test. -/
def round_mag (q : ℚ) : ℚ :=
  (round_half_even (q / (2 : ℚ) ^ ulp_exp q) : ℚ) * (2 : ℚ) ^ ulp_exp q

/-- A value of the type `double`: a NaN, an infinity with its sign, or a finite
number given by its sign and its magnitude, a rounded rational below `2 ^ 1024`.
The two zeros differ in the sign. -/
inductive Double where
  | nan
  | inf (neg : Bool)
  | fin (neg : Bool) (mag : ℚ)
      (h : ∃ q : ℚ, round_mag |q| = mag ∧ mag < (2 : ℚ) ^ (1024 : Nat))

namespace Double

instance : DecidableEq Double := fun a b =>
  match a, b with
  | nan, nan => isTrue rfl
  | nan, inf _ => isFalse (fun h => Double.noConfusion h)
  | nan, fin _ _ _ => isFalse (fun h => Double.noConfusion h)
  | inf _, nan => isFalse (fun h => Double.noConfusion h)
  | inf s, inf t =>
    if h : s = t then isTrue (by rw [h]) else isFalse (fun e => h (by cases e; rfl))
  | inf _, fin _ _ _ => isFalse (fun h => Double.noConfusion h)
  | fin _ _ _, nan => isFalse (fun h => Double.noConfusion h)
  | fin _ _ _, inf _ => isFalse (fun h => Double.noConfusion h)
  | fin s a _, fin t b _ =>
    if h : s = t ∧ a = b then isTrue (by obtain ⟨h1, h2⟩ := h; subst h1; subst h2; rfl)
    else isFalse (fun e => h (by cases e; exact ⟨rfl, rfl⟩))

/-- The `double` nearest to the rational of sign `neg` and magnitude `|q|`: the
rounded magnitude, or the infinity of that sign when the rounded magnitude
reaches `2 ^ 1024`. -/
def round (neg : Bool) (q : ℚ) : Double :=
  if h : round_mag |q| < (2 : ℚ) ^ (1024 : Nat) then fin neg (round_mag |q|) ⟨q, rfl, h⟩
  else inf neg

/-- The rational with the sign `neg` and the magnitude `mag`. -/
def signed (neg : Bool) (mag : ℚ) : ℚ :=
  if neg then -mag else mag

/-- The rational value of a finite `double`; 0 for the others. -/
def val : Double → ℚ
  | fin s a _ => signed s a
  | _ => 0

/-- Whether the `double` is a finite number. -/
def is_finite : Double → Bool
  | fin _ _ _ => true
  | _ => false

/-- Whether the `double` is a NaN. -/
def is_nan : Double → Bool
  | nan => true
  | _ => false

/-- The `double` nearest to the rational `v`; a zero gets the sign `zero_neg`. -/
def round_signed (zero_neg : Bool) (v : ℚ) : Double :=
  if v = 0 then round zero_neg 0 else round (decide (v < 0)) v

/-- The `double` `d` is a rounding of the exact value `v`. -/
def is_rounding (d : Double) (v : ℚ) : Prop :=
  ∃ (s : Bool) (x : ℚ), d = round s x ∧ signed s |x| = v

/-- Addition of `double`s. An exact zero sum is `-0` only when both terms are
negative. -/
def add : Double → Double → Double
  | nan, _ => nan
  | _, nan => nan
  | inf s, inf t => if s = t then inf s else nan
  | inf s, fin _ _ _ => inf s
  | fin _ _ _, inf t => inf t
  | fin s a _, fin t b _ => round_signed (s && t) (signed s a + signed t b)

/-- Negation of a `double`. -/
def neg : Double → Double
  | nan => nan
  | inf s => inf (!s)
  | fin s a h => fin (!s) a h

/-- Subtraction of `double`s. -/
def sub (a b : Double) : Double :=
  add a (neg b)

/-- Multiplication of `double`s. -/
def mul : Double → Double → Double
  | nan, _ => nan
  | _, nan => nan
  | inf s, inf t => inf (xor s t)
  | inf s, fin t b _ => if b = 0 then nan else inf (xor s t)
  | fin s a _, inf t => if a = 0 then nan else inf (xor s t)
  | fin s a _, fin t b _ => round (xor s t) (a * b)

/-- Division of `double`s. -/
def div : Double → Double → Double
  | nan, _ => nan
  | _, nan => nan
  | inf _, inf _ => nan
  | inf s, fin t _ _ => inf (xor s t)
  | fin s _ _, inf t => round (xor s t) 0
  | fin s a _, fin t b _ =>
    if b = 0 then (if a = 0 then nan else inf (xor s t))
    else round (xor s t) (a / b)

/-- The comparison `a < b` of `double`s; false when an operand is a NaN. -/
def lt : Double → Double → Bool
  | nan, _ => false
  | _, nan => false
  | inf s, inf t => s && !t
  | inf s, fin _ _ _ => s
  | fin _ _ _, inf t => !t
  | fin s a _, fin t b _ => decide (signed s a < signed t b)

/-- The comparison `a <= b` of `double`s; false when an operand is a NaN. -/
def le : Double → Double → Bool
  | nan, _ => false
  | _, nan => false
  | inf s, inf t => s || !t
  | inf s, fin _ _ _ => s
  | fin _ _ _, inf t => !t
  | fin s a _, fin t b _ => decide (signed s a ≤ signed t b)

/-- Conversion of an integer to `double`. -/
def of_int (n : Int) : Double :=
  round (decide (n < 0)) (n : ℚ)

instance : Add Double := ⟨add⟩

instance : Sub Double := ⟨sub⟩

instance : Mul Double := ⟨mul⟩

instance : Div Double := ⟨div⟩

instance : Neg Double := ⟨neg⟩

instance : LT Double := ⟨fun a b => lt a b = true⟩

instance : LE Double := ⟨fun a b => le a b = true⟩

instance (a b : Double) : Decidable (a < b) := inferInstanceAs (Decidable (lt a b = true))

instance (a b : Double) : Decidable (a ≤ b) := inferInstanceAs (Decidable (le a b = true))

instance : IntCast Double := ⟨of_int⟩

instance : NatCast Double := ⟨fun n => of_int (n : Int)⟩

instance (n : Nat) : OfNat Double n := ⟨of_int (n : Int)⟩

/-- The function `std::max(a, b)`: `(a < b) ? b : a`. -/
def max (a b : Double) : Double :=
  if a < b then b else a

end Double

end Binary64

/-! ## Definitions: the utilities, the slopes and the search on `double` -/

namespace PASAQ

namespace OnDouble

open Binary64

/-- Expected attacker utility on attacking target `i`, given strategy `x`
(`U_a`), in `double` arithmetic; the payoffs are converted from `int`. -/
def U_a (i : Nat) (x : List Double) (Pm : PayoffMatrix) : Double :=
  x.getD i 0 * ((Pm.P_a.getD i 0 : Int) : Double) +
    (1 - x.getD i 0) * ((Pm.R_a.getD i 0 : Int) : Double)

/-- Expected defender utility if the adversary attacks target `i`, given
strategy `x` (`U_d`), in `double` arithmetic. -/
def U_d (i : Nat) (x : List Double) (Pm : PayoffMatrix) : Double :=
  x.getD i 0 * ((Pm.R_d.getD i 0 : Int) : Double) +
    (1 - x.getD i 0) * ((Pm.P_d.getD i 0 : Int) : Double)

/-- The local variable `sum` of `q_i` after its loop: the normaliser of the
quantal response. -/
def q_i_sum (exp : Double → Double) (s : List Double) (Pm : PayoffMatrix) (lambda : Double) :
    Double :=
  (List.range Pm.P_a.length).foldl (fun sum j => sum + exp (lambda * U_a j s Pm)) 0

/-- Quantal response of the attacker on target `i` (`q_i`), in `double`
arithmetic; `exp` stands for the function of the C library. -/
def q_i (exp : Double → Double) (i : Nat) (s : List Double) (Pm : PayoffMatrix)
    (lambda : Double) : Double :=
  exp (lambda * U_a i s Pm) / q_i_sum exp s Pm lambda

/-- The positions at which `q_i` reads the vectors `s`, `Pm.P_a` and `Pm.R_a`
(through `U_a`), in the order of the reads: `j = 0, ..., T - 1` in the loop of
the normaliser, then the requested position `i`. No read is guarded. -/
def q_i_reads (i : Nat) (Pm : PayoffMatrix) : List Nat :=
  List.range Pm.P_a.length ++ [i]

/-- Expected defender utility (`UD`), in `double` arithmetic. -/
def UD (exp : Double → Double) (x : List Double) (Pm : PayoffMatrix) (lambda : Double) :
    Double :=
  (List.range x.length).foldl (fun sum i => sum + q_i exp i x Pm lambda * U_d i x Pm) 0

/-- Estimate of the lower and upper bound of the defender utility
(`EstimateBounds`), in `double` arithmetic: the expected utility of the uniform
strategy with coverage `std::max(numRes * (1.0 / T), 1.0)` and the sum of all
defender rewards. -/
def EstimateBounds (exp : Double → Double) (numRes : Int) (Pm : PayoffMatrix)
    (lambda : Double) : Double × Double :=
  let T := Pm.P_a.length
  let uniform_strategy : List Double :=
    List.replicate T (Double.max ((numRes : Double) * (1 / ((T : Int) : Double))) 1)
  (UD exp uniform_strategy Pm lambda,
   Pm.R_d.foldl (fun second reward => second + ((reward : Int) : Double)) 0)

/-- Symbol `beta` of target `i`: `lambda * (R_a[i] - P_a[i])`, in `double`
arithmetic; the difference of the payoffs is taken on `int`. -/
def beta (i : Nat) (Pm : PayoffMatrix) (lambda : Double) : Double :=
  lambda * ((Pm.R_a.getD i 0 - Pm.P_a.getD i 0 : Int) : Double)

/-- Curve `f1(i, x) = exp(-beta(i) * x)`, in `double` arithmetic. -/
def f1 (exp : Double → Double) (i : Nat) (x : Double) (Pm : PayoffMatrix) (lambda : Double) :
    Double :=
  exp (-beta i Pm lambda * x)

/-- Curve `f2(i, x) = x * exp(-beta(i) * x)`, in `double` arithmetic. -/
def f2 (exp : Double → Double) (i : Nat) (x : Double) (Pm : PayoffMatrix) (lambda : Double) :
    Double :=
  x * exp (-beta i Pm lambda * x)

/-- Local variable `left` of `set_pasaq_obj` for segment `k` of `K`:
`(k_ - 1.0) / (double)K` with `k_ = static_cast<double>(k)`. -/
def segment_left (K : Int) (k : Int) : Double :=
  ((k : Double) - 1) / (K : Double)

/-- Local variable `right` of `set_pasaq_obj` for segment `k` of `K`:
`k_ / (double)K` with `k_ = static_cast<double>(k)`. -/
def segment_right (K : Int) (k : Int) : Double :=
  (k : Double) / (K : Double)

/-- Local variable `y_ik` of `set_pasaq_obj`, in `double` arithmetic: slope of
`f1` over segment `k`. -/
def y_ik (exp : Double → Double) (Pm : PayoffMatrix) (lambda : Double) (K : Int) (i : Nat)
    (k : Int) : Double :=
  (f1 exp i (segment_right K k) Pm lambda - f1 exp i (segment_left K k) Pm lambda) /
    (segment_right K k - segment_left K k)

/-- Local variable `u_ik` of `set_pasaq_obj`, in `double` arithmetic: slope of
`f2` over segment `k`. -/
def u_ik (exp : Double → Double) (Pm : PayoffMatrix) (lambda : Double) (K : Int) (i : Nat)
    (k : Int) : Double :=
  (f2 exp i (segment_right K k) Pm lambda - f2 exp i (segment_left K k) Pm lambda) /
    (segment_right K k - segment_left K k)

/-- A payoff matrix with two targets on which the attacker gains the same
whether the target is covered or not, so that `beta` is 0 and `f2(i, x) = x`. -/
def equal_attacker_payoffs : PayoffMatrix :=
  { R_d := [1, 1], P_d := [0, 0], R_a := [5, 5], P_a := [5, 5] }

/-- State of the loop of `BinarySearchMethod`: the bracket `L`, `U`, the
strategy `x`, and (ghost) the thresholds passed to the oracle so far. -/
structure SearchState where
  L : Double
  U : Double
  x : List Double
  probes : List Double
  deriving DecidableEq

/-- One iteration of the loop of `BinarySearchMethod`: the midpoint
`r = (U + L) / 2` is computed, the oracle is asked, its strategy is stored, and
`L` or `U` becomes `r`. -/
def BinarySearchStep (oracle : Double → Bool × List Double) (s : SearchState) : SearchState :=
  let r := (s.U + s.L) / 2
  let f_x_pair := oracle r
  let x := f_x_pair.2
  if f_x_pair.1 then ⟨r, s.U, x, s.probes ++ [r]⟩ else ⟨s.L, r, x, s.probes ++ [r]⟩

/-- The `while (U - L > e)` loop of `BinarySearchMethod` in `double` arithmetic;
`oracle r` stands for `CheckFeasibility(r, numRes, Pm, A, K, lambda)`. `none`
when the fuel runs out before the loop condition fails. -/
def BinarySearchLoop (oracle : Double → Bool × List Double) (e : Double) :
    Nat → SearchState → Option SearchState
  | 0, s => if s.U - s.L > e then none else some s
  | fuel + 1, s =>
    if s.U - s.L > e then BinarySearchLoop oracle e fuel (BinarySearchStep oracle s)
    else some s

/-- Main algorithm for finding the strategy (`BinarySearchMethod`), in `double`
arithmetic. The feasibility oracle `CheckFeasibility` is a parameter. -/
def BinarySearchMethod (exp : Double → Double)
    (CheckFeasibility :
      Double → Int → PayoffMatrix → List (List Double) → Double → Double → Bool × List Double)
    (fuel : Nat) (e : Double) (numRes : Int) (Pm : PayoffMatrix) (A : List (List Double))
    (lambda : Double) (K : Double) : Option (Double × List Double) :=
  let pair := EstimateBounds exp numRes Pm lambda
  let L := pair.1
  let U := pair.2
  (BinarySearchLoop (fun r => CheckFeasibility r numRes Pm A K lambda) e fuel ⟨L, U, [], []⟩).map
    (fun s => (s.L, s.x))

/-- The `double` `m * 2 ^ -47`, for `m < 2 ^ 53`: the `double`s from 32 to 64
are the multiples of `2 ^ -47`. -/
def scaled_47 (m : Nat) : Double :=
  Double.round false ((m : ℚ) / (2 : ℚ) ^ (47 : Nat))

/-- The brackets `(L, U)`, in units of `2 ^ -47`, that the loop goes through
from the bracket `(30, 60)` with the oracle of threshold 40 and a tolerance
below `2 ^ -47`. -/
def stall_trace_40 : List (Nat × Nat) :=
  [(4222124650659840, 8444249301319680), (4222124650659840, 6333186975989760),
   (5277655813324800, 6333186975989760), (5277655813324800, 5805421394657280),
   (5541538603991040, 5805421394657280), (5541538603991040, 5673479999324160),
   (5607509301657600, 5673479999324160), (5607509301657600, 5640494650490880),
   (5624001976074240, 5640494650490880), (5624001976074240, 5632248313282560),
   (5628125144678400, 5632248313282560), (5628125144678400, 5630186728980480),
   (5629155936829440, 5630186728980480), (5629155936829440, 5629671332904960),
   (5629413634867200, 5629671332904960), (5629413634867200, 5629542483886080),
   (5629478059376640, 5629542483886080), (5629478059376640, 5629510271631360),
   (5629494165504000, 5629510271631360), (5629494165504000, 5629502218567680),
   (5629498192035840, 5629502218567680), (5629498192035840, 5629500205301760),
   (5629499198668800, 5629500205301760), (5629499198668800, 5629499701985280),
   (5629499450327040, 5629499701985280), (5629499450327040, 5629499576156160),
   (5629499513241600, 5629499576156160), (5629499513241600, 5629499544698880),
   (5629499528970240, 5629499544698880), (5629499528970240, 5629499536834560),
   (5629499532902400, 5629499536834560), (5629499532902400, 5629499534868480),
   (5629499533885440, 5629499534868480), (5629499533885440, 5629499534376960),
   (5629499534131200, 5629499534376960), (5629499534131200, 5629499534254080),
   (5629499534192640, 5629499534254080), (5629499534192640, 5629499534223360),
   (5629499534208000, 5629499534223360), (5629499534208000, 5629499534215680),
   (5629499534211840, 5629499534215680), (5629499534211840, 5629499534213760),
   (5629499534212800, 5629499534213760), (5629499534212800, 5629499534213280),
   (5629499534213040, 5629499534213280), (5629499534213040, 5629499534213160),
   (5629499534213100, 5629499534213160), (5629499534213100, 5629499534213130),
   (5629499534213115, 5629499534213130), (5629499534213115, 5629499534213122),
   (5629499534213118, 5629499534213122), (5629499534213120, 5629499534213122),
   (5629499534213120, 5629499534213121)]

/-- The brackets `(L, U)`, in units of `2 ^ -47`, that the loop goes through
from the bracket `(30, 60)` with the oracle of threshold 50 and a tolerance
below `2 ^ -47`. -/
def stall_trace_50 : List (Nat × Nat) :=
  [(4222124650659840, 8444249301319680), (6333186975989760, 8444249301319680),
   (6333186975989760, 7388718138654720), (6860952557322240, 7388718138654720),
   (6860952557322240, 7124835347988480), (6992893952655360, 7124835347988480),
   (6992893952655360, 7058864650321920), (7025879301488640, 7058864650321920),
   (7025879301488640, 7042371975905280), (7034125638696960, 7042371975905280),
   (7034125638696960, 7038248807301120), (7036187222999040, 7038248807301120),
   (7036187222999040, 7037218015150080), (7036702619074560, 7037218015150080),
   (7036702619074560, 7036960317112320), (7036831468093440, 7036960317112320),
   (7036831468093440, 7036895892602880), (7036863680348160, 7036895892602880),
   (7036863680348160, 7036879786475520), (7036871733411840, 7036879786475520),
   (7036871733411840, 7036875759943680), (7036873746677760, 7036875759943680),
   (7036873746677760, 7036874753310720), (7036874249994240, 7036874753310720),
   (7036874249994240, 7036874501652480), (7036874375823360, 7036874501652480),
   (7036874375823360, 7036874438737920), (7036874407280640, 7036874438737920),
   (7036874407280640, 7036874423009280), (7036874415144960, 7036874423009280),
   (7036874415144960, 7036874419077120), (7036874417111040, 7036874419077120),
   (7036874417111040, 7036874418094080), (7036874417602560, 7036874418094080),
   (7036874417602560, 7036874417848320), (7036874417725440, 7036874417848320),
   (7036874417725440, 7036874417786880), (7036874417756160, 7036874417786880),
   (7036874417756160, 7036874417771520), (7036874417763840, 7036874417771520),
   (7036874417763840, 7036874417767680), (7036874417765760, 7036874417767680),
   (7036874417765760, 7036874417766720), (7036874417766240, 7036874417766720),
   (7036874417766240, 7036874417766480), (7036874417766360, 7036874417766480),
   (7036874417766360, 7036874417766420), (7036874417766390, 7036874417766420),
   (7036874417766390, 7036874417766405), (7036874417766398, 7036874417766405),
   (7036874417766398, 7036874417766402), (7036874417766400, 7036874417766402),
   (7036874417766400, 7036874417766401)]

end OnDouble

end PASAQ

/-! ## Theorems: binary search driver -/

namespace PASAQ

section SearchLemmas

variable {α : Type} [LinearOrderedField α]

/-- The loop returns its state unchanged once the bracket is narrow enough. -/
theorem BinarySearchLoop_of_le (oracle : α → Bool × List α) (e : α) (fuel : Nat)
    (s : SearchState α) (h : s.U - s.L ≤ e) :
    BinarySearchLoop oracle e fuel s = some s := by
  cases fuel <;> simp [BinarySearchLoop, not_lt.mpr h]

/-- One iteration of the loop, while the bracket is wider than `e`. -/
theorem BinarySearchLoop_succ (oracle : α → Bool × List α) (e : α) (fuel : Nat)
    (s : SearchState α) (h : e < s.U - s.L) :
    BinarySearchLoop oracle e (fuel + 1) s =
      BinarySearchLoop oracle e fuel
        (if (oracle ((s.U + s.L) / 2)).1 then
          ⟨(s.U + s.L) / 2, s.U, (oracle ((s.U + s.L) / 2)).2, s.probes ++ [(s.U + s.L) / 2]⟩
        else
          ⟨s.L, (s.U + s.L) / 2, (oracle ((s.U + s.L) / 2)).2, s.probes ++ [(s.U + s.L) / 2]⟩) := by
  simp only [BinarySearchLoop, gt_iff_lt, h, if_true]
  split <;> rfl

/-- With `n` halvings needed and at least `n` units of fuel, the loop returns
after exactly `n` probes with a bracket `2 ^ n` times narrower. -/
theorem BinarySearchLoop_run (oracle : α → Bool × List α) (e : α) :
    ∀ (n : Nat) (s : SearchState α), (s.U - s.L) / 2 ^ n ≤ e →
      (∀ k, k < n → e < (s.U - s.L) / 2 ^ k) → ∀ fuel, n ≤ fuel →
      ∃ s', BinarySearchLoop oracle e fuel s = some s' ∧
        s'.U - s'.L = (s.U - s.L) / 2 ^ n ∧
        s'.probes.length = s.probes.length + n := by
  intro n
  induction n with
  | zero =>
    intro s h _ fuel _
    refine ⟨s, BinarySearchLoop_of_le oracle e fuel s (by simpa using h), by simp, by simp⟩
  | succ n ih =>
    intro s h hk fuel hfuel
    obtain ⟨f, rfl⟩ : ∃ f, fuel = f + 1 := ⟨fuel - 1, by omega⟩
    have hw : e < s.U - s.L := by simpa using hk 0 (Nat.succ_pos n)
    rw [BinarySearchLoop_succ oracle e f s hw]
    have key : ∀ s1 : SearchState α, s1.U - s1.L = (s.U - s.L) / 2 →
        s1.probes.length = s.probes.length + 1 →
        ∃ s', BinarySearchLoop oracle e f s1 = some s' ∧
          s'.U - s'.L = (s.U - s.L) / 2 ^ (n + 1) ∧
          s'.probes.length = s.probes.length + (n + 1) := by
      intro s1 hw1 hp1
      have e1 : ∀ k : Nat, (s1.U - s1.L) / 2 ^ k = (s.U - s.L) / 2 ^ (k + 1) := by
        intro k
        rw [hw1, pow_succ, div_div, mul_comm]
      obtain ⟨s', h1, h2, h3⟩ := ih s1 (by rw [e1]; exact h)
        (fun k hkn => by rw [e1]; exact hk (k + 1) (by omega)) f (by omega)
      exact ⟨s', h1, by rw [h2, e1], by rw [h3, hp1]; omega⟩
    split
    · exact key _ (by simp only; ring) (by simp)
    · exact key _ (by simp only; ring) (by simp)

/-- In an Archimedean field some number of halvings brings any width below a
positive tolerance; the least such number is reached from strictly wider
brackets. -/
theorem exists_least_halvings [Archimedean α] (w e : α) (he : 0 < e) :
    ∃ n : Nat, IsLeast {k : Nat | w / 2 ^ k ≤ e} n := by
  classical
  have hex : ∃ n : Nat, w / 2 ^ n ≤ e := by
    obtain ⟨n, hn⟩ := pow_unbounded_of_one_lt (w / e) (one_lt_two : (1 : α) < 2)
    refine ⟨n, ?_⟩
    have h2 : (0 : α) < 2 ^ n := by positivity
    rw [div_le_iff₀ h2]
    rw [div_lt_iff₀ he] at hn
    linarith
  refine ⟨Nat.find hex, Nat.find_spec hex, ?_⟩
  intro k hk
  exact Nat.find_min' hex hk

/-- The monotone-oracle invariant `L ≤ rstar ≤ U` is kept by the loop. -/
theorem BinarySearchLoop_bracket (oracle : α → Bool × List α) (e rstar : α)
    (hmono : ∀ r, (oracle r).1 = true ↔ r ≤ rstar) :
    ∀ (fuel : Nat) (s s' : SearchState α), BinarySearchLoop oracle e fuel s = some s' →
      s.L ≤ rstar → rstar ≤ s.U → s'.L ≤ rstar ∧ rstar ≤ s'.U ∧ s'.U - s'.L ≤ e := by
  intro fuel
  induction fuel with
  | zero =>
    intro s s' h hL hU
    by_cases hw : e < s.U - s.L
    · simp [BinarySearchLoop, hw] at h
    · rw [BinarySearchLoop_of_le oracle e 0 s (not_lt.mp hw)] at h
      cases h
      exact ⟨hL, hU, not_lt.mp hw⟩
  | succ f ih =>
    intro s s' h hL hU
    by_cases hw : e < s.U - s.L
    · rw [BinarySearchLoop_succ oracle e f s hw] at h
      by_cases hr : (oracle ((s.U + s.L) / 2)).1 = true
      · rw [if_pos hr] at h
        exact ih _ s' h ((hmono _).mp hr) hU
      · rw [if_neg hr] at h
        have : ¬ (s.U + s.L) / 2 ≤ rstar := fun hle => hr ((hmono _).mpr hle)
        exact ih _ s' h hL (le_of_lt (not_le.mp this))
    · rw [BinarySearchLoop_of_le oracle e (f + 1) s (not_lt.mp hw)] at h
      cases h
      exact ⟨hL, hU, not_lt.mp hw⟩

end SearchLemmas

end PASAQ

/-! ## Theorems: game utilities and bounds estimator -/

namespace PASAQ

section UtilityLemmas

variable {α : Type} [LinearOrderedField α]

/-- An accumulating loop `sum += f j` computes the sum of the terms. -/
theorem foldl_add_eq_sum {β : Type} (f : β → α) (l : List β) (a : α) :
    l.foldl (fun sum j => sum + f j) a = a + (l.map f).sum := by
  induction l generalizing a with
  | nil => simp
  | cons b l ih => simp [ih, add_assoc]

/-- A list is recovered by reading all its positions. -/
theorem map_getD_range {β : Type} (l : List β) (d : β) :
    (List.range l.length).map (fun i => l.getD i d) = l := by
  apply List.ext_getElem
  · simp
  · intro i h1 h2
    simp [List.getD_eq_getElem?_getD, List.getElem?_eq_getElem h2]

/-- The normaliser of the quantal response is positive when there is a target. -/
theorem q_i_sum_pos (exp : α → α) (hexp : ∀ t, 0 < exp t) (s : List α) (Pm : PayoffMatrix)
    (lambda : α) (hT : 1 ≤ Pm.P_a.length) :
    0 < ((List.range Pm.P_a.length).map (fun j => exp (lambda * U_a j s Pm))).sum := by
  have h0 : (0 : Nat) ∈ List.range Pm.P_a.length := List.mem_range.mpr (by omega)
  have hle := List.single_le_sum (l := (List.range Pm.P_a.length).map
    (fun j => exp (lambda * U_a j s Pm)))
    (by
      intro t ht
      obtain ⟨j, _, rfl⟩ := List.mem_map.mp ht
      exact (hexp _).le)
    (exp (lambda * U_a 0 s Pm)) (List.mem_map.mpr ⟨0, h0, rfl⟩)
  exact lt_of_lt_of_le (hexp _) hle

/-- The quantal response of a target lies in `(0, 1]`. -/
theorem q_i_pos_le_one (exp : α → α) (hexp : ∀ t, 0 < exp t) (s : List α) (Pm : PayoffMatrix)
    (lambda : α) (i : Nat) (hi : i < Pm.P_a.length) :
    0 < q_i exp i s Pm lambda ∧ q_i exp i s Pm lambda ≤ 1 := by
  have hS := q_i_sum_pos exp hexp s Pm lambda (by omega)
  have hle := List.single_le_sum (l := (List.range Pm.P_a.length).map
    (fun j => exp (lambda * U_a j s Pm)))
    (by
      intro t ht
      obtain ⟨j, _, rfl⟩ := List.mem_map.mp ht
      exact (hexp _).le)
    (exp (lambda * U_a i s Pm)) (List.mem_map.mpr ⟨i, List.mem_range.mpr hi, rfl⟩)
  simp only [q_i, foldl_add_eq_sum, zero_add]
  exact ⟨div_pos (hexp _) hS, (div_le_one hS).mpr hle⟩

/-- With uniform coverage exactly 1 and non-negative defender rewards the
lower estimate does not exceed the upper estimate, for every positive `exp`. -/
theorem EstimateBounds_le_of_pos_exp (exp : α → α) (hexp : ∀ t, 0 < exp t) (Pm : PayoffMatrix)
    (numRes : Int) (lambda : α) (hT : 1 ≤ Pm.P_a.length)
    (hRd : Pm.R_d.length = Pm.P_a.length)
    (hnn : ∀ r ∈ Pm.R_d, 0 ≤ r) (hres : numRes ≤ (Pm.P_a.length : Int)) :
    (EstimateBounds exp numRes Pm lambda).1 ≤ (EstimateBounds exp numRes Pm lambda).2 := by
  have hTpos : (0 : α) < (Pm.P_a.length : α) := by exact_mod_cast hT
  have hcov : max ((numRes : α) * (1 / (Pm.P_a.length : α))) 1 = 1 := by
    apply max_eq_right
    rw [mul_one_div, div_le_one hTpos]
    exact_mod_cast hres
  simp only [EstimateBounds, hcov, UD, foldl_add_eq_sum, zero_add, List.length_replicate]
  have hup : (Pm.R_d.map (fun reward => ((reward : Int) : α))).sum =
      ((List.range Pm.P_a.length).map (fun i => ((Pm.R_d.getD i 0 : Int) : α))).sum := by
    conv_lhs => rw [← map_getD_range Pm.R_d 0]
    rw [List.map_map, hRd]
    rfl
  rw [hup]
  apply List.sum_le_sum
  intro i hi
  have hi' : i < Pm.P_a.length := List.mem_range.mp hi
  obtain ⟨hq0, hq1⟩ := q_i_pos_le_one exp hexp (List.replicate Pm.P_a.length 1) Pm lambda i hi'
  have hR : (0 : α) ≤ ((Pm.R_d.getD i 0 : Int) : α) := by
    have : Pm.R_d.getD i 0 ∈ Pm.R_d := by
      rw [List.getD_eq_getElem _ _ (by omega)]
      exact List.getElem_mem _
    exact_mod_cast hnn _ this
  have hUd : U_d i (List.replicate Pm.P_a.length (1 : α)) Pm = ((Pm.R_d.getD i 0 : Int) : α) := by
    simp [U_d, List.getD_eq_getElem?_getD, List.getElem?_replicate, hi']
  rw [hUd]
  calc q_i exp i (List.replicate Pm.P_a.length 1) Pm lambda * ((Pm.R_d.getD i 0 : Int) : α)
      ≤ 1 * ((Pm.R_d.getD i 0 : Int) : α) := mul_le_mul_of_nonneg_right hq1 hR
    _ = ((Pm.R_d.getD i 0 : Int) : α) := one_mul _

end UtilityLemmas

/-- On the toy instance with budget 1 and `lambda = 1/2` the bounds estimator
returns the bracket `[30, 60]`. -/
theorem EstimateBounds_toy : EstimateBounds Real.exp 1 toy (1 / 2) = ((30 : ℝ), (60 : ℝ)) := by
  have h : Real.exp (-15) + Real.exp (-15) ≠ 0 := by positivity
  simp [EstimateBounds, UD, q_i, U_a, U_d, toy, List.range_succ, List.replicate]
  norm_num
  field_simp
  ring

/-- On the toy instance every coverage vector that spends at most one resource
has expected defender utility strictly below 30. -/
theorem UD_toy_lt (x1 x2 : ℝ) (h1 : x1 ≤ 1) (h2 : x2 ≤ 1) (h : x1 + x2 ≤ 1) :
    UD Real.exp [x1, x2] toy (1 / 2) < 30 := by
  simp only [UD, q_i, U_a, U_d, toy, List.range_succ, List.range_zero, List.length_cons,
    List.length_nil, List.foldl_cons, List.foldl_nil, List.nil_append, List.cons_append,
    List.getD_cons_zero, List.getD_cons_succ, zero_add]
  have ha := Real.exp_pos (1 / 2 * (x1 * ((-30 : Int) : ℝ) + (1 - x1) * ((30 : Int) : ℝ)))
  have hb := Real.exp_pos (1 / 2 * (x2 * ((-30 : Int) : ℝ) + (1 - x2) * ((30 : Int) : ℝ)))
  generalize Real.exp (1 / 2 * (x1 * ((-30 : Int) : ℝ) + (1 - x1) * ((30 : Int) : ℝ))) = a at ha ⊢
  generalize Real.exp (1 / 2 * (x2 * ((-30 : Int) : ℝ) + (1 - x2) * ((30 : Int) : ℝ))) = b at hb ⊢
  have hab : 0 < a + b := by linarith
  have e : a / (a + b) * (x1 * ((30 : Int) : ℝ) + (1 - x1) * ((-15 : Int) : ℝ)) +
      b / (a + b) * (x2 * ((30 : Int) : ℝ) + (1 - x2) * ((-15 : Int) : ℝ)) =
      30 - 45 * (a * (1 - x1) + b * (1 - x2)) / (a + b) := by
    push_cast
    field_simp
    ring
  rw [e]
  have hpos : 0 < a * (1 - x1) + b * (1 - x2) := by
    rcases lt_or_eq_of_le h1 with hlt | heq
    · have := mul_pos ha (sub_pos.mpr hlt)
      have := mul_nonneg hb.le (sub_nonneg.mpr h2)
      linarith
    · have hx2 : 0 < 1 - x2 := by linarith
      have := mul_pos hb hx2
      have := mul_nonneg ha.le (sub_nonneg.mpr h1)
      linarith
  have : 0 < 45 * (a * (1 - x1) + b * (1 - x2)) / (a + b) := by positivity
  linarith

/-- C4 (as stated, refuted): on a payoff matrix with two targets and negative
defender rewards, budget 1, the lower estimate (-1) exceeds the upper estimate
(-2). -/
theorem EstimateBounds_lower_gt_upper :
    negative_rewards.P_a.length = 2 ∧ negative_rewards.R_d.length = 2 ∧
    negative_rewards.P_d.length = 2 ∧ negative_rewards.R_a.length = 2 ∧
    (EstimateBounds Real.exp 1 negative_rewards (1 / 2)).1 = (-1 : ℝ) ∧
    (EstimateBounds Real.exp 1 negative_rewards (1 / 2)).2 = (-2 : ℝ) ∧
    ¬ ((EstimateBounds Real.exp 1 negative_rewards (1 / 2)).1 ≤
        (EstimateBounds Real.exp 1 negative_rewards (1 / 2) : ℝ × ℝ).2) := by
  have hval : EstimateBounds Real.exp 1 negative_rewards (1 / 2) = ((-1 : ℝ), (-2 : ℝ)) := by
    have h : Real.exp (-2⁻¹) + Real.exp (-2⁻¹) ≠ 0 := by positivity
    simp [EstimateBounds, UD, q_i, U_a, U_d, negative_rewards, List.range_succ, List.replicate]
    norm_num
    field_simp
    ring
  rw [hval]
  refine ⟨rfl, rfl, rfl, rfl, rfl, rfl, ?_⟩
  norm_num

/-- In exact arithmetic with the exponential function of the reals: for every
payoff matrix with at least one target whose defender rewards are all
non-negative, every budget `numRes` that does not exceed the number of targets
and every `lambda`, the pair returned by `EstimateBounds` satisfies
`lower ≤ upper`. On `double` this needs that `exp` neither overflows nor
underflows to 0 on every target, see the section on the bounds in `double`
arithmetic. -/
theorem EstimateBounds_lower_le_upper (Pm : PayoffMatrix) (numRes : Int) (lambda : ℝ)
    (hT : 1 ≤ Pm.P_a.length) (hRd : Pm.R_d.length = Pm.P_a.length)
    (hnn : ∀ r ∈ Pm.R_d, 0 ≤ r) (hres : numRes ≤ (Pm.P_a.length : Int)) :
    (EstimateBounds Real.exp numRes Pm lambda).1 ≤ (EstimateBounds Real.exp numRes Pm lambda).2 :=
  EstimateBounds_le_of_pos_exp Real.exp Real.exp_pos Pm numRes lambda hT hRd hnn hres

/-- C5 (the code at the toy instance): `EstimateBounds(1, Pm, 0.5)` returns the
bracket `[30, 60]`, and no coverage vector `x` with every `x_i` in `[0, 1]` and
`x_1 + x_2 ≤ 1` reaches the lower bound 30: the true optimum lies strictly
below the bracket. -/
theorem EstimateBounds_toy_optimum_below_lower :
    EstimateBounds Real.exp 1 toy (1 / 2) = ((30 : ℝ), (60 : ℝ)) ∧
    ¬ ∃ x1 x2 : ℝ, 0 ≤ x1 ∧ x1 ≤ 1 ∧ 0 ≤ x2 ∧ x2 ≤ 1 ∧ x1 + x2 ≤ 1 ∧
      (EstimateBounds Real.exp 1 toy (1 / 2)).1 ≤ UD Real.exp [x1, x2] toy (1 / 2) := by
  refine ⟨EstimateBounds_toy, ?_⟩
  rintro ⟨x1, x2, _, h1, _, h2, h, hle⟩
  rw [EstimateBounds_toy] at hle
  exact absurd hle (not_le.mpr (UD_toy_lt x1 x2 h1 h2 h))

end PASAQ

/-! ## Theorems: binary search driver, main results -/

namespace PASAQ

/-- The strategy held by the loop is always the one returned by the latest
probe, whatever that probe answered; it is the initial strategy only while no
probe has been made. -/
theorem BinarySearchLoop_strategy {α : Type} [LinearOrderedField α]
    (oracle : α → Bool × List α) (e : α) :
    ∀ (fuel : Nat) (s s' : SearchState α), BinarySearchLoop oracle e fuel s = some s' →
      s.x = (match s.probes.getLast? with
        | none => []
        | some r => (oracle r).2) →
      s'.x = (match s'.probes.getLast? with
        | none => []
        | some r => (oracle r).2) := by
  intro fuel
  induction fuel with
  | zero =>
    intro s s' h hs
    by_cases hw : e < s.U - s.L
    · simp [BinarySearchLoop, hw] at h
    · rw [BinarySearchLoop_of_le oracle e 0 s (not_lt.mp hw)] at h
      cases h
      exact hs
  | succ f ih =>
    intro s s' h hs
    by_cases hw : e < s.U - s.L
    · rw [BinarySearchLoop_succ oracle e f s hw] at h
      refine ih _ s' h ?_
      split <;> simp
    · rw [BinarySearchLoop_of_le oracle e (f + 1) s (not_lt.mp hw)] at h
      cases h
      exact hs

/-- In exact arithmetic (an Archimedean ordered field in the place of `double`,
no rounding) the search is correct: for every `e > 0` and every feasibility
oracle that reports `r` achievable exactly when `r ≤ rstar`, where `rstar` lies
in the bracket returned by `EstimateBounds`, the method returns (with enough
fuel) a utility `L` with `L ≤ rstar` and `rstar - L ≤ e`. On `double` the
method need not return, see the section on the search in `double` arithmetic. -/
theorem BinarySearchMethod_correct {α : Type} [LinearOrderedField α] [Archimedean α]
    (exp : α → α)
    (CheckFeasibility : α → Int → PayoffMatrix → List (List α) → α → α → Bool × List α)
    (e : α) (numRes : Int) (Pm : PayoffMatrix) (A : List (List α)) (lambda K rstar : α)
    (he : 0 < e)
    (hmono : ∀ r, (CheckFeasibility r numRes Pm A K lambda).1 = true ↔ r ≤ rstar)
    (hL : (EstimateBounds exp numRes Pm lambda).1 ≤ rstar)
    (hU : rstar ≤ (EstimateBounds exp numRes Pm lambda).2) :
    ∃ n : Nat, ∀ fuel, n ≤ fuel → ∃ L x,
      BinarySearchMethod exp CheckFeasibility fuel e numRes Pm A lambda K = some (L, x) ∧
      L ≤ rstar ∧ rstar - L ≤ e := by
  obtain ⟨n, hn, hmin⟩ := exists_least_halvings
    ((EstimateBounds exp numRes Pm lambda).2 - (EstimateBounds exp numRes Pm lambda).1) e he
  refine ⟨n, fun fuel hfuel => ?_⟩
  obtain ⟨s', hs', -, -⟩ := BinarySearchLoop_run
    (fun r => CheckFeasibility r numRes Pm A K lambda) e n
    ⟨(EstimateBounds exp numRes Pm lambda).1, (EstimateBounds exp numRes Pm lambda).2, [], []⟩
    hn (fun k hk => by
      by_contra hcon
      exact absurd (hmin (not_lt.mp hcon)) (by omega)) fuel hfuel
  obtain ⟨h1, h2, h3⟩ := BinarySearchLoop_bracket
    (fun r => CheckFeasibility r numRes Pm A K lambda) e rstar hmono fuel _ s' hs' hL hU
  refine ⟨s'.L, s'.x, ?_, h1, by linarith⟩
  simp only [BinarySearchMethod, hs', Option.map_some']

/-- In exact arithmetic (an Archimedean ordered field in the place of `double`,
no rounding), for every `e > 0`, every initial bracket `[L0, U0]` and every
oracle, the loop of `BinarySearchMethod` terminates with `U - L ≤ e`; the
oracle is queried exactly `n` times, `n` being the least natural number with
`(U0 - L0) / 2 ^ n ≤ e`. On `double` the loop need not terminate, see the
section on the search in `double` arithmetic. -/
theorem BinarySearchLoop_terminates {α : Type} [LinearOrderedField α] [Archimedean α]
    (oracle : α → Bool × List α) (e L0 U0 : α) (he : 0 < e) :
    ∃ n : Nat, IsLeast {k : Nat | (U0 - L0) / 2 ^ k ≤ e} n ∧
      (U0 - L0 ≤ e → n = 0) ∧
      ∀ fuel, n ≤ fuel → ∃ s,
        BinarySearchLoop oracle e fuel ⟨L0, U0, [], []⟩ = some s ∧
        s.U - s.L ≤ e ∧ s.probes.length = n := by
  obtain ⟨n, hn, hmin⟩ := exists_least_halvings (U0 - L0) e he
  refine ⟨n, ⟨hn, hmin⟩, ?_, fun fuel hfuel => ?_⟩
  · intro hle
    have h0 : (0 : Nat) ∈ {k : Nat | (U0 - L0) / 2 ^ k ≤ e} := by simpa using hle
    exact Nat.le_zero.mp (hmin h0)
  · obtain ⟨s', hs', hw, hp⟩ := BinarySearchLoop_run oracle e n ⟨L0, U0, [], []⟩ hn
      (fun k hk => by
        by_contra hcon
        exact absurd (hmin (not_lt.mp hcon)) (by omega)) fuel hfuel
    refine ⟨s', hs', ?_, by simpa using hp⟩
    rw [hw]
    exact hn

/-- C3 (the code at a failing input): on the toy instance with tolerance 10 the
first probe `r = 45` is reported achievable with strategy `[1/2, 1/2]` and the
second probe `r = 52.5` is reported not achievable with strategy `[0, 0]`; the
method returns the utility 45 together with the strategy `[0, 0]` of the probe
that was not achievable. -/
theorem BinarySearchMethod_returns_rejected_strategy :
    oracle_50 (45 : ℝ) 1 toy [] 5 (1 / 2) = (true, [1 / 2, 1 / 2]) ∧
    oracle_50 (105 / 2 : ℝ) 1 toy [] 5 (1 / 2) = (false, [0, 0]) ∧
    BinarySearchMethod Real.exp oracle_50 2 10 1 toy [] (1 / 2) 5 = some (45, [0, 0]) := by
  have h45 : oracle_50 (45 : ℝ) 1 toy [] 5 (1 / 2) = (true, [1 / 2, 1 / 2]) := by
    simp only [oracle_50]
    rw [if_pos (by norm_num)]
  have h52 : oracle_50 (105 / 2 : ℝ) 1 toy [] 5 (1 / 2) = (false, [0, 0]) := by
    simp only [oracle_50]
    rw [if_neg (by norm_num)]
  refine ⟨h45, h52, ?_⟩
  simp only [BinarySearchMethod, EstimateBounds_toy]
  rw [BinarySearchLoop_succ _ _ _ _ (by norm_num)]
  have e1 : ((60 : ℝ) + 30) / 2 = 45 := by norm_num
  simp only [e1, h45, if_true]
  rw [BinarySearchLoop_succ _ _ _ _ (by norm_num)]
  have e2 : ((60 : ℝ) + 45) / 2 = 105 / 2 := by norm_num
  simp only [e2, h52, Bool.false_eq_true, if_false]
  rw [BinarySearchLoop_of_le _ _ _ _ (by norm_num)]
  rfl

end PASAQ

/-! ## Theorems: model builder -/

namespace LinProg

section BuilderLemmas

variable {D : Type}

/-- Subtracting 1 from a non-zero `size_t` value does not wrap. -/
theorem size_sub_one (a : Nat) (h1 : 1 ≤ a) (h2 : a < SIZE_MOD) : size_sub a 1 = a - 1 := by
  unfold size_sub SIZE_MOD at *
  omega

/-- A `size_t` addition whose exact result fits does not wrap. -/
theorem size_add_of_lt (a b : Nat) (h : a + b < SIZE_MOD) : size_add a b = a + b := by
  unfold size_add
  exact Nat.mod_eq_of_lt h

/-- The method `has` decides membership in the registry. -/
theorem has_iff (m : lin_prog D) (var : String) : m.has var = true ↔ var ∈ m.variable_names := by
  simp [lin_prog.has]

/-- The scan of `get_bounds` finds nothing when no scanned position holds `var`. -/
theorem get_bounds_loop_none (names : List String) (offsets : List Nat) (var : String) :
    ∀ (n j : Nat), (∀ k, j ≤ k → k < j + n → names.getD k "" ≠ var) →
      get_bounds_loop names offsets var j n = none := by
  intro n
  induction n with
  | zero => intro j _; rfl
  | succ n ih =>
    intro j h
    rw [get_bounds_loop, if_neg (h j le_rfl (by omega))]
    exact ih (j + 1) (fun k hk1 hk2 => h k (by omega) (by omega))

/-- The scan of `get_bounds` stops at the first position that holds `var`. -/
theorem get_bounds_loop_some (names : List String) (offsets : List Nat) (var : String) (i : Nat) :
    ∀ (n j : Nat), j ≤ i → i < j + n → names.getD i "" = var →
      (∀ k, j ≤ k → k < i → names.getD k "" ≠ var) →
      get_bounds_loop names offsets var j n =
        some (offsets.getD i 0, size_sub (offsets.getD (i + 1) 0) 1) := by
  intro n
  induction n with
  | zero => intro j h1 h2; omega
  | succ n ih =>
    intro j h1 h2 hv hne
    rcases Nat.eq_or_lt_of_le h1 with heq | hlt
    · subst heq
      rw [get_bounds_loop, if_pos hv]
    · rw [get_bounds_loop, if_neg (hne j le_rfl hlt)]
      exact ih (j + 1) (by omega) (by omega) hv (fun k hk1 hk2 => hne k (by omega) hk2)

/-- Prefix sums grow with the length of the prefix. -/
theorem sum_take_le (l : List Nat) : ∀ i j, i ≤ j → (l.take i).sum ≤ (l.take j).sum := by
  induction l with
  | nil => intro i j _; simp
  | cons a l ih =>
    intro i j hij
    cases i with
    | zero => simp
    | succ i =>
      cases j with
      | zero => omega
      | succ j =>
        simp only [List.take_succ_cons, List.sum_cons]
        exact Nat.add_le_add_left (ih i j (by omega)) a

/-- A prefix sum is at most the whole sum. -/
theorem sum_take_le_sum (l : List Nat) (i : Nat) : (l.take i).sum ≤ l.sum := by
  conv_rhs => rw [← List.take_append_drop i l, List.sum_append]
  exact Nat.le_add_right _ _

/-- The first column of a group is at least 1 and at most the column counter. -/
theorem first_col_le (ds : List (String × Nat)) (i : Nat) :
    1 ≤ first_col ds i ∧ first_col ds i ≤ 1 + (ds.map Prod.snd).sum := by
  unfold first_col
  have := sum_take_le_sum (ds.map Prod.snd) i
  rw [← List.map_take] at this
  omega

/-- The column after the last column of a group is the first column of the next. -/
theorem first_col_succ (ds : List (String × Nat)) (i : Nat) :
    first_col ds (i + 1) = last_col ds i + 1 := by
  unfold first_col last_col
  omega

/-- A group of size `N` ends `N` columns after the column before its first one. -/
theorem last_col_eq (ds : List (String × Nat)) (i : Nat) (hi : i < ds.length) :
    last_col ds i + 1 = first_col ds i + (ds[i]).2 := by
  unfold first_col last_col
  rw [List.take_succ, List.getElem?_eq_getElem hi]
  simp only [Option.toList, List.map_append, List.sum_append, List.map_cons, List.map_nil,
    List.sum_cons, List.sum_nil]
  omega

/-- The last column of the last group is the number of columns. -/
theorem last_col_last (ds : List (String × Nat)) (i : Nat) (hi : i + 1 = ds.length) :
    last_col ds i = (ds.map Prod.snd).sum := by
  unfold last_col
  rw [hi, List.take_length]

/-- Groups declared earlier lie on lower columns. -/
theorem last_col_lt_first_col (ds : List (String × Nat)) (i j : Nat) (hij : i < j) :
    last_col ds i < first_col ds j := by
  unfold first_col last_col
  have := sum_take_le (ds.map Prod.snd) (i + 1) j (by omega)
  rw [← List.map_take, ← List.map_take] at this
  omega

/-- Under the layout invariant `get_bounds` returns the columns of the group. -/
theorem get_bounds_of_layout (m : lin_prog D) (ds : List (String × Nat)) (h : Layout m ds)
    (i : Nat) (hi : i < ds.length) :
    m.get_bounds (ds[i]).1 = .ok (first_col ds i, last_col ds i) := by
  obtain ⟨hn, ho, hv, hnd, hfit⟩ := h
  have hlen : m.variable_names.length = ds.length := by rw [hn, List.length_map]
  have hmem : (ds[i]).1 ∈ m.variable_names := by
    rw [hn]
    exact List.mem_map.mpr ⟨ds[i], List.getElem_mem _, rfl⟩
  have hget : ∀ k (hk : k < ds.length), m.variable_names.getD k "" = (ds[k]).1 := by
    intro k hk
    rw [List.getD_eq_getElem _ _ (by omega)]
    simp [hn]
  have hne : ∀ k, k < ds.length → k ≠ i → m.variable_names.getD k "" ≠ (ds[i]).1 := by
    intro k hk hki heq
    rw [hget k hk] at heq
    have hk1 : k < (ds.map Prod.fst).length := by simpa using hk
    have hi1 : i < (ds.map Prod.fst).length := by simpa using hi
    have h1 : (ds.map Prod.fst)[k] = (ds.map Prod.fst)[i] := by
      simpa using heq
    exact hki ((List.Nodup.getElem_inj_iff hnd).mp h1)
  have hoff : ∀ k, k < ds.length → m.offsets.getD k 0 = first_col ds k := by
    intro k hk
    rw [ho, List.getD_eq_getElem _ _ (by simpa using hk)]
    simp
  have hhas : m.has (ds[i]).1 = true := (has_iff m _).mpr hmem
  unfold lin_prog.get_bounds
  rw [hhas]
  simp only [Bool.not_true, Bool.false_eq_true, if_false]
  by_cases hlast : i + 1 < ds.length
  · rw [get_bounds_loop_some m.variable_names m.offsets (ds[i]).1 i (m.variable_names.length - 1) 0
      (Nat.zero_le _) (by omega) (hget i hi) (fun k _ hk => hne k (by omega) (by omega))]
    rw [hoff i hi, hoff (i + 1) hlast, first_col_succ]
    rw [size_sub_one _ (by omega) (by
      have := (first_col_le ds (i + 1)).2
      rw [first_col_succ] at this
      omega)]
    simp
  · have hi1 : i + 1 = ds.length := by omega
    rw [get_bounds_loop_none m.variable_names m.offsets (ds[i]).1 (m.variable_names.length - 1) 0
      (fun k _ hk => hne k (by omega) (by omega))]
    have hlastoff : m.offsets.getLast?.getD 0 = first_col ds i := by
      rw [ho, ← hi1, List.range_succ, List.map_append]
      simp
    simp only [hlastoff, hv]
    rw [size_sub_one _ (by omega) hfit, last_col_last ds i hi1]
    simp

/-- Values up to `INT_MAX` are unchanged by the conversion to `int`. -/
theorem to_int_of_le (n : Nat) (h : n ≤ INT_MAX) : to_int n = (n : Int) := by
  unfold INT_MAX at h
  simp only [to_int, Int.bmod]
  omega

/-- The layout invariant only reads the registry, the offsets and the column counter. -/
theorem Layout_of_eq (m m1 : lin_prog D) (ds : List (String × Nat))
    (h1 : m1.variable_names = m.variable_names) (h2 : m1.offsets = m.offsets)
    (h3 : m1.num_vars = m.num_vars) (h : Layout m ds) : Layout m1 ds := by
  unfold Layout at *
  rw [h1, h2, h3]
  exact h

/-- A fresh model holds no group. -/
theorem Layout_init [Zero D] (nm : String) : Layout (lin_prog.init nm : lin_prog D) [] := by
  simp [Layout, lin_prog.init, SIZE_MOD]

/-- Column positions of earlier groups do not depend on later groups. -/
theorem first_col_append (ds es : List (String × Nat)) (k : Nat) (hk : k ≤ ds.length) :
    first_col (ds ++ es) k = first_col ds k := by
  unfold first_col
  rw [List.take_append_of_le_length hk]

/-- Last columns of earlier groups do not depend on later groups. -/
theorem last_col_append (ds es : List (String × Nat)) (k : Nat) (hk : k < ds.length) :
    last_col (ds ++ es) k = last_col ds k := by
  unfold last_col
  rw [List.take_append_of_le_length (by omega)]

/-- A successful `declare_variables` appends the group to the layout. -/
theorem Layout_declare (m : lin_prog D) (ds : List (String × Nat)) (name : String) (num : Nat)
    (h : Layout m ds) (hnew : name ∉ ds.map Prod.fst)
    (hfit : 1 + (ds.map Prod.snd).sum + num < SIZE_MOD) :
    ∃ m1, m.declare_variables name num = .ok m1 ∧ Layout m1 (ds ++ [(name, num)]) ∧
      m1.rows = m.rows ∧ m1.cols = m.cols ∧ m1.vals = m.vals ∧ m1.cur_row = m.cur_row := by
  obtain ⟨hn, ho, hv, hnd, _⟩ := h
  have hhas : m.has name = false := by
    rw [← Bool.not_eq_true, has_iff, hn]
    exact hnew
  unfold lin_prog.declare_variables
  rw [hhas]
  simp only [Bool.false_eq_true, if_false]
  refine ⟨_, rfl, ⟨?_, ?_, ?_, ?_, ?_⟩, rfl, rfl, rfl, rfl⟩
  · simp [hn]
  · show m.offsets ++ [m.num_vars] = _
    rw [ho, hv, List.length_append, List.length_singleton, List.range_succ, List.map_append]
    congr 1
    · apply List.map_congr_left
      intro k hk
      rw [first_col_append ds _ k (le_of_lt (List.mem_range.mp hk))]
    · rw [List.map_singleton, first_col_append ds _ ds.length le_rfl]
      simp [first_col]
  · show size_add m.num_vars num = _
    rw [hv, size_add_of_lt _ _ hfit]
    simp
    omega
  · rw [List.map_append, List.nodup_append]
    refine ⟨hnd, by simp, ?_⟩
    intro a ha hb
    simp only [List.map_cons, List.map_nil, List.mem_singleton] at hb
    exact hnew (hb ▸ ha)
  · simp
    omega

/-- Successive declarations of fresh names that fit all succeed and extend the
layout. -/
theorem Layout_declare_all (es : List (String × Nat)) :
    ∀ (m : lin_prog D) (ds : List (String × Nat)), Layout m ds →
      ((ds ++ es).map Prod.fst).Nodup → 1 + ((ds ++ es).map Prod.snd).sum < SIZE_MOD →
      ∃ m1, m.declare_all es = .ok m1 ∧ Layout m1 (ds ++ es) := by
  induction es with
  | nil =>
    intro m ds h _ _
    exact ⟨m, rfl, by simpa using h⟩
  | cons d es ih =>
    intro m ds h hnd hfit
    have hnew : d.1 ∉ ds.map Prod.fst := by
      rw [List.map_append, List.nodup_append] at hnd
      intro hmem
      exact hnd.2.2 hmem (by simp)
    have hfit1 : 1 + (ds.map Prod.snd).sum + d.2 < SIZE_MOD := by
      simp only [List.map_append, List.sum_append, List.map_cons, List.sum_cons] at hfit
      omega
    obtain ⟨m1, hm1, hl1, -⟩ := Layout_declare m ds d.1 d.2 h hnew hfit1
    have hassoc : ds ++ d :: es = (ds ++ [(d.1, d.2)]) ++ es := by simp
    rw [hassoc] at hnd hfit ⊢
    obtain ⟨m2, hm2, hl2⟩ := ih m1 _ hl1 hnd hfit
    refine ⟨m2, ?_, hl2⟩
    simp only [lin_prog.declare_all, hm1, hm2]

/-- A successful `add_constraint` appends one triplet and changes nothing else. -/
theorem add_constraint_ok (m m1 : lin_prog D) (var : String) (index : Nat) (value : D)
    (h : m.add_constraint var index value = .ok m1) :
    ∃ bounds, m.get_bounds var = .ok bounds ∧
      m1 = { m with
        rows := m.rows ++ [to_int m.cur_row]
        cols := m.cols ++ [to_int (size_add bounds.1 (size_sub index 1))]
        vals := m.vals ++ [value] } := by
  unfold lin_prog.add_constraint at h
  split at h
  · cases h
  · rename_i bounds hb
    refine ⟨bounds, hb, ?_⟩
    split at h
    · cases h
    · split at h
      · cases h
      · cases h
        rfl

/-- Every call keeps the layout invariant; successful declarations extend it. -/
theorem Layout_calls (cs : List (Call D)) :
    ∀ (m : lin_prog D) (ds : List (String × Nat)), Layout m ds →
      1 + ((ds ++ declared_groups (ds.map Prod.fst) cs).map Prod.snd).sum < SIZE_MOD →
      Layout (m.calls cs) (ds ++ declared_groups (ds.map Prod.fst) cs) := by
  induction cs with
  | nil =>
    intro m ds h _
    simpa [lin_prog.calls, declared_groups] using h
  | cons c cs ih =>
    intro m ds h hfit
    have hstep : ∀ m1 : lin_prog D, Layout m1 ds →
        (declared_groups (ds.map Prod.fst) (c :: cs) = declared_groups (ds.map Prod.fst) cs) →
        m.call c = m1 →
        Layout (m.calls (c :: cs)) (ds ++ declared_groups (ds.map Prod.fst) (c :: cs)) := by
      intro m1 hl1 hd hc
      rw [hd] at hfit ⊢
      have := ih m1 ds hl1 hfit
      simpa [lin_prog.calls, hc] using this
    cases c with
    | declare_variables name num =>
      by_cases hmem : name ∈ ds.map Prod.fst
      · have hhas : m.has name = true := by
          rw [has_iff, h.1]
          exact hmem
        refine hstep m h ?_ ?_
        · simp [declared_groups, hmem]
        · simp [lin_prog.call, lin_prog.declare_variables, hhas]
      · have hd : declared_groups (ds.map Prod.fst) (Call.declare_variables name num :: cs) =
            (name, num) :: declared_groups (ds.map Prod.fst ++ [name]) cs := by
          simp [declared_groups, hmem]
        rw [hd] at hfit ⊢
        have hfit1 : 1 + (ds.map Prod.snd).sum + num < SIZE_MOD := by
          simp only [List.map_append, List.sum_append, List.map_cons, List.sum_cons] at hfit
          omega
        obtain ⟨m1, hm1, hl1, -⟩ := Layout_declare m ds name num h hmem hfit1
        have hassoc : ∀ t : List (String × Nat), ds ++ (name, num) :: t = (ds ++ [(name, num)]) ++ t := by
          intro t; simp
        have hseen : ds.map Prod.fst ++ [name] = (ds ++ [(name, num)]).map Prod.fst := by simp
        rw [hassoc, hseen] at hfit ⊢
        have := ih m1 _ hl1 hfit
        simpa [lin_prog.calls, lin_prog.call, hm1] using this
    | add_row =>
      exact hstep m.add_row (Layout_of_eq m _ ds rfl rfl rfl h) rfl rfl
    | add_row_named name =>
      exact hstep (m.add_row_named name) (Layout_of_eq m _ ds rfl rfl rfl h) rfl rfl
    | add_constraint var index value =>
      cases hres : m.add_constraint var index value with
      | error err =>
        exact hstep m h rfl (by simp [lin_prog.call, hres])
      | ok m1 =>
        obtain ⟨bounds, -, hm1⟩ := add_constraint_ok m m1 var index value hres
        exact hstep m1 (Layout_of_eq m m1 ds (by rw [hm1]) (by rw [hm1]) (by rw [hm1]) h) rfl
          (by simp [lin_prog.call, hres])

/-- Under the layout invariant, with a current row, an in-range sub-index is
accepted by `add_constraint` and stored on the column `first + index - 1`. -/
theorem add_constraint_of_layout (m : lin_prog D) (ds : List (String × Nat)) (h : Layout m ds)
    (i : Nat) (hi : i < ds.length) (index : Nat) (value : D)
    (hrow : 1 ≤ m.cur_row) (h1 : 1 ≤ index) (h2 : index ≤ (ds[i]).2) :
    m.add_constraint (ds[i]).1 index value = .ok { m with
      rows := m.rows ++ [to_int m.cur_row]
      cols := m.cols ++ [to_int (first_col ds i + index - 1)]
      vals := m.vals ++ [value] } := by
  have hb := get_bounds_of_layout m ds h i hi
  have hlast := last_col_eq ds i hi
  have hle := (first_col_le ds (i + 1)).2
  rw [first_col_succ] at hle
  have hfit := h.2.2.2.2
  have hf1 := (first_col_le ds i).1
  have hidx : index < SIZE_MOD := by omega
  have hsub : size_sub index 1 = index - 1 := size_sub_one index h1 hidx
  have hadd1 : size_add (index - 1) (first_col ds i) = first_col ds i + index - 1 := by
    rw [size_add_of_lt _ _ (by omega)]
    omega
  have hadd2 : size_add (first_col ds i) (index - 1) = first_col ds i + index - 1 := by
    rw [size_add_of_lt _ _ (by omega)]
    omega
  unfold lin_prog.add_constraint
  rw [hb]
  simp only [hsub, hadd1, hadd2]
  rw [if_neg (by omega), if_neg (by omega)]

end BuilderLemmas

end LinProg

namespace LinProg

section InvariantLemmas

variable {D : Type}

/-- Under the layout invariant and with a current row, a sub-index whose range
check does not wrap is accepted exactly when it lies in `1..N`, and a rejected
one is reported out of bounds. -/
theorem add_constraint_iff_of_no_wrap (m : lin_prog D) (ds : List (String × Nat))
    (h : Layout m ds) (i : Nat) (hi : i < ds.length) (index : Nat) (value : D)
    (hrow : 1 ≤ m.cur_row) (hidx : index < SIZE_MOD)
    (hnw : index = 0 ∨ index - 1 + first_col ds i < SIZE_MOD) :
    ((∃ m1, m.add_constraint (ds[i]).1 index value = .ok m1) ↔
      (1 ≤ index ∧ index ≤ (ds[i]).2)) ∧
    (¬ (1 ≤ index ∧ index ≤ (ds[i]).2) →
      m.add_constraint (ds[i]).1 index value = .error (.out_of_bounds index (ds[i]).1)) := by
  have hb := get_bounds_of_layout m ds h i hi
  have hlast := last_col_eq ds i hi
  have hrej : ¬ (1 ≤ index ∧ index ≤ (ds[i]).2) →
      m.add_constraint (ds[i]).1 index value = .error (.out_of_bounds index (ds[i]).1) := by
    intro hout
    have hc : index < 1 ∨ size_add (size_sub index 1) (first_col ds i) > last_col ds i := by
      by_cases h0 : index < 1
      · exact Or.inl h0
      · right
        have h1 : 1 ≤ index := by omega
        rcases hnw with hz | hz
        · omega
        · rw [size_sub_one index h1 hidx, size_add_of_lt _ _ hz]
          omega
    unfold lin_prog.add_constraint
    rw [hb]
    simp only [if_pos hc]
  refine ⟨⟨?_, ?_⟩, hrej⟩
  · rintro ⟨m1, hm1⟩
    by_contra hout
    rw [hrej hout] at hm1
    cases hm1
  · rintro ⟨h1, h2⟩
    exact ⟨_, add_constraint_of_layout m ds h i hi index value hrow h1 h2⟩

/-- Rows of the stored triplets: the lists have equal length, every stored row
lies between 0 and the row cursor, the rows after the placeholder are at least
1, and the rows are in non-decreasing order. -/
theorem calls_rows_invariant (cs : List (Call D)) :
    ∀ m : lin_prog D,
      (m.rows.head? = some 0 ∧ m.rows.length = m.cols.length ∧
        m.cols.length = m.vals.length ∧
        (∀ r ∈ m.rows, r ≤ (m.cur_row : Int)) ∧ (∀ r ∈ m.rows.tail, 1 ≤ r) ∧
        m.rows.Pairwise (fun a b => a ≤ b)) →
      m.cur_row + row_calls cs ≤ INT_MAX →
      ((m.calls cs).rows.head? = some 0 ∧
        (m.calls cs).rows.length = (m.calls cs).cols.length ∧
        (m.calls cs).cols.length = (m.calls cs).vals.length ∧
        (∀ r ∈ (m.calls cs).rows, r ≤ ((m.calls cs).cur_row : Int)) ∧
        (∀ r ∈ (m.calls cs).rows.tail, 1 ≤ r) ∧
        (m.calls cs).rows.Pairwise (fun a b => a ≤ b)) ∧
      m.cur_row ≤ (m.calls cs).cur_row ∧
      (m.calls cs).cur_row = m.cur_row + row_calls cs := by
  induction cs with
  | nil =>
    intro m h _
    exact ⟨h, le_rfl, rfl⟩
  | cons c cs ih =>
    intro m h hfit
    have hstep : ∀ m1 : lin_prog D, m.call c = m1 →
        (m1.rows.head? = some 0 ∧ m1.rows.length = m1.cols.length ∧
          m1.cols.length = m1.vals.length ∧
          (∀ r ∈ m1.rows, r ≤ (m1.cur_row : Int)) ∧ (∀ r ∈ m1.rows.tail, 1 ≤ r) ∧
          m1.rows.Pairwise (fun a b => a ≤ b)) →
        m1.cur_row + row_calls cs = m.cur_row + row_calls (c :: cs) →
        m.cur_row ≤ m1.cur_row →
        ((m.calls (c :: cs)).rows.head? = some 0 ∧
          (m.calls (c :: cs)).rows.length = (m.calls (c :: cs)).cols.length ∧
          (m.calls (c :: cs)).cols.length = (m.calls (c :: cs)).vals.length ∧
          (∀ r ∈ (m.calls (c :: cs)).rows, r ≤ ((m.calls (c :: cs)).cur_row : Int)) ∧
          (∀ r ∈ (m.calls (c :: cs)).rows.tail, 1 ≤ r) ∧
          (m.calls (c :: cs)).rows.Pairwise (fun a b => a ≤ b)) ∧
        m.cur_row ≤ (m.calls (c :: cs)).cur_row ∧
        (m.calls (c :: cs)).cur_row = m.cur_row + row_calls (c :: cs) := by
      intro m1 hc h1 hcount hle
      have hcalls : m.calls (c :: cs) = m1.calls cs := by
        simp [lin_prog.calls, hc]
      rw [hcalls]
      obtain ⟨a, b, e⟩ := ih m1 h1 (by omega)
      exact ⟨a, by omega, by omega⟩
    have hrowstep : ∀ m1 : lin_prog D, m1.rows = m.rows → m1.cols = m.cols → m1.vals = m.vals →
        m1.cur_row = size_add m.cur_row 1 → m.cur_row + 1 ≤ INT_MAX →
        (m1.rows.head? = some 0 ∧ m1.rows.length = m1.cols.length ∧
          m1.cols.length = m1.vals.length ∧
          (∀ r ∈ m1.rows, r ≤ (m1.cur_row : Int)) ∧ (∀ r ∈ m1.rows.tail, 1 ≤ r) ∧
          m1.rows.Pairwise (fun a b => a ≤ b)) ∧ m1.cur_row = m.cur_row + 1 := by
      intro m1 e1 e2 e3 e4 hmax
      have hcur : m1.cur_row = m.cur_row + 1 := by
        rw [e4, size_add_of_lt _ _ (by unfold INT_MAX at hmax; unfold SIZE_MOD; omega)]
      rw [e1, e2, e3, hcur]
      refine ⟨⟨h.1, h.2.1, h.2.2.1, fun r hr => ?_, h.2.2.2.2.1, h.2.2.2.2.2⟩, rfl⟩
      have := h.2.2.2.1 r hr
      push_cast
      omega
    cases c with
    | declare_variables name num =>
      cases hres : m.declare_variables name num with
      | error err =>
        exact hstep m (by simp [lin_prog.call, hres]) h (by simp [row_calls]) le_rfl
      | ok m1 =>
        have hm1 : m1.rows = m.rows ∧ m1.cols = m.cols ∧ m1.vals = m.vals ∧
            m1.cur_row = m.cur_row := by
          unfold lin_prog.declare_variables at hres
          split at hres
          · cases hres
          · cases hres
            exact ⟨rfl, rfl, rfl, rfl⟩
        obtain ⟨e1, e2, e3, e4⟩ := hm1
        exact hstep m1 (by simp [lin_prog.call, hres]) (by rw [e1, e2, e3, e4]; exact h)
          (by rw [e4]; simp [row_calls]) (by rw [e4])
    | add_row =>
      have hmax : m.cur_row + 1 ≤ INT_MAX := by
        simp only [row_calls] at hfit
        omega
      obtain ⟨hinv, hcur⟩ := hrowstep m.add_row rfl rfl rfl rfl hmax
      exact hstep m.add_row rfl hinv (by rw [hcur]; simp only [row_calls]; omega)
        (by rw [hcur]; omega)
    | add_row_named name =>
      have hmax : m.cur_row + 1 ≤ INT_MAX := by
        simp only [row_calls] at hfit
        omega
      obtain ⟨hinv, hcur⟩ := hrowstep (m.add_row_named name) rfl rfl rfl rfl hmax
      exact hstep (m.add_row_named name) rfl hinv (by rw [hcur]; simp only [row_calls]; omega)
        (by rw [hcur]; omega)
    | add_constraint var index value =>
      cases hres : m.add_constraint var index value with
      | error err =>
        exact hstep m (by simp [lin_prog.call, hres]) h (by simp [row_calls]) le_rfl
      | ok m1 =>
        have hrow : 1 ≤ m.cur_row := by
          by_contra hlt
          unfold lin_prog.add_constraint at hres
          split at hres
          · cases hres
          · split at hres
            · cases hres
            · rw [if_pos (by omega)] at hres
              cases hres
        obtain ⟨bounds, -, hm1⟩ := add_constraint_ok m m1 var index value hres
        have hto : to_int m.cur_row = (m.cur_row : Int) := to_int_of_le _ (by omega)
        refine hstep m1 (by simp [lin_prog.call, hres]) ?_ (by rw [hm1]; simp [row_calls])
          (by rw [hm1])
        rw [hm1]
        simp only [hto]
        have hne : m.rows ≠ [] := by
          intro hnil
          have := h.1
          rw [hnil] at this
          cases this
        refine ⟨?_, by simp [h.2.1], by simp [h.2.2.1], ?_, ?_, ?_⟩
        · rw [List.head?_append_of_ne_nil _ hne]
          exact h.1
        · intro r hr
          rcases List.mem_append.mp hr with hr1 | hr1
          · exact h.2.2.2.1 r hr1
          · simp only [List.mem_singleton] at hr1
            rw [hr1]
        · intro r hr
          rw [List.tail_append_of_ne_nil hne] at hr
          rcases List.mem_append.mp hr with hr1 | hr1
          · exact h.2.2.2.2.1 r hr1
          · simp only [List.mem_singleton] at hr1
            rw [hr1]
            exact_mod_cast hrow
        · rw [List.pairwise_append]
          refine ⟨h.2.2.2.2.2, List.pairwise_singleton _ _, ?_⟩
          intro a ha b hb
          simp only [List.mem_singleton] at hb
          rw [hb]
          exact h.2.2.2.1 a ha

/-- Every model built from the constructor with at most `INT_MAX` rows keeps the
placeholder first, lists of equal length, stored rows between 1 and the row
cursor (the placeholder apart) in non-decreasing order, and a row cursor equal
to the number of `add_row` calls. -/
theorem init_calls_rows_invariant [Zero D] (nm : String) (cs : List (Call D))
    (hrows : row_calls cs ≤ INT_MAX) :
    ((lin_prog.init nm : lin_prog D).calls cs).rows.head? = some 0 ∧
    ((lin_prog.init nm : lin_prog D).calls cs).rows.length =
      ((lin_prog.init nm : lin_prog D).calls cs).cols.length ∧
    ((lin_prog.init nm : lin_prog D).calls cs).cols.length =
      ((lin_prog.init nm : lin_prog D).calls cs).vals.length ∧
    (∀ r ∈ ((lin_prog.init nm : lin_prog D).calls cs).rows.tail,
      1 ≤ r ∧ r ≤ (((lin_prog.init nm : lin_prog D).calls cs).cur_row : Int)) ∧
    ((lin_prog.init nm : lin_prog D).calls cs).rows.Pairwise (fun a b => a ≤ b) ∧
    ((lin_prog.init nm : lin_prog D).calls cs).cur_row = row_calls cs := by
  obtain ⟨⟨h1, h2, h3, h4, h5, h6⟩, -, h7⟩ := calls_rows_invariant cs (lin_prog.init nm : lin_prog D)
    (by simp [lin_prog.init]) (by simpa [lin_prog.init] using hrows)
  refine ⟨h1, h2, h3, fun r hr => ⟨h5 r hr, h4 r (List.mem_of_mem_tail hr)⟩, h6, ?_⟩
  rw [h7]
  simp [lin_prog.init]

end InvariantLemmas

end LinProg

/-! ## Theorems: model builder, main results -/

namespace LinProg

/-- C6: after successful `declare_variables` calls with distinct names and
sizes `N_1..N_m` on a fresh `lin_prog` (the column counter staying within
`size_t`), `get_bounds(name_i)` returns the inclusive range
`[1 + N_1 + ... + N_(i-1), N_1 + ... + N_i]`, which contains exactly `N_i`
columns; the ranges of different groups are disjoint, and the range of a group
is the same however many groups are declared after it. -/
theorem get_bounds_declare_all {D : Type} [Zero D] (nm : String) (ds : List (String × Nat))
    (hnd : (ds.map Prod.fst).Nodup) (hfit : 1 + (ds.map Prod.snd).sum < SIZE_MOD) :
    ∃ m : lin_prog D, (lin_prog.init nm : lin_prog D).declare_all ds = .ok m ∧
      (∀ i (hi : i < ds.length),
        m.get_bounds (ds[i]).1 =
          .ok (1 + ((ds.take i).map Prod.snd).sum, ((ds.take (i + 1)).map Prod.snd).sum) ∧
        (Finset.Icc (1 + ((ds.take i).map Prod.snd).sum)
          (((ds.take (i + 1)).map Prod.snd).sum)).card = (ds[i]).2) ∧
      (∀ i j, i < ds.length → j < ds.length → i ≠ j →
        Disjoint
          (Finset.Icc (1 + ((ds.take i).map Prod.snd).sum) (((ds.take (i + 1)).map Prod.snd).sum))
          (Finset.Icc (1 + ((ds.take j).map Prod.snd).sum)
            (((ds.take (j + 1)).map Prod.snd).sum))) ∧
      (∀ es : List (String × Nat), ((ds ++ es).map Prod.fst).Nodup →
        1 + ((ds ++ es).map Prod.snd).sum < SIZE_MOD →
        ∃ m1 : lin_prog D, (lin_prog.init nm : lin_prog D).declare_all (ds ++ es) = .ok m1 ∧
          ∀ i (hi : i < ds.length), m1.get_bounds (ds[i]).1 = m.get_bounds (ds[i]).1) := by
  obtain ⟨m, hm, hl⟩ := Layout_declare_all ds (lin_prog.init nm : lin_prog D) [] (Layout_init nm)
    (by simpa using hnd) (by simpa using hfit)
  rw [List.nil_append] at hl
  refine ⟨m, hm, ?_, ?_, ?_⟩
  · intro i hi
    refine ⟨get_bounds_of_layout m ds hl i hi, ?_⟩
    have := last_col_eq ds i hi
    unfold first_col last_col at this
    rw [Nat.card_Icc]
    omega
  · intro i j _ _ hij
    rw [Finset.disjoint_left]
    intro a ha hb
    rw [Finset.mem_Icc] at ha hb
    rcases Nat.lt_or_gt_of_ne hij with h | h
    · have := last_col_lt_first_col ds i j h
      unfold first_col last_col at this
      omega
    · have := last_col_lt_first_col ds j i h
      unfold first_col last_col at this
      omega
  · intro es hnd1 hfit1
    obtain ⟨m1, hm1, hl1⟩ := Layout_declare_all (ds ++ es) (lin_prog.init nm : lin_prog D) []
      (Layout_init nm) (by simpa using hnd1) (by simpa using hfit1)
    rw [List.nil_append] at hl1
    refine ⟨m1, hm1, fun i hi => ?_⟩
    have hi1 : i < (ds ++ es).length := by
      rw [List.length_append]
      omega
    have h1 := get_bounds_of_layout m1 (ds ++ es) hl1 i hi1
    rw [List.getElem_append_left hi, first_col_append ds es i (le_of_lt hi),
      last_col_append ds es i hi] at h1
    rw [h1, get_bounds_of_layout m ds hl i hi]

/-- Witness of `get_bounds_declare_all`: the groups `x` (10), `z` (10) and `a` (3)
on a fresh model. -/
theorem get_bounds_declare_all_witness :
    (groups_xza.map Prod.fst).Nodup ∧
    1 + (groups_xza.map Prod.snd).sum < SIZE_MOD ∧
    ∃ m : lin_prog ℚ,
      (lin_prog.init "lp" : lin_prog ℚ).declare_all groups_xza = .ok m ∧
      (∀ i (hi : i < groups_xza.length),
        m.get_bounds (groups_xza[i]).1 =
          .ok (1 + ((groups_xza.take i).map
                Prod.snd).sum,
            ((groups_xza.take (i + 1)).map
                Prod.snd).sum) ∧
        (Finset.Icc
          (1 + ((groups_xza.take i).map
            Prod.snd).sum)
          (((groups_xza.take (i + 1)).map
            Prod.snd).sum)).card =
          (groups_xza[i]).2) ∧
      (∀ i j, i < groups_xza.length →
        j < groups_xza.length → i ≠ j →
        Disjoint
          (Finset.Icc
            (1 + ((groups_xza.take i).map
              Prod.snd).sum)
            (((groups_xza.take (i + 1)).map
              Prod.snd).sum))
          (Finset.Icc
            (1 + ((groups_xza.take j).map
              Prod.snd).sum)
            (((groups_xza.take (j + 1)).map
              Prod.snd).sum))) ∧
      (∀ es : List (String × Nat),
        ((groups_xza ++ es).map Prod.fst).Nodup →
        1 + ((groups_xza ++ es).map
          Prod.snd).sum < SIZE_MOD →
        ∃ m1 : lin_prog ℚ,
          (lin_prog.init "lp" : lin_prog ℚ).declare_all
            (groups_xza ++ es) = .ok m1 ∧
          ∀ i (hi : i < groups_xza.length),
            m1.get_bounds (groups_xza[i]).1 =
              m.get_bounds (groups_xza[i]).1) :=
  ⟨by decide, by decide,
    get_bounds_declare_all "lp" groups_xza (by decide) (by decide)⟩

/-- C7: on every model built by the model-building calls (rows and columns
within the solver's `int` index range) that has at least one row, for every
declared group of size `N` and every `subIndex` with `1 ≤ subIndex ≤ N`,
`add_constraint(name, subIndex, coefficient)` appends exactly one sparse entry
`(current row, get_bounds(name).first + subIndex - 1, coefficient)` at the end
of the triplet list and leaves the earlier entries, the row cursor and the
variable registry unchanged. -/
theorem add_constraint_appends {D : Type} [Zero D] (nm : String) (cs : List (Call D))
    (m : lin_prog D) (hm : m = (lin_prog.init nm).calls cs)
    (hcols : ((declared_groups [] cs).map Prod.snd).sum ≤ INT_MAX)
    (hrow : 1 ≤ m.cur_row) (hrows : m.cur_row ≤ INT_MAX)
    (i : Nat) (hi : i < (declared_groups [] cs).length) (subIndex : Nat) (coefficient : D)
    (h1 : 1 ≤ subIndex) (h2 : subIndex ≤ ((declared_groups [] cs)[i]).2) :
    ∃ (first last : Nat) (m1 : lin_prog D),
      m.get_bounds ((declared_groups [] cs)[i]).1 = .ok (first, last) ∧
      m.add_constraint ((declared_groups [] cs)[i]).1 subIndex coefficient = .ok m1 ∧
      m1.rows = m.rows ++ [(m.cur_row : Int)] ∧
      m1.cols = m.cols ++ [((first + subIndex - 1 : Nat) : Int)] ∧
      m1.vals = m.vals ++ [coefficient] ∧
      m1.cur_row = m.cur_row ∧
      m1.variable_names = m.variable_names ∧ m1.offsets = m.offsets ∧
      m1.num_vars = m.num_vars := by
  have hfit : 1 + (([] ++ declared_groups (([] : List (String × Nat)).map Prod.fst) cs).map
      Prod.snd).sum < SIZE_MOD := by
    simp only [List.nil_append, List.map_nil]
    unfold INT_MAX at hcols
    unfold SIZE_MOD
    omega
  have hl := Layout_calls cs (lin_prog.init nm : lin_prog D) [] (Layout_init nm) hfit
  simp only [List.nil_append, List.map_nil] at hl
  rw [← hm] at hl
  have hb := get_bounds_of_layout m _ hl i hi
  have ha := add_constraint_of_layout m _ hl i hi subIndex coefficient hrow h1 h2
  have hlast := last_col_eq (declared_groups [] cs) i hi
  have hle := (first_col_le (declared_groups [] cs) (i + 1)).2
  rw [first_col_succ] at hle
  refine ⟨_, _, _, hb, ha, ?_, ?_, rfl, rfl, rfl, rfl, rfl⟩
  · show m.rows ++ [to_int m.cur_row] = _
    rw [to_int_of_le _ hrows]
  · show m.cols ++ [to_int _] = _
    rw [to_int_of_le _ (by omega)]

/-- Witness of `add_constraint_appends`: third column of the group `z` of a
model with groups `x` and `z` of ten columns each and one row. -/
theorem add_constraint_appends_witness :
    model_xz = (lin_prog.init "lp").calls model_xz_calls ∧
    ((declared_groups [] model_xz_calls).map Prod.snd).sum ≤ INT_MAX ∧
    1 ≤ model_xz.cur_row ∧ model_xz.cur_row ≤ INT_MAX ∧
    (∃ hi : 1 < (declared_groups [] model_xz_calls).length,
      1 ≤ 3 ∧ 3 ≤ ((declared_groups [] model_xz_calls)[1]).2 ∧
      ∃ (first last : Nat) (m1 : lin_prog ℚ),
        model_xz.get_bounds ((declared_groups [] model_xz_calls)[1]).1 = .ok (first, last) ∧
        model_xz.add_constraint ((declared_groups [] model_xz_calls)[1]).1 3 (5 : ℚ) = .ok m1 ∧
        m1.rows = model_xz.rows ++ [(model_xz.cur_row : Int)] ∧
        m1.cols = model_xz.cols ++ [((first + 3 - 1 : Nat) : Int)] ∧
        m1.vals = model_xz.vals ++ [5] ∧
        m1.cur_row = model_xz.cur_row ∧
        m1.variable_names = model_xz.variable_names ∧ m1.offsets = model_xz.offsets ∧
        m1.num_vars = model_xz.num_vars) :=
  ⟨rfl, by decide, by decide, by decide, by decide, by decide, by decide,
    add_constraint_appends "lp" model_xz_calls model_xz rfl (by decide) (by decide) (by decide)
      1 (by decide) 3 5 (by decide) (by decide)⟩

/-- C8 (the code at a failing input): on a model with the groups `x` (columns
1..10) and `z` (columns 11..20) and one row, `add_constraint("z", 2^64 - 1, 1)`
does not fail although the sub-index is far above the size 10 of `z`: the range
check `index - 1 + bounds.first > bounds.second` wraps around to `9 > 20`, and
the entry is stored on column 9, a column of the group `x`. -/
theorem add_constraint_accepts_wrapped_index :
    model_xz.variable_names = ["x", "z"] ∧
    model_xz.get_bounds "x" = .ok (1, 10) ∧
    model_xz.get_bounds "z" = .ok (11, 20) ∧
    model_xz.cur_row = 1 ∧
    2 ^ 64 - 1 < SIZE_MOD ∧
    ∃ m1 : lin_prog ℚ, model_xz.add_constraint "z" (2 ^ 64 - 1) 1 = .ok m1 ∧
      m1.rows = [0, 1] ∧ m1.cols = [0, 9] ∧ m1.vals = [0, 1] :=
  ⟨rfl, rfl, rfl, rfl, by decide, _, rfl, rfl, rfl, rfl⟩

/-- C9 (as stated, refuted): on a fresh model, on which `add_row` was never
called, `add_constraint` on an undeclared name reports that the name does not
exist, and after declaring `x` with 10 columns `add_constraint("x", 11, 1)`
reports an out-of-bounds index; neither error is the row-not-ready error. -/
theorem add_constraint_without_row_other_error :
    (lin_prog.init "lp" : lin_prog ℚ).cur_row = 0 ∧
    (lin_prog.init "lp" : lin_prog ℚ).add_constraint "x" 1 1 = .error (.does_not_exist "x") ∧
    (lin_prog.init "lp" : lin_prog ℚ).add_constraint "x" 1 1 ≠ .error .must_add_row ∧
    ((lin_prog.init "lp" : lin_prog ℚ).call (.declare_variables "x" 10)).cur_row = 0 ∧
    ((lin_prog.init "lp" : lin_prog ℚ).call (.declare_variables "x" 10)).add_constraint "x" 11 1 =
      .error (.out_of_bounds 11 "x") ∧
    ((lin_prog.init "lp" : lin_prog ℚ).call (.declare_variables "x" 10)).add_constraint "x" 11 1 ≠
      .error .must_add_row := by
  have e1 : (lin_prog.init "lp" : lin_prog ℚ).add_constraint "x" 1 1 =
      .error (.does_not_exist "x") := rfl
  have e2 : ((lin_prog.init "lp" : lin_prog ℚ).call (.declare_variables "x" 10)).add_constraint
      "x" 11 1 = .error (.out_of_bounds 11 "x") := rfl
  refine ⟨rfl, e1, ?_, rfl, e2, ?_⟩
  · rw [e1]
    intro h
    cases h
  · rw [e2]
    intro h
    cases h

/-- C9 (amended): on every model on which `add_row` has never been called (row
cursor 0), `add_constraint` fails for every argument triple and so leaves the
triplet list unchanged; the error is the undeclared-name error when the name is
not declared, the out-of-bounds error when the name is declared and the
sub-index is rejected by the range check, and the row-not-ready error
otherwise, in particular for every in-range sub-index of a declared group. -/
theorem add_constraint_without_row {D : Type} (m : lin_prog D) (var : String) (index : Nat)
    (value : D) (h0 : m.cur_row = 0) :
    (∃ err, m.add_constraint var index value = .error err) ∧
    (m.has var = false → m.add_constraint var index value = .error (.does_not_exist var)) ∧
    (∀ bounds, m.get_bounds var = .ok bounds →
      (index < 1 ∨ size_add (size_sub index 1) bounds.1 > bounds.2) →
      m.add_constraint var index value = .error (.out_of_bounds index var)) ∧
    (∀ bounds, m.get_bounds var = .ok bounds →
      ¬ (index < 1 ∨ size_add (size_sub index 1) bounds.1 > bounds.2) →
      m.add_constraint var index value = .error .must_add_row) ∧
    (∀ (ds : List (String × Nat)) (i : Nat) (hi : i < ds.length), Layout m ds →
      var = (ds[i]).1 → 1 ≤ index → index ≤ (ds[i]).2 →
      m.add_constraint var index value = .error .must_add_row) := by
  have hrow : m.cur_row < 1 := by omega
  have hout : ∀ bounds, m.get_bounds var = .ok bounds →
      (index < 1 ∨ size_add (size_sub index 1) bounds.1 > bounds.2) →
      m.add_constraint var index value = .error (.out_of_bounds index var) := by
    intro bounds hb hc
    unfold lin_prog.add_constraint
    rw [hb]
    simp only [if_pos hc]
  have hin : ∀ bounds, m.get_bounds var = .ok bounds →
      ¬ (index < 1 ∨ size_add (size_sub index 1) bounds.1 > bounds.2) →
      m.add_constraint var index value = .error .must_add_row := by
    intro bounds hb hc
    unfold lin_prog.add_constraint
    rw [hb]
    simp only [if_neg hc, if_pos hrow]
  have hund : m.has var = false →
      m.add_constraint var index value = .error (.does_not_exist var) := by
    intro hh
    have hb : m.get_bounds var = .error (.does_not_exist var) := by
      unfold lin_prog.get_bounds
      rw [hh]
      rfl
    unfold lin_prog.add_constraint
    rw [hb]
  refine ⟨?_, hund, hout, hin, ?_⟩
  · cases hh : m.has var with
    | false => exact ⟨_, hund hh⟩
    | true =>
      cases hb : m.get_bounds var with
      | error err =>
        refine ⟨err, ?_⟩
        unfold lin_prog.add_constraint
        rw [hb]
      | ok bounds =>
        by_cases hc : index < 1 ∨ size_add (size_sub index 1) bounds.1 > bounds.2
        · exact ⟨_, hout bounds hb hc⟩
        · exact ⟨_, hin bounds hb hc⟩
  · intro ds i hi hl hv h1 h2
    subst hv
    have hb := get_bounds_of_layout m ds hl i hi
    refine hin _ hb ?_
    have hlast := last_col_eq ds i hi
    have hle := (first_col_le ds (i + 1)).2
    rw [first_col_succ] at hle
    have hfit := hl.2.2.2.2
    have hf1 := (first_col_le ds i).1
    rw [size_sub_one index h1 (by omega), size_add_of_lt _ _ (by omega)]
    simp only [gt_iff_lt, not_or, not_lt]
    omega

/-- Witness of `add_constraint_without_row`: a fresh model and the undeclared
name `x`. -/
theorem add_constraint_without_row_witness :
    (lin_prog.init "lp" : lin_prog ℚ).cur_row = 0 ∧
    ((∃ err, (lin_prog.init "lp" : lin_prog ℚ).add_constraint "x" 1 1 = .error err) ∧
    ((lin_prog.init "lp" : lin_prog ℚ).has "x" = false →
      (lin_prog.init "lp" : lin_prog ℚ).add_constraint "x" 1 1 = .error (.does_not_exist "x")) ∧
    (∀ bounds, (lin_prog.init "lp" : lin_prog ℚ).get_bounds "x" = .ok bounds →
      (1 < 1 ∨ size_add (size_sub 1 1) bounds.1 > bounds.2) →
      (lin_prog.init "lp" : lin_prog ℚ).add_constraint "x" 1 1 = .error (.out_of_bounds 1 "x")) ∧
    (∀ bounds, (lin_prog.init "lp" : lin_prog ℚ).get_bounds "x" = .ok bounds →
      ¬ (1 < 1 ∨ size_add (size_sub 1 1) bounds.1 > bounds.2) →
      (lin_prog.init "lp" : lin_prog ℚ).add_constraint "x" 1 1 = .error .must_add_row) ∧
    (∀ (ds : List (String × Nat)) (i : Nat) (hi : i < ds.length),
      Layout (lin_prog.init "lp" : lin_prog ℚ) ds →
      "x" = (ds[i]).1 → 1 ≤ 1 → 1 ≤ (ds[i]).2 →
      (lin_prog.init "lp" : lin_prog ℚ).add_constraint "x" 1 1 = .error .must_add_row)) :=
  ⟨rfl, add_constraint_without_row (lin_prog.init "lp" : lin_prog ℚ) "x" 1 1 rfl⟩

/-- C10 (the code at a failing input): on a model with the groups `x` (columns
1..10) and `z` (columns 11..20) and one row, the call
`add_constraint("z", 2^64 - 10, 1)` passes the wrapped range check and stores
the triplet `(1, 0, 1)`; its column 0 lies in the range of no declared group. -/
theorem add_constraint_stores_column_zero :
    (model_xz.call (.add_constraint "z" (2 ^ 64 - 10) 1)).variable_names = ["x", "z"] ∧
    (model_xz.call (.add_constraint "z" (2 ^ 64 - 10) 1)).get_bounds "x" = .ok (1, 10) ∧
    (model_xz.call (.add_constraint "z" (2 ^ 64 - 10) 1)).get_bounds "z" = .ok (11, 20) ∧
    (model_xz.call (.add_constraint "z" (2 ^ 64 - 10) 1)).cur_row = 1 ∧
    (model_xz.call (.add_constraint "z" (2 ^ 64 - 10) 1)).rows = [0, 1] ∧
    (model_xz.call (.add_constraint "z" (2 ^ 64 - 10) 1)).cols = [0, 0] ∧
    (model_xz.call (.add_constraint "z" (2 ^ 64 - 10) 1)).vals = [0, 1] :=
  ⟨rfl, rfl, rfl, rfl, rfl, rfl, rfl⟩

end LinProg

/-! ## Theorems: declaring groups, solving and reading results -/

namespace LinProg

/-- C11: `declare_variables(name, count)` fails exactly when `name` is already
declared, and then with the duplicate-declaration error (`std::bad_alloc`),
leaving the model as it was; a successful call appends `name` as the last
group, records as its first column the column counter (the previous number of
columns plus one) and, the counter staying within `size_t`, increases the
number of columns by exactly `count`. -/
theorem declare_variables_spec {D : Type} (m : lin_prog D) (name : String) (num : Nat) :
    ((∃ err, m.declare_variables name num = .error err) ↔ name ∈ m.variable_names) ∧
    (name ∈ m.variable_names → m.declare_variables name num = .error .bad_alloc) ∧
    (name ∉ m.variable_names → ∃ m1, m.declare_variables name num = .ok m1 ∧
      m1.variable_names = m.variable_names ++ [name] ∧
      m1.offsets = m.offsets ++ [m.num_vars] ∧
      m1.num_vars = size_add m.num_vars num ∧
      (m.num_vars + num < SIZE_MOD → m1.num_vars = m.num_vars + num) ∧
      m1.rows = m.rows ∧ m1.cols = m.cols ∧ m1.vals = m.vals ∧ m1.cur_row = m.cur_row ∧
      m1.has_run = m.has_run) ∧
    (∀ ds : List (String × Nat), Layout m ds → name ∉ m.variable_names →
      1 + (ds.map Prod.snd).sum + num < SIZE_MOD →
      ∃ m1, m.declare_variables name num = .ok m1 ∧ Layout m1 (ds ++ [(name, num)]) ∧
        m1.get_bounds name = .ok (1 + (ds.map Prod.snd).sum, (ds.map Prod.snd).sum + num)) := by
  have hyes : name ∈ m.variable_names → m.declare_variables name num = .error .bad_alloc := by
    intro h
    have hhas : m.has name = true := (has_iff m name).mpr h
    simp only [lin_prog.declare_variables, hhas, if_true]
  have hno : name ∉ m.variable_names → ∃ m1, m.declare_variables name num = .ok m1 ∧
      m1.variable_names = m.variable_names ++ [name] ∧
      m1.offsets = m.offsets ++ [m.num_vars] ∧
      m1.num_vars = size_add m.num_vars num ∧
      (m.num_vars + num < SIZE_MOD → m1.num_vars = m.num_vars + num) ∧
      m1.rows = m.rows ∧ m1.cols = m.cols ∧ m1.vals = m.vals ∧ m1.cur_row = m.cur_row ∧
      m1.has_run = m.has_run := by
    intro h
    have hhas : m.has name = false := by
      rw [← Bool.not_eq_true, has_iff]
      exact h
    unfold lin_prog.declare_variables
    rw [hhas]
    simp only [Bool.false_eq_true, if_false]
    exact ⟨_, rfl, rfl, rfl, rfl, fun hfit => size_add_of_lt _ _ hfit, rfl, rfl, rfl, rfl, rfl⟩
  refine ⟨⟨?_, ?_⟩, hyes, hno, ?_⟩
  · rintro ⟨err, herr⟩
    by_contra h
    obtain ⟨m1, hm1, -⟩ := hno h
    rw [hm1] at herr
    cases herr
  · intro h
    exact ⟨_, hyes h⟩
  · intro ds hl hnew hfit
    have hnew1 : name ∉ ds.map Prod.fst := by
      rw [← hl.1]
      exact hnew
    obtain ⟨m1, hm1, hl1, -⟩ := Layout_declare m ds name num hl hnew1 hfit
    refine ⟨m1, hm1, hl1, ?_⟩
    have hi : ds.length < (ds ++ [(name, num)]).length := by simp
    have hb := get_bounds_of_layout m1 _ hl1 ds.length hi
    have hget : (ds ++ [(name, num)])[ds.length] = (name, num) := by simp
    rw [hget] at hb
    rw [hb]
    have h1 : first_col (ds ++ [(name, num)]) ds.length = 1 + (ds.map Prod.snd).sum := by
      rw [first_col_append ds _ ds.length le_rfl]
      simp [first_col]
    have h2 : last_col (ds ++ [(name, num)]) ds.length = (ds.map Prod.snd).sum + num := by
      rw [last_col_last _ _ (by simp)]
      simp
    rw [h1, h2]

/-- The methods that build the model leave the solved flag as it was. -/
theorem has_run_preserved {D : Type} (m : lin_prog D) :
    (∀ name num m1, m.declare_variables name num = .ok m1 → m1.has_run = m.has_run) ∧
    (∀ var index value m1, m.add_constraint var index value = .ok m1 →
      m1.has_run = m.has_run) ∧
    (∀ var index type lvalue rvalue m1, m.set_var_bnd var index type lvalue rvalue = .ok m1 →
      m1.has_run = m.has_run) ∧
    (∀ var index type m1, m.set_var_kind var index type = .ok m1 → m1.has_run = m.has_run) ∧
    (∀ var index value m1, m.set_objective_var var index value = .ok m1 →
      m1.has_run = m.has_run) ∧
    (∀ type lvalue rvalue, (m.set_row_bnd type lvalue rvalue).has_run = m.has_run) ∧
    m.set_max.has_run = m.has_run ∧ m.set_min.has_run = m.has_run ∧
    m.add_row.has_run = m.has_run ∧ (∀ name, (m.add_row_named name).has_run = m.has_run) := by
  refine ⟨?_, ?_, ?_, ?_, ?_, fun _ _ _ => rfl, rfl, rfl, rfl, fun _ => rfl⟩
  · intro name num m1 h
    unfold lin_prog.declare_variables at h
    split at h
    · cases h
    · cases h
      rfl
  · intro var index value m1 h
    obtain ⟨bounds, -, rfl⟩ := add_constraint_ok m m1 var index value h
    rfl
  · intro var index type lvalue rvalue m1 h
    unfold lin_prog.set_var_bnd at h
    split at h
    · cases h
    · split at h
      · cases h
      · cases h
        rfl
  · intro var index type m1 h
    unfold lin_prog.set_var_kind at h
    split at h
    · cases h
    · split at h
      · cases h
      · cases h
        rfl
  · intro var index value m1 h
    unfold lin_prog.set_objective_var at h
    split at h
    · cases h
    · split at h
      · cases h
      · cases h
        rfl

/-- A model built from the constructor by model-building calls is not solved. -/
theorem calls_has_run {D : Type} [Zero D] (nm : String) (cs : List (Call D)) :
    ((lin_prog.init nm : lin_prog D).calls cs).has_run = false := by
  have key : ∀ (cs : List (Call D)) (m : lin_prog D), m.has_run = false →
      (m.calls cs).has_run = false := by
    intro cs
    induction cs with
    | nil => intro m h; exact h
    | cons c cs ih =>
      intro m h
      have hstep : (m.call c).has_run = false := by
        obtain ⟨h1, h2, -, -, -, -, -, -, h3, h4⟩ := has_run_preserved m
        cases c with
        | declare_variables name num =>
          simp only [lin_prog.call]
          cases hres : m.declare_variables name num with
          | error err => exact h
          | ok m1 => exact (h1 name num m1 hres).trans h
        | add_row => exact h3.trans h
        | add_row_named name => exact (h4 name).trans h
        | add_constraint var index value =>
          simp only [lin_prog.call]
          cases hres : m.add_constraint var index value with
          | error err => exact h
          | ok m1 => exact (h2 var index value m1 hres).trans h
      exact ih (m.call c) hstep
  exact key cs _ rfl

/-- C12: on a model on which `run` has not been called (the solved flag is
unset, as on every model built from the constructor), `get_obj_val()` and
`get_var_val(name, subIndex)` fail with the not-yet-solved logic error for
every name and sub-index; `run` sets the flag, no model-building method clears
it, and once it is set neither of the two fails with that error. -/
theorem results_need_run {D : Type} [Zero D] (solver : glp_solver D) :
    (∀ (nm : String) (cs : List (Call D)) (var : String) (index : Nat),
      ((lin_prog.init nm : lin_prog D).calls cs).get_obj_val solver = .error .not_run ∧
      ((lin_prog.init nm : lin_prog D).calls cs).get_var_val solver var index =
        .error .not_run) ∧
    (∀ (m : lin_prog D) (var : String) (index : Nat), m.has_run = false →
      m.get_obj_val solver = .error .not_run ∧
      m.get_var_val solver var index = .error .not_run) ∧
    (∀ (m : lin_prog D) (parm : Option glp_iocp), (m.run solver parm).1.has_run = true) ∧
    (∀ (m : lin_prog D) (cs : List (Call D)), m.has_run = true → (m.calls cs).has_run = true) ∧
    (∀ (m : lin_prog D) (var : String) (index : Nat), m.has_run = true →
      m.get_obj_val solver ≠ .error .not_run ∧
      m.get_var_val solver var index ≠ .error .not_run) := by
  have hfalse : ∀ (m : lin_prog D) (var : String) (index : Nat), m.has_run = false →
      m.get_obj_val solver = .error .not_run ∧
      m.get_var_val solver var index = .error .not_run := by
    intro m var index h
    simp [lin_prog.get_obj_val, lin_prog.get_var_val, h]
  refine ⟨fun nm cs var index => hfalse _ var index (calls_has_run nm cs), hfalse,
    fun m parm => rfl, ?_, ?_⟩
  · intro m cs
    induction cs generalizing m with
    | nil => intro h; exact h
    | cons c cs ih =>
      intro h
      refine ih (m.call c) ?_
      obtain ⟨h1, h2, -, -, -, -, -, -, h3, h4⟩ := has_run_preserved m
      cases c with
      | declare_variables name num =>
        simp only [lin_prog.call]
        cases hres : m.declare_variables name num with
        | error err => exact h
        | ok m1 => exact (h1 name num m1 hres).trans h
      | add_row => exact h3.trans h
      | add_row_named name => exact (h4 name).trans h
      | add_constraint var index value =>
        simp only [lin_prog.call]
        cases hres : m.add_constraint var index value with
        | error err => exact h
        | ok m1 => exact (h2 var index value m1 hres).trans h
  · intro m var index h
    refine ⟨by simp [lin_prog.get_obj_val, h], ?_⟩
    unfold lin_prog.get_var_val
    rw [h]
    simp only [Bool.not_true, Bool.false_eq_true, if_false]
    cases hb : m.get_bounds var with
    | error err =>
      intro hcon
      have hne : err = .not_run := by
        simpa using hcon
      subst hne
      unfold lin_prog.get_bounds at hb
      split at hb
      · cases hb
      · split at hb <;> cases hb
    | ok bounds =>
      simp only
      split
      · intro hcon
        cases hcon
      · intro hcon
        cases hcon

/-- When `get_var_val` does not throw it returns no value. -/
theorem get_var_val_no_value {D : Type} (m : lin_prog D) (solver : glp_solver D) (var : String)
    (index : Nat) (v : D) : m.get_var_val solver var index ≠ .ok (some v) := by
  unfold lin_prog.get_var_val
  split
  · intro h
    cases h
  · split
    · intro h
      cases h
    · split
      · intro h
        cases h
      · intro h
        cases h

/-- C13 (the code at a failing input): on the solved model with groups `x`
(columns 1..10) and `z`, where the solver holds the primal value 7 for column
3, `get_var_val("x", 3)` evaluates `glp_get_col_prim` on column 3 but, having
no `return` statement, returns no value. -/
theorem get_var_val_returns_nothing :
    (model_xz.run constant_solver none).1.has_run = true ∧
    (model_xz.run constant_solver none).1.get_bounds "x" = .ok (1, 10) ∧
    constant_solver.get_col_prim (model_xz.run constant_solver none).1.lp 3 = 7 ∧
    (model_xz.run constant_solver none).1.get_var_val constant_solver "x" 3 = .ok none :=
  ⟨rfl, rfl, rfl, rfl⟩

end LinProg

/-! ## Theorems: piecewise linearisation -/

namespace PASAQ

section SlopeLemmas

variable {α : Type} [LinearOrderedField α]

/-- The slope `u_ik` times the segment width is the increase of `f2` over the
segment. -/
theorem u_ik_mul_width (exp : α → α) (Pm : PayoffMatrix) (lambda : α) (K : Int) (i : Nat)
    (k : Int) (hK : 1 ≤ K) :
    u_ik exp Pm lambda K i k * (1 / (K : α)) =
      f2 exp i ((k : α) / (K : α)) Pm lambda - f2 exp i (((k : α) - 1) / (K : α)) Pm lambda := by
  have hK0 : (K : α) ≠ 0 := by
    have : (0 : α) < (K : α) := by exact_mod_cast (by omega : (0 : Int) < K)
    exact ne_of_gt this
  have hw : (k : α) / (K : α) - ((k : α) - 1) / (K : α) = 1 / (K : α) := by
    field_simp
  simp only [u_ik, hw]
  field_simp

/-- The slope `y_ik` times the segment width is the increase of `f1` over the
segment. -/
theorem y_ik_mul_width (exp : α → α) (Pm : PayoffMatrix) (lambda : α) (K : Int) (i : Nat)
    (k : Int) (hK : 1 ≤ K) :
    y_ik exp Pm lambda K i k * (1 / (K : α)) =
      f1 exp i ((k : α) / (K : α)) Pm lambda - f1 exp i (((k : α) - 1) / (K : α)) Pm lambda := by
  have hK0 : (K : α) ≠ 0 := by
    have : (0 : α) < (K : α) := by exact_mod_cast (by omega : (0 : Int) < K)
    exact ne_of_gt this
  have hw : (k : α) / (K : α) - ((k : α) - 1) / (K : α) = 1 / (K : α) := by
    field_simp
  simp only [y_ik, hw]
  field_simp

/-- Telescoping sum of the increases of a function over the first `m` segments. -/
theorem sum_increments (g : α → α) (K : Int) (m : Nat) :
    Finset.sum (Finset.range m)
      (fun k => g (((k + 1 : Nat) : Int) / (K : α)) - g ((((k + 1 : Nat) : Int) - 1) / (K : α))) =
      g ((m : α) / (K : α)) - g 0 := by
  induction m with
  | zero => simp
  | succ m ih =>
    rw [Finset.sum_range_succ, ih]
    push_cast
    ring_nf

end SlopeLemmas

/-- In exact arithmetic with the exponential function of the reals the secant
slopes telescope: for every target index `i`, every `K ≥ 1` and every `m`, the
slopes `u_ik` satisfy `sum over k = 1..m of u_ik * (1/K) = f2(i, m/K)`, the
slopes `y_ik` satisfy `sum over k = 1..m of y_ik * (1/K) = f1(i, m/K) - 1`, and
the objective coefficients of the first `m` segments, each times the segment
width, add up to `-theta(i) * alpha(i) * f2(i, m/K)`. On `double` the identity
holds up to rounding only, see the section on the slopes in `double`
arithmetic. -/
theorem secant_slopes_exact_at_endpoints (Pm : PayoffMatrix) (lambda r : ℝ) (K : Int) (i m : Nat)
    (hK : 1 ≤ K) :
    Finset.sum (Finset.range m)
      (fun k => u_ik Real.exp Pm lambda K i ((k + 1 : Nat) : Int) * (1 / (K : ℝ))) =
      f2 Real.exp i ((m : ℝ) / (K : ℝ)) Pm lambda ∧
    Finset.sum (Finset.range m)
      (fun k => y_ik Real.exp Pm lambda K i ((k + 1 : Nat) : Int) * (1 / (K : ℝ))) =
      f1 Real.exp i ((m : ℝ) / (K : ℝ)) Pm lambda - 1 ∧
    Finset.sum (Finset.range m)
      (fun k => coef_val Real.exp r Pm lambda K i ((k + 1 : Nat) : Int) * (1 / (K : ℝ))) =
      -(theta Real.exp i Pm lambda * alpha i Pm lambda *
        f2 Real.exp i ((m : ℝ) / (K : ℝ)) Pm lambda) := by
  have hu : Finset.sum (Finset.range m)
      (fun k => u_ik Real.exp Pm lambda K i ((k + 1 : Nat) : Int) * (1 / (K : ℝ))) =
      f2 Real.exp i ((m : ℝ) / (K : ℝ)) Pm lambda := by
    simp only [u_ik_mul_width Real.exp Pm lambda K i _ hK]
    rw [sum_increments (fun x => f2 Real.exp i x Pm lambda) K m]
    simp [f2]
  refine ⟨hu, ?_, ?_⟩
  · simp only [y_ik_mul_width Real.exp Pm lambda K i _ hK]
    rw [sum_increments (fun x => f1 Real.exp i x Pm lambda) K m]
    simp [f1]
  · have hc : ∀ k : Nat, coef_val Real.exp r Pm lambda K i ((k + 1 : Nat) : Int) * (1 / (K : ℝ)) =
        -(theta Real.exp i Pm lambda * alpha i Pm lambda) *
          (u_ik Real.exp Pm lambda K i ((k + 1 : Nat) : Int) * (1 / (K : ℝ))) := by
      intro k
      simp only [coef_val]
      ring
    simp only [hc]
    rw [← Finset.mul_sum, hu]
    ring

end PASAQ

/-! ## Theorems: loops and steps of the model builder -/

namespace LinProg

section LoopLemmas

/-- Loop invariant rule for `for_up_to`. -/
theorem for_up_to_inv {σ ε : Type} (n : Nat) (body : σ → Nat → Except ε σ)
    (Inv : Nat → σ → Prop) (s : σ) (h0 : Inv 0 s)
    (hstep : ∀ j s1, j < n → Inv j s1 → ∃ s2, body s1 (j + 1) = .ok s2 ∧ Inv (j + 1) s2) :
    ∃ s1, for_up_to n body s = .ok s1 ∧ Inv n s1 := by
  induction n with
  | zero => exact ⟨s, rfl, h0⟩
  | succ n ih =>
    obtain ⟨s1, h1, hinv1⟩ := ih (fun j s1 hj hinv => hstep j s1 (by omega) hinv)
    obtain ⟨s2, h2, hinv2⟩ := hstep n s1 (by omega) hinv1
    exact ⟨s2, by simp only [for_up_to, h1, h2], hinv2⟩

variable {D : Type}

/-- Under the layout invariant the range check of the indexed methods accepts
every sub-index of a group and addresses the column `first + index - 1`. -/
theorem range_check_of_layout (m : lin_prog D) (ds : List (String × Nat)) (h : Layout m ds)
    (i : Nat) (hi : i < ds.length) (index : Nat) (h1 : 1 ≤ index) (h2 : index ≤ (ds[i]).2) :
    m.get_bounds (ds[i]).1 = .ok (first_col ds i, last_col ds i) ∧
    ¬ (index < 1 ∨ size_add (size_sub index 1) (first_col ds i) > last_col ds i) ∧
    size_add (first_col ds i) (size_sub index 1) = first_col ds i + index - 1 := by
  have hb := get_bounds_of_layout m ds h i hi
  have hlast := last_col_eq ds i hi
  have hle := (first_col_le ds (i + 1)).2
  rw [first_col_succ] at hle
  have hfit := h.2.2.2.2
  have hf1 := (first_col_le ds i).1
  have hidx : index < SIZE_MOD := by omega
  have hsub : size_sub index 1 = index - 1 := size_sub_one index h1 hidx
  refine ⟨hb, ?_, ?_⟩
  · rw [hsub, size_add_of_lt _ _ (by omega)]
    omega
  · rw [hsub, size_add_of_lt _ _ (by omega)]
    omega

/-- Under the layout invariant `set_var_bnd` accepts an in-range sub-index and
sets the bounds of the column `first + index - 1`. -/
theorem set_var_bnd_of_layout (m : lin_prog D) (ds : List (String × Nat)) (h : Layout m ds)
    (i : Nat) (hi : i < ds.length) (index : Nat) (type : Int) (lvalue rvalue : D)
    (h1 : 1 ≤ index) (h2 : index ≤ (ds[i]).2) :
    m.set_var_bnd (ds[i]).1 index type lvalue rvalue = .ok { m with
      lp := m.lp ++ [.set_col_bnds (to_int (first_col ds i + index - 1)) type lvalue rvalue] } := by
  obtain ⟨hb, hc, hcol⟩ := range_check_of_layout m ds h i hi index h1 h2
  unfold lin_prog.set_var_bnd
  rw [hb]
  simp only [if_neg hc, hcol]

/-- Under the layout invariant `set_var_kind` accepts an in-range sub-index and
sets the kind of the column `first + index - 1`. -/
theorem set_var_kind_of_layout (m : lin_prog D) (ds : List (String × Nat)) (h : Layout m ds)
    (i : Nat) (hi : i < ds.length) (index : Nat) (type : Int)
    (h1 : 1 ≤ index) (h2 : index ≤ (ds[i]).2) :
    m.set_var_kind (ds[i]).1 index type = .ok { m with
      lp := m.lp ++ [.set_col_kind (to_int (first_col ds i + index - 1)) type] } := by
  obtain ⟨hb, hc, hcol⟩ := range_check_of_layout m ds h i hi index h1 h2
  unfold lin_prog.set_var_kind
  rw [hb]
  simp only [if_neg hc, hcol]

/-- Under the layout invariant `set_objective_var` accepts an in-range
sub-index and sets the objective coefficient of the column `first + index - 1`. -/
theorem set_objective_var_of_layout (m : lin_prog D) (ds : List (String × Nat))
    (h : Layout m ds) (i : Nat) (hi : i < ds.length) (index : Nat) (value : D)
    (h1 : 1 ≤ index) (h2 : index ≤ (ds[i]).2) :
    m.set_objective_var (ds[i]).1 index value = .ok { m with
      lp := m.lp ++ [.set_obj_coef (to_int (first_col ds i + index - 1)) value] } := by
  obtain ⟨hb, hc, hcol⟩ := range_check_of_layout m ds h i hi index h1 h2
  unfold lin_prog.set_objective_var
  rw [hb]
  simp only [if_neg hc, hcol]

/-- The sparse entries of a model whose triplet lists were extended. -/
theorem triplets_append (m m1 : lin_prog D) (rs cs : List Int) (vs : List D)
    (h1 : m.rows.length = m.cols.length) (h2 : m.cols.length = m.vals.length)
    (h3 : m.rows ≠ []) (hr : m1.rows = m.rows ++ rs) (hc : m1.cols = m.cols ++ cs)
    (hv : m1.vals = m.vals ++ vs) :
    m1.triplets = m.triplets ++ List.zip rs (List.zip cs vs) := by
  unfold lin_prog.triplets
  rw [hr, hc, hv, List.zip_append h2,
    List.zip_append (by rw [List.length_zip, ← h2, Nat.min_self]; exact h1)]
  apply List.tail_append_of_ne_nil
  intro hnil
  have hlen := congrArg List.length hnil
  simp only [List.length_zip, List.length_nil] at hlen
  have : m.rows.length ≠ 0 := by
    intro h0
    exact h3 (List.length_eq_zero.mp h0)
  omega

/-- Every sparse entry of a consistent model lies in a row up to the cursor. -/
theorem triplets_row_le (m : lin_prog D) (h : ∀ r ∈ m.rows, r ≤ (m.cur_row : Int)) :
    ∀ t ∈ m.triplets, t.1 ≤ (m.cur_row : Int) := by
  intro t ht
  unfold lin_prog.triplets at ht
  have ht1 := List.mem_of_mem_tail ht
  obtain ⟨a, b⟩ := t
  exact h a (List.of_mem_zip ht1).1

end LoopLemmas

end LinProg

namespace LinProg

section GroupAccess

variable {D : Type}

/-- Variant of `add_constraint_of_layout` for a group given by name and size. -/
theorem add_constraint_of_group (m : lin_prog D) (ds : List (String × Nat)) (h : Layout m ds)
    (i : Nat) (name : String) (N : Nat) (hget : ds[i]? = some (name, N)) (index : Nat)
    (value : D) (hrow : 1 ≤ m.cur_row) (h1 : 1 ≤ index) (h2 : index ≤ N) :
    m.add_constraint name index value = .ok { m with
      rows := m.rows ++ [to_int m.cur_row]
      cols := m.cols ++ [to_int (first_col ds i + index - 1)]
      vals := m.vals ++ [value] } := by
  obtain ⟨hi, heq⟩ := List.getElem?_eq_some.mp hget
  have := add_constraint_of_layout m ds h i hi index value hrow h1 (by rw [heq]; exact h2)
  rw [heq] at this
  exact this

/-- Variant of `set_var_bnd_of_layout` for a group given by name and size. -/
theorem set_var_bnd_of_group (m : lin_prog D) (ds : List (String × Nat)) (h : Layout m ds)
    (i : Nat) (name : String) (N : Nat) (hget : ds[i]? = some (name, N)) (index : Nat)
    (type : Int) (lvalue rvalue : D) (h1 : 1 ≤ index) (h2 : index ≤ N) :
    m.set_var_bnd name index type lvalue rvalue = .ok { m with
      lp := m.lp ++ [.set_col_bnds (to_int (first_col ds i + index - 1)) type lvalue rvalue] } := by
  obtain ⟨hi, heq⟩ := List.getElem?_eq_some.mp hget
  have := set_var_bnd_of_layout m ds h i hi index type lvalue rvalue h1 (by rw [heq]; exact h2)
  rw [heq] at this
  exact this

/-- Variant of `set_var_kind_of_layout` for a group given by name and size. -/
theorem set_var_kind_of_group (m : lin_prog D) (ds : List (String × Nat)) (h : Layout m ds)
    (i : Nat) (name : String) (N : Nat) (hget : ds[i]? = some (name, N)) (index : Nat)
    (type : Int) (h1 : 1 ≤ index) (h2 : index ≤ N) :
    m.set_var_kind name index type = .ok { m with
      lp := m.lp ++ [.set_col_kind (to_int (first_col ds i + index - 1)) type] } := by
  obtain ⟨hi, heq⟩ := List.getElem?_eq_some.mp hget
  have := set_var_kind_of_layout m ds h i hi index type h1 (by rw [heq]; exact h2)
  rw [heq] at this
  exact this

/-- Variant of `set_objective_var_of_layout` for a group given by name and size. -/
theorem set_objective_var_of_group (m : lin_prog D) (ds : List (String × Nat))
    (h : Layout m ds) (i : Nat) (name : String) (N : Nat) (hget : ds[i]? = some (name, N))
    (index : Nat) (value : D) (h1 : 1 ≤ index) (h2 : index ≤ N) :
    m.set_objective_var name index value = .ok { m with
      lp := m.lp ++ [.set_obj_coef (to_int (first_col ds i + index - 1)) value] } := by
  obtain ⟨hi, heq⟩ := List.getElem?_eq_some.mp hget
  have := set_objective_var_of_layout m ds h i hi index value h1 (by rw [heq]; exact h2)
  rw [heq] at this
  exact this

end GroupAccess

end LinProg

namespace PASAQ

open LinProg

section StepLemmas

variable {D : Type}

/-- Nothing changes in an empty step. -/
theorem Step_refl (m : lin_prog D) : Step m m 0 [] [] [] [] := by
  simp [Step]

/-- Two consecutive steps make one step. -/
theorem Step_trans {m m1 m2 : lin_prog D} {d1 d2 : Nat} {rs1 rs2 cs1 cs2 : List Int}
    {vs1 vs2 : List D} {c1 c2 : List (glp_call D)}
    (h1 : Step m m1 d1 rs1 cs1 vs1 c1) (h2 : Step m1 m2 d2 rs2 cs2 vs2 c2) :
    Step m m2 (d1 + d2) (rs1 ++ rs2) (cs1 ++ cs2) (vs1 ++ vs2) (c1 ++ c2) := by
  obtain ⟨a1, a2, a3, a4, a5, a6, a7, a8⟩ := h1
  obtain ⟨b1, b2, b3, b4, b5, b6, b7, b8⟩ := h2
  refine ⟨by omega, ?_, ?_, ?_, ?_, b6.trans a6, b7.trans a7, b8.trans a8⟩
  · rw [b2, a2, List.append_assoc]
  · rw [b3, a3, List.append_assoc]
  · rw [b4, a4, List.append_assoc]
  · rw [b5, a5, List.append_assoc]

/-- A step keeps the variable groups. -/
theorem Groups_of_Step {T K J : Nat} {m m1 : lin_prog D} {d : Nat} {rs cs : List Int}
    {vs : List D} {calls : List (glp_call D)} (h : Step m m1 d rs cs vs calls)
    (hG : Groups T K J m) : Groups T K J m1 :=
  ⟨Layout_of_eq m m1 _ h.2.2.2.2.2.1 h.2.2.2.2.2.2.1 h.2.2.2.2.2.2.2 hG.1, hG.2⟩

/-- A step whose new entries lie in rows up to the new cursor keeps the triplet
lists consistent. -/
theorem RowsOk_of_Step {m m1 : lin_prog D} {d : Nat} {rs cs : List Int}
    {vs : List D} {calls : List (glp_call D)} (h : Step m m1 d rs cs vs calls)
    (hR : RowsOk m) (hl1 : rs.length = cs.length) (hl2 : cs.length = vs.length)
    (hrs : ∀ r ∈ rs, r ≤ ((m.cur_row + d : Nat) : Int)) : RowsOk m1 := by
  obtain ⟨a1, a2, a3, a4, -⟩ := h
  obtain ⟨r1, r2, r3, r4⟩ := hR
  refine ⟨?_, ?_, ?_, ?_⟩
  · rw [a2, a3, List.length_append, List.length_append, r1, hl1]
  · rw [a3, a4, List.length_append, List.length_append, r2, hl2]
  · rw [a2]
    intro hnil
    exact r3 (List.append_eq_nil.mp hnil).1
  · intro r hr
    rw [a2] at hr
    rw [a1]
    rcases List.mem_append.mp hr with h1 | h1
    · have := r4 r h1
      push_cast
      omega
    · exact hrs r h1

/-- Every model extends itself. -/
theorem Extends_refl (m : lin_prog D) : Extends m m :=
  ⟨0, [], [], [], [], Step_refl m, rfl, rfl, fun r hr => by cases hr⟩

/-- Extension is transitive. -/
theorem Extends_trans {m m1 m2 : lin_prog D} (h1 : Extends m m1) (h2 : Extends m1 m2) :
    Extends m m2 := by
  obtain ⟨d1, rs1, cs1, vs1, c1, s1, l1, l1', b1⟩ := h1
  obtain ⟨d2, rs2, cs2, vs2, c2, s2, l2, l2', b2⟩ := h2
  refine ⟨d1 + d2, rs1 ++ rs2, cs1 ++ cs2, vs1 ++ vs2, c1 ++ c2, Step_trans s1 s2, ?_, ?_, ?_⟩
  · rw [List.length_append, List.length_append, l1, l2]
  · rw [List.length_append, List.length_append, l1', l2']
  · intro r hr
    have hcur : m1.cur_row = m.cur_row + d1 := s1.1
    rcases List.mem_append.mp hr with h | h
    · have := b1 r h
      push_cast at this ⊢
      omega
    · have := b2 r h
      rw [hcur] at this
      push_cast at this ⊢
      omega

/-- An extension keeps the model ready. -/
theorem Ready_of_Extends {T K J : Nat} {m m1 : lin_prog D} (h : Extends m m1)
    (hR : Ready T K J m) : Ready T K J m1 := by
  obtain ⟨d, rs, cs, vs, calls, hs, l1, l2, hb⟩ := h
  exact ⟨Groups_of_Step hs hR.1, RowsOk_of_Step hs hR.2 l1 l2 (fun r hr => (hb r hr).2)⟩

/-- The row cursor does not decrease in an extension. -/
theorem cur_row_le_of_Extends {m m1 : lin_prog D} (h : Extends m m1) :
    m.cur_row ≤ m1.cur_row := by
  obtain ⟨d, rs, cs, vs, calls, hs, -⟩ := h
  rw [hs.1]
  omega

/-- The solver calls made after position `n0` are kept by an extension. -/
theorem mem_lp_of_Extends {m m1 : lin_prog D} (h : Extends m m1) (n0 : Nat) (c : glp_call D)
    (hc : c ∈ m.lp.drop n0) : c ∈ m1.lp.drop n0 := by
  obtain ⟨d, rs, cs, vs, calls, hs, -⟩ := h
  rw [hs.2.2.2.2.1, List.drop_append_eq_append_drop]
  exact List.mem_append_left _ hc

/-- The log of solver calls does not shrink in an extension. -/
theorem lp_length_le_of_Extends {m m1 : lin_prog D} (h : Extends m m1) :
    m.lp.length ≤ m1.lp.length := by
  obtain ⟨d, rs, cs, vs, calls, hs, -⟩ := h
  rw [hs.2.2.2.2.1, List.length_append]
  omega

/-- The solver calls of a step are among the calls made after the start. -/
theorem mem_lp_of_Step {m m1 : lin_prog D} {d : Nat} {rs cs : List Int}
    {vs : List D} {calls : List (glp_call D)} (h : Step m m1 d rs cs vs calls) (n0 : Nat)
    (hn : n0 ≤ m.lp.length) (c : glp_call D) (hc : c ∈ calls) : c ∈ m1.lp.drop n0 := by
  rw [h.2.2.2.2.1, List.drop_append_eq_append_drop]
  apply List.mem_append_right
  have : n0 - m.lp.length = 0 := by omega
  rw [this]
  exact hc

/-- The terms of a row created before an extension are not changed by it. -/
theorem row_terms_of_Extends {m m1 : lin_prog D} (hR : RowsOk m) (h : Extends m m1) (r : Int)
    (hr : r ≤ (m.cur_row : Int)) : m1.row_terms r = m.row_terms r := by
  obtain ⟨d, rs, cs, vs, calls, hs, l1, l2, hb⟩ := h
  have ht := triplets_append m m1 rs cs vs hR.1 hR.2.1 hR.2.2.1 hs.2.1 hs.2.2.1 hs.2.2.2.1
  unfold lin_prog.row_terms
  rw [ht, List.filter_append]
  have hnil : (List.zip rs (List.zip cs vs)).filter (fun t => decide (t.1 = r)) = [] := by
    rw [List.filter_eq_nil_iff]
    intro t ht1
    obtain ⟨a, b⟩ := t
    have := (hb a (List.of_mem_zip ht1).1).1
    simp only [decide_eq_true_eq]
    omega
  rw [hnil, List.append_nil]

/-- The terms of a row whose entries were all appended in one step, after every
entry stored before. -/
theorem row_terms_of_Step {m m1 : lin_prog D} {d : Nat} {rs cs : List Int}
    {vs : List D} {calls : List (glp_call D)} (hR : RowsOk m)
    (h : Step m m1 d rs cs vs calls) (r : Int) (hr : (m.cur_row : Int) < r)
    (hall : ∀ a ∈ rs, a = r) : m1.row_terms r = List.zip rs (List.zip cs vs) := by
  have ht := triplets_append m m1 rs cs vs hR.1 hR.2.1 hR.2.2.1 h.2.1 h.2.2.1 h.2.2.2.1
  unfold lin_prog.row_terms
  rw [ht, List.filter_append]
  have hnil : m.triplets.filter (fun t => decide (t.1 = r)) = [] := by
    rw [List.filter_eq_nil_iff]
    intro t ht1
    have := triplets_row_le m hR.2.2.2 t ht1
    simp only [decide_eq_true_eq]
    omega
  have hfull : (List.zip rs (List.zip cs vs)).filter (fun t => decide (t.1 = r)) =
      List.zip rs (List.zip cs vs) := by
    rw [List.filter_eq_self]
    intro t ht1
    obtain ⟨a, b⟩ := t
    simp only [decide_eq_true_eq]
    exact hall a (List.of_mem_zip ht1).1
  rw [hnil, hfull, List.nil_append]

/-- Adding a named row is a step of one row. -/
theorem step_add_row_named (m : lin_prog D) (nm : String) (h : m.cur_row + 1 ≤ INT_MAX) :
    Step m (m.add_row_named nm) 1 [] [] []
      [.add_rows 1, .set_row_name ((m.cur_row + 1 : Nat) : Int) nm] := by
  have hadd : size_add m.cur_row 1 = m.cur_row + 1 :=
    size_add_of_lt _ _ (by unfold INT_MAX at h; unfold SIZE_MOD; omega)
  have hto : to_int (m.cur_row + 1) = ((m.cur_row + 1 : Nat) : Int) := to_int_of_le _ h
  simp [Step, lin_prog.add_row_named, lin_prog.add_row, hadd, hto]

/-- Setting the bounds of the current row is a step of one solver call. -/
theorem step_set_row_bnd (m : lin_prog D) (type : Int) (lvalue rvalue : D)
    (h : m.cur_row ≤ INT_MAX) :
    Step m (m.set_row_bnd type lvalue rvalue) 0 [] [] []
      [.set_row_bnds (m.cur_row : Int) type lvalue rvalue] := by
  simp [Step, lin_prog.set_row_bnd, to_int_of_le _ h]

end StepLemmas

end PASAQ

namespace PASAQ

open LinProg

section GroupLemmas

variable {D : Type}

/-- The sub-index expression `((i - 1) * K) + k` does not wrap for a target and
a segment of the instance, and it is a sub-index of the groups `x` and `z`. -/
theorem sub_index_eq (T K i k : Nat) (hi1 : 1 ≤ i) (hi2 : i ≤ T) (hk1 : 1 ≤ k) (hk2 : k ≤ K)
    (hfit : T * K ≤ INT_MAX) :
    size_add (size_mul (size_sub i 1) K) k = (i - 1) * K + k ∧
    1 ≤ (i - 1) * K + k ∧ (i - 1) * K + k ≤ T * K := by
  have hle : (i - 1) * K + k ≤ T * K := by
    have h1 : (i - 1) * K + K ≤ T * K := by
      have : (i - 1 + 1) * K ≤ T * K := Nat.mul_le_mul_right K (by omega)
      rw [Nat.add_mul, Nat.one_mul] at this
      exact this
    omega
  have hT : T ≤ T * K := Nat.le_mul_of_pos_right T (by omega)
  have hmax : INT_MAX < SIZE_MOD := by unfold INT_MAX SIZE_MOD; omega
  have hsub : size_sub i 1 = i - 1 := size_sub_one i hi1 (by omega)
  have hmul : size_mul (i - 1) K = (i - 1) * K := by
    unfold size_mul
    exact Nat.mod_eq_of_lt (by omega)
  refine ⟨?_, by omega, hle⟩
  rw [hsub, hmul, size_add_of_lt _ _ (by omega)]

/-- First columns of the three groups of a PASAQ instance. -/
theorem pasaq_first_cols (T K J : Nat) :
    first_col (pasaq_groups T K J) 0 = 1 ∧
    first_col (pasaq_groups T K J) 1 = 1 + T * K ∧
    first_col (pasaq_groups T K J) 2 = 1 + 2 * (T * K) := by
  refine ⟨by simp [first_col, pasaq_groups], by simp [first_col, pasaq_groups], ?_⟩
  simp [first_col, pasaq_groups]
  omega

/-- Adding a term on `x` is a step that appends the entry
`(current row, index, value)`. -/
theorem step_add_x {T K J : Nat} (m : lin_prog D) (hG : Groups T K J m) (index : Nat)
    (value : D) (hrow : 1 ≤ m.cur_row) (hmax : m.cur_row ≤ INT_MAX) (h1 : 1 ≤ index)
    (h2 : index ≤ T * K) :
    ∃ m1, m.add_constraint "x" index value = .ok m1 ∧
      Step m m1 0 [(m.cur_row : Int)] [(index : Int)] [value] [] := by
  have h := add_constraint_of_group m (pasaq_groups T K J) hG.1 0 "x" (T * K) rfl
    index value hrow h1 h2
  have hG2 := hG.2
  refine ⟨_, h, ?_⟩
  rw [(pasaq_first_cols T K J).1, to_int_of_le _ hmax, to_int_of_le _ (by omega)]
  have : 1 + index - 1 = index := by omega
  simp [Step, this]

/-- Adding a term on `z` is a step that appends the entry
`(current row, T * K + index, value)`. -/
theorem step_add_z {T K J : Nat} (m : lin_prog D) (hG : Groups T K J m) (index : Nat)
    (value : D) (hrow : 1 ≤ m.cur_row) (hmax : m.cur_row ≤ INT_MAX) (h1 : 1 ≤ index)
    (h2 : index ≤ T * K) :
    ∃ m1, m.add_constraint "z" index value = .ok m1 ∧
      Step m m1 0 [(m.cur_row : Int)] [((T * K + index : Nat) : Int)] [value] [] := by
  have h := add_constraint_of_group m (pasaq_groups T K J) hG.1 1 "z" (T * K) rfl
    index value hrow h1 h2
  have hG2 := hG.2
  refine ⟨_, h, ?_⟩
  rw [(pasaq_first_cols T K J).2.1, to_int_of_le _ hmax, to_int_of_le _ (by omega)]
  have : 1 + T * K + index - 1 = T * K + index := by omega
  simp [Step, this]

/-- Setting the bounds of a variable `x` is a step of one solver call. -/
theorem step_bnd_x {T K J : Nat} (m : lin_prog D) (hG : Groups T K J m) (index : Nat)
    (type : Int) (lvalue rvalue : D) (h1 : 1 ≤ index) (h2 : index ≤ T * K) :
    ∃ m1, m.set_var_bnd "x" index type lvalue rvalue = .ok m1 ∧
      Step m m1 0 [] [] [] [.set_col_bnds (index : Int) type lvalue rvalue] := by
  have h := set_var_bnd_of_group m (pasaq_groups T K J) hG.1 0 "x" (T * K) rfl
    index type lvalue rvalue h1 h2
  have hG2 := hG.2
  refine ⟨_, h, ?_⟩
  rw [(pasaq_first_cols T K J).1, to_int_of_le _ (by omega)]
  have : 1 + index - 1 = index := by omega
  simp [Step, this]

/-- Setting the kind of a variable `z` is a step of one solver call. -/
theorem step_kind_z {T K J : Nat} (m : lin_prog D) (hG : Groups T K J m) (index : Nat)
    (type : Int) (h1 : 1 ≤ index) (h2 : index ≤ T * K) :
    ∃ m1, m.set_var_kind "z" index type = .ok m1 ∧
      Step m m1 0 [] [] [] [.set_col_kind ((T * K + index : Nat) : Int) type] := by
  have h := set_var_kind_of_group m (pasaq_groups T K J) hG.1 1 "z" (T * K) rfl
    index type h1 h2
  have hG2 := hG.2
  refine ⟨_, h, ?_⟩
  rw [(pasaq_first_cols T K J).2.1, to_int_of_le _ (by omega)]
  have : 1 + T * K + index - 1 = T * K + index := by omega
  simp [Step, this]

end GroupLemmas

end PASAQ

namespace PASAQ

open LinProg

section DoubleLoop

variable {D : Type}

/-- Rule for the nested loops `for i = 1..T, for k = 1..Kl` of the constraint
functions when every iteration adds `d` rows: the loops succeed, the result
extends the start, and the fact established by every iteration holds at the
end. -/
theorem double_loop {T K J : Nat} (Kl d n0 : Nat)
    (body : lin_prog D → Nat → Nat → Except Error (lin_prog D))
    (Fact : Nat → Nat → Nat → lin_prog D → Prop)
    (hblock : ∀ s i k, Ready T K J s → n0 ≤ s.lp.length → 1 ≤ i → i ≤ T → 1 ≤ k → k ≤ Kl →
      s.cur_row + d ≤ INT_MAX →
      ∃ s1, body s i k = .ok s1 ∧ Extends s s1 ∧ s1.cur_row = s.cur_row + d ∧
        Fact i k s.cur_row s1)
    (hmono : ∀ i k c s s1, Ready T K J s → Extends s s1 → c + d ≤ s.cur_row →
      Fact i k c s → Fact i k c s1)
    (m : lin_prog D) (hR : Ready T K J m) (hn0 : n0 ≤ m.lp.length)
    (hrows : m.cur_row + T * Kl * d ≤ INT_MAX) :
    ∃ m1, for_up_to T (fun LP i => for_up_to Kl (fun LP k => body LP i k) LP) m = .ok m1 ∧
      Ready T K J m1 ∧ Extends m m1 ∧ m1.cur_row = m.cur_row + T * Kl * d ∧
      ∀ i k, i < T → k < Kl → Fact (i + 1) (k + 1) (m.cur_row + (i * Kl + k) * d) m1 := by
  have inner : ∀ (i0 : Nat) (s0 : lin_prog D), i0 < T → Ready T K J s0 →
      n0 ≤ s0.lp.length → s0.cur_row + Kl * d ≤ INT_MAX →
      ∃ s1, for_up_to Kl (fun LP k => body LP (i0 + 1) k) s0 = .ok s1 ∧
        Ready T K J s1 ∧ Extends s0 s1 ∧ s1.cur_row = s0.cur_row + Kl * d ∧
        ∀ k, k < Kl → Fact (i0 + 1) (k + 1) (s0.cur_row + k * d) s1 := by
    intro i0 s0 hi0 hR0 hn00 hfit0
    have := for_up_to_inv Kl (fun LP k => body LP (i0 + 1) k)
      (fun j s => Ready T K J s ∧ Extends s0 s ∧ s.cur_row = s0.cur_row + j * d ∧
        ∀ k, k < j → Fact (i0 + 1) (k + 1) (s0.cur_row + k * d) s) s0
      ⟨hR0, Extends_refl s0, by simp, fun k hk => by omega⟩
      (by
        intro j s hj ⟨hRs, hEs, hcs, hFs⟩
        have hjd : (j + 1) * d ≤ Kl * d := Nat.mul_le_mul_right d (by omega)
        rw [Nat.add_mul, Nat.one_mul] at hjd
        obtain ⟨s1, hb, hE1, hc1, hF1⟩ := hblock s (i0 + 1) (j + 1) hRs
          (le_trans hn00 (lp_length_le_of_Extends hEs)) (by omega) (by omega)
          (by omega) (by omega) (by omega)
        refine ⟨s1, hb, Ready_of_Extends hE1 hRs, Extends_trans hEs hE1, ?_, ?_⟩
        · rw [hc1, hcs, Nat.add_mul, Nat.one_mul]
          omega
        · intro k hk
          rcases Nat.lt_or_ge k j with hlt | hge
          · refine hmono _ _ _ s s1 hRs hE1 ?_ (hFs k hlt)
            have hkd : (k + 1) * d ≤ j * d := Nat.mul_le_mul_right d (by omega)
            rw [Nat.add_mul, Nat.one_mul] at hkd
            omega
          · have hkj : k = j := by omega
            subst hkj
            rw [← hcs]
            exact hF1)
    obtain ⟨s1, h1, hR1, hE1, hc1, hF1⟩ := this
    exact ⟨s1, h1, hR1, hE1, hc1, hF1⟩
  have := for_up_to_inv T (fun LP i => for_up_to Kl (fun LP k => body LP i k) LP)
    (fun i s => Ready T K J s ∧ Extends m s ∧ s.cur_row = m.cur_row + i * Kl * d ∧
      ∀ i1 k, i1 < i → k < Kl → Fact (i1 + 1) (k + 1) (m.cur_row + (i1 * Kl + k) * d) s) m
    ⟨hR, Extends_refl m, by simp, fun i1 k hi1 _ => by omega⟩
    (by
      intro i s hi ⟨hRs, hEs, hcs, hFs⟩
      have hid : (i + 1) * Kl * d ≤ T * Kl * d :=
        Nat.mul_le_mul_right d (Nat.mul_le_mul_right Kl (by omega))
      have hexp : (i + 1) * Kl * d = i * Kl * d + Kl * d := by
        rw [Nat.add_mul, Nat.one_mul, Nat.add_mul]
      obtain ⟨s1, h1, hR1, hE1, hc1, hF1⟩ := inner i s hi hRs
        (le_trans hn0 (lp_length_le_of_Extends hEs)) (by omega)
      refine ⟨s1, h1, hR1, Extends_trans hEs hE1, by omega, ?_⟩
      intro i1 k hi1 hk
      rcases Nat.lt_or_ge i1 i with hlt | hge
      · refine hmono _ _ _ s s1 hRs hE1 ?_ (hFs i1 k hlt hk)
        have h2 : i1 * Kl + k + 1 ≤ i * Kl := by
          have : (i1 + 1) * Kl ≤ i * Kl := Nat.mul_le_mul_right Kl (by omega)
          rw [Nat.add_mul, Nat.one_mul] at this
          omega
        have h3 : (i1 * Kl + k + 1) * d ≤ i * Kl * d := Nat.mul_le_mul_right d h2
        rw [Nat.add_mul, Nat.one_mul] at h3
        omega
      · have hii : i1 = i := by omega
        subst hii
        have := hF1 k hk
        rw [hcs] at this
        have he : m.cur_row + i1 * Kl * d + k * d = m.cur_row + (i1 * Kl + k) * d := by
          rw [Nat.add_mul]
          omega
        rw [he] at this
        exact this)
  obtain ⟨m1, h1, hR1, hE1, hc1, hF1⟩ := this
  exact ⟨m1, h1, hR1, hE1, hc1, hF1⟩

end DoubleLoop

end PASAQ

namespace PASAQ

open LinProg

section Blocks

variable {α : Type}

/-- A step of one row whose entries all lie in the new row is an extension; its
solver calls are among the calls made after the start and its entries are the
terms of the new row. -/
theorem facts_of_row_step {T K J : Nat} {s s1 : lin_prog α} {rs cs : List Int} {vs : List α}
    {calls : List (glp_call α)} (hR : Ready T K J s) (hS : Step s s1 1 rs cs vs calls)
    (hl1 : rs.length = cs.length) (hl2 : cs.length = vs.length)
    (hrs : ∀ a ∈ rs, a = ((s.cur_row + 1 : Nat) : Int)) (n0 : Nat) (hn0 : n0 ≤ s.lp.length) :
    Extends s s1 ∧ (∀ c ∈ calls, c ∈ s1.lp.drop n0) ∧
    s1.row_terms ((s.cur_row + 1 : Nat) : Int) = List.zip rs (List.zip cs vs) := by
  refine ⟨⟨1, rs, cs, vs, calls, hS, hl1, hl2, ?_⟩, fun c hc => mem_lp_of_Step hS n0 hn0 c hc,
    row_terms_of_Step hR.2 hS _ (by push_cast; omega) hrs⟩
  intro r hr
  rw [hrs r hr]
  push_cast
  omega

/-- A step without rows and entries is an extension whose solver calls are
among the calls made after the start. -/
theorem facts_of_call_step {s s1 : lin_prog α} {calls : List (glp_call α)}
    (hS : Step s s1 0 [] [] [] calls) (n0 : Nat) (hn0 : n0 ≤ s.lp.length) :
    Extends s s1 ∧ ∀ c ∈ calls, c ∈ s1.lp.drop n0 :=
  ⟨⟨0, [], [], [], calls, hS, rfl, rfl, fun r hr => by cases hr⟩,
    fun c hc => mem_lp_of_Step hS n0 hn0 c hc⟩

/-- The block `add_row; set_row_bnd; add_constraint x; add_constraint z` of the
constraints (13) and (14) is a step of one row with two entries. -/
theorem row_block_xz {T K J : Nat} (s : lin_prog α) (hR : Ready T K J s)
    (hmax : s.cur_row + 1 ≤ INT_MAX) (nm : String) (type : Int) (lb ub : α) (ix iz : Nat)
    (vx vz : α) (hx1 : 1 ≤ ix) (hx2 : ix ≤ T * K) (hz1 : 1 ≤ iz) (hz2 : iz ≤ T * K) :
    ∃ s1,
      (match ((s.add_row_named nm).set_row_bnd type lb ub).add_constraint "x" ix vx with
        | .error err => Except.error err
        | .ok LP => LP.add_constraint "z" iz vz) = .ok s1 ∧
      Step s s1 1 [((s.cur_row + 1 : Nat) : Int), ((s.cur_row + 1 : Nat) : Int)]
        [(ix : Int), ((T * K + iz : Nat) : Int)] [vx, vz]
        [.add_rows 1, .set_row_name ((s.cur_row + 1 : Nat) : Int) nm,
          .set_row_bnds ((s.cur_row + 1 : Nat) : Int) type lb ub] := by
  have hA := step_add_row_named s nm hmax
  have hcA : (s.add_row_named nm).cur_row = s.cur_row + 1 := hA.1
  have hB := step_set_row_bnd (s.add_row_named nm) type lb ub (by omega)
  rw [hcA] at hB
  have hAB := Step_trans hA hB
  have hcB : ((s.add_row_named nm).set_row_bnd type lb ub).cur_row = s.cur_row + 1 := hAB.1
  have hGB := Groups_of_Step hAB hR.1
  obtain ⟨sC, hC, hSC⟩ := step_add_x _ hGB ix vx (by omega) (by omega) hx1 hx2
  rw [hcB] at hSC
  have hABC := Step_trans hAB hSC
  have hcC : sC.cur_row = s.cur_row + 1 := hABC.1
  have hGC := Groups_of_Step hABC hR.1
  obtain ⟨sD, hD, hSD⟩ := step_add_z sC hGC iz vz (by omega) (by omega) hz1 hz2
  rw [hcC] at hSD
  have hAll := Step_trans hABC hSD
  refine ⟨sD, by rw [hC]; exact hD, ?_⟩
  simpa using hAll

end Blocks

end PASAQ

namespace PASAQ

open LinProg

section ConstraintSpecs

variable {α : Type} [LinearOrderedField α]

/-- Constraint (12) on a ready model: every `x_ik` receives the double bound
`0 ≤ x_ik ≤ 1/K`, and no row is added. -/
theorem constraint_12_spec {T K J : Nat} (m : lin_prog α) (hR : Ready T K J m) (n0 : Nat)
    (hn0 : n0 ≤ m.lp.length) (hrows : m.cur_row ≤ INT_MAX) :
    ∃ m1, set_pasaq_constraint_12 m T K = .ok m1 ∧ Ready T K J m1 ∧ Extends m m1 ∧
      m1.cur_row = m.cur_row ∧
      ∀ i k, i < T → k < K →
        glp_call.set_col_bnds ((i * K + k + 1 : Nat) : Int) GLP_DB 0 (1 / (K : α)) ∈
          m1.lp.drop n0 := by
  have hTK : T * K ≤ INT_MAX := by have := hR.1.2; omega
  obtain ⟨m1, h1, hR1, hE1, hc1, hF1⟩ := double_loop K 0 n0
    (fun LP i k =>
      LP.set_var_bnd "x" (size_add (size_mul (size_sub i 1) K) k) GLP_DB 0 (1 / (K : α)))
    (fun i k _ s =>
      glp_call.set_col_bnds (((i - 1) * K + k : Nat) : Int) GLP_DB 0 (1 / (K : α)) ∈
        s.lp.drop n0)
    (by
      intro s i k hRs hn hi1 hi2 hk1 hk2 _
      obtain ⟨hidx, hl, hu⟩ := sub_index_eq T K i k hi1 hi2 hk1 hk2 hTK
      obtain ⟨s1, hs1, hS⟩ := step_bnd_x s hRs.1 ((i - 1) * K + k) GLP_DB 0 (1 / (K : α)) hl hu
      obtain ⟨hE, hmem⟩ := facts_of_call_step hS n0 hn
      refine ⟨s1, by simp only [hidx]; exact hs1, hE, hS.1, ?_⟩
      exact hmem _ (List.mem_singleton.mpr rfl))
    (fun i k c s s1 _ hE _ hF => mem_lp_of_Extends hE n0 _ hF)
    m hR hn0 (by simpa using hrows)
  refine ⟨m1, h1, hR1, hE1, by simpa using hc1, ?_⟩
  intro i k hi hk
  have := hF1 i k hi hk
  simpa using this

/-- Constraint (13) on a ready model: `T * K` rows are added; the row of target
`i + 1` and segment `k + 1` is row `cur_row + i * K + k + 1`, it has upper bound
0 and exactly the terms `-1 * x` and `(1/K) * z` of that target and segment. -/
theorem constraint_13_spec {T K J : Nat} (m : lin_prog α) (hR : Ready T K J m) (n0 : Nat)
    (hn0 : n0 ≤ m.lp.length) (hrows : m.cur_row + T * K ≤ INT_MAX) :
    ∃ m1, set_pasaq_constraint_13 m T K = .ok m1 ∧ Ready T K J m1 ∧ Extends m m1 ∧
      m1.cur_row = m.cur_row + T * K ∧
      ∀ i k, i < T → k < K →
        glp_call.set_row_bnds ((m.cur_row + (i * K + k) + 1 : Nat) : Int) GLP_UP 0 0 ∈
          m1.lp.drop n0 ∧
        m1.row_terms ((m.cur_row + (i * K + k) + 1 : Nat) : Int) =
          [(((m.cur_row + (i * K + k) + 1 : Nat) : Int), ((i * K + k + 1 : Nat) : Int), (-1 : α)),
           (((m.cur_row + (i * K + k) + 1 : Nat) : Int), ((T * K + (i * K + k + 1) : Nat) : Int),
             1 / (K : α))] := by
  have hTK : T * K ≤ INT_MAX := by have := hR.1.2; omega
  obtain ⟨m1, h1, hR1, hE1, hc1, hF1⟩ := double_loop K 1 n0
    (fun LP i k =>
      match ((LP.add_row_named ("13-" ++ toString i ++ " " ++ toString k)).set_row_bnd
          GLP_UP 0 0).add_constraint "x" (size_add (size_mul (size_sub i 1) K) k) (-1) with
      | .error err => Except.error err
      | .ok LP => LP.add_constraint "z" (size_add (size_mul (size_sub i 1) K) k) (1 / (K : α)))
    (fun i k c s =>
      glp_call.set_row_bnds ((c + 1 : Nat) : Int) GLP_UP 0 0 ∈ s.lp.drop n0 ∧
      s.row_terms ((c + 1 : Nat) : Int) =
        [(((c + 1 : Nat) : Int), (((i - 1) * K + k : Nat) : Int), (-1 : α)),
         (((c + 1 : Nat) : Int), ((T * K + ((i - 1) * K + k) : Nat) : Int), 1 / (K : α))])
    (by
      intro s i k hRs hn hi1 hi2 hk1 hk2 hmax
      obtain ⟨hidx, hl, hu⟩ := sub_index_eq T K i k hi1 hi2 hk1 hk2 hTK
      obtain ⟨s1, hs1, hS⟩ := row_block_xz s hRs hmax
        ("13-" ++ toString i ++ " " ++ toString k) GLP_UP 0 0 ((i - 1) * K + k)
        ((i - 1) * K + k) (-1) (1 / (K : α)) hl hu hl hu
      obtain ⟨hE, hmem, hterms⟩ := facts_of_row_step hRs hS rfl rfl
        (by intro a ha; simp only [List.mem_cons, List.mem_singleton, List.not_mem_nil,
              or_false, or_self] at ha; exact ha) n0 hn
      refine ⟨s1, by simp only [hidx]; exact hs1, hE, hS.1, ?_, ?_⟩
      · exact hmem _ (by simp)
      · rw [hterms]
        rfl)
    (by
      intro i k c s s1 hRs hE hc ⟨hF1, hF2⟩
      refine ⟨mem_lp_of_Extends hE n0 _ hF1, ?_⟩
      rw [row_terms_of_Extends hRs.2 hE _ (by push_cast; omega)]
      exact hF2)
    m hR hn0 (by simpa using hrows)
  refine ⟨m1, h1, hR1, hE1, by simpa using hc1, ?_⟩
  intro i k hi hk
  have := hF1 i k hi hk
  simpa [Nat.add_assoc] using this

end ConstraintSpecs

end PASAQ

namespace PASAQ

open LinProg

section ConstraintSpecs2

variable {α : Type} [LinearOrderedField α]

/-- Constraint (14) on a ready model with `K ≥ 1`: `T * (K - 1)` rows are added;
the row of target `i + 1` and segment `k + 1 < K` has upper bound 0 and exactly
the terms `1 * x` of segment `k + 2` and `-1 * z` of segment `k + 1`. -/
theorem constraint_14_spec {T K J : Nat} (m : lin_prog α) (hK : 1 ≤ K) (hR : Ready T K J m)
    (n0 : Nat) (hn0 : n0 ≤ m.lp.length) (hrows : m.cur_row + T * (K - 1) ≤ INT_MAX) :
    ∃ m1, set_pasaq_constraint_14 m T K = .ok m1 ∧ Ready T K J m1 ∧ Extends m m1 ∧
      m1.cur_row = m.cur_row + T * (K - 1) ∧
      ∀ i k, i < T → k < K - 1 →
        glp_call.set_row_bnds ((m.cur_row + (i * (K - 1) + k) + 1 : Nat) : Int) GLP_UP 0 0 ∈
          m1.lp.drop n0 ∧
        m1.row_terms ((m.cur_row + (i * (K - 1) + k) + 1 : Nat) : Int) =
          [(((m.cur_row + (i * (K - 1) + k) + 1 : Nat) : Int), ((i * K + k + 2 : Nat) : Int),
             (1 : α)),
           (((m.cur_row + (i * (K - 1) + k) + 1 : Nat) : Int),
             ((T * K + (i * K + k + 1) : Nat) : Int), (-1 : α))] := by
  rcases Nat.eq_zero_or_pos T with hT | hT
  · subst hT
    refine ⟨m, rfl, hR, Extends_refl m, by simp, ?_⟩
    intro i k hi
    omega
  have hTK : T * K ≤ INT_MAX := by have := hR.1.2; omega
  have hKT : K ≤ T * K := Nat.le_mul_of_pos_left K hT
  have hsub : size_sub K 1 = K - 1 :=
    size_sub_one K hK (by unfold INT_MAX at hTK; unfold SIZE_MOD; omega)
  obtain ⟨m1, h1, hR1, hE1, hc1, hF1⟩ := double_loop (K - 1) 1 n0
    (fun (LP : lin_prog α) i k =>
      match ((LP.add_row_named ("14-" ++ toString i ++ toString k)).set_row_bnd
          GLP_UP 0 0).add_constraint "x"
            (size_add (size_add (size_mul (size_sub i 1) K) k) 1) 1 with
      | .error err => Except.error err
      | .ok LP => LP.add_constraint "z" (size_add (size_mul (size_sub i 1) K) k) (-1))
    (fun i k c s =>
      glp_call.set_row_bnds ((c + 1 : Nat) : Int) GLP_UP 0 0 ∈ s.lp.drop n0 ∧
      s.row_terms ((c + 1 : Nat) : Int) =
        [(((c + 1 : Nat) : Int), (((i - 1) * K + k + 1 : Nat) : Int), (1 : α)),
         (((c + 1 : Nat) : Int), ((T * K + ((i - 1) * K + k) : Nat) : Int), (-1 : α))])
    (by
      intro s i k hRs hn hi1 hi2 hk1 hk2 hmax
      obtain ⟨hidx, hl, hu⟩ := sub_index_eq T K i k hi1 hi2 hk1 (by omega) hTK
      obtain ⟨hidx2, hl2, hu2⟩ := sub_index_eq T K i (k + 1) hi1 hi2 (by omega) (by omega) hTK
      have hadd : size_add ((i - 1) * K + k) 1 = (i - 1) * K + k + 1 :=
        size_add_of_lt _ _ (by unfold INT_MAX at hTK; unfold SIZE_MOD; omega)
      obtain ⟨s1, hs1, hS⟩ := row_block_xz s hRs hmax
        ("14-" ++ toString i ++ toString k) GLP_UP 0 0 ((i - 1) * K + k + 1)
        ((i - 1) * K + k) 1 (-1) (by omega) (by omega) hl hu
      obtain ⟨hE, hmem, hterms⟩ := facts_of_row_step hRs hS rfl rfl
        (by intro a ha; simp only [List.mem_cons, List.mem_singleton, List.not_mem_nil,
              or_false, or_self] at ha; exact ha) n0 hn
      refine ⟨s1, by simp only [hidx, hadd]; exact hs1, hE, hS.1, ?_, ?_⟩
      · exact hmem _ (by simp)
      · rw [hterms]
        rfl)
    (by
      intro i k c s s1 hRs hE hc ⟨hF1, hF2⟩
      refine ⟨mem_lp_of_Extends hE n0 _ hF1, ?_⟩
      rw [row_terms_of_Extends hRs.2 hE _ (by push_cast; omega)]
      exact hF2)
    m hR hn0 (by simpa using hrows)
  refine ⟨m1, by unfold set_pasaq_constraint_14; rw [hsub]; exact h1, hR1, hE1,
    by simpa using hc1, ?_⟩
  intro i k hi hk
  have := hF1 i k hi hk
  simpa [Nat.add_assoc] using this

/-- Constraint (15) on a ready model: every `z_ik` is made binary, and `T * K`
rows are added. -/
theorem constraint_15_spec {T K J : Nat} (m : lin_prog α) (hR : Ready T K J m) (n0 : Nat)
    (hn0 : n0 ≤ m.lp.length) (hrows : m.cur_row + T * K ≤ INT_MAX) :
    ∃ m1, set_pasaq_constraint_15 m T K = .ok m1 ∧ Ready T K J m1 ∧ Extends m m1 ∧
      m1.cur_row = m.cur_row + T * K ∧
      ∀ i k, i < T → k < K →
        glp_call.set_col_kind ((T * K + (i * K + k + 1) : Nat) : Int) GLP_BV ∈
          m1.lp.drop n0 := by
  have hTK : T * K ≤ INT_MAX := by have := hR.1.2; omega
  obtain ⟨m1, h1, hR1, hE1, hc1, hF1⟩ := double_loop K 1 n0
    (fun (LP : lin_prog α) i k =>
      match LP.set_var_kind "z" (size_add (size_mul (size_sub i 1) K) k) GLP_BV with
      | .error err => Except.error err
      | .ok LP =>
        match (LP.add_row_named ("15-" ++ toString i ++ toString k)).add_constraint "z"
            (size_add (size_mul (size_sub i 1) K) k) (1 : α) with
        | .error err => Except.error err
        | .ok LP => Except.ok (LP.set_row_bnd GLP_DB 0 1))
    (fun i k _ s =>
      glp_call.set_col_kind ((T * K + ((i - 1) * K + k) : Nat) : Int) GLP_BV ∈ s.lp.drop n0)
    (by
      intro s i k hRs hn hi1 hi2 hk1 hk2 hmax
      obtain ⟨hidx, hl, hu⟩ := sub_index_eq T K i k hi1 hi2 hk1 hk2 hTK
      obtain ⟨sA, hA, hSA⟩ := step_kind_z s hRs.1 ((i - 1) * K + k) GLP_BV hl hu
      have hcA : sA.cur_row = s.cur_row := hSA.1
      have hB := step_add_row_named sA ("15-" ++ toString i ++ toString k) (by omega)
      have hAB := Step_trans hSA hB
      have hcB : (sA.add_row_named ("15-" ++ toString i ++ toString k)).cur_row =
          s.cur_row + 1 := by rw [hB.1, hcA]
      have hGB := Groups_of_Step hAB hRs.1
      obtain ⟨sC, hC, hSC⟩ := step_add_z _ hGB ((i - 1) * K + k) (1 : α) (by omega)
        (by omega) hl hu
      have hABC := Step_trans hAB hSC
      have hcC : sC.cur_row = s.cur_row + 1 := by rw [hSC.1, hcB]
      have hD := step_set_row_bnd sC GLP_DB (0 : α) 1 (by omega)
      have hAll := Step_trans hABC hD
      have hE : Extends s (sC.set_row_bnd GLP_DB 0 1) := by
        refine ⟨_, _, _, _, _, hAll, by simp, by simp, ?_⟩
        intro r hr
        simp only [List.nil_append, List.append_nil, List.mem_singleton] at hr
        rw [hr, hcB]
        push_cast
        omega
      refine ⟨sC.set_row_bnd GLP_DB 0 1, by simp only [hidx, hA, hC], hE, ?_, ?_⟩
      · rw [hAll.1]
      · exact mem_lp_of_Step hAll n0 hn _ (by simp))
    (fun i k c s s1 _ hE _ hF => mem_lp_of_Extends hE n0 _ hF)
    m hR hn0 (by simpa using hrows)
  refine ⟨m1, h1, hR1, hE1, by simpa using hc1, ?_⟩
  intro i k hi hk
  have := hF1 i k hi hk
  simpa using this

end ConstraintSpecs2

end PASAQ

namespace PASAQ

open LinProg

section ReadyLoops

variable {α : Type}

/-- A step whose new entries lie in rows up to the new cursor keeps a model
ready. -/
theorem Ready_of_Step {T K J : Nat} {m m1 : lin_prog α} {d : Nat} {rs cs : List Int}
    {vs : List α} {calls : List (glp_call α)} (h : Step m m1 d rs cs vs calls)
    (hR : Ready T K J m) (hl1 : rs.length = cs.length) (hl2 : cs.length = vs.length)
    (hrs : ∀ r ∈ rs, r ≤ ((m.cur_row + d : Nat) : Int)) : Ready T K J m1 :=
  ⟨Groups_of_Step h hR.1, RowsOk_of_Step h hR.2 hl1 hl2 hrs⟩

/-- Nested loops whose body keeps the model ready and the row cursor in place
succeed and do the same. -/
theorem nested_loop_ready {T K J : Nat} (Tl Kl : Nat)
    (body : lin_prog α → Nat → Nat → Except Error (lin_prog α)) (m : lin_prog α)
    (hR : Ready T K J m)
    (hbody : ∀ s i k, Ready T K J s → s.cur_row = m.cur_row → 1 ≤ i → i ≤ Tl → 1 ≤ k →
      k ≤ Kl → ∃ s1, body s i k = .ok s1 ∧ Ready T K J s1 ∧ s1.cur_row = s.cur_row) :
    ∃ m1, for_up_to Tl (fun LP i => for_up_to Kl (fun LP k => body LP i k) LP) m = .ok m1 ∧
      Ready T K J m1 ∧ m1.cur_row = m.cur_row := by
  refine for_up_to_inv Tl (fun LP i => for_up_to Kl (fun LP k => body LP i k) LP)
    (fun _ s => Ready T K J s ∧ s.cur_row = m.cur_row) m ⟨hR, rfl⟩ ?_
  intro i s hi ⟨hRs, hcs⟩
  refine for_up_to_inv Kl (fun LP k => body LP (i + 1) k)
    (fun _ s => Ready T K J s ∧ s.cur_row = m.cur_row) s ⟨hRs, hcs⟩ ?_
  intro k s1 hk ⟨hR1, hc1⟩
  obtain ⟨s2, h2, hR2, hc2⟩ := hbody s1 (i + 1) (k + 1) hR1 hc1 (by omega) (by omega)
    (by omega) (by omega)
  exact ⟨s2, h2, hR2, hc2.trans hc1⟩

/-- Setting the objective coefficient of a variable `x` is a step of one solver
call. -/
theorem step_obj_x {T K J : Nat} (m : lin_prog α) (hG : Groups T K J m) (index : Nat)
    (value : α) (h1 : 1 ≤ index) (h2 : index ≤ T * K) :
    ∃ m1, m.set_objective_var "x" index value = .ok m1 ∧
      Step m m1 0 [] [] [] [.set_obj_coef (index : Int) value] := by
  have h := set_objective_var_of_group m (pasaq_groups T K J) hG.1 0 "x" (T * K) rfl
    index value h1 h2
  have hG2 := hG.2
  refine ⟨_, h, ?_⟩
  rw [(pasaq_first_cols T K J).1, to_int_of_le _ (by omega)]
  have : 1 + index - 1 = index := by omega
  simp [Step, this]

end ReadyLoops

section Prelude

variable {α : Type} [LinearOrderedField α]

/-- The objective function installs its coefficients on a ready model without an
exception and leaves the model ready, with the same row cursor. -/
theorem set_pasaq_obj_ready {T K J : Nat} (exp : α → α) (m : lin_prog α) (r : α)
    (Pm : PayoffMatrix) (lambda : α) (hT : Pm.P_a.length = T) (hR : Ready T K J m) :
    ∃ m1, set_pasaq_obj exp m r Pm lambda (K : Int) = .ok m1 ∧ Ready T K J m1 ∧
      m1.cur_row = m.cur_row := by
  have hTK : T * K ≤ INT_MAX := by have := hR.1.2; omega
  have hmax : Step m m.set_max 0 [] [] [] [.set_obj_dir .GLP_MAX] := by
    simp [Step, lin_prog.set_max]
  have hR0 : Ready T K J m.set_max :=
    Ready_of_Step hmax hR rfl rfl (fun r hr => by cases hr)
  obtain ⟨m1, h1, hR1, hc1⟩ := nested_loop_ready T K
    (fun (LP : lin_prog α) i k =>
      LP.set_objective_var "x" ((((i : Int) - 1) * (K : Int) + (k : Int)).toNat)
        (coef_val exp r Pm lambda (K : Int) i k))
    m.set_max hR0
    (by
      intro s i k hRs _ hi1 hi2 hk1 hk2
      obtain ⟨-, hl, hu⟩ := sub_index_eq T K i k hi1 hi2 hk1 hk2 hTK
      have hidx : (((i : Int) - 1) * (K : Int) + (k : Int)).toNat = (i - 1) * K + k := by
        obtain ⟨i0, rfl⟩ : ∃ i0, i = i0 + 1 := ⟨i - 1, by omega⟩
        have : (((i0 + 1 : Nat) : Int) - 1) * (K : Int) + (k : Int) =
            (((i0 + 1 - 1) * K + k : Nat) : Int) := by
          simp
        rw [this, Int.toNat_natCast]
      obtain ⟨s1, hs1, hS⟩ := step_obj_x s hRs.1 ((i - 1) * K + k)
        (coef_val exp r Pm lambda (K : Int) i k) hl hu
      exact ⟨s1, by simp only [hidx]; exact hs1,
        Ready_of_Step hS hRs rfl rfl (fun r hr => by cases hr), hS.1⟩)
  refine ⟨m1, ?_, hR1, hc1⟩
  unfold set_pasaq_obj
  simp only [hT, Int.toNat_natCast]
  exact h1

/-- Constraint (11) adds one row to a ready model without an exception and
leaves the model ready. -/
theorem set_pasaq_constraint_11_ready {T K J : Nat} (m : lin_prog α) (num_res : Int)
    (hR : Ready T K J m) (hrows : m.cur_row + 1 ≤ INT_MAX) :
    ∃ m1, set_pasaq_constraint_11 m T K num_res = .ok m1 ∧ Ready T K J m1 ∧
      m1.cur_row = m.cur_row + 1 := by
  have hTK : T * K ≤ INT_MAX := by have := hR.1.2; omega
  have hA := step_add_row_named m "(11)" hrows
  have hcA : (m.add_row_named "(11)").cur_row = m.cur_row + 1 := hA.1
  have hRA : Ready T K J (m.add_row_named "(11)") :=
    Ready_of_Step hA hR rfl rfl (fun r hr => by cases hr)
  have hB := step_set_row_bnd (m.add_row_named "(11)") GLP_UP (0 : α) (num_res : α) (by omega)
  have hRB : Ready T K J ((m.add_row_named "(11)").set_row_bnd GLP_UP 0 (num_res : α)) :=
    Ready_of_Step hB hRA rfl rfl (fun r hr => by cases hr)
  have hcB : ((m.add_row_named "(11)").set_row_bnd GLP_UP 0 (num_res : α)).cur_row =
      m.cur_row + 1 := by rw [hB.1, hcA]
  obtain ⟨m1, h1, hR1, hc1⟩ := nested_loop_ready T K
    (fun (LP : lin_prog α) i k =>
      LP.add_constraint "x" (size_add (size_mul (size_sub i 1) K) k) 1)
    ((m.add_row_named "(11)").set_row_bnd GLP_UP 0 (num_res : α)) hRB
    (by
      intro s i k hRs hcs hi1 hi2 hk1 hk2
      obtain ⟨hidx, hl, hu⟩ := sub_index_eq T K i k hi1 hi2 hk1 hk2 hTK
      obtain ⟨s1, hs1, hS⟩ := step_add_x s hRs.1 ((i - 1) * K + k) (1 : α)
        (by rw [hcs, hcB]; omega) (by rw [hcs, hcB]; exact hrows) hl hu
      refine ⟨s1, by simp only [hidx]; exact hs1, ?_, hS.1⟩
      refine Ready_of_Step hS hRs rfl rfl ?_
      intro r hr
      rw [List.mem_singleton] at hr
      rw [hr]
      simp)
  exact ⟨m1, h1, hR1, hc1.trans hcB⟩

/-- The model of `CheckFeasibility` at the call of constraint (12): after the
three declarations, the objective and constraint (11), the model of an instance
with `T` targets, `K` segments and `J` schedules whose columns fit the `int`
range is ready, and its row cursor is 1. -/
theorem Ready_before_constraint_12 (exp : α → α) (nm : String) (r : α) (Pm : PayoffMatrix)
    (lambda : α) (num_res : Int) (K J : Nat)
    (hfit : 2 * (Pm.P_a.length * K) + J ≤ INT_MAX) :
    ∃ m1 m2 m3 m4 m5 : lin_prog α,
      (lin_prog.init nm : lin_prog α).declare_variables "x" (Pm.P_a.length * K) = .ok m1 ∧
      m1.declare_variables "z" (Pm.P_a.length * K) = .ok m2 ∧
      m2.declare_variables "a" J = .ok m3 ∧
      set_pasaq_obj exp m3 r Pm lambda (K : Int) = .ok m4 ∧
      set_pasaq_constraint_11 m4 Pm.P_a.length K num_res = .ok m5 ∧
      Ready Pm.P_a.length K J m5 ∧ m5.cur_row = 1 := by
  have hI : INT_MAX + 2 ≤ SIZE_MOD := by decide
  obtain ⟨m1, h1, hL1, hr1, hc1, hv1, hw1⟩ := Layout_declare (lin_prog.init nm : lin_prog α) []
    "x" (Pm.P_a.length * K) (Layout_init nm) (by simp) (by simp; omega)
  obtain ⟨m2, h2, hL2, hr2, hc2, hv2, hw2⟩ := Layout_declare m1 _
    "z" (Pm.P_a.length * K) hL1 (by simp) (by simp; omega)
  obtain ⟨m3, h3, hL3, hr3, hc3, hv3, hw3⟩ := Layout_declare m2 _
    "a" J hL2 (by simp) (by simp; omega)
  have hR3 : Ready Pm.P_a.length K J m3 := by
    refine ⟨⟨hL3, hfit⟩, ?_, ?_, ?_, ?_⟩
    · rw [hr3, hr2, hr1, hc3, hc2, hc1]
      rfl
    · rw [hc3, hc2, hc1, hv3, hv2, hv1]
      rfl
    · rw [hr3, hr2, hr1]
      simp [lin_prog.init]
    · rw [hr3, hr2, hr1, hw3, hw2, hw1]
      simp [lin_prog.init]
  have hcur3 : m3.cur_row = 0 := by
    rw [hw3, hw2, hw1]
    rfl
  obtain ⟨m4, h4, hR4, hc4⟩ := set_pasaq_obj_ready exp m3 r Pm lambda rfl hR3
  obtain ⟨m5, h5, hR5, hc5⟩ := set_pasaq_constraint_11_ready m4 num_res hR4
    (by rw [hc4, hcur3]; decide)
  exact ⟨m1, m2, m3, m4, m5, h1, h2, h3, h4, h5, hR5, by rw [hc5, hc4, hcur3]⟩

end Prelude

end PASAQ

namespace PASAQ

open LinProg

section FillOrder

variable {α : Type} [LinearOrderedField α]

/-- The sub-index of segment `k + 1` of target `i + 1` is within the group. -/
theorem flat_index_le (T K i k : Nat) (hi : i < T) (hk : k < K) : i * K + k + 1 ≤ T * K := by
  have h : (i + 1) * K ≤ T * K := Nat.mul_le_mul_right K hi
  rw [Nat.add_mul, Nat.one_mul] at h
  omega

/-- C14: segment variables fill in order. On a ready model of an instance with
`T` targets, `K ≥ 1` segments and `J` schedules, the constraints (12), (13),
(14) and (15) are installed without an exception, and every assignment of
values to the columns that satisfies the bounds, rows and variable kinds these
four functions set has, for every target `i` and every segment `k < K`,
`x_(i,k+1) > 0 → x_(i,k) = 1/K`. The model of `CheckFeasibility` at the call of
constraint (12) is ready (`Ready_before_constraint_12`). -/
theorem segments_fill_in_order {T K J : Nat} (LP : lin_prog α) (hK : 1 ≤ K)
    (hR : Ready T K J LP) (hrows : LP.cur_row + (T * K + T * (K - 1) + T * K) ≤ INT_MAX) :
    ∃ LP1 LP2 LP3 LP4,
      set_pasaq_constraint_12 LP T K = .ok LP1 ∧
      set_pasaq_constraint_13 LP1 T K = .ok LP2 ∧
      set_pasaq_constraint_14 LP2 T K = .ok LP3 ∧
      set_pasaq_constraint_15 LP3 T K = .ok LP4 ∧
      ∀ v : Int → α, LP4.satisfies (LP4.lp.drop LP.lp.length) v →
        ∀ i k : Nat, 1 ≤ i → i ≤ T → 1 ≤ k → k < K →
          0 < v (x_index (T : Int) (K : Int) (i : Int) ((k : Int) + 1)) →
          v (x_index (T : Int) (K : Int) (i : Int) (k : Int)) = 1 / (K : α) := by
  obtain ⟨LP1, h1, hR1, hE1, hc1, hF1⟩ :=
    constraint_12_spec LP hR LP.lp.length (le_refl _) (by omega)
  obtain ⟨LP2, h2, hR2, hE2, hc2, hF2⟩ :=
    constraint_13_spec LP1 hR1 LP.lp.length (lp_length_le_of_Extends hE1) (by omega)
  obtain ⟨LP3, h3, hR3, hE3, hc3, hF3⟩ :=
    constraint_14_spec LP2 hK hR2 LP.lp.length
      (le_trans (lp_length_le_of_Extends hE1) (lp_length_le_of_Extends hE2)) (by omega)
  obtain ⟨LP4, h4, hR4, hE4, hc4, hF4⟩ :=
    constraint_15_spec LP3 hR3 LP.lp.length
      (le_trans (le_trans (lp_length_le_of_Extends hE1) (lp_length_le_of_Extends hE2))
        (lp_length_le_of_Extends hE3)) (by omega)
  refine ⟨LP1, LP2, LP3, LP4, h1, h2, h3, h4, ?_⟩
  intro v hsat i k hi1 hi2 hk1 hk2 hpos
  obtain ⟨i0, rfl⟩ : ∃ i0, i = i0 + 1 := ⟨i - 1, by omega⟩
  obtain ⟨k0, rfl⟩ : ∃ k0, k = k0 + 1 := ⟨k - 1, by omega⟩
  have hi : i0 < T := by omega
  have hle := flat_index_le T K i0 k0 hi (by omega)
  have hle14 := flat_index_le T (K - 1) i0 k0 hi (by omega)
  have hE24 : Extends LP2 LP4 := Extends_trans hE3 hE4
  -- (12): the bounds of `x_(i,k)`
  have b12 := hsat _ (mem_lp_of_Extends hE4 _ _ (mem_lp_of_Extends hE3 _ _
    (mem_lp_of_Extends hE2 _ _ (hF1 i0 k0 hi (by omega)))))
  -- (13): the row of `x_(i,k)` and `z_(i,k)`
  obtain ⟨m13, t13⟩ := hF2 i0 k0 hi (by omega)
  have b13 := hsat _ (mem_lp_of_Extends hE4 _ _ (mem_lp_of_Extends hE3 _ _ m13))
  have r13 : LP4.row_terms ((LP1.cur_row + (i0 * K + k0) + 1 : Nat) : Int) =
      LP2.row_terms ((LP1.cur_row + (i0 * K + k0) + 1 : Nat) : Int) :=
    row_terms_of_Extends hR2.2 hE24 _ (by rw [hc2]; push_cast; omega)
  -- (14): the row of `x_(i,k+1)` and `z_(i,k)`
  obtain ⟨m14, t14⟩ := hF3 i0 k0 hi (by omega)
  have b14 := hsat _ (mem_lp_of_Extends hE4 _ _ m14)
  have r14 : LP4.row_terms ((LP2.cur_row + (i0 * (K - 1) + k0) + 1 : Nat) : Int) =
      LP3.row_terms ((LP2.cur_row + (i0 * (K - 1) + k0) + 1 : Nat) : Int) :=
    row_terms_of_Extends hR3.2 hE4 _ (by rw [hc3]; push_cast; omega)
  -- (15): `z_(i,k)` is binary
  have b15 := hsat _ (hF4 i0 k0 hi (by omega))
  simp only [bnd_ok, kind_ok, lin_prog.row_activity, r13, t13, r14, t14, GLP_DB, GLP_UP,
    GLP_LO, GLP_BV, List.map_cons, List.map_nil, List.sum_cons, List.sum_nil] at b12 b13 b14 b15
  norm_num at b12 b13 b14 b15
  have hx1 : x_index (T : Int) (K : Int) ((i0 + 1 : Nat) : Int) (((k0 + 1 : Nat) : Int) + 1) =
      ((i0 * K + k0 + 2 : Nat) : Int) := by
    unfold x_index
    push_cast
    ring
  have hx0 : x_index (T : Int) (K : Int) ((i0 + 1 : Nat) : Int) ((k0 + 1 : Nat) : Int) =
      ((i0 * K + k0 + 1 : Nat) : Int) := by
    unfold x_index
    push_cast
    ring
  rw [hx1] at hpos
  rw [hx0]
  push_cast at hpos ⊢
  rw [one_div]
  rcases b15 with hz | hz
  · rw [hz] at b14
    linarith
  · rw [hz] at b13
    exact le_antisymm b12.2 (by linarith)

end FillOrder

end PASAQ

namespace PASAQ

open LinProg

/-- The fresh model of one target, two segments and one schedule is ready for
the constraint functions. -/
theorem Ready_model_121 : Ready 1 2 1 (model_121 : lin_prog ℚ) := by
  refine ⟨⟨⟨rfl, rfl, rfl, by decide, by decide⟩, by decide⟩, rfl, rfl, ?_, ?_⟩
  · intro h
    cases h
  · intro r hr
    have : r = 0 := by simpa [model_121, lin_prog.calls, lin_prog.call, lin_prog.init,
      lin_prog.declare_variables, lin_prog.has] using hr
    rw [this]
    rfl

end PASAQ

namespace PASAQ

open LinProg

/-- The constraints (12) to (15) of the instance with one target and two
segments can be satisfied with the second segment in use: `x_11 = x_12 = 1/2`
and `z_11 = z_12 = 1`. -/
theorem constraints_12_15_satisfiable :
    ∃ LP1 LP2 LP3 LP4,
      set_pasaq_constraint_12 (model_121 : lin_prog ℚ) 1 2 = .ok LP1 ∧
      set_pasaq_constraint_13 LP1 1 2 = .ok LP2 ∧
      set_pasaq_constraint_14 LP2 1 2 = .ok LP3 ∧
      set_pasaq_constraint_15 LP3 1 2 = .ok LP4 ∧
      LP4.satisfies (LP4.lp.drop (model_121 : lin_prog ℚ).lp.length)
        (fun j => if j ≤ 2 then 1 / 2 else 1) ∧
      (0 : ℚ) < (fun j : Int => if j ≤ 2 then (1 / 2 : ℚ) else 1) (x_index 1 2 1 2) := by
  obtain ⟨LP1, LP2, LP3, LP4, h1, h2, h3, h4, hrows, hcols, hvals, hlp⟩ :
      ∃ LP1 LP2 LP3 LP4,
        set_pasaq_constraint_12 (model_121 : lin_prog ℚ) 1 2 = .ok LP1 ∧
        set_pasaq_constraint_13 LP1 1 2 = .ok LP2 ∧
        set_pasaq_constraint_14 LP2 1 2 = .ok LP3 ∧
        set_pasaq_constraint_15 LP3 1 2 = .ok LP4 ∧
        LP4.rows = [0, 1, 1, 2, 2, 3, 3, 4, 5] ∧
        LP4.cols = [0, 1, 3, 2, 4, 2, 3, 3, 4] ∧
        LP4.vals = [0, -1, 1 / ((2 : Nat) : ℚ), -1, 1 / ((2 : Nat) : ℚ), 1, -1, 1, 1] ∧
        LP4.lp = (model_121 : lin_prog ℚ).lp ++
          [.set_col_bnds 1 GLP_DB 0 (1 / ((2 : Nat) : ℚ)),
           .set_col_bnds 2 GLP_DB 0 (1 / ((2 : Nat) : ℚ)),
           .add_rows 1, .set_row_name 1 "13-1 1", .set_row_bnds 1 GLP_UP 0 0,
           .add_rows 1, .set_row_name 2 "13-1 2", .set_row_bnds 2 GLP_UP 0 0,
           .add_rows 1, .set_row_name 3 "14-11", .set_row_bnds 3 GLP_UP 0 0,
           .set_col_kind 3 GLP_BV, .add_rows 1, .set_row_name 4 "15-11",
           .set_row_bnds 4 GLP_DB 0 1,
           .set_col_kind 4 GLP_BV, .add_rows 1, .set_row_name 5 "15-12",
           .set_row_bnds 5 GLP_DB 0 1] :=
    ⟨_, _, _, _, rfl, rfl, rfl, rfl, rfl, rfl, rfl, rfl⟩
  refine ⟨LP1, LP2, LP3, LP4, h1, h2, h3, h4, ?_, by norm_num [x_index]⟩
  rw [hlp, List.drop_left]
  intro c hc
  simp only [List.mem_cons, List.mem_singleton, List.not_mem_nil, or_false] at hc
  rcases hc with rfl | rfl | rfl | rfl | rfl | rfl | rfl | rfl | rfl | rfl | rfl | rfl | rfl |
    rfl | rfl | rfl | rfl | rfl | rfl <;>
  norm_num [bnd_ok, kind_ok, GLP_DB, GLP_UP, GLP_LO, GLP_BV, lin_prog.row_activity,
    lin_prog.row_terms, lin_prog.triplets, hrows, hcols, hvals]

end PASAQ

namespace PASAQ

open LinProg

/-- Witness of `segments_fill_in_order`: one target, two segments and one
schedule on the fresh model `model_121`; the constraints of this instance can
be satisfied with the second segment in use, by `x_11 = x_12 = 1/2` and
`z_11 = z_12 = 1`. -/
theorem segments_fill_in_order_witness :
    (1 ≤ 2 ∧ Ready 1 2 1 (model_121 : lin_prog ℚ) ∧
      (model_121 : lin_prog ℚ).cur_row + (1 * 2 + 1 * (2 - 1) + 1 * 2) ≤ INT_MAX) ∧
    (∃ LP1 LP2 LP3 LP4,
      set_pasaq_constraint_12 (model_121 : lin_prog ℚ) 1 2 = .ok LP1 ∧
      set_pasaq_constraint_13 LP1 1 2 = .ok LP2 ∧
      set_pasaq_constraint_14 LP2 1 2 = .ok LP3 ∧
      set_pasaq_constraint_15 LP3 1 2 = .ok LP4 ∧
      ∀ v : Int → ℚ, LP4.satisfies (LP4.lp.drop (model_121 : lin_prog ℚ).lp.length) v →
        ∀ i k : Nat, 1 ≤ i → i ≤ 1 → 1 ≤ k → k < 2 →
          0 < v (x_index ((1 : Nat) : Int) ((2 : Nat) : Int) (i : Int) ((k : Int) + 1)) →
          v (x_index ((1 : Nat) : Int) ((2 : Nat) : Int) (i : Int) (k : Int)) =
            1 / ((2 : Nat) : ℚ)) ∧
    (∃ LP1 LP2 LP3 LP4,
      set_pasaq_constraint_12 (model_121 : lin_prog ℚ) 1 2 = .ok LP1 ∧
      set_pasaq_constraint_13 LP1 1 2 = .ok LP2 ∧
      set_pasaq_constraint_14 LP2 1 2 = .ok LP3 ∧
      set_pasaq_constraint_15 LP3 1 2 = .ok LP4 ∧
      LP4.satisfies (LP4.lp.drop (model_121 : lin_prog ℚ).lp.length)
        (fun j => if j ≤ 2 then 1 / 2 else 1) ∧
      (0 : ℚ) < (fun j : Int => if j ≤ 2 then (1 / 2 : ℚ) else 1) (x_index 1 2 1 2)) :=
  ⟨⟨by decide, Ready_model_121, by decide⟩,
    segments_fill_in_order (model_121 : lin_prog ℚ) (by decide) Ready_model_121 (by decide),
    constraints_12_15_satisfiable⟩

end PASAQ

namespace PASAQ

open LinProg

/-- Evaluation of `set_pasaq_constraint_13` on the fresh model of one target and
two segments: two rows, four sparse entries and the solver calls of two rows. -/
theorem constraint_13_on_model_121 :
    ∃ LP, set_pasaq_constraint_13 (model_121 : lin_prog ℚ) 1 2 = .ok LP ∧
      LP.cur_row = 2 ∧ LP.rows = [0, 1, 1, 2, 2] ∧ LP.cols = [0, 1, 3, 2, 4] ∧
      LP.vals = [0, -1, 1 / ((2 : Nat) : ℚ), -1, 1 / ((2 : Nat) : ℚ)] ∧
      LP.lp = (model_121 : lin_prog ℚ).lp ++
        [.add_rows 1, .set_row_name 1 "13-1 1", .set_row_bnds 1 GLP_UP 0 0,
         .add_rows 1, .set_row_name 2 "13-1 2", .set_row_bnds 2 GLP_UP 0 0] :=
  ⟨_, rfl, rfl, rfl, rfl, rfl, rfl⟩

/-- C15, counterexample: on the fresh model of one target and two segments,
`set_pasaq_constraint_13` gives row 1 the coefficient `-1` on `x_11` (column 1)
and `+1/2` on `z_11` (column 3), not `+1` and `-1/2`. With `x_11 = 0` and
`z_11 = 1` the claimed row `x_11 - z_11/K ≤ 0` holds, but the installed row has
the value `1/2` and its upper bound 0 is violated. -/
theorem set_pasaq_constraint_13_signs :
    ∃ LP, set_pasaq_constraint_13 (model_121 : lin_prog ℚ) 1 2 = .ok LP ∧
      LP.row_terms 1 = [(1, 1, -1), (1, 3, 1 / 2)] ∧
      LP.row_terms 1 ≠ [(1, 1, 1), (1, 3, -(1 / 2))] ∧
      glp_call.set_row_bnds 1 GLP_UP 0 0 ∈ LP.lp ∧
      LP.row_activity (fun j => if j = 3 then 1 else 0) 1 = 1 / 2 ∧
      ¬ bnd_ok GLP_UP 0 0 (LP.row_activity (fun j => if j = 3 then 1 else 0) 1) ∧
      (0 : ℚ) - 1 / 2 ≤ 0 := by
  obtain ⟨LP, hrun, -, hrows, hcols, hvals, hlp⟩ := constraint_13_on_model_121
  have ht : LP.row_terms 1 = [(1, 1, -1), (1, 3, 1 / 2)] := by
    simp [lin_prog.row_terms, lin_prog.triplets, hrows, hcols, hvals]
  have ha : LP.row_activity (fun j => if j = 3 then 1 else 0) 1 = 1 / 2 := by
    simp [lin_prog.row_activity, ht]
  refine ⟨LP, hrun, ht, ?_, ?_, ha, ?_, by norm_num⟩
  · rw [ht]
    intro h
    have h1 := congrArg (fun l => (l.map (fun t => t.2.2)).headD 0) h
    norm_num at h1
  · rw [hlp]
    simp
  · rw [ha]
    norm_num [bnd_ok, GLP_UP, GLP_LO]

section Rows13

variable {α : Type} [LinearOrderedField α]

/-- C15 (amended): on a ready model of an instance with `T` targets, `K`
segments and `J` schedules, `set_pasaq_constraint_13` adds exactly `T * K` rows.
The row of target `i` and segment `k` is row `cur_row + (i - 1) * K + k`; it has
the upper bound 0 and exactly two terms, the coefficient `-1` on `x_ik` and the
coefficient `+1/K` on `z_ik`, so that the row states `z_ik / K - x_ik ≤ 0`. -/
theorem set_pasaq_constraint_13_rows {T K J : Nat} (LP : lin_prog α) (hR : Ready T K J LP)
    (hrows : LP.cur_row + T * K ≤ INT_MAX) :
    ∃ LP1, set_pasaq_constraint_13 LP T K = .ok LP1 ∧
      LP1.cur_row = LP.cur_row + T * K ∧
      ∀ i k : Nat, 1 ≤ i → i ≤ T → 1 ≤ k → k ≤ K →
        glp_call.set_row_bnds ((LP.cur_row + ((i - 1) * K + k) : Nat) : Int) GLP_UP 0 0 ∈
          LP1.lp.drop LP.lp.length ∧
        LP1.row_terms ((LP.cur_row + ((i - 1) * K + k) : Nat) : Int) =
          [(((LP.cur_row + ((i - 1) * K + k) : Nat) : Int),
              x_index (T : Int) (K : Int) (i : Int) (k : Int), (-1 : α)),
           (((LP.cur_row + ((i - 1) * K + k) : Nat) : Int),
              z_index (T : Int) (K : Int) (i : Int) (k : Int), 1 / (K : α))] ∧
        ∀ v : Int → α,
          bnd_ok GLP_UP 0 0
              (LP1.row_activity v ((LP.cur_row + ((i - 1) * K + k) : Nat) : Int)) ↔
            v (z_index (T : Int) (K : Int) (i : Int) (k : Int)) / (K : α) -
              v (x_index (T : Int) (K : Int) (i : Int) (k : Int)) ≤ 0 := by
  obtain ⟨LP1, h1, -, -, hc, hF⟩ := constraint_13_spec LP hR LP.lp.length (le_refl _) hrows
  refine ⟨LP1, h1, hc, ?_⟩
  intro i k hi1 hi2 hk1 hk2
  obtain ⟨i0, rfl⟩ : ∃ i0, i = i0 + 1 := ⟨i - 1, by omega⟩
  obtain ⟨k0, rfl⟩ : ∃ k0, k = k0 + 1 := ⟨k - 1, by omega⟩
  obtain ⟨hm, ht⟩ := hF i0 k0 (by omega) (by omega)
  have hrow : LP.cur_row + ((i0 + 1 - 1) * K + (k0 + 1)) = LP.cur_row + (i0 * K + k0) + 1 := by
    simp only [Nat.add_sub_cancel]
    omega
  have hx : x_index (T : Int) (K : Int) ((i0 + 1 : Nat) : Int) ((k0 + 1 : Nat) : Int) =
      ((i0 * K + k0 + 1 : Nat) : Int) := by
    unfold x_index
    push_cast
    ring
  have hz : z_index (T : Int) (K : Int) ((i0 + 1 : Nat) : Int) ((k0 + 1 : Nat) : Int) =
      ((T * K + (i0 * K + k0 + 1) : Nat) : Int) := by
    unfold z_index
    push_cast
    ring
  rw [hrow, hx, hz]
  refine ⟨hm, ht, ?_⟩
  intro v
  simp only [bnd_ok, lin_prog.row_activity, ht, GLP_UP, GLP_LO, List.map_cons, List.map_nil,
    List.sum_cons, List.sum_nil]
  norm_num
  constructor
  · intro h
    rw [div_eq_inv_mul]
    exact h
  · intro h
    rw [div_eq_inv_mul] at h
    exact h

end Rows13

/-- Witness of `set_pasaq_constraint_13_rows`: one target, two segments and one
schedule on the fresh model `model_121`. -/
theorem set_pasaq_constraint_13_rows_witness :
    (Ready 1 2 1 (model_121 : lin_prog ℚ) ∧
      (model_121 : lin_prog ℚ).cur_row + 1 * 2 ≤ INT_MAX) ∧
    ∃ LP1, set_pasaq_constraint_13 (model_121 : lin_prog ℚ) 1 2 = .ok LP1 ∧
      LP1.cur_row = (model_121 : lin_prog ℚ).cur_row + 1 * 2 ∧
      ∀ i k : Nat, 1 ≤ i → i ≤ 1 → 1 ≤ k → k ≤ 2 →
        glp_call.set_row_bnds
            (((model_121 : lin_prog ℚ).cur_row + ((i - 1) * 2 + k) : Nat) : Int) GLP_UP 0 0 ∈
          LP1.lp.drop (model_121 : lin_prog ℚ).lp.length ∧
        LP1.row_terms (((model_121 : lin_prog ℚ).cur_row + ((i - 1) * 2 + k) : Nat) : Int) =
          [((((model_121 : lin_prog ℚ).cur_row + ((i - 1) * 2 + k) : Nat) : Int),
              x_index ((1 : Nat) : Int) ((2 : Nat) : Int) (i : Int) (k : Int), (-1 : ℚ)),
           ((((model_121 : lin_prog ℚ).cur_row + ((i - 1) * 2 + k) : Nat) : Int),
              z_index ((1 : Nat) : Int) ((2 : Nat) : Int) (i : Int) (k : Int),
              1 / ((2 : Nat) : ℚ))] ∧
        ∀ v : Int → ℚ,
          bnd_ok GLP_UP 0 0
              (LP1.row_activity v
                (((model_121 : lin_prog ℚ).cur_row + ((i - 1) * 2 + k) : Nat) : Int)) ↔
            v (z_index ((1 : Nat) : Int) ((2 : Nat) : Int) (i : Int) (k : Int)) /
                ((2 : Nat) : ℚ) -
              v (x_index ((1 : Nat) : Int) ((2 : Nat) : Int) (i : Int) (k : Int)) ≤ 0 :=
  ⟨⟨Ready_model_121, by decide⟩,
    set_pasaq_constraint_13_rows (model_121 : lin_prog ℚ) Ready_model_121 (by decide)⟩

end PASAQ

namespace PASAQ

open LinProg

/-- C16: on the fresh model of two targets, one segment and two schedules, with
the assignment matrix `A_212` (row 1 is `[1/2, 1/4]`), `set_pasaq_constraint_16`
adds one row, not two: row 2, the row of target 2, has no term. In row 1 the
variable `a_1` (column 5) has the coefficient `-1/4`, the entry `A[1][1]` of the
second schedule, and the loop adds a third term for `a_2` from the position
`A[1][2]`, which the row of two entries does not have. -/
theorem set_pasaq_constraint_16_misses_last_target :
    ∃ LP, set_pasaq_constraint_16 (model_212 : lin_prog ℚ) 2 1 A_212 = .ok LP ∧
      LP.cur_row = 1 ∧
      LP.row_terms 2 = [] ∧
      (LP.row_terms 1).map (fun t => t.2.1) = [1, 5, 6] ∧
      (LP.row_terms 1).take 2 = [(1, 1, 1), (1, 5, -(1 / 4))] ∧
      (A_212.getD 1 []).length = 2 ∧
      (A_212.getD 1 []).getD 0 0 = 1 / 2 := by
  obtain ⟨LP, hrun, hcur, hrows, hcols, hvals⟩ :
      ∃ LP, set_pasaq_constraint_16 (model_212 : lin_prog ℚ) 2 1 A_212 = .ok LP ∧
        LP.cur_row = 1 ∧ LP.rows = [0, 1, 1, 1] ∧ LP.cols = [0, 1, 5, 6] ∧
        LP.vals = [0, 1, -(1 / 4), -0] := ⟨_, rfl, rfl, rfl, rfl, rfl⟩
  refine ⟨LP, hrun, hcur, ?_, ?_, ?_, rfl, rfl⟩
  · simp [lin_prog.row_terms, lin_prog.triplets, hrows, hcols, hvals]
  · simp [lin_prog.row_terms, lin_prog.triplets, hrows, hcols, hvals]
  · simp [lin_prog.row_terms, lin_prog.triplets, hrows, hcols, hvals]

/-- C17: on the fresh model of two targets, one segment and two schedules
(`a_1` is column 5, `a_2` is column 6), `set_pasaq_constraint_18` makes one
solver call, the double bound of `a_1`; no bound is set for the last weight
`a_2`, and the value `a_2 = 7` satisfies everything the function installs. -/
theorem set_pasaq_constraint_18_skips_last_weight :
    ∃ LP, set_pasaq_constraint_18 (model_212 : lin_prog ℚ) 2 1 A_212 = .ok LP ∧
      (A_212.getD 1 []).length = 2 ∧
      LP.lp = (model_212 : lin_prog ℚ).lp ++ [.set_col_bnds 5 GLP_DB 0 1] ∧
      (∀ type lb ub, glp_call.set_col_bnds 6 type lb ub ∉ LP.lp) ∧
      LP.satisfies (LP.lp.drop (model_212 : lin_prog ℚ).lp.length)
        (fun j => if j = 6 then 7 else 0) := by
  obtain ⟨LP, hrun, hlp, hbase⟩ :
      ∃ LP, set_pasaq_constraint_18 (model_212 : lin_prog ℚ) 2 1 A_212 = .ok LP ∧
        LP.lp = (model_212 : lin_prog ℚ).lp ++ [.set_col_bnds 5 GLP_DB 0 1] ∧
        (model_212 : lin_prog ℚ).lp =
          [.create_prob, .set_prob_name "lp", .set_obj_dir .GLP_MIN,
           .add_cols 2, .set_col_name 1 "x0", .set_col_name 2 "x1",
           .add_cols 2, .set_col_name 3 "z0", .set_col_name 4 "z1",
           .add_cols 2, .set_col_name 5 "a0", .set_col_name 6 "a1"] := ⟨_, rfl, rfl, rfl⟩
  refine ⟨LP, hrun, rfl, hlp, ?_, ?_⟩
  · intro type lb ub
    rw [hlp, hbase]
    simp
  · rw [hlp, List.drop_left]
    intro c hc
    rw [List.mem_singleton] at hc
    subst hc
    simp [bnd_ok, GLP_DB, GLP_LO, GLP_UP]

end PASAQ

namespace PASAQ

open LinProg

/-- C18: for the payoff matrix `two_rewards` (two targets, defender rewards
`[1, 2]`), one segment, `lambda = 1` and `r = 0`, `set_pasaq_obj` gives the
variable `x_11` (sub-index 1, the first target) the coefficient `-2`, computed
from the payoffs at position 1 of the vectors, the second target; the
coefficient from the payoffs of the first entry would be `-1`, and the first
entry enters no coefficient (replacing its reward 1 by 5 changes nothing). The
coefficient of `x_21` is computed from position 2, which vectors of length 2
do not have. -/
theorem set_pasaq_obj_reads_next_target :
    ∃ LP, set_pasaq_obj Real.exp (model_212 : lin_prog ℝ) 0 two_rewards 1 1 = .ok LP ∧
      LP.lp = (model_212 : lin_prog ℝ).lp ++
        [.set_obj_dir .GLP_MAX, .set_obj_coef 1 (-2),
         .set_obj_coef 2 (coef_val Real.exp 0 two_rewards 1 1 2 1)] ∧
      two_rewards.R_d.length = 2 ∧
      (0 : ℝ) - theta Real.exp 0 two_rewards 1 * alpha 0 two_rewards 1 *
        u_ik Real.exp two_rewards 1 1 0 1 = -1 ∧
      set_pasaq_obj Real.exp (model_212 : lin_prog ℝ) 0
          { two_rewards with R_d := [5, 2] } 1 1 = .ok LP := by
  have h1 : coef_val Real.exp (0 : ℝ) two_rewards 1 1 1 1 = -2 := by
    simp [coef_val, theta, alpha, u_ik, f2, beta, two_rewards]
  have h0 : (0 : ℝ) - theta Real.exp 0 two_rewards 1 * alpha 0 two_rewards 1 *
      u_ik Real.exp two_rewards 1 1 0 1 = -1 := by
    simp [theta, alpha, u_ik, f2, beta, two_rewards]
  refine ⟨_, rfl, ?_, rfl, h0, rfl⟩
  rw [← h1]
  rfl

/-- C20: for two targets and one segment, with a solver that reports the value 7
for every column, `CheckFeasibility` returns the strategy `[0, 0 + u]`, where
`u` is the value the caller observes for the call of `get_var_val` that returns
no value. The first entry is never written and stays 0, although the solved
values of the first target add up to 7; the sum computed for the first target
is stored in the second entry, the sum computed for the second target is
written outside the vector, and no entry is read from the solver. The
payoffs of `two_rewards` make every argument of `exp` in this run equal to 0,
where `exp` is 1; the text of the problem name plays no part. -/
theorem CheckFeasibility_strategy_not_recovered (u : ℚ) :
    CheckFeasibility (fun _ => 1) (fun _ => "") constant_solver (fun _ _ => u) 45 1
        two_rewards A_212 1 (1 / 2) = .ok (true, [0, 0 + u]) ∧
    ∀ log j, constant_solver.get_col_prim log j = 7 := by
  have hK : double_to_size (1 : ℚ) = 1 := by simp [double_to_size]
  have hKi : double_to_int (1 : ℚ) = 1 := by simp [double_to_int]
  have hTK : double_to_size (((two_rewards.P_a.length : Nat) : ℚ) * 1) = 2 := by
    simp [double_to_size, two_rewards]
  have hidx : ∀ (i k : Nat),
      double_to_size ((((i - 1 : Nat) : ℚ)) * 1 + (k : ℚ)) = (i - 1) + k := by
    intro i k
    rw [mul_one, ← Nat.cast_add]
    exact Nat.floor_natCast _
  refine ⟨?_, fun _ _ => rfl⟩
  simp only [CheckFeasibility, hK, hKi, hTK, hidx]
  rfl

end PASAQ

/-! ## Theorems: compact schedules -/

namespace Protect

/-- The extension of a result holds its schedules, in order, each with `i` at
the back. -/
theorem result_extension_eq (result : List (List Int)) (i : Int) :
    result_extension result i = result.map (fun schedule => schedule ++ [i]) := by
  have key : ∀ (l acc : List (List Int)),
      l.foldl (fun ext schedule => ext ++ [schedule ++ [i]]) acc =
        acc ++ l.map (fun schedule => schedule ++ [i]) := by
    intro l
    induction l with
    | nil => intro acc; simp
    | cons a l ih =>
      intro acc
      rw [List.foldl_cons, ih]
      simp
  unfold result_extension
  rw [key]
  simp

/-- One more pass of the outer loop of `generate_compact_schedules`. -/
theorem generate_compact_schedules_succ {α : Type} (n : Nat) (data : ProtectData α) :
    generate_compact_schedules ((n + 1 : Nat) : Int) data =
      generate_compact_schedules (n : Int) data ++
        (generate_compact_schedules (n : Int) data).map (fun schedule => schedule ++ [(n : Int)]) := by
  unfold generate_compact_schedules
  rw [Int.toNat_natCast, Int.toNat_natCast, List.range_succ, List.foldl_append]
  simp only [List.foldl_cons, List.foldl_nil]
  rw [result_extension_eq]

/-- Without a pass the result is the empty schedule alone. -/
theorem generate_compact_schedules_zero {α : Type} (data : ProtectData α) :
    generate_compact_schedules ((0 : Nat) : Int) data = [[]] := by
  simp [generate_compact_schedules]

/-- A schedule is generated for `n` exactly when it is strictly increasing and
all its areas lie in `0, ..., n - 1`. -/
theorem mem_generate_compact_schedules {α : Type} (data : ProtectData α) (n : Nat)
    (s : List Int) :
    s ∈ generate_compact_schedules (n : Int) data ↔
      s.Pairwise (fun a b => a < b) ∧ ∀ a ∈ s, 0 ≤ a ∧ a < (n : Int) := by
  induction n generalizing s with
  | zero =>
    rw [generate_compact_schedules_zero]
    constructor
    · intro h
      rw [List.mem_singleton] at h
      subst h
      simp
    · rintro ⟨-, h⟩
      rw [List.mem_singleton]
      cases s with
      | nil => rfl
      | cons a t =>
        have := h a (by simp)
        simp at this
        omega
  | succ n ih =>
    rw [generate_compact_schedules_succ, List.mem_append, List.mem_map]
    constructor
    · rintro (h | ⟨t, ht, rfl⟩)
      · obtain ⟨h1, h2⟩ := (ih s).mp h
        refine ⟨h1, fun a ha => ?_⟩
        have := h2 a ha
        push_cast
        omega
      · obtain ⟨h1, h2⟩ := (ih t).mp ht
        refine ⟨?_, ?_⟩
        · rw [List.pairwise_append]
          refine ⟨h1, by simp, ?_⟩
          intro a ha b hb
          rw [List.mem_singleton] at hb
          rw [hb]
          exact (h2 a ha).2
        · intro a ha
          rw [List.mem_append, List.mem_singleton] at ha
          push_cast
          rcases ha with ha | ha
          · have := h2 a ha
            omega
          · omega
    · rintro ⟨h1, h2⟩
      rcases List.eq_nil_or_concat s with hs | ⟨t, b, hs⟩
      · left
        rw [ih, hs]
        simp
      · rw [List.concat_eq_append] at hs
        subst hs
        rw [List.pairwise_append] at h1
        obtain ⟨p1, -, p3⟩ := h1
        have hb := h2 b (by simp)
        push_cast at hb
        by_cases hbn : b = (n : Int)
        · right
          refine ⟨t, (ih t).mpr ⟨p1, fun a ha => ?_⟩, by rw [hbn]⟩
          have h3 := p3 a ha b (by simp)
          have h4 := h2 a (by simp [ha])
          omega
        · left
          rw [ih]
          refine ⟨?_, ?_⟩
          · rw [List.pairwise_append]
            exact ⟨p1, by simp, p3⟩
          · intro a ha
            rw [List.mem_append, List.mem_singleton] at ha
            rcases ha with ha | ha
            · have h3 := p3 a ha b (by simp)
              have h4 := h2 a (by simp [ha])
              omega
            · omega

/-- C29: for every `n ≥ 0`, `generate_compact_schedules(n, data)` returns exactly
`2 ^ n` schedules, no two of them equal, the first being the empty schedule;
every returned schedule is compact, that is a strictly increasing sequence of
area indices from `0, ..., n - 1`, and every strictly increasing sequence over
`0, ..., n - 1` occurs in the result. -/
theorem generate_compact_schedules_spec {α : Type} (n : Nat) (data : ProtectData α) :
    (generate_compact_schedules (n : Int) data).length = 2 ^ n ∧
    (generate_compact_schedules (n : Int) data).Nodup ∧
    (generate_compact_schedules (n : Int) data).head? = some [] ∧
    (∀ s ∈ generate_compact_schedules (n : Int) data,
      s.Pairwise (fun a b => a < b) ∧ ∀ a ∈ s, 0 ≤ a ∧ a < (n : Int)) ∧
    (∀ s : List Int, s.Pairwise (fun a b => a < b) → (∀ a ∈ s, 0 ≤ a ∧ a < (n : Int)) →
      s ∈ generate_compact_schedules (n : Int) data) := by
  refine ⟨?_, ?_, ?_, fun s hs => (mem_generate_compact_schedules data n s).mp hs,
    fun s h1 h2 => (mem_generate_compact_schedules data n s).mpr ⟨h1, h2⟩⟩
  · induction n with
    | zero => rw [generate_compact_schedules_zero]; rfl
    | succ n ih =>
      rw [generate_compact_schedules_succ, List.length_append, List.length_map, ih]
      omega
  · induction n with
    | zero => rw [generate_compact_schedules_zero]; simp
    | succ n ih =>
      rw [generate_compact_schedules_succ, List.nodup_append]
      refine ⟨ih, ?_, ?_⟩
      · refine List.Nodup.map ?_ ih
        intro a b hab
        exact List.append_cancel_right hab
      · intro s hs1 hs2
        rw [List.mem_map] at hs2
        obtain ⟨t, -, rfl⟩ := hs2
        have := ((mem_generate_compact_schedules data n _).mp hs1).2 (n : Int) (by simp)
        omega
  · induction n with
    | zero => rw [generate_compact_schedules_zero]; rfl
    | succ n ih =>
      rw [generate_compact_schedules_succ]
      cases hg : generate_compact_schedules (n : Int) data with
      | nil => rw [hg] at ih; cases ih
      | cons a l =>
        rw [hg] at ih
        simpa using ih

end Protect

/-! ## Theorems: reducing schedules -/

namespace Protect

section FuelLemmas

variable {α : Type}

/-- Erasing a position does not make a list longer. -/
theorem length_eraseIdx_le {β : Type} (l : List β) (i : Nat) : (l.eraseIdx i).length ≤ l.length := by
  rw [List.length_eraseIdx]
  split <;> omega

/-- The loop over `j` of `reduce_schedules` gives the same result with every
fuel that covers the remaining positions. -/
theorem reduce_schedules_inner_fuel (i : Nat) (fuel : Nat) :
    ∀ (fuel1 j : Nat) (schedules : List (List (Patrol α))),
      schedules.length ≤ j + fuel → schedules.length ≤ j + fuel1 →
      reduce_schedules_inner i fuel j schedules = reduce_schedules_inner i fuel1 j schedules := by
  induction fuel with
  | zero =>
    intro fuel1 j schedules h _
    cases fuel1 with
    | zero => rfl
    | succ f =>
      have : ¬ j < schedules.length := by omega
      simp [reduce_schedules_inner, this]
  | succ fuel ih =>
    intro fuel1 j schedules h h1
    cases fuel1 with
    | zero =>
      have : ¬ j < schedules.length := by omega
      simp [reduce_schedules_inner, this]
    | succ f =>
      simp only [reduce_schedules_inner]
      split
      · split
        · have := length_eraseIdx_le schedules j
          exact ih f (j + 1) _ (by omega) (by omega)
        · exact ih f (j + 1) _ (by omega) (by omega)
      · rfl

/-- The loop over `j` of `reduce_schedules` does not make the list longer. -/
theorem reduce_schedules_inner_length (i : Nat) (fuel : Nat) :
    ∀ (j : Nat) (schedules : List (List (Patrol α))),
      (reduce_schedules_inner i fuel j schedules).length ≤ schedules.length := by
  induction fuel with
  | zero => intro j schedules; exact le_refl _
  | succ fuel ih =>
    intro j schedules
    simp only [reduce_schedules_inner]
    split
    · split
      · exact le_trans (ih (j + 1) _) (length_eraseIdx_le schedules j)
      · exact ih (j + 1) _
    · exact le_refl _

/-- The loop over `i` of `reduce_schedules` gives the same result with every
fuel that covers the remaining positions. -/
theorem reduce_schedules_outer_fuel (fuel : Nat) :
    ∀ (fuel1 i : Nat) (schedules : List (List (Patrol α))),
      schedules.length ≤ i + fuel → schedules.length ≤ i + fuel1 →
      reduce_schedules_outer fuel i schedules = reduce_schedules_outer fuel1 i schedules := by
  induction fuel with
  | zero =>
    intro fuel1 i schedules h _
    cases fuel1 with
    | zero => rfl
    | succ f =>
      have : ¬ i < schedules.length := by omega
      simp [reduce_schedules_outer, this]
  | succ fuel ih =>
    intro fuel1 i schedules h h1
    cases fuel1 with
    | zero =>
      have : ¬ i < schedules.length := by omega
      simp [reduce_schedules_outer, this]
    | succ f =>
      simp only [reduce_schedules_outer]
      split
      · have := reduce_schedules_inner_length i (schedules.length + 1) i schedules
        exact ih f (i + 1) _ (by omega) (by omega)
      · rfl

end FuelLemmas

section FuelLemmas2

variable {α : Type} [LinearOrder α] [Zero α]

/-- More fuel than the number of schedules plus one does not change the result
of `reduce_schedules`: the loops have ended. -/
theorem reduce_schedules_fuel (schedules : List (List (Patrol α))) (extra : Nat) :
    reduce_schedules schedules =
      reduce_schedules_outer ((schedules.map reduce_schedule).length + 1 + extra) 0
        (schedules.map reduce_schedule) := by
  unfold reduce_schedules
  exact reduce_schedules_outer_fuel _ _ 0 _ (by omega) (by omega)

end FuelLemmas2

/-- C30 (the code at failing inputs): `reduce_schedules` on the list of the one
schedule `visit_0`, which is not empty and visits one area, returns the empty
list; on the two schedules `visit_0`, `visit_1`, which are not equal, it returns
`visit_1` alone, and no schedule of the output is equal to `visit_0`. The inner
loop starts at `j = i`, and a schedule is equal to itself. -/
theorem reduce_schedules_erases_schedule :
    reduce_schedules [visit_0] = [] ∧
    schedule_equals visit_0 visit_0 = true ∧
    reduce_schedule visit_0 = visit_0 ∧ reduce_schedule visit_1 = visit_1 ∧
    schedule_equals visit_0 visit_1 = false ∧ schedule_equals visit_1 visit_0 = false ∧
    reduce_schedules [visit_0, visit_1] = [visit_1] ∧
    (∀ t ∈ reduce_schedules [visit_0, visit_1], schedule_equals visit_0 t = false) := by
  refine ⟨rfl, rfl, rfl, rfl, rfl, rfl, rfl, ?_⟩
  intro t ht
  have h : reduce_schedules [visit_0, visit_1] = [visit_1] := rfl
  rw [h, List.mem_singleton] at ht
  rw [ht]
  rfl

end Protect

/-! ## Theorems: quantal response -/

namespace PASAQ

section ResponseLemmas

variable {α : Type} [LinearOrderedField α]

/-- The sum of a list read over its positions is the sum over the index range. -/
theorem sum_map_range_eq (f : Nat → α) (n : Nat) :
    ((List.range n).map f).sum = Finset.sum (Finset.range n) f := by
  induction n with
  | zero => simp
  | succ n ih => rw [List.range_succ, List.map_append, List.sum_append, ih,
      Finset.sum_range_succ]; simp

/-- The quantal response is the exponential weight of the target divided by the
sum of the weights of all targets. -/
theorem q_i_eq (exp : α → α) (i : Nat) (s : List α) (Pm : PayoffMatrix) (lambda : α) :
    q_i exp i s Pm lambda = exp (lambda * U_a i s Pm) /
      Finset.sum (Finset.range Pm.P_a.length) (fun j => exp (lambda * U_a j s Pm)) := by
  simp only [q_i]
  rw [foldl_add_eq_sum, zero_add, sum_map_range_eq]

/-- The expected defender utility is the response-weighted sum of the utilities
of the targets. -/
theorem UD_eq (exp : α → α) (x : List α) (Pm : PayoffMatrix) (lambda : α) :
    UD exp x Pm lambda =
      Finset.sum (Finset.range x.length) (fun i => q_i exp i x Pm lambda * U_d i x Pm) := by
  simp only [UD]
  rw [foldl_add_eq_sum, zero_add, sum_map_range_eq]

/-- The quantal responses of all targets add up to 1. -/
theorem q_i_sum_eq_one (exp : α → α) (hexp : ∀ t, 0 < exp t) (s : List α) (Pm : PayoffMatrix)
    (lambda : α) (hT : 1 ≤ Pm.P_a.length) :
    Finset.sum (Finset.range Pm.P_a.length) (fun i => q_i exp i s Pm lambda) = 1 := by
  have hS := q_i_sum_pos exp hexp s Pm lambda hT
  rw [sum_map_range_eq] at hS
  simp only [q_i_eq]
  rw [← Finset.sum_div]
  exact div_self (ne_of_gt hS)

end ResponseLemmas

/-- In exact arithmetic with the exponential function of the reals the quantal
response is a probability distribution over the targets: for every payoff
matrix with `T ≥ 1` targets, every strategy of length `T` and every real
`lambda`, `0 < q_i(i) ≤ 1` for every target `i`, the values
`q_i(0), ..., q_i(T - 1)` add up to 1, and `UD(x)` lies between the utility
`U_d(i, x)` of some target and the utility `U_d(j, x)` of some target. On
`double` the response can be 0 or NaN, see the section on the quantal response
in `double` arithmetic. -/
theorem quantal_response_distribution (Pm : PayoffMatrix) (x : List ℝ) (lambda : ℝ)
    (hT : 1 ≤ Pm.P_a.length) (hx : x.length = Pm.P_a.length) :
    (∀ i, i < Pm.P_a.length →
      0 < q_i Real.exp i x Pm lambda ∧ q_i Real.exp i x Pm lambda ≤ 1) ∧
    ((List.range Pm.P_a.length).map (fun i => q_i Real.exp i x Pm lambda)).sum = 1 ∧
    (∃ i, i < Pm.P_a.length ∧ U_d i x Pm ≤ UD Real.exp x Pm lambda) ∧
    (∃ j, j < Pm.P_a.length ∧ UD Real.exp x Pm lambda ≤ U_d j x Pm) ∧
    (∀ lo hi : ℝ, (∀ i, i < Pm.P_a.length → lo ≤ U_d i x Pm ∧ U_d i x Pm ≤ hi) →
      lo ≤ UD Real.exp x Pm lambda ∧ UD Real.exp x Pm lambda ≤ hi) := by
  have hq := fun i hi => q_i_pos_le_one Real.exp Real.exp_pos x Pm lambda i hi
  have hsum := q_i_sum_eq_one Real.exp Real.exp_pos x Pm lambda hT
  have hne : (Finset.range Pm.P_a.length).Nonempty := by
    rw [Finset.nonempty_range_iff]
    omega
  have hUD : UD Real.exp x Pm lambda =
      Finset.sum (Finset.range Pm.P_a.length)
        (fun i => q_i Real.exp i x Pm lambda * U_d i x Pm) := by
    rw [UD_eq, hx]
  have hconst : Finset.sum (Finset.range Pm.P_a.length)
      (fun i => q_i Real.exp i x Pm lambda * UD Real.exp x Pm lambda) =
      UD Real.exp x Pm lambda := by
    rw [← Finset.sum_mul, hsum, one_mul]
  have hlow : ∃ i, i < Pm.P_a.length ∧ U_d i x Pm ≤ UD Real.exp x Pm lambda := by
    obtain ⟨i, hi, hle⟩ := Finset.exists_le_of_sum_le hne
      (f := fun i => q_i Real.exp i x Pm lambda * U_d i x Pm)
      (g := fun i => q_i Real.exp i x Pm lambda * UD Real.exp x Pm lambda)
      (by rw [hconst, ← hUD])
    rw [Finset.mem_range] at hi
    exact ⟨i, hi, le_of_mul_le_mul_left hle (hq i hi).1⟩
  have hhigh : ∃ j, j < Pm.P_a.length ∧ UD Real.exp x Pm lambda ≤ U_d j x Pm := by
    obtain ⟨j, hj, hle⟩ := Finset.exists_le_of_sum_le hne
      (f := fun i => q_i Real.exp i x Pm lambda * UD Real.exp x Pm lambda)
      (g := fun i => q_i Real.exp i x Pm lambda * U_d i x Pm)
      (by rw [hconst, ← hUD])
    rw [Finset.mem_range] at hj
    exact ⟨j, hj, le_of_mul_le_mul_left hle (hq j hj).1⟩
  refine ⟨hq, by rw [sum_map_range_eq]; exact hsum, hlow, hhigh, ?_⟩
  intro lo hi hall
  obtain ⟨i, hi1, hi2⟩ := hlow
  obtain ⟨j, hj1, hj2⟩ := hhigh
  exact ⟨le_trans (hall i hi1).1 hi2, le_trans hj2 (hall j hj1).2⟩

end PASAQ

/-! ## Theorems: degenerate input and index ranges -/

namespace PASAQ

/-- C28 (the code at a failing input): for the payoff matrix `two_rewards`, whose
four vectors have length 2, and the assignment matrix `A_212` (an unused row 0
and two rows of two entries), `set_pasaq_obj` reads the payoff vectors at
position 2, `set_pasaq_constraint_16` reads `A[1][2]`, and the recovery loop
writes position 2 of the strategy of two entries; none of these positions
exists. -/
theorem CheckFeasibility_accesses_out_of_range :
    (two_rewards.R_d.length = 2 ∧ two_rewards.P_d.length = 2 ∧
      two_rewards.R_a.length = 2 ∧ two_rewards.P_a.length = 2) ∧
    (A_212.length = 3 ∧ (A_212.getD 1 []).length = 2 ∧ (A_212.getD 2 []).length = 2) ∧
    (2 ∈ set_pasaq_obj_reads two_rewards ∧ two_rewards.R_a[2]? = none ∧
      two_rewards.R_d[2]? = none ∧ two_rewards.P_d[2]? = none) ∧
    ((1, 2) ∈ set_pasaq_constraint_16_reads two_rewards.P_a.length A_212 ∧
      (A_212.getD 1 [])[2]? = none) ∧
    (2 ∈ recovery_writes two_rewards.P_a.length ∧
      (List.replicate two_rewards.P_a.length (0 : ℚ))[2]? = none) := by
  refine ⟨⟨rfl, rfl, rfl, rfl⟩, ⟨rfl, rfl, rfl⟩, ⟨by decide, rfl, rfl, rfl⟩, ⟨by decide, rfl⟩,
    by decide, rfl⟩

end PASAQ

/-! ## Theorems: the assembled feasibility program -/

namespace PASAQ

open LinProg

section AssemblyLemmas

variable {α : Type} [LinearOrderedField α] [FloorRing α]

/-- `CheckFeasibility` assembles the program and then reads the result back. -/
theorem CheckFeasibility_eq (exp : α → α) (to_string : α → String) (solver : glp_solver α)
    (observed : String → Nat → α) (r : α) (num_res : Int) (Pm : PayoffMatrix)
    (A : List (List α)) (K : α) (lambda : α) :
    CheckFeasibility exp to_string solver observed r num_res Pm A K lambda =
      match feasibility_model exp to_string r num_res Pm A K lambda with
      | .error err => .error err
      | .ok LP => read_back solver observed LP Pm.P_a.length A K := by
  simp only [CheckFeasibility, feasibility_model, build_model, read_back]
  rcases (lin_prog.init ("Check Feasibility r = " ++ to_string r) : lin_prog α).declare_variables "x"
    (double_to_size ((Pm.P_a.length : α) * K)) with e | LP1
  · rfl
  dsimp only
  rcases LP1.declare_variables "z" (double_to_size ((Pm.P_a.length : α) * K)) with e | LP2
  · rfl
  dsimp only
  rcases LP2.declare_variables "a" (A.getD 1 []).length with e | LP3
  · rfl
  dsimp only
  rcases set_pasaq_obj exp LP3 r Pm lambda (double_to_int K) with e | LP4
  · rfl
  dsimp only
  rcases set_pasaq_constraint_11 LP4 Pm.P_a.length (double_to_size K) num_res with e | LP5
  · rfl
  dsimp only
  rcases set_pasaq_constraint_12 LP5 Pm.P_a.length (double_to_size K) with e | LP6
  · rfl
  dsimp only
  rcases set_pasaq_constraint_13 LP6 Pm.P_a.length (double_to_size K) with e | LP7
  · rfl
  dsimp only
  rcases set_pasaq_constraint_14 LP7 Pm.P_a.length (double_to_size K) with e | LP8
  · rfl
  dsimp only
  rcases set_pasaq_constraint_15 LP8 Pm.P_a.length (double_to_size K) with e | LP9
  · rfl
  dsimp only
  rcases set_pasaq_constraint_16 LP9 Pm.P_a.length (double_to_size K) A with e | LP10
  · rfl
  dsimp only
  rcases set_pasaq_constraint_17 LP10 Pm.P_a.length (double_to_size K) A with e | LP11
  · rfl
  dsimp only

end AssemblyLemmas

end PASAQ

namespace LinProg

section RenameLemmas

variable {D : Type}

/-- A loop whose body commutes with a map of the state commutes with it. -/
theorem for_up_to_map {σ ε : Type} (g : σ → σ) (n : Nat) (body body1 : σ → Nat → Except ε σ)
    (h : ∀ s i, body1 (g s) i = (body s i).map g) (s : σ) :
    for_up_to n body1 (g s) = (for_up_to n body s).map g := by
  induction n with
  | zero => rfl
  | succ n ih =>
    simp only [for_up_to, ih]
    rcases for_up_to n body s with e | s1
    · rfl
    · exact h s1 (n + 1)

/-- Renaming does not change the column range of a group. -/
theorem get_bounds_rename (nm : String) (m : lin_prog D) (var : String) :
    (m.rename nm).get_bounds var = m.get_bounds var := rfl

/-- Declaring a group commutes with renaming. -/
theorem declare_variables_rename (nm : String) (m : lin_prog D) (name : String) (num : Nat) :
    (m.rename nm).declare_variables name num = (m.declare_variables name num).map
      (lin_prog.rename nm) := by
  unfold lin_prog.declare_variables
  have hhas : (m.rename nm).has name = m.has name := rfl
  rw [hhas]
  split
  · rfl
  · simp [Except.map, lin_prog.rename, glp_call.rename, Function.comp_def]

/-- Adding a term commutes with renaming. -/
theorem add_constraint_rename (nm : String) (m : lin_prog D) (var : String) (index : Nat)
    (value : D) :
    (m.rename nm).add_constraint var index value = (m.add_constraint var index value).map
      (lin_prog.rename nm) := by
  unfold lin_prog.add_constraint
  rw [get_bounds_rename]
  rcases m.get_bounds var with e | bounds
  · rfl
  · dsimp only
    split
    · rfl
    · have hcur : (m.rename nm).cur_row = m.cur_row := rfl
      rw [hcur]
      split
      · rfl
      · rfl

/-- Setting the bounds of a variable commutes with renaming. -/
theorem set_var_bnd_rename (nm : String) (m : lin_prog D) (var : String) (index : Nat)
    (type : Int) (lvalue rvalue : D) :
    (m.rename nm).set_var_bnd var index type lvalue rvalue =
      (m.set_var_bnd var index type lvalue rvalue).map (lin_prog.rename nm) := by
  unfold lin_prog.set_var_bnd
  rw [get_bounds_rename]
  rcases m.get_bounds var with e | bounds
  · rfl
  · dsimp only
    split
    · rfl
    · simp [Except.map, lin_prog.rename, glp_call.rename]

/-- Setting the kind of a variable commutes with renaming. -/
theorem set_var_kind_rename (nm : String) (m : lin_prog D) (var : String) (index : Nat)
    (type : Int) :
    (m.rename nm).set_var_kind var index type =
      (m.set_var_kind var index type).map (lin_prog.rename nm) := by
  unfold lin_prog.set_var_kind
  rw [get_bounds_rename]
  rcases m.get_bounds var with e | bounds
  · rfl
  · dsimp only
    split
    · rfl
    · simp [Except.map, lin_prog.rename, glp_call.rename]

/-- Setting an objective coefficient commutes with renaming. -/
theorem set_objective_var_rename (nm : String) (m : lin_prog D) (var : String) (index : Nat)
    (value : D) :
    (m.rename nm).set_objective_var var index value =
      (m.set_objective_var var index value).map (lin_prog.rename nm) := by
  unfold lin_prog.set_objective_var
  rw [get_bounds_rename]
  rcases m.get_bounds var with e | bounds
  · rfl
  · dsimp only
    split
    · rfl
    · simp [Except.map, lin_prog.rename, glp_call.rename]

/-- Setting the bounds of the current row commutes with renaming. -/
theorem set_row_bnd_rename (nm : String) (m : lin_prog D) (type : Int) (lvalue rvalue : D) :
    (m.rename nm).set_row_bnd type lvalue rvalue = (m.set_row_bnd type lvalue rvalue).rename nm := by
  simp [lin_prog.set_row_bnd, lin_prog.rename, glp_call.rename]

/-- Setting the direction to maximise commutes with renaming. -/
theorem set_max_rename (nm : String) (m : lin_prog D) :
    (m.rename nm).set_max = m.set_max.rename nm := by
  simp [lin_prog.set_max, lin_prog.rename, glp_call.rename]

/-- Adding a named row commutes with renaming. -/
theorem add_row_named_rename (nm : String) (m : lin_prog D) (name : String) :
    (m.rename nm).add_row_named name = (m.add_row_named name).rename nm := by
  simp [lin_prog.add_row_named, lin_prog.add_row, lin_prog.rename, glp_call.rename]

/-- A new problem object under another name. -/
theorem init_rename [Zero D] (nm nm1 : String) :
    (lin_prog.init nm1 : lin_prog D).rename nm = lin_prog.init nm := by
  simp [lin_prog.init, lin_prog.rename, glp_call.rename]

end RenameLemmas

end LinProg

namespace PASAQ

open LinProg

section RenameLoops

variable {α : Type}

/-- Two steps in sequence, the second run only when the first succeeds, commute
with a map of the state when each of them does. -/
theorem map_then_commute (g : lin_prog α → lin_prog α) (x : Except Error (lin_prog α))
    (f f1 : lin_prog α → Except Error (lin_prog α)) (h : ∀ s, f1 (g s) = (f s).map g) :
    (match x.map g with
      | .error err => Except.error err
      | .ok s => f1 s) =
    (match x with
      | .error err => Except.error err
      | .ok s => f s).map g := by
  rcases x with e | s
  · rfl
  · exact h s

/-- Nested loops whose body commutes with renaming commute with it. -/
theorem nested_loop_rename (nm : String) (n1 n2 : Nat)
    (body body1 : lin_prog α → Nat → Nat → Except Error (lin_prog α))
    (h : ∀ s i k, body1 (s.rename nm) i k = (body s i k).map (lin_prog.rename nm))
    (LP : lin_prog α) :
    for_up_to n1 (fun LP i => for_up_to n2 (fun LP k => body1 LP i k) LP) (LP.rename nm) =
      (for_up_to n1 (fun LP i => for_up_to n2 (fun LP k => body LP i k) LP) LP).map
        (lin_prog.rename nm) :=
  for_up_to_map (lin_prog.rename nm) n1 _ _
    (fun s i => for_up_to_map (lin_prog.rename nm) n2 _ _ (fun s1 k => h s1 i k) s) LP

end RenameLoops

section RenameFormulation

variable {α : Type} [LinearOrderedField α]

/-- The threshold `r` does not enter the objective coefficient: the value
computed from it is overwritten before it is used. -/
theorem coef_val_threshold (exp : α → α) (r1 r2 : α) (Pm : PayoffMatrix) (lambda : α) (K : Int)
    (i : Nat) (k : Int) :
    coef_val exp r1 Pm lambda K i k = coef_val exp r2 Pm lambda K i k := rfl

/-- The objective commutes with renaming, whatever the two thresholds. -/
theorem set_pasaq_obj_rename (nm : String) (exp : α → α) (LP : lin_prog α) (r1 r2 : α)
    (Pm : PayoffMatrix) (lambda : α) (K : Int) :
    set_pasaq_obj exp (LP.rename nm) r1 Pm lambda K =
      (set_pasaq_obj exp LP r2 Pm lambda K).map (lin_prog.rename nm) := by
  unfold set_pasaq_obj
  dsimp only
  rw [set_max_rename]
  exact nested_loop_rename nm _ _
    (fun LP i k => LP.set_objective_var "x" ((((i : Int) - 1) * K + (k : Int)).toNat)
      (coef_val exp r2 Pm lambda K i k))
    (fun LP i k => LP.set_objective_var "x" ((((i : Int) - 1) * K + (k : Int)).toNat)
      (coef_val exp r1 Pm lambda K i k))
    (fun s i k => set_objective_var_rename nm s _ _ _) _

/-- Constraint (11) commutes with renaming. -/
theorem set_pasaq_constraint_11_rename (nm : String) (LP : lin_prog α) (T K : Nat)
    (num_res : Int) :
    set_pasaq_constraint_11 (LP.rename nm) T K num_res =
      (set_pasaq_constraint_11 LP T K num_res).map (lin_prog.rename nm) := by
  unfold set_pasaq_constraint_11
  dsimp only
  rw [add_row_named_rename, set_row_bnd_rename]
  exact nested_loop_rename nm _ _ _ _ (fun s i k => add_constraint_rename nm s _ _ _) _

/-- Constraint (12) commutes with renaming. -/
theorem set_pasaq_constraint_12_rename (nm : String) (LP : lin_prog α) (T K : Nat) :
    set_pasaq_constraint_12 (LP.rename nm) T K =
      (set_pasaq_constraint_12 LP T K).map (lin_prog.rename nm) := by
  unfold set_pasaq_constraint_12
  exact nested_loop_rename nm _ _ _ _ (fun s i k => set_var_bnd_rename nm s _ _ _ _ _) _

/-- Constraint (13) commutes with renaming. -/
theorem set_pasaq_constraint_13_rename (nm : String) (LP : lin_prog α) (T K : Nat) :
    set_pasaq_constraint_13 (LP.rename nm) T K =
      (set_pasaq_constraint_13 LP T K).map (lin_prog.rename nm) := by
  unfold set_pasaq_constraint_13
  refine nested_loop_rename nm _ _ _ _ (fun s i k => ?_) _
  dsimp only
  rw [add_row_named_rename, set_row_bnd_rename, add_constraint_rename]
  rcases ((s.add_row_named ("13-" ++ toString i ++ " " ++ toString k)).set_row_bnd
    GLP_UP 0 0).add_constraint "x" (size_add (size_mul (size_sub i 1) K) k) (-1) with e | s1
  · rfl
  · exact add_constraint_rename nm s1 _ _ _

/-- Constraint (14) commutes with renaming. -/
theorem set_pasaq_constraint_14_rename (nm : String) (LP : lin_prog α) (T K : Nat) :
    set_pasaq_constraint_14 (LP.rename nm) T K =
      (set_pasaq_constraint_14 LP T K).map (lin_prog.rename nm) := by
  unfold set_pasaq_constraint_14
  refine nested_loop_rename nm _ _ _ _ (fun s i k => ?_) _
  dsimp only
  rw [add_row_named_rename, set_row_bnd_rename, add_constraint_rename]
  rcases ((s.add_row_named ("14-" ++ toString i ++ toString k)).set_row_bnd
    GLP_UP 0 0).add_constraint "x"
      (size_add (size_add (size_mul (size_sub i 1) K) k) 1) 1 with e | s1
  · rfl
  · exact add_constraint_rename nm s1 _ _ _

/-- Constraint (15) commutes with renaming. -/
theorem set_pasaq_constraint_15_rename (nm : String) (LP : lin_prog α) (T K : Nat) :
    set_pasaq_constraint_15 (LP.rename nm) T K =
      (set_pasaq_constraint_15 LP T K).map (lin_prog.rename nm) := by
  unfold set_pasaq_constraint_15
  refine nested_loop_rename nm _ _ _ _ (fun s i k => ?_) _
  dsimp only
  rw [set_var_kind_rename]
  rcases s.set_var_kind "z" (size_add (size_mul (size_sub i 1) K) k) GLP_BV with e | s1
  · rfl
  · dsimp only [Except.map]
    rw [add_row_named_rename, add_constraint_rename]
    rcases (s1.add_row_named ("15-" ++ toString i ++ toString k)).add_constraint "z"
      (size_add (size_mul (size_sub i 1) K) k) 1 with e | s2
    · rfl
    · dsimp only [Except.map]
      rw [set_row_bnd_rename]

/-- Constraint (16) commutes with renaming. -/
theorem set_pasaq_constraint_16_rename (nm : String) (LP : lin_prog α) (T K : Nat)
    (A : List (List α)) :
    set_pasaq_constraint_16 (LP.rename nm) T K A =
      (set_pasaq_constraint_16 LP T K A).map (lin_prog.rename nm) := by
  unfold set_pasaq_constraint_16
  refine for_up_to_map (lin_prog.rename nm) _ _ _ (fun s i => ?_) _
  dsimp only
  rw [add_row_named_rename, set_row_bnd_rename,
    for_up_to_map (lin_prog.rename nm) K
      (fun LP k => LP.add_constraint "x" (size_add (size_mul (size_sub i 1) K) k) (1 : α))
      (fun LP k => LP.add_constraint "x" (size_add (size_mul (size_sub i 1) K) k) (1 : α))
      (fun s1 k => add_constraint_rename nm s1 _ _ _)]
  exact map_then_commute (lin_prog.rename nm)
    (for_up_to K
      (fun LP k => LP.add_constraint "x" (size_add (size_mul (size_sub i 1) K) k) (1 : α))
      ((s.add_row_named ("16-" ++ toString i)).set_row_bnd GLP_FX 0 0))
    (fun LP => for_up_to (A.getD 1 []).length
      (fun LP j => LP.add_constraint "a" j (-((A.getD i []).getD j 0))) LP)
    (fun LP => for_up_to (A.getD 1 []).length
      (fun LP j => LP.add_constraint "a" j (-((A.getD i []).getD j 0))) LP)
    (fun s1 => for_up_to_map (lin_prog.rename nm) (A.getD 1 []).length
      (fun LP j => LP.add_constraint "a" j (-((A.getD i []).getD j 0)))
      (fun LP j => LP.add_constraint "a" j (-((A.getD i []).getD j 0)))
      (fun s2 j => add_constraint_rename nm s2 _ _ _) s1)

/-- Constraint (17) commutes with renaming. -/
theorem set_pasaq_constraint_17_rename (nm : String) (LP : lin_prog α) (T K : Nat)
    (A : List (List α)) :
    set_pasaq_constraint_17 (LP.rename nm) T K A =
      (set_pasaq_constraint_17 LP T K A).map (lin_prog.rename nm) := by
  unfold set_pasaq_constraint_17
  dsimp only
  rw [add_row_named_rename, set_row_bnd_rename]
  exact for_up_to_map (lin_prog.rename nm) _ _ _
    (fun s j => add_constraint_rename nm s _ _ _) _

/-- Constraint (18) commutes with renaming. -/
theorem set_pasaq_constraint_18_rename (nm : String) (LP : lin_prog α) (T K : Nat)
    (A : List (List α)) :
    set_pasaq_constraint_18 (LP.rename nm) T K A =
      (set_pasaq_constraint_18 LP T K A).map (lin_prog.rename nm) := by
  unfold set_pasaq_constraint_18
  exact for_up_to_map (lin_prog.rename nm) _ _ _
    (fun s j => set_var_bnd_rename nm s _ _ _ _ _) _

end RenameFormulation

end PASAQ

namespace PASAQ

open LinProg

section ThresholdIndependence

variable {α : Type} [LinearOrderedField α] [FloorRing α]

/-- Assembling the program commutes with renaming the problem object, whatever
the two thresholds. -/
theorem build_model_rename (nm : String) (exp : α → α) (LP : lin_prog α) (r1 r2 : α)
    (num_res : Int) (Pm : PayoffMatrix) (A : List (List α)) (K : α) (lambda : α) :
    build_model exp (LP.rename nm) r1 num_res Pm A K lambda =
      (build_model exp LP r2 num_res Pm A K lambda).map (lin_prog.rename nm) := by
  unfold build_model
  dsimp only
  rw [declare_variables_rename]
  refine map_then_commute _ _ _ _ (fun s => ?_)
  rw [declare_variables_rename]
  refine map_then_commute _ _ _ _ (fun s => ?_)
  rw [declare_variables_rename]
  refine map_then_commute _ _ _ _ (fun s => ?_)
  rw [set_pasaq_obj_rename nm exp s r1 r2]
  refine map_then_commute _ _ _ _ (fun s => ?_)
  rw [set_pasaq_constraint_11_rename]
  refine map_then_commute _ _ _ _ (fun s => ?_)
  rw [set_pasaq_constraint_12_rename]
  refine map_then_commute _ _ _ _ (fun s => ?_)
  rw [set_pasaq_constraint_13_rename]
  refine map_then_commute _ _ _ _ (fun s => ?_)
  rw [set_pasaq_constraint_14_rename]
  refine map_then_commute _ _ _ _ (fun s => ?_)
  rw [set_pasaq_constraint_15_rename]
  refine map_then_commute _ _ _ _ (fun s => ?_)
  rw [set_pasaq_constraint_16_rename]
  refine map_then_commute _ _ _ _ (fun s => ?_)
  rw [set_pasaq_constraint_17_rename]
  refine map_then_commute _ _ _ _ (fun s => ?_)
  exact set_pasaq_constraint_18_rename nm s _ _ A

/-- Under a common name the programs assembled for two thresholds are the same. -/
theorem feasibility_model_rename (nm : String) (exp : α → α) (to_string : α → String)
    (r1 r2 : α) (num_res : Int) (Pm : PayoffMatrix) (A : List (List α)) (K : α) (lambda : α) :
    (feasibility_model exp to_string r1 num_res Pm A K lambda).map (lin_prog.rename nm) =
      (feasibility_model exp to_string r2 num_res Pm A K lambda).map (lin_prog.rename nm) := by
  unfold feasibility_model
  rw [← build_model_rename nm exp _ r1 r1, ← build_model_rename nm exp _ r1 r2, init_rename,
    init_rename]

end ThresholdIndependence

end PASAQ

namespace PASAQ

open LinProg

section ScheduleConstraints

variable {α : Type}

/-- Adding a term on `a` is a step that appends the entry
`(current row, 2 * T * K + index, value)`. -/
theorem step_add_a {T K J : Nat} (m : lin_prog α) (hG : Groups T K J m) (index : Nat)
    (value : α) (hrow : 1 ≤ m.cur_row) (hmax : m.cur_row ≤ INT_MAX) (h1 : 1 ≤ index)
    (h2 : index ≤ J) :
    ∃ m1, m.add_constraint "a" index value = .ok m1 ∧
      Step m m1 0 [(m.cur_row : Int)] [((2 * (T * K) + index : Nat) : Int)] [value] [] := by
  have h := add_constraint_of_group m (pasaq_groups T K J) hG.1 2 "a" J rfl
    index value hrow h1 h2
  have hG2 := hG.2
  refine ⟨_, h, ?_⟩
  rw [(pasaq_first_cols T K J).2.2, to_int_of_le _ hmax, to_int_of_le _ (by omega)]
  have : 1 + 2 * (T * K) + index - 1 = 2 * (T * K) + index := by omega
  simp [Step, this]

/-- Setting the bounds of a variable `a` is a step of one solver call. -/
theorem step_bnd_a {T K J : Nat} (m : lin_prog α) (hG : Groups T K J m) (index : Nat)
    (type : Int) (lvalue rvalue : α) (h1 : 1 ≤ index) (h2 : index ≤ J) :
    ∃ m1, m.set_var_bnd "a" index type lvalue rvalue = .ok m1 ∧
      Step m m1 0 [] [] [] [.set_col_bnds ((2 * (T * K) + index : Nat) : Int) type lvalue rvalue] := by
  have h := set_var_bnd_of_group m (pasaq_groups T K J) hG.1 2 "a" J rfl
    index type lvalue rvalue h1 h2
  have hG2 := hG.2
  refine ⟨_, h, ?_⟩
  rw [(pasaq_first_cols T K J).2.2, to_int_of_le _ (by omega)]
  have : 1 + 2 * (T * K) + index - 1 = 2 * (T * K) + index := by omega
  simp [Step, this]

/-- A loop whose body keeps the model ready and the row cursor in place
succeeds and does the same. -/
theorem loop_ready {T K J : Nat} (n : Nat) (body : lin_prog α → Nat → Except Error (lin_prog α))
    (m : lin_prog α) (hR : Ready T K J m)
    (hbody : ∀ s i, Ready T K J s → s.cur_row = m.cur_row → 1 ≤ i → i ≤ n →
      ∃ s1, body s i = .ok s1 ∧ Ready T K J s1 ∧ s1.cur_row = s.cur_row) :
    ∃ m1, for_up_to n body m = .ok m1 ∧ Ready T K J m1 ∧ m1.cur_row = m.cur_row := by
  refine for_up_to_inv n body (fun _ s => Ready T K J s ∧ s.cur_row = m.cur_row) m ⟨hR, rfl⟩ ?_
  intro i s hi ⟨hRs, hcs⟩
  obtain ⟨s1, h1, hR1, hc1⟩ := hbody s (i + 1) hRs hcs (by omega) (by omega)
  exact ⟨s1, h1, hR1, hc1.trans hcs⟩

/-- The loop of terms on `x` for the target `i` keeps the model ready. -/
theorem loop_add_x_ready {T K J : Nat} (m : lin_prog α) (hR : Ready T K J m) (i : Nat)
    (value : α) (hi1 : 1 ≤ i) (hi2 : i ≤ T) (hrow : 1 ≤ m.cur_row) (hmax : m.cur_row ≤ INT_MAX) :
    ∃ m1, for_up_to K (fun LP k =>
        LP.add_constraint "x" (size_add (size_mul (size_sub i 1) K) k) value) m = .ok m1 ∧
      Ready T K J m1 ∧ m1.cur_row = m.cur_row := by
  have hTK : T * K ≤ INT_MAX := by have := hR.1.2; omega
  refine loop_ready K _ m hR ?_
  intro s k hRs hcs hk1 hk2
  obtain ⟨hidx, hl, hu⟩ := sub_index_eq T K i k hi1 hi2 hk1 hk2 hTK
  obtain ⟨s1, hs1, hS⟩ := step_add_x s hRs.1 ((i - 1) * K + k) value (by omega) (by omega) hl hu
  refine ⟨s1, by simp only [hidx]; exact hs1, ?_, hS.1⟩
  refine Ready_of_Step hS hRs rfl rfl ?_
  intro r hr
  rw [List.mem_singleton] at hr
  rw [hr]
  simp

/-- A loop of terms on `a` over all schedules keeps the model ready. -/
theorem loop_add_a_ready {T K J : Nat} (m : lin_prog α) (hR : Ready T K J m)
    (value : Nat → α) (hrow : 1 ≤ m.cur_row) (hmax : m.cur_row ≤ INT_MAX) :
    ∃ m1, for_up_to J (fun LP j => LP.add_constraint "a" j (value j)) m = .ok m1 ∧
      Ready T K J m1 ∧ m1.cur_row = m.cur_row := by
  refine loop_ready J _ m hR ?_
  intro s j hRs hcs hj1 hj2
  obtain ⟨s1, hs1, hS⟩ := step_add_a s hRs.1 j (value j) (by omega) (by omega) hj1 hj2
  refine ⟨s1, hs1, ?_, hS.1⟩
  refine Ready_of_Step hS hRs rfl rfl ?_
  intro r hr
  rw [List.mem_singleton] at hr
  rw [hr]
  simp

/-- A new named row with its bounds keeps the model ready and moves the row
cursor by one. -/
theorem new_row_ready {T K J : Nat} (m : lin_prog α) (hR : Ready T K J m) (nm : String)
    (type : Int) (lvalue rvalue : α) (hrows : m.cur_row + 1 ≤ INT_MAX) :
    Ready T K J ((m.add_row_named nm).set_row_bnd type lvalue rvalue) ∧
    ((m.add_row_named nm).set_row_bnd type lvalue rvalue).cur_row = m.cur_row + 1 := by
  have hA := step_add_row_named m nm hrows
  have hcA : (m.add_row_named nm).cur_row = m.cur_row + 1 := hA.1
  have hRA : Ready T K J (m.add_row_named nm) :=
    Ready_of_Step hA hR rfl rfl (fun r hr => by cases hr)
  have hB := step_set_row_bnd (m.add_row_named nm) type lvalue rvalue (by omega)
  exact ⟨Ready_of_Step hB hRA rfl rfl (fun r hr => by cases hr), by rw [hB.1, hcA]⟩

end ScheduleConstraints

section ScheduleConstraints2

variable {α : Type} [LinearOrderedField α]

/-- Constraint (16) adds `T - 1` rows to a ready model whose group `a` has as
many columns as the matrix has schedules, without an exception, and leaves the
model ready. -/
theorem set_pasaq_constraint_16_ready {T K : Nat} (m : lin_prog α) (A : List (List α))
    (hR : Ready T K (A.getD 1 []).length m) (hrows : m.cur_row + (T - 1) ≤ INT_MAX) :
    ∃ m1, set_pasaq_constraint_16 m T K A = .ok m1 ∧ Ready T K (A.getD 1 []).length m1 ∧
      m1.cur_row = m.cur_row + (T - 1) := by
  unfold set_pasaq_constraint_16
  refine for_up_to_inv (T - 1) _
    (fun j s => Ready T K (A.getD 1 []).length s ∧ s.cur_row = m.cur_row + j) m ⟨hR, rfl⟩ ?_
  intro j s hj ⟨hRs, hcs⟩
  obtain ⟨hRB, hcB⟩ := new_row_ready s hRs ("16-" ++ toString (j + 1)) GLP_FX (0 : α) 0
    (by omega)
  obtain ⟨s1, h1, hR1, hc1⟩ := loop_add_x_ready _ hRB (j + 1) (1 : α) (by omega) (by omega)
    (by omega) (by omega)
  obtain ⟨s2, h2, hR2, hc2⟩ := loop_add_a_ready s1 hR1
    (fun l => -((A.getD (j + 1) []).getD l 0)) (by omega) (by omega)
  refine ⟨s2, ?_, hR2, by omega⟩
  dsimp only
  rw [h1]
  exact h2

/-- Constraint (17) adds one row to a ready model without an exception and
leaves the model ready. -/
theorem set_pasaq_constraint_17_ready {T K : Nat} (m : lin_prog α) (A : List (List α))
    (hR : Ready T K (A.getD 1 []).length m) (hrows : m.cur_row + 1 ≤ INT_MAX) :
    ∃ m1, set_pasaq_constraint_17 m T K A = .ok m1 ∧ Ready T K (A.getD 1 []).length m1 ∧
      m1.cur_row = m.cur_row + 1 := by
  unfold set_pasaq_constraint_17
  obtain ⟨hRB, hcB⟩ := new_row_ready m hR "(17)" GLP_UP (0 : α) 1 hrows
  obtain ⟨s2, h2, hR2, hc2⟩ := loop_add_a_ready _ hRB (fun _ => (1 : α)) (by omega) (by omega)
  exact ⟨s2, h2, hR2, by omega⟩

/-- Constraint (18) runs on a ready model without an exception and leaves the
model ready. -/
theorem set_pasaq_constraint_18_ready {T K : Nat} (m : lin_prog α) (A : List (List α))
    (hR : Ready T K (A.getD 1 []).length m) :
    ∃ m1, set_pasaq_constraint_18 m T K A = .ok m1 ∧ Ready T K (A.getD 1 []).length m1 ∧
      m1.cur_row = m.cur_row := by
  unfold set_pasaq_constraint_18
  refine loop_ready _ _ m hR ?_
  intro s j hRs hcs hj1 hj2
  obtain ⟨s1, hs1, hS⟩ := step_bnd_a s hRs.1 j GLP_DB (0 : α) 1 hj1 (by omega)
  exact ⟨s1, hs1, Ready_of_Step hS hRs rfl rfl (fun r hr => by cases hr), hS.1⟩

end ScheduleConstraints2

end PASAQ

namespace PASAQ

open LinProg

section Success

variable {α : Type} [LinearOrderedField α] [FloorRing α]

/-- Conversion to `size_t` of a `double` that holds a natural number. -/
theorem double_to_size_natCast (n : Nat) : double_to_size (n : α) = n :=
  Nat.floor_natCast n

/-- Conversion to `int` of a `double` that holds a natural number. -/
theorem double_to_int_natCast (n : Nat) : double_to_int (n : α) = (n : Int) := by
  simp [double_to_int]

/-- Conversion to `size_t` of the product `T * K` computed on `double`. -/
theorem double_to_size_mul (T K : Nat) : double_to_size ((T : α) * (K : α)) = T * K := by
  rw [← Nat.cast_mul]
  exact Nat.floor_natCast _

/-- Conversion to `size_t` of the sub-index `(i - 1) * K + k` computed on
`double`. -/
theorem double_to_size_index (i K k : Nat) :
    double_to_size (((i - 1 : Nat) : α) * (K : α) + (k : α)) = (i - 1) * K + k := by
  rw [← Nat.cast_mul, ← Nat.cast_add]
  exact Nat.floor_natCast _

/-- The program of an instance with `T` targets, `K ≥ 1` segments and `J`
schedules, whose columns and rows fit the `int` range of the solver, is
assembled without an exception, and the assembled model is ready. -/
theorem build_model_ready (exp : α → α) (nm : String) (r : α) (num_res : Int)
    (Pm : PayoffMatrix) (A : List (List α)) (K : Nat) (lambda : α) (hK : 1 ≤ K)
    (hcols : 2 * (Pm.P_a.length * K) + (A.getD 1 []).length ≤ INT_MAX)
    (hrows : 2 + 2 * (Pm.P_a.length * K) + Pm.P_a.length * (K - 1) + (Pm.P_a.length - 1) ≤
      INT_MAX) :
    ∃ LP, build_model exp (lin_prog.init nm) r num_res Pm A (K : α) lambda = .ok LP ∧
      Ready Pm.P_a.length K (A.getD 1 []).length LP := by
  obtain ⟨m1, m2, m3, m4, m5, h1, h2, h3, h4, h5, hR5, hc5⟩ :=
    Ready_before_constraint_12 exp nm r Pm lambda num_res K (A.getD 1 []).length hcols
  obtain ⟨m6, h6, hR6, -, hc6, -⟩ := constraint_12_spec m5 hR5 0 (Nat.zero_le _) (by omega)
  obtain ⟨m7, h7, hR7, -, hc7, -⟩ := constraint_13_spec m6 hR6 0 (Nat.zero_le _) (by omega)
  obtain ⟨m8, h8, hR8, -, hc8, -⟩ := constraint_14_spec m7 hK hR7 0 (Nat.zero_le _) (by omega)
  obtain ⟨m9, h9, hR9, -, hc9, -⟩ := constraint_15_spec m8 hR8 0 (Nat.zero_le _) (by omega)
  obtain ⟨m10, h10, hR10, hc10⟩ := set_pasaq_constraint_16_ready m9 A hR9 (by omega)
  obtain ⟨m11, h11, hR11, hc11⟩ := set_pasaq_constraint_17_ready m10 A hR10 (by omega)
  obtain ⟨m12, h12, hR12, hc12⟩ := set_pasaq_constraint_18_ready m11 A hR11
  refine ⟨m12, ?_, hR12⟩
  unfold build_model
  simp only [double_to_size_mul, double_to_size_natCast, double_to_int_natCast, h1, h2, h3, h4,
    h5, h6, h7, h8, h9, h10, h11, h12]

end Success

end PASAQ

namespace LinProg

section ReadValues

variable {D : Type}

/-- On a solved model `get_var_val` accepts every sub-index of a declared group,
and returns no value. -/
theorem get_var_val_of_group (m : lin_prog D) (solver : glp_solver D)
    (ds : List (String × Nat)) (h : Layout m ds) (hrun : m.has_run = true) (i : Nat)
    (name : String) (N : Nat) (hget : ds[i]? = some (name, N)) (index : Nat) (h1 : 1 ≤ index)
    (h2 : index ≤ N) : m.get_var_val solver name index = .ok none := by
  obtain ⟨hi, heq⟩ := List.getElem?_eq_some.mp hget
  obtain ⟨hb, hrange, -⟩ := range_check_of_layout m ds h i hi index h1 (by rw [heq]; exact h2)
  rw [heq] at hb
  unfold lin_prog.get_var_val
  simp only [hrun, Bool.not_true, Bool.false_eq_true, if_false, hb, hrange]

/-- Running the solver sets the solved flag and keeps the registry of groups. -/
theorem Layout_run (m : lin_prog D) (solver : glp_solver D) (parm : Option glp_iocp)
    (ds : List (String × Nat)) (h : Layout m ds) :
    Layout (m.run solver parm).1 ds ∧ (m.run solver parm).1.has_run = true :=
  ⟨Layout_of_eq m _ ds rfl rfl rfl h, rfl⟩

/-- A loop whose body succeeds on every state succeeds. -/
theorem for_up_to_unit {ε : Type} (n : Nat) (body : Unit → Nat → Except ε Unit)
    (h : ∀ i, 1 ≤ i → i ≤ n → body () i = .ok ()) : for_up_to n body () = .ok () := by
  obtain ⟨s1, h1, -⟩ := for_up_to_inv n body (fun _ _ => True) () trivial
    (fun j _ hj _ => ⟨(), h (j + 1) (by omega) (by omega), trivial⟩)
  exact h1

end ReadValues

end LinProg

namespace PASAQ

open LinProg

section WriteRange

variable {α : Type} [LinearOrderedField α]

/-- Writing positions from 1 on leaves the length and position 0 of a vector as
they were, and position `i` holds the value written for `i`. -/
theorem set_range_spec (value : Nat → α) (T : Nat) :
    ∀ n, n ≤ T → ∀ second : List α,
      second = (List.range n).foldl (fun sec l => sec.set (l + 1) (value (l + 1)))
        (List.replicate T 0) →
      second.length = T ∧ second.getD 0 0 = 0 ∧
      ∀ i, 1 ≤ i → i ≤ n → i < T → second.getD i 0 = value i := by
  intro n
  induction n with
  | zero =>
    intro _ second h
    subst h
    refine ⟨by simp, ?_, fun i h1 h2 => by omega⟩
    cases T <;> simp [List.replicate]
  | succ n ih =>
    intro hn second h
    rw [List.range_succ, List.foldl_append] at h
    simp only [List.foldl_cons, List.foldl_nil] at h
    obtain ⟨hl, h0, hi⟩ := ih (by omega) _ rfl
    subst h
    refine ⟨by rw [List.length_set]; exact hl, ?_, ?_⟩
    · rw [List.getD_eq_getElem?_getD, List.getElem?_set_ne (by omega),
        ← List.getD_eq_getElem?_getD]
      exact h0
    · intro i h1 h2 h3
      by_cases hin : i = n + 1
      · subst hin
        rw [List.getD_eq_getElem?_getD, List.getElem?_set_self (by omega)]
        rfl
      · rw [List.getD_eq_getElem?_getD, List.getElem?_set_ne (by omega),
          ← List.getD_eq_getElem?_getD]
        exact hi i h1 (by omega) h3

end WriteRange

section ReadBack

variable {α : Type} [LinearOrderedField α] [FloorRing α]

/-- On a ready model the result is read back without an exception: the verdict
is the comparison of the objective value reported by the solver with 0, the
strategy has one entry per target, its entry 0 is 0 and its entry `i`, for
`1 ≤ i < T`, is the sum of the values observed for the `K` reads of `x` with
the sub-indices `(i - 1) * K + k`. -/
theorem read_back_ok {T K : Nat} (solver : glp_solver α) (observed : String → Nat → α)
    (LP : lin_prog α) (A : List (List α)) (hR : Ready T K (A.getD 1 []).length LP) :
    ∃ second, read_back solver observed LP T A (K : α) =
        .ok (decide (solver.get_obj_val (LP.run solver (some { presolve := true })).1.lp = 0),
          second) ∧
      second.length = T ∧ second.getD 0 0 = 0 ∧
      ∀ i, 1 ≤ i → i < T → second.getD i 0 =
        ((List.range K).map (fun l => observed "x" ((i - 1) * K + (l + 1)))).sum := by
  have hTK : T * K ≤ INT_MAX := by have := hR.1.2; omega
  obtain ⟨hL, hrun⟩ := Layout_run LP solver (some { presolve := true }) _ hR.1.1
  have hx : ∀ i k, 1 ≤ i → i ≤ T → 1 ≤ k → k ≤ K →
      (LP.run solver (some { presolve := true })).1.get_var_val solver "x"
        ((i - 1) * K + k) = .ok none := by
    intro i k hi1 hi2 hk1 hk2
    obtain ⟨-, hl, hu⟩ := sub_index_eq T K i k hi1 hi2 hk1 hk2 hTK
    exact get_var_val_of_group _ solver _ hL hrun 0 "x" (T * K) rfl _ hl hu
  have hz : ∀ i k, 1 ≤ i → i ≤ T → 1 ≤ k → k ≤ K →
      (LP.run solver (some { presolve := true })).1.get_var_val solver "z"
        ((i - 1) * K + k) = .ok none := by
    intro i k hi1 hi2 hk1 hk2
    obtain ⟨-, hl, hu⟩ := sub_index_eq T K i k hi1 hi2 hk1 hk2 hTK
    exact get_var_val_of_group _ solver _ hL hrun 1 "z" (T * K) rfl _ hl hu
  have ha : ∀ j, 1 ≤ j → j ≤ (A.getD 1 []).length →
      (LP.run solver (some { presolve := true })).1.get_var_val solver "a" j = .ok none :=
    fun j hj1 hj2 => get_var_val_of_group _ solver _ hL hrun 2 "a" _ rfl _ hj1 hj2
  -- the sum of the reads of one target
  have hsum : ∀ i, 1 ≤ i → i ≤ T →
      for_up_to K (fun sum k =>
        match (LP.run solver (some { presolve := true })).1.get_var_val solver "x"
            (double_to_size (((i - 1 : Nat) : α) * (K : α) + (k : α))) with
        | .error err => Except.error err
        | .ok x => Except.ok (sum + x.getD (observed "x"
            (double_to_size (((i - 1 : Nat) : α) * (K : α) + (k : α)))))) (0 : α) =
      .ok ((List.range K).map (fun l => observed "x" ((i - 1) * K + (l + 1)))).sum := by
    intro i hi1 hi2
    obtain ⟨s1, h1, hinv⟩ := for_up_to_inv K
      (fun sum k =>
        match (LP.run solver (some { presolve := true })).1.get_var_val solver "x"
            (double_to_size (((i - 1 : Nat) : α) * (K : α) + (k : α))) with
        | .error err => Except.error err
        | .ok x => Except.ok (sum + x.getD (observed "x"
            (double_to_size (((i - 1 : Nat) : α) * (K : α) + (k : α))))))
      (fun j sum => sum = ((List.range j).map
        (fun l => observed "x" ((i - 1) * K + (l + 1)))).sum) (0 : α) (by simp)
      (by
        intro j s hj hs
        refine ⟨s + observed "x" ((i - 1) * K + (j + 1)), ?_, ?_⟩
        · simp only [double_to_size_index]
          rw [hx i (j + 1) hi1 hi2 (by omega) (by omega)]
          rfl
        · simp only [hs, List.range_succ, List.map_append, List.sum_append, List.map_cons,
            List.map_nil, List.sum_cons, List.sum_nil, add_zero])
    rw [h1, hinv]
  -- the recovery loop
  obtain ⟨second, h2, hinv2⟩ := for_up_to_inv T
    (fun (second : List α) i =>
      match for_up_to K (fun sum k =>
        match (LP.run solver (some { presolve := true })).1.get_var_val solver "x"
            (double_to_size (((i - 1 : Nat) : α) * (K : α) + (k : α))) with
        | .error err => Except.error err
        | .ok x => Except.ok (sum + x.getD (observed "x"
            (double_to_size (((i - 1 : Nat) : α) * (K : α) + (k : α)))))) (0 : α) with
      | .error err => Except.error err
      | .ok sum => Except.ok (second.set i sum))
    (fun j second => second = (List.range j).foldl
      (fun sec l => sec.set (l + 1)
        ((List.range K).map (fun l1 => observed "x" ((l + 1 - 1) * K + (l1 + 1)))).sum)
      (List.replicate T 0)) (List.replicate T 0) rfl
    (by
      intro j s hj hs
      refine ⟨s.set (j + 1)
        ((List.range K).map (fun l => observed "x" ((j + 1 - 1) * K + (l + 1)))).sum, ?_, ?_⟩
      · dsimp only
        rw [hsum (j + 1) (by omega) (by omega)]
      · dsimp only
        rw [hs, List.range_succ, List.foldl_append]
        rfl)
  have hzloop : for_up_to T (fun (u : Unit) i =>
      for_up_to (double_to_size (K : α)) (fun (u : Unit) k =>
        match (LP.run solver (some { presolve := true })).1.get_var_val solver "z"
            (double_to_size (((i - 1 : Nat) : α) * (K : α) + (k : α))) with
        | .error err => Except.error err
        | .ok _ => Except.ok u) u) () = .ok () := by
    refine for_up_to_unit T _ (fun i hi1 hi2 => ?_)
    rw [double_to_size_natCast]
    refine for_up_to_unit K _ (fun k hk1 hk2 => ?_)
    simp only [double_to_size_index]
    rw [hz i k hi1 hi2 hk1 hk2]
  have haloop : for_up_to (A.getD 1 []).length (fun (u : Unit) j =>
      match (LP.run solver (some { presolve := true })).1.get_var_val solver "a" j with
      | .error err => Except.error err
      | .ok _ => Except.ok u) () = .ok () := by
    refine for_up_to_unit _ _ (fun j hj1 hj2 => ?_)
    rw [ha j hj1 hj2]
  obtain ⟨hlen, h0, hent⟩ := set_range_spec
    (fun i => ((List.range K).map (fun l1 => observed "x" ((i - 1) * K + (l1 + 1)))).sum)
    T T (le_refl _) second hinv2
  refine ⟨second, ?_, hlen, h0, fun i hi1 hi2 => hent i hi1 (by omega) hi2⟩
  unfold read_back
  simp only [lin_prog.get_obj_val, hrun, Bool.not_true, Bool.false_eq_true, if_false,
    double_to_size_natCast]
  rw [h2]
  dsimp only
  rw [double_to_size_natCast] at hzloop
  rw [hzloop, haloop]

end ReadBack

end PASAQ

namespace PASAQ

open LinProg

section RenameSolved

variable {α : Type}

/-- Reading a variable of a renamed model gives the same result. -/
theorem get_var_val_rename (nm : String) (m : lin_prog α) (solver : glp_solver α) (var : String)
    (index : Nat) :
    (m.rename nm).get_var_val solver var index = m.get_var_val solver var index := rfl

/-- Running the solver commutes with renaming. -/
theorem run_rename (nm : String) (m : lin_prog α) (solver : glp_solver α)
    (parm : Option glp_iocp) :
    ((m.rename nm).run solver parm).1 = (m.run solver parm).1.rename nm := by
  simp [lin_prog.run, lin_prog.apply_constraints, lin_prog.rename, glp_call.rename]

/-- A solver whose answers do not depend on the problem name reports the same
objective value for a renamed model. -/
theorem get_obj_val_rename (nm : String) (m : lin_prog α) (solver : glp_solver α)
    (hblind : solver.name_blind) :
    (m.rename nm).get_obj_val solver = m.get_obj_val solver := by
  unfold lin_prog.get_obj_val
  have h1 : (m.rename nm).has_run = m.has_run := rfl
  have h2 : (m.rename nm).lp = m.lp.map (glp_call.rename nm) := rfl
  rw [h1, h2, hblind nm m.lp]

end RenameSolved

section Verdict

variable {α : Type} [LinearOrderedField α] [FloorRing α]

/-- `CheckFeasibility` on an instance with `T` targets, `K ≥ 1` segments and `J`
schedules whose columns and rows fit the `int` range of the solver: the program
is assembled and read back without an exception, the verdict is the comparison
of the objective value reported by the solver with 0, and the strategy has one
entry per target, with entry 0 equal to 0 and entry `i`, for `1 ≤ i < T`, equal
to the sum of the values observed for the reads of `x_i1, ..., x_iK`. -/
theorem CheckFeasibility_ok (exp : α → α) (to_string : α → String) (solver : glp_solver α)
    (observed : String → Nat → α) (r : α) (num_res : Int) (Pm : PayoffMatrix)
    (A : List (List α)) (K : Nat) (lambda : α) (hK : 1 ≤ K)
    (hcols : 2 * (Pm.P_a.length * K) + (A.getD 1 []).length ≤ INT_MAX)
    (hrows : 2 + 2 * (Pm.P_a.length * K) + Pm.P_a.length * (K - 1) + (Pm.P_a.length - 1) ≤
      INT_MAX) :
    ∃ LP second,
      feasibility_model exp to_string r num_res Pm A (K : α) lambda = .ok LP ∧
      Ready Pm.P_a.length K (A.getD 1 []).length LP ∧
      CheckFeasibility exp to_string solver observed r num_res Pm A (K : α) lambda =
        .ok (decide (solver.get_obj_val (LP.run solver (some { presolve := true })).1.lp = 0),
          second) ∧
      second.length = Pm.P_a.length ∧ second.getD 0 0 = 0 ∧
      ∀ i, 1 ≤ i → i < Pm.P_a.length → second.getD i 0 =
        ((List.range K).map (fun l => observed "x" ((i - 1) * K + (l + 1)))).sum := by
  obtain ⟨LP, hLP, hR⟩ := build_model_ready exp ("Check Feasibility r = " ++ to_string r) r
    num_res Pm A K lambda hK hcols hrows
  obtain ⟨second, h2, hlen, h0, hent⟩ := read_back_ok solver observed LP A hR
  refine ⟨LP, second, hLP, hR, ?_, hlen, h0, hent⟩
  rw [CheckFeasibility_eq]
  have hfm : feasibility_model exp to_string r num_res Pm A (K : α) lambda = .ok LP := hLP
  rw [hfm]
  exact h2

/-- The termination status that `run` returns is not used when the result is
read back. -/
theorem read_back_status (solver : glp_solver α) (status : List (glp_call α) → Option glp_iocp → Int)
    (observed : String → Nat → α) (LP : lin_prog α) (T : Nat) (A : List (List α)) (K : α) :
    read_back { solver with intopt := status } observed LP T A K =
      read_back solver observed LP T A K := rfl

/-- With a solver whose answers do not depend on the problem name, the result
read back from a renamed model is the same. -/
theorem read_back_rename (nm : String) (solver : glp_solver α) (hblind : solver.name_blind)
    (observed : String → Nat → α) (LP : lin_prog α) (T : Nat) (A : List (List α)) (K : α) :
    read_back solver observed (LP.rename nm) T A K = read_back solver observed LP T A K := by
  unfold read_back
  simp only [run_rename, get_obj_val_rename nm _ solver hblind, get_var_val_rename]

/-- With a solver whose answers do not depend on the problem name,
`CheckFeasibility` returns the same result for every two thresholds. -/
theorem CheckFeasibility_threshold (exp : α → α) (to_string : α → String)
    (solver : glp_solver α) (hblind : solver.name_blind) (observed : String → Nat → α)
    (r1 r2 : α) (num_res : Int) (Pm : PayoffMatrix) (A : List (List α)) (K : α) (lambda : α) :
    CheckFeasibility exp to_string solver observed r1 num_res Pm A K lambda =
      CheckFeasibility exp to_string solver observed r2 num_res Pm A K lambda := by
  rw [CheckFeasibility_eq, CheckFeasibility_eq]
  have h := feasibility_model_rename "" exp to_string r1 r2 num_res Pm A K lambda
  rcases h1 : feasibility_model exp to_string r1 num_res Pm A K lambda with e1 | LP1 <;>
    rcases h2 : feasibility_model exp to_string r2 num_res Pm A K lambda with e2 | LP2 <;>
    rw [h1, h2] at h
  · cases h
    rfl
  · cases h
  · cases h
  · have heq : LP1.rename "" = LP2.rename "" := by
      simpa [Except.map] using h
    dsimp only
    rw [← read_back_rename "" solver hblind observed LP1, heq,
      read_back_rename "" solver hblind observed LP2]

end Verdict

end PASAQ

namespace LinProg

section Sequencing

variable {α : Type}

end Sequencing

section ZeroLemmas

variable {α : Type} [LinearOrderedField α]

end ZeroLemmas

end LinProg

namespace PASAQ

open LinProg

section NestedLoops

variable {α : Type}

end NestedLoops

section OriginFeasible

variable {α : Type} [LinearOrderedField α]

end OriginFeasible

end PASAQ

/-! ## Theorems: the feasibility program and the threshold -/

namespace LinProg

section SolverInput

variable {D : Type}

/-- Renaming does not change what the solver is given apart from the name. -/
theorem solver_input_rename (nm : String) (m : lin_prog D) :
    (m.rename nm).solver_input = m.solver_input := by
  have key : ∀ l : List (glp_call D),
      (l.map (glp_call.rename nm)).filter (fun c => !c.is_set_prob_name) =
        l.filter (fun c => !c.is_set_prob_name) := by
    intro l
    induction l with
    | nil => rfl
    | cons c l ih =>
      cases c <;>
        simp [glp_call.rename, glp_call.is_set_prob_name, List.filter_cons] <;>
        simpa [glp_call.is_set_prob_name] using ih
  simp only [lin_prog.solver_input, lin_prog.rename, key]

/-- Results that agree under a common name agree in what the solver is given
apart from the name. -/
theorem map_solver_input_of_rename (nm : String) (x y : Except Error (lin_prog D))
    (h : x.map (lin_prog.rename nm) = y.map (lin_prog.rename nm)) :
    x.map lin_prog.solver_input = y.map lin_prog.solver_input := by
  rcases x with e1 | m1 <;> rcases y with e2 | m2
  · simp only [Except.map] at h ⊢
    cases h
    rfl
  · cases h
  · cases h
  · simp only [Except.map] at h ⊢
    have h1 : m1.rename nm = m2.rename nm := Except.ok.inj h
    rw [← solver_input_rename nm m1, ← solver_input_rename nm m2, h1]

end SolverInput

end LinProg

namespace PASAQ

open LinProg

section Threshold

variable {α : Type} [LinearOrderedField α] [FloorRing α]

/-- C26: the program assembled inside `CheckFeasibility` does not depend on the
threshold `r`. For every two thresholds the two assembled problem objects are
equal once they are given a common name (whatever that name), and, names
apart, the solver is given the same input: the same triplets of the constraint
matrix and the same sequence of solver calls, which carry the objective
direction, every objective coefficient, every row bound and every variable
bound and kind. An exception, if any, is the same in the two runs. -/
theorem feasibility_program_independent_of_threshold (nm : String) (exp : α → α)
    (to_string : α → String) (r1 r2 : α) (num_res : Int) (Pm : PayoffMatrix)
    (A : List (List α)) (K : α) (lambda : α) :
    (feasibility_model exp to_string r1 num_res Pm A K lambda).map (lin_prog.rename nm) =
      (feasibility_model exp to_string r2 num_res Pm A K lambda).map (lin_prog.rename nm) ∧
    (feasibility_model exp to_string r1 num_res Pm A K lambda).map lin_prog.solver_input =
      (feasibility_model exp to_string r2 num_res Pm A K lambda).map lin_prog.solver_input :=
  ⟨feasibility_model_rename nm exp to_string r1 r2 num_res Pm A K lambda,
    map_solver_input_of_rename nm _ _
      (feasibility_model_rename nm exp to_string r1 r2 num_res Pm A K lambda)⟩

/-- C22: feasibility is monotonic in the threshold. With a solver whose answers
are a function of the problem it is given and do not depend on the problem's
name, if `CheckFeasibility` reports `r1` achievable, with the strategy `x1`, and
`r2 < r1`, then it reports `r2` achievable, with the same strategy. -/
theorem CheckFeasibility_monotone (exp : α → α) (to_string : α → String)
    (solver : glp_solver α) (hblind : solver.name_blind) (observed : String → Nat → α)
    (r1 r2 : α) (num_res : Int) (Pm : PayoffMatrix) (A : List (List α)) (K : α) (lambda : α)
    (x1 : List α)
    (h1 : CheckFeasibility exp to_string solver observed r1 num_res Pm A K lambda =
      .ok (true, x1))
    (_hlt : r2 < r1) :
    CheckFeasibility exp to_string solver observed r2 num_res Pm A K lambda = .ok (true, x1) := by
  rw [← CheckFeasibility_threshold exp to_string solver hblind observed r1 r2]
  exact h1

end Threshold

/-- Witness of `CheckFeasibility_monotone`: the thresholds 45 and 40 on an
instance with two targets and a solver that reports the objective value 0. -/
theorem CheckFeasibility_monotone_witness :
    (constant_solver.name_blind ∧
      CheckFeasibility (fun _ => 1) (fun _ => "") constant_solver (fun _ _ => 0) 45 1
        two_rewards A_212 1 (1 / 2) = .ok (true, [0, 0 + 0]) ∧ (40 : ℚ) < 45) ∧
    CheckFeasibility (fun _ => 1) (fun _ => "") constant_solver (fun _ _ => 0) 40 1
      two_rewards A_212 1 (1 / 2) = .ok (true, [0, 0 + 0]) := by
  have hK : double_to_size (1 : ℚ) = 1 := by simp [double_to_size]
  have hKi : double_to_int (1 : ℚ) = 1 := by simp [double_to_int]
  have hTK : double_to_size (((two_rewards.P_a.length : Nat) : ℚ) * 1) = 2 := by
    simp [double_to_size, two_rewards]
  have hidx : ∀ (i k : Nat),
      double_to_size ((((i - 1 : Nat) : ℚ)) * 1 + (k : ℚ)) = (i - 1) + k := by
    intro i k
    rw [mul_one, ← Nat.cast_add]
    exact Nat.floor_natCast _
  have h45 : CheckFeasibility (fun _ => 1) (fun _ => "") constant_solver (fun _ _ => 0) 45 1
      two_rewards A_212 1 (1 / 2) = .ok (true, [0, 0 + 0]) := by
    simp only [CheckFeasibility, hK, hKi, hTK, hidx]
    rfl
  exact ⟨⟨fun _ _ => rfl, h45, by norm_num⟩,
    CheckFeasibility_monotone (fun _ => 1) (fun _ => "") constant_solver (fun _ _ => rfl)
      (fun _ _ => 0) 45 40 1 two_rewards A_212 1 (1 / 2) [0, 0 + 0] h45 (by norm_num)⟩

end PASAQ

/-! ## Theorems: the verdict of the oracle and the search on the toy instance -/

namespace PASAQ

open LinProg

section Verdict2

variable {α : Type} [LinearOrderedField α] [FloorRing α]

/-- The termination status that the solver returns plays no part in the result
of `CheckFeasibility`. -/
theorem CheckFeasibility_status (exp : α → α) (to_string : α → String) (solver : glp_solver α)
    (status : List (glp_call α) → Option glp_iocp → Int) (observed : String → Nat → α) (r : α)
    (num_res : Int) (Pm : PayoffMatrix) (A : List (List α)) (K : α) (lambda : α) :
    CheckFeasibility exp to_string { solver with intopt := status } observed r num_res Pm A K
        lambda =
      CheckFeasibility exp to_string solver observed r num_res Pm A K lambda := by
  rw [CheckFeasibility_eq, CheckFeasibility_eq]
  rcases feasibility_model exp to_string r num_res Pm A K lambda with e | LP
  · rfl
  · exact read_back_status solver status observed LP Pm.P_a.length A K

/-- C21 (amended): `CheckFeasibility` never consults the termination status of
the solve. On an instance with `K ≥ 1` segments whose columns and rows fit the
`int` range of the solver, whatever status `run` returns, the threshold is
reported achievable exactly when the objective value that the solver object
reports after `run` equals 0; replacing the status by any other leaves the
whole result unchanged. -/
theorem CheckFeasibility_verdict_ignores_status (exp : α → α) (to_string : α → String)
    (solver : glp_solver α) (status : List (glp_call α) → Option glp_iocp → Int)
    (observed : String → Nat → α) (r : α) (num_res : Int) (Pm : PayoffMatrix)
    (A : List (List α)) (K : Nat) (lambda : α) (hK : 1 ≤ K)
    (hcols : 2 * (Pm.P_a.length * K) + (A.getD 1 []).length ≤ INT_MAX)
    (hrows : 2 + 2 * (Pm.P_a.length * K) + Pm.P_a.length * (K - 1) + (Pm.P_a.length - 1) ≤
      INT_MAX) :
    ∃ LP second,
      feasibility_model exp to_string r num_res Pm A (K : α) lambda = .ok LP ∧
      (LP.run { solver with intopt := status } (some { presolve := true })).2 =
        status LP.apply_constraints.lp (some (solver.init_iocp { presolve := true })) ∧
      CheckFeasibility exp to_string { solver with intopt := status } observed r num_res Pm A
          (K : α) lambda =
        .ok (decide (solver.get_obj_val (LP.run solver (some { presolve := true })).1.lp = 0),
          second) ∧
      CheckFeasibility exp to_string solver observed r num_res Pm A (K : α) lambda =
        .ok (decide (solver.get_obj_val (LP.run solver (some { presolve := true })).1.lp = 0),
          second) := by
  obtain ⟨LP, second, hLP, -, hCF, -⟩ := CheckFeasibility_ok exp to_string solver observed r
    num_res Pm A K lambda hK hcols hrows
  refine ⟨LP, second, hLP, rfl, ?_, hCF⟩
  rw [CheckFeasibility_status]
  exact hCF

end Verdict2

/-- Witness of `CheckFeasibility_verdict_ignores_status`: two targets, one
segment, two schedules, and a search that ends with the status `GLP_EFAIL`. -/
theorem CheckFeasibility_verdict_ignores_status_witness :
    (1 ≤ 1 ∧
      2 * (two_rewards.P_a.length * 1) + (A_212.getD 1 []).length ≤ INT_MAX ∧
      2 + 2 * (two_rewards.P_a.length * 1) + two_rewards.P_a.length * (1 - 1) +
        (two_rewards.P_a.length - 1) ≤ INT_MAX) ∧
    ∃ LP second,
      feasibility_model (fun _ => (1 : ℚ)) (fun _ => "") 45 1 two_rewards A_212
        ((1 : Nat) : ℚ) (1 / 2) = .ok LP ∧
      (LP.run { constant_solver with intopt := fun _ _ => GLP_EFAIL }
          (some { presolve := true })).2 =
        (fun _ _ => GLP_EFAIL) LP.apply_constraints.lp
          (some (constant_solver.init_iocp { presolve := true })) ∧
      CheckFeasibility (fun _ => (1 : ℚ)) (fun _ => "")
          { constant_solver with intopt := fun _ _ => GLP_EFAIL } (fun _ _ => 0) 45 1
          two_rewards A_212 ((1 : Nat) : ℚ) (1 / 2) =
        .ok (decide (constant_solver.get_obj_val
          (LP.run constant_solver (some { presolve := true })).1.lp = 0), second) ∧
      CheckFeasibility (fun _ => (1 : ℚ)) (fun _ => "") constant_solver (fun _ _ => 0) 45 1
          two_rewards A_212 ((1 : Nat) : ℚ) (1 / 2) =
        .ok (decide (constant_solver.get_obj_val
          (LP.run constant_solver (some { presolve := true })).1.lp = 0), second) :=
  ⟨⟨by decide, by decide, by decide⟩,
    CheckFeasibility_verdict_ignores_status (fun _ => (1 : ℚ)) (fun _ => "") constant_solver
      (fun _ _ => GLP_EFAIL) (fun _ _ => 0) 45 1 two_rewards A_212 1 (1 / 2) (by decide)
      (by decide) (by decide)⟩

/-- C21 (as stated, refuted): with a solver whose search fails, so that `run`
returns the status `GLP_EFAIL`, not 0, and whose problem object then reports
the objective value 0, `CheckFeasibility` reports the threshold 45 achievable
on an instance with two targets, one segment and two schedules. -/
theorem CheckFeasibility_achievable_after_failed_search :
    ∃ LP, feasibility_model (fun _ => (1 : ℚ)) (fun _ => "") 45 1 two_rewards A_212 1
        (1 / 2) = .ok LP ∧
      (LP.run failing_solver (some { presolve := true })).2 = GLP_EFAIL ∧
      GLP_EFAIL ≠ 0 ∧
      CheckFeasibility (fun _ => 1) (fun _ => "") failing_solver (fun _ _ => 0) 45 1
        two_rewards A_212 1 (1 / 2) = .ok (true, [0, 0 + 0]) := by
  have hK : double_to_size (1 : ℚ) = 1 := by simp [double_to_size]
  have hKi : double_to_int (1 : ℚ) = 1 := by simp [double_to_int]
  have hTK : double_to_size (((two_rewards.P_a.length : Nat) : ℚ) * 1) = 2 := by
    simp [double_to_size, two_rewards]
  have hidx : ∀ (i k : Nat),
      double_to_size ((((i - 1 : Nat) : ℚ)) * 1 + (k : ℚ)) = (i - 1) + k := by
    intro i k
    rw [mul_one, ← Nat.cast_add]
    exact Nat.floor_natCast _
  obtain ⟨LP, -, hLP, -⟩ := CheckFeasibility_ok (fun _ => (1 : ℚ)) (fun _ => "") failing_solver
    (fun _ _ => 0) 45 1 two_rewards A_212 1 (1 / 2) (by decide) (by decide) (by decide)
  rw [Nat.cast_one] at hLP
  refine ⟨LP, hLP, rfl, by decide, ?_⟩
  simp only [CheckFeasibility, hK, hKi, hTK, hidx]
  rfl

/-- Every answer of the feasibility oracle on the toy instance with five
segments carries a strategy of two entries whose entry 0 is 0 and whose entry 1
is the sum of the values observed for the reads of `x_11, ..., x_15`. -/
theorem feasibility_oracle_toy (to_string : ℝ → String) (solver : glp_solver ℝ)
    (observed : String → Nat → ℝ) (r : ℝ) :
    ((feasibility_oracle Real.exp to_string solver observed r 1 toy A_toy 5 (1 / 2)).2).length
        = 2 ∧
      ((feasibility_oracle Real.exp to_string solver observed r 1 toy A_toy 5 (1 / 2)).2).getD
        0 0 = 0 ∧
      ((feasibility_oracle Real.exp to_string solver observed r 1 toy A_toy 5 (1 / 2)).2).getD
        1 0 = ((List.range 5).map (fun l => observed "x" (l + 1))).sum := by
  have h5 : ((5 : Nat) : ℝ) = 5 := by norm_num
  have hT : toy.P_a.length = 2 := rfl
  have hJ : ((A_toy : List (List ℝ)).getD 1 []).length = 2 := rfl
  obtain ⟨LP, second, -, -, hCF, hlen, h0, hent⟩ := CheckFeasibility_ok Real.exp to_string
    solver observed r 1 toy A_toy 5 (1 / 2) (by decide) (by rw [hT, hJ]; decide)
    (by rw [hT]; decide)
  rw [h5] at hCF
  have h1 := hent 1 le_rfl (by rw [hT]; decide)
  simp only [feasibility_oracle, hCF]
  refine ⟨hlen, h0, ?_⟩
  rw [h1]
  simp

/-- C25: on the toy scenario (two targets with `R_d = [30, 30]`,
`P_d = [-15, -15]`, `R_a = [30, 30]`, `P_a = [-30, -30]`, budget 1,
`lambda = 0.5`, `K = 5`, `e = 0.5`), with every solver, `BinarySearchMethod`
returns after six probes a strategy of two entries in which entry 0, the
coverage of the first target, is 0: it is never written. Entry 1 holds the sum
of the values observed for the reads of the first target's segments
`x_11, ..., x_15`. The returned strategy is hence never one in which both
targets receive equal, non-zero coverage. -/
theorem BinarySearchMethod_toy_first_target_uncovered (to_string : ℝ → String)
    (solver : glp_solver ℝ) (observed : String → Nat → ℝ) :
    ∃ L x, BinarySearchMethod Real.exp (feasibility_oracle Real.exp to_string solver observed)
        6 (1 / 2) 1 toy A_toy (1 / 2) 5 = some (L, x) ∧
      x.length = 2 ∧ x.getD 0 0 = 0 ∧
      x.getD 1 0 = ((List.range 5).map (fun l => observed "x" (l + 1))).sum ∧
      ¬ (x.getD 0 0 = x.getD 1 0 ∧ x.getD 0 0 ≠ 0) := by
  obtain ⟨s1, hloop, -, hprobes⟩ := BinarySearchLoop_run
    (fun r => feasibility_oracle Real.exp to_string solver observed r 1 toy A_toy 5 (1 / 2))
    (1 / 2 : ℝ) 6 ⟨30, 60, [], []⟩ (by norm_num)
    (by
      intro k hk
      interval_cases k <;> norm_num) 6 le_rfl
  have hx := BinarySearchLoop_strategy _ _ 6 _ s1 hloop rfl
  have hne : s1.probes ≠ [] := by
    intro h
    rw [h] at hprobes
    simp at hprobes
  obtain ⟨r, hr⟩ : ∃ r, s1.probes.getLast? = some r :=
    ⟨s1.probes.getLast hne, List.getLast?_eq_getLast _ hne⟩
  rw [hr] at hx
  obtain ⟨hlen, h0, h1⟩ := feasibility_oracle_toy to_string solver observed r
  refine ⟨s1.L, s1.x, ?_, ?_, ?_, ?_, ?_⟩
  · simp only [BinarySearchMethod, EstimateBounds_toy, hloop, Option.map_some']
  · rw [hx]
    exact hlen
  · rw [hx]
    exact h0
  · rw [hx]
    exact h1
  · rw [hx]
    intro h
    exact h.2 h0

end PASAQ

/-! ## Theorems: rounding to `double` -/

namespace Binary64

section RoundingLemmas

/-- Powers of two are positive. -/
theorem two_zpow_pos (e : Int) : (0 : ℚ) < (2 : ℚ) ^ e :=
  zpow_pos (by norm_num) e

/-- The search for a number of bits ends with enough bits. -/
theorem find_bits_spec (n : Nat) : ∀ (fuel B : Nat), n ≤ B + fuel →
    n < 2 ^ (2 ^ find_bits n fuel B) := by
  intro fuel
  induction fuel with
  | zero =>
    intro B h
    simp only [find_bits]
    calc n ≤ B := by omega
      _ < 2 ^ B := Nat.lt_two_pow B
      _ ≤ 2 ^ (2 ^ B) := Nat.pow_le_pow_right (by norm_num) (Nat.lt_two_pow B).le
  | succ f ih =>
    intro B h
    simp only [find_bits]
    split_ifs with hc
    · exact hc
    · exact ih (B + 1) (by omega)

/-- The binary search ends at the leading bit. -/
theorem leading_bit_spec (n : Nat) : ∀ (b k : Nat), 2 ^ k ≤ n → n < 2 ^ (k + 2 ^ b) →
    2 ^ leading_bit n b k ≤ n ∧ n < 2 ^ (leading_bit n b k + 1) := by
  intro b
  induction b with
  | zero =>
    intro k h1 h2
    simp only [leading_bit]
    exact ⟨h1, by simpa using h2⟩
  | succ b ih =>
    intro k h1 h2
    simp only [leading_bit]
    split_ifs with hc
    · refine ih (k + 2 ^ b) hc ?_
      have : k + 2 ^ b + 2 ^ b = k + 2 ^ (b + 1) := by rw [pow_succ]; ring
      rw [this]
      exact h2
    · exact ih k h1 (not_le.mp hc)

/-- The leading bit of a positive number brackets it. -/
theorem nat_log2_spec (n : Nat) (hn : n ≠ 0) :
    2 ^ nat_log2 n ≤ n ∧ n < 2 ^ (nat_log2 n + 1) := by
  unfold nat_log2
  refine leading_bit_spec n _ 0 (by simpa using Nat.pos_of_ne_zero hn) ?_
  rw [Nat.zero_add]
  exact find_bits_spec n n 0 (by omega)

/-- The logarithm brackets its argument. -/
theorem ilog2_spec (q : ℚ) (hq : 0 < q) :
    (2 : ℚ) ^ ilog2 q ≤ q ∧ q < (2 : ℚ) ^ (ilog2 q + 1) := by
  have hnum : 0 < q.num := Rat.num_pos.mpr hq
  have hn0 : q.num.natAbs ≠ 0 := Int.natAbs_ne_zero.mpr hnum.ne'
  have hd0 : q.den ≠ 0 := q.den_nz
  have hcast : ((q.num.natAbs : Nat) : ℚ) = (q.num : ℚ) := by
    rw [← Int.cast_natCast, Int.natAbs_of_nonneg hnum.le]
  have hqnd : q = ((q.num.natAbs : Nat) : ℚ) / ((q.den : Nat) : ℚ) := by
    rw [hcast]
    exact (Rat.num_div_den q).symm
  have h1 : ((2 : ℚ) ^ (nat_log2 q.num.natAbs : Int)) ≤ ((q.num.natAbs : Nat) : ℚ) := by
    rw [zpow_natCast]
    exact_mod_cast (nat_log2_spec _ hn0).1
  have h2 : ((q.num.natAbs : Nat) : ℚ) < (2 : ℚ) ^ ((nat_log2 q.num.natAbs : Int) + 1) := by
    have h : q.num.natAbs < 2 ^ (nat_log2 q.num.natAbs + 1) := (nat_log2_spec _ hn0).2
    have h' : ((q.num.natAbs : Nat) : ℚ) < (2 : ℚ) ^ (nat_log2 q.num.natAbs + 1) := by
      exact_mod_cast h
    rw [← zpow_natCast] at h'
    push_cast at h'
    exact h'
  have h3 : ((2 : ℚ) ^ (nat_log2 q.den : Int)) ≤ ((q.den : Nat) : ℚ) := by
    rw [zpow_natCast]
    exact_mod_cast (nat_log2_spec _ hd0).1
  have h4 : ((q.den : Nat) : ℚ) < (2 : ℚ) ^ ((nat_log2 q.den : Int) + 1) := by
    have h : q.den < 2 ^ (nat_log2 q.den + 1) := (nat_log2_spec _ hd0).2
    have h' : ((q.den : Nat) : ℚ) < (2 : ℚ) ^ (nat_log2 q.den + 1) := by
      exact_mod_cast h
    rw [← zpow_natCast] at h'
    push_cast at h'
    exact h'
  have hdpos : (0 : ℚ) < ((q.den : Nat) : ℚ) := by exact_mod_cast q.den_pos
  have two_ne : (2 : ℚ) ≠ 0 := by norm_num
  -- lower bound
  have hlow : (2 : ℚ) ^ ((nat_log2 q.num.natAbs : Int) - (nat_log2 q.den : Int) - 1) ≤ q := by
    have e1 : (2 : ℚ) ^ ((nat_log2 q.num.natAbs : Int) - (nat_log2 q.den : Int) - 1) =
        (2 : ℚ) ^ (nat_log2 q.num.natAbs : Int) / (2 : ℚ) ^ ((nat_log2 q.den : Int) + 1) := by
      rw [← zpow_sub₀ two_ne]
      congr 1
      ring
    rw [e1]
    calc (2 : ℚ) ^ (nat_log2 q.num.natAbs : Int) / (2 : ℚ) ^ ((nat_log2 q.den : Int) + 1)
        ≤ ((q.num.natAbs : Nat) : ℚ) / (2 : ℚ) ^ ((nat_log2 q.den : Int) + 1) :=
          div_le_div_of_nonneg_right h1 (two_zpow_pos _).le
      _ ≤ ((q.num.natAbs : Nat) : ℚ) / ((q.den : Nat) : ℚ) :=
          div_le_div_of_nonneg_left (by positivity) hdpos h4.le
      _ = q := hqnd.symm
  have hupp : q < (2 : ℚ) ^ ((nat_log2 q.num.natAbs : Int) - (nat_log2 q.den : Int) + 1) := by
    have e1 : (2 : ℚ) ^ ((nat_log2 q.num.natAbs : Int) - (nat_log2 q.den : Int) + 1) =
        (2 : ℚ) ^ ((nat_log2 q.num.natAbs : Int) + 1) / (2 : ℚ) ^ (nat_log2 q.den : Int) := by
      rw [← zpow_sub₀ two_ne]
      congr 1
      ring
    rw [e1]
    calc q = ((q.num.natAbs : Nat) : ℚ) / ((q.den : Nat) : ℚ) := hqnd
      _ < (2 : ℚ) ^ ((nat_log2 q.num.natAbs : Int) + 1) / ((q.den : Nat) : ℚ) :=
          div_lt_div_of_pos_right h2 hdpos
      _ ≤ (2 : ℚ) ^ ((nat_log2 q.num.natAbs : Int) + 1) / (2 : ℚ) ^ (nat_log2 q.den : Int) :=
          div_le_div_of_nonneg_left (two_zpow_pos _).le (two_zpow_pos _) h3
  unfold ilog2
  split_ifs with hlt
  · refine ⟨hlow, ?_⟩
    have : (nat_log2 q.num.natAbs : Int) - (nat_log2 q.den : Int) - 1 + 1 =
        (nat_log2 q.num.natAbs : Int) - (nat_log2 q.den : Int) := by ring
    rw [this]
    exact hlt
  · exact ⟨not_lt.mp hlt, hupp⟩

/-- The logarithm is the only integer that brackets its argument. -/
theorem ilog2_eq (q : ℚ) (l : Int) (h1 : (2 : ℚ) ^ l ≤ q) (h2 : q < (2 : ℚ) ^ (l + 1)) :
    ilog2 q = l := by
  have hq : 0 < q := lt_of_lt_of_le (two_zpow_pos l) h1
  obtain ⟨s1, s2⟩ := ilog2_spec q hq
  have a : ilog2 q < l + 1 :=
    (zpow_lt_zpow_iff_right₀ (by norm_num : (1 : ℚ) < 2)).mp (lt_of_le_of_lt s1 h2)
  have b : l < ilog2 q + 1 :=
    (zpow_lt_zpow_iff_right₀ (by norm_num : (1 : ℚ) < 2)).mp (lt_of_le_of_lt h1 s2)
  omega

/-- The logarithm is monotone. -/
theorem ilog2_mono (q q' : ℚ) (hq : 0 < q) (h : q ≤ q') : ilog2 q ≤ ilog2 q' := by
  obtain ⟨s1, -⟩ := ilog2_spec q hq
  obtain ⟨-, t2⟩ := ilog2_spec q' (lt_of_lt_of_le hq h)
  have a : ilog2 q < ilog2 q' + 1 :=
    (zpow_lt_zpow_iff_right₀ (by norm_num : (1 : ℚ) < 2)).mp
      (lt_of_le_of_lt s1 (lt_of_le_of_lt h t2))
  omega

/-- Rounding to an integer moves a number by at most one half. -/
theorem round_half_even_error (t : ℚ) : |((round_half_even t : Int) : ℚ) - t| ≤ 1 / 2 := by
  have h1 : ((⌊t⌋ : Int) : ℚ) ≤ t := Int.floor_le t
  have h2 : t < ((⌊t⌋ : Int) : ℚ) + 1 := Int.lt_floor_add_one t
  unfold round_half_even
  rw [abs_le]
  split_ifs with a b c
  · constructor <;> linarith
  · push_cast
    constructor <;> linarith
  · constructor <;> linarith
  · push_cast
    constructor <;> linarith

/-- Rounding to an integer keeps the integers. -/
theorem round_half_even_intCast (n : Int) : round_half_even (n : ℚ) = n := by
  unfold round_half_even
  simp

/-- Rounding to an integer is monotone. -/
theorem round_half_even_mono (t t' : ℚ) (h : t ≤ t') :
    round_half_even t ≤ round_half_even t' := by
  have h1 : ((⌊t⌋ : Int) : ℚ) ≤ t := Int.floor_le t
  have h2 : t < ((⌊t⌋ : Int) : ℚ) + 1 := Int.lt_floor_add_one t
  have h1' : ((⌊t'⌋ : Int) : ℚ) ≤ t' := Int.floor_le t'
  have h2' : t' < ((⌊t'⌋ : Int) : ℚ) + 1 := Int.lt_floor_add_one t'
  have hf : ⌊t⌋ ≤ ⌊t'⌋ := Int.floor_mono h
  have up : round_half_even t ≤ ⌊t⌋ + 1 := by
    unfold round_half_even
    split_ifs <;> omega
  have lo : ⌊t'⌋ ≤ round_half_even t' := by
    unfold round_half_even
    split_ifs <;> omega
  rcases hf.lt_or_eq with hlt | heq
  · omega
  · unfold round_half_even
    rw [heq] at h1 h2 ⊢
    split_ifs <;> first | omega | (exfalso; linarith)

/-- Rounding a number that is not negative gives no negative integer. -/
theorem round_half_even_nonneg (t : ℚ) (ht : 0 ≤ t) : 0 ≤ round_half_even t := by
  have := round_half_even_mono 0 t ht
  have h0 : round_half_even 0 = 0 := by
    have := round_half_even_intCast 0
    simpa using this
  omega

/-- The last place is monotone in the magnitude. -/
theorem ulp_exp_mono (q q' : ℚ) (hq : 0 < q) (h : q ≤ q') : ulp_exp q ≤ ulp_exp q' := by
  unfold ulp_exp
  have := ilog2_mono q q' hq h
  omega

/-- The last place is at least `-1074`. -/
theorem ulp_exp_ge (q : ℚ) : -1074 ≤ ulp_exp q := by
  unfold ulp_exp
  omega

/-- The significand of a positive magnitude is below `2 ^ 53`. -/
theorem scaled_lt (q : ℚ) (hq : 0 < q) : q / (2 : ℚ) ^ ulp_exp q < (2 : ℚ) ^ (53 : Int) := by
  obtain ⟨-, s2⟩ := ilog2_spec q hq
  rw [div_lt_iff₀ (two_zpow_pos _), ← zpow_add₀ (by norm_num : (2 : ℚ) ≠ 0)]
  refine lt_of_lt_of_le s2 (zpow_le_zpow_right₀ (by norm_num) ?_)
  unfold ulp_exp
  omega

/-- The significand of a normal magnitude is at least `2 ^ 52`. -/
theorem scaled_ge (q : ℚ) (hq : 0 < q) (hn : -1074 ≤ ilog2 q - 52) :
    (2 : ℚ) ^ (52 : Int) ≤ q / (2 : ℚ) ^ ulp_exp q := by
  obtain ⟨s1, -⟩ := ilog2_spec q hq
  rw [le_div_iff₀ (two_zpow_pos _), ← zpow_add₀ (by norm_num : (2 : ℚ) ≠ 0)]
  refine le_trans (zpow_le_zpow_right₀ (by norm_num) ?_) s1
  unfold ulp_exp
  omega

/-- Zero rounds to zero. -/
theorem round_mag_zero : round_mag 0 = 0 := by
  unfold round_mag
  simp [round_half_even]

/-- A rounded magnitude is not negative. -/
theorem round_mag_nonneg (q : ℚ) (hq : 0 ≤ q) : 0 ≤ round_mag q := by
  unfold round_mag
  have h1 : 0 ≤ q / (2 : ℚ) ^ ulp_exp q := div_nonneg hq (two_zpow_pos _).le
  have h2 := round_half_even_nonneg _ h1
  have h3 : (0 : ℚ) ≤ ((round_half_even (q / (2 : ℚ) ^ ulp_exp q) : Int) : ℚ) := by
    exact_mod_cast h2
  exact mul_nonneg h3 (two_zpow_pos _).le

/-- A rounded magnitude is at most the next power of two. -/
theorem round_mag_le_pow (q : ℚ) (hq : 0 < q) :
    round_mag q ≤ (2 : ℚ) ^ (ulp_exp q + 53) := by
  unfold round_mag
  have h1 := (scaled_lt q hq).le
  have h2 := round_half_even_mono _ _ h1
  have e53 : ((2 : ℚ) ^ (53 : Int)) = (((2 : Int) ^ (53 : Nat) : Int) : ℚ) := by norm_num
  rw [e53, round_half_even_intCast] at h2
  have h3 : ((round_half_even (q / (2 : ℚ) ^ ulp_exp q) : Int) : ℚ) ≤ (2 : ℚ) ^ (53 : Int) := by
    rw [e53]
    exact_mod_cast h2
  rw [zpow_add₀ (by norm_num : (2 : ℚ) ≠ 0), mul_comm ((2 : ℚ) ^ ulp_exp q)]
  exact mul_le_mul_of_nonneg_right h3 (two_zpow_pos _).le

/-- A rounded normal magnitude is at least the power of two of its binade. -/
theorem round_mag_ge_pow (q : ℚ) (hq : 0 < q) (hn : -1074 ≤ ilog2 q - 52) :
    (2 : ℚ) ^ (ulp_exp q + 52) ≤ round_mag q := by
  unfold round_mag
  have h1 := scaled_ge q hq hn
  have h2 := round_half_even_mono _ _ h1
  have e52 : ((2 : ℚ) ^ (52 : Int)) = (((2 : Int) ^ (52 : Nat) : Int) : ℚ) := by norm_num
  rw [e52, round_half_even_intCast] at h2
  have h3 : (2 : ℚ) ^ (52 : Int) ≤ ((round_half_even (q / (2 : ℚ) ^ ulp_exp q) : Int) : ℚ) := by
    rw [e52]
    exact_mod_cast h2
  rw [zpow_add₀ (by norm_num : (2 : ℚ) ≠ 0), mul_comm ((2 : ℚ) ^ ulp_exp q)]
  exact mul_le_mul_of_nonneg_right h3 (two_zpow_pos _).le

/-- Rounding of magnitudes is monotone. -/
theorem round_mag_mono (q q' : ℚ) (hq : 0 ≤ q) (h : q ≤ q') : round_mag q ≤ round_mag q' := by
  rcases hq.lt_or_eq with hpos | h0
  · have hpos' : 0 < q' := lt_of_lt_of_le hpos h
    have he := ulp_exp_mono q q' hpos h
    rcases he.lt_or_eq with hlt | heq
    · have hn' : -1074 ≤ ilog2 q' - 52 := by
        have := ulp_exp_ge q
        unfold ulp_exp at hlt this
        omega
      refine le_trans (round_mag_le_pow q hpos) (le_trans ?_ (round_mag_ge_pow q' hpos' hn'))
      exact zpow_le_zpow_right₀ (by norm_num) (by omega)
    · unfold round_mag
      rw [heq]
      have h1 : q / (2 : ℚ) ^ ulp_exp q' ≤ q' / (2 : ℚ) ^ ulp_exp q' :=
        div_le_div_of_nonneg_right h (two_zpow_pos _).le
      have h2 := round_half_even_mono _ _ h1
      have h3 : ((round_half_even (q / (2 : ℚ) ^ ulp_exp q') : Int) : ℚ) ≤
          ((round_half_even (q' / (2 : ℚ) ^ ulp_exp q') : Int) : ℚ) := by exact_mod_cast h2
      exact mul_le_mul_of_nonneg_right h3 (two_zpow_pos _).le
  · rw [← h0, round_mag_zero]
    exact round_mag_nonneg q' (by rw [← h0] at h; exact h)

/-- A multiple `k * 2 ^ t` of a power of two with `k < 2 ^ 53` and `t ≥ -1074`
rounds to itself. -/
theorem round_mag_exact (k : Nat) (t : Int) (hk : k < 2 ^ 53) (ht : -1074 ≤ t) :
    round_mag ((k : ℚ) * (2 : ℚ) ^ t) = (k : ℚ) * (2 : ℚ) ^ t := by
  rcases Nat.eq_zero_or_pos k with h0 | hkpos
  · rw [h0]
    simp [round_mag_zero]
  have hq : (0 : ℚ) < (k : ℚ) * (2 : ℚ) ^ t :=
    mul_pos (by exact_mod_cast hkpos) (two_zpow_pos t)
  have hle : ulp_exp ((k : ℚ) * (2 : ℚ) ^ t) ≤ t := by
    obtain ⟨s1, -⟩ := ilog2_spec _ hq
    have hk' : (k : ℚ) < (2 : ℚ) ^ (53 : Int) := by
      have e : (2 : ℚ) ^ (53 : Int) = ((2 ^ 53 : Nat) : ℚ) := by norm_num
      rw [e]
      exact_mod_cast hk
    have : (2 : ℚ) ^ ilog2 ((k : ℚ) * (2 : ℚ) ^ t) < (2 : ℚ) ^ (53 + t) := by
      rw [zpow_add₀ (by norm_num : (2 : ℚ) ≠ 0)]
      exact lt_of_le_of_lt s1 (mul_lt_mul_of_pos_right hk' (two_zpow_pos t))
    have := (zpow_lt_zpow_iff_right₀ (by norm_num : (1 : ℚ) < 2)).mp this
    unfold ulp_exp
    omega
  obtain ⟨d, hd⟩ : ∃ d : Nat, t = ulp_exp ((k : ℚ) * (2 : ℚ) ^ t) + d :=
    ⟨(t - ulp_exp ((k : ℚ) * (2 : ℚ) ^ t)).toNat, by omega⟩
  have hscaled : (k : ℚ) * (2 : ℚ) ^ t / (2 : ℚ) ^ ulp_exp ((k : ℚ) * (2 : ℚ) ^ t) =
      (((k : Int) * 2 ^ d : Int) : ℚ) := by
    rw [div_eq_iff (two_zpow_pos _).ne']
    nth_rewrite 1 [hd]
    rw [zpow_add₀ (by norm_num : (2 : ℚ) ≠ 0), zpow_natCast]
    push_cast
    ring
  unfold round_mag
  rw [hscaled, round_half_even_intCast, ← hscaled]
  exact div_mul_cancel₀ _ (two_zpow_pos _).ne'

/-- A rounded magnitude is of the form `k * 2 ^ t` with `k < 2 ^ 53` and
`t ≥ -1074`. -/
theorem round_mag_form (q : ℚ) (hq : 0 ≤ q) :
    ∃ (k : Nat) (t : Int), k < 2 ^ 53 ∧ -1074 ≤ t ∧ round_mag q = (k : ℚ) * (2 : ℚ) ^ t := by
  rcases hq.lt_or_eq with hpos | h0
  · have h1 := (scaled_lt q hpos).le
    have h2 := round_half_even_mono _ _ h1
    have e53 : ((2 : ℚ) ^ (53 : Int)) = (((2 : Int) ^ (53 : Nat) : Int) : ℚ) := by norm_num
    rw [e53, round_half_even_intCast] at h2
    have h3 := round_half_even_nonneg _ (div_nonneg hpos.le (two_zpow_pos (ulp_exp q)).le)
    obtain ⟨m, hm⟩ : ∃ m : Nat, round_half_even (q / (2 : ℚ) ^ ulp_exp q) = (m : Int) :=
      ⟨(round_half_even (q / (2 : ℚ) ^ ulp_exp q)).toNat, by omega⟩
    have hm53 : m ≤ 2 ^ 53 := by
      rw [hm] at h2
      exact_mod_cast h2
    rcases hm53.lt_or_eq with hlt | heq
    · refine ⟨m, ulp_exp q, hlt, ulp_exp_ge q, ?_⟩
      unfold round_mag
      rw [hm]
      push_cast
      rfl
    · refine ⟨2 ^ 52, ulp_exp q + 1, by norm_num, by have := ulp_exp_ge q; omega, ?_⟩
      unfold round_mag
      rw [hm, heq, zpow_add₀ (by norm_num : (2 : ℚ) ≠ 0)]
      push_cast
      ring
  · exact ⟨0, 0, by norm_num, by norm_num, by rw [← h0, round_mag_zero]; simp⟩

/-- Rounding is idempotent. -/
theorem round_mag_idem (q : ℚ) (hq : 0 ≤ q) : round_mag (round_mag q) = round_mag q := by
  obtain ⟨k, t, hk, ht, h⟩ := round_mag_form q hq
  rw [h]
  exact round_mag_exact k t hk ht

/-- Rounding moves a magnitude by at most half a unit in the last place. -/
theorem round_mag_error (q : ℚ) : |round_mag q - q| ≤ (2 : ℚ) ^ ulp_exp q / 2 := by
  have h := round_half_even_error (q / (2 : ℚ) ^ ulp_exp q)
  have hp := two_zpow_pos (ulp_exp q)
  have e : round_mag q - q =
      (((round_half_even (q / (2 : ℚ) ^ ulp_exp q) : Int) : ℚ) - q / (2 : ℚ) ^ ulp_exp q) *
        (2 : ℚ) ^ ulp_exp q := by
    unfold round_mag
    field_simp
  rw [e, abs_mul, abs_of_pos hp]
  calc _ ≤ 1 / 2 * (2 : ℚ) ^ ulp_exp q := mul_le_mul_of_nonneg_right h hp.le
    _ = (2 : ℚ) ^ ulp_exp q / 2 := by ring

end RoundingLemmas

end Binary64

namespace Binary64

namespace Double

section Basics

theorem add_def (a b : Double) : a + b = add a b := rfl

theorem sub_def (a b : Double) : a - b = add a (neg b) := rfl

theorem mul_def (a b : Double) : a * b = mul a b := rfl

theorem div_def (a b : Double) : a / b = div a b := rfl

theorem le_iff (a b : Double) : a ≤ b ↔ le a b = true := Iff.rfl

theorem lt_iff (a b : Double) : a < b ↔ lt a b = true := Iff.rfl

/-- The magnitude of a finite `double` is not negative, is a fixed point of
the rounding, and is below `2 ^ 1024`. -/
theorem fin_inv {a : ℚ} (h : ∃ q : ℚ, round_mag |q| = a ∧ a < (2 : ℚ) ^ (1024 : Nat)) :
    0 ≤ a ∧ round_mag a = a ∧ a < (2 : ℚ) ^ (1024 : Nat) := by
  obtain ⟨q, rfl, hlt⟩ := h
  exact ⟨round_mag_nonneg _ (abs_nonneg q), round_mag_idem _ (abs_nonneg q), hlt⟩

theorem round_of_lt (s : Bool) (x : ℚ) (h : round_mag |x| < (2 : ℚ) ^ (1024 : Nat)) :
    round s x = fin s (round_mag |x|) ⟨x, rfl, h⟩ := by
  unfold round
  rw [dif_pos h]

theorem round_of_not_lt (s : Bool) (x : ℚ) (h : ¬ round_mag |x| < (2 : ℚ) ^ (1024 : Nat)) :
    round s x = inf s := by
  unfold round
  rw [dif_neg h]

/-- A rounding is a finite number of the given sign or the infinity of that
sign. -/
theorem round_cases (s : Bool) (x : ℚ) :
    (∃ h, round_mag |x| < (2 : ℚ) ^ (1024 : Nat) ∧ round s x = fin s (round_mag |x|) h) ∨
    ((2 : ℚ) ^ (1024 : Nat) ≤ round_mag |x| ∧ round s x = inf s) := by
  by_cases h : round_mag |x| < (2 : ℚ) ^ (1024 : Nat)
  · exact Or.inl ⟨⟨x, rfl, h⟩, h, round_of_lt s x h⟩
  · exact Or.inr ⟨not_lt.mp h, round_of_not_lt s x h⟩

theorem signed_false (a : ℚ) : signed false a = a := rfl

theorem signed_true (a : ℚ) : signed true a = -a := rfl

theorem abs_signed (s : Bool) (a : ℚ) : |signed s a| = |a| := by
  cases s <;> simp [signed]

/-- Rounding is monotone in the signed value. -/
theorem round_le_round (s t : Bool) (x y : ℚ) (h : signed s |x| ≤ signed t |y|) :
    round s x ≤ round t y := by
  have hx0 := abs_nonneg x
  have hy0 := abs_nonneg y
  have rx0 := round_mag_nonneg _ hx0
  have ry0 := round_mag_nonneg _ hy0
  rw [le_iff]
  cases s <;> cases t
  · -- both not negative
    rw [signed_false, signed_false] at h
    have hm := round_mag_mono _ _ hx0 h
    rcases round_cases false y with ⟨hy, hylt, ey⟩ | ⟨hyge, ey⟩
    · have hxlt : round_mag |x| < (2 : ℚ) ^ (1024 : Nat) := lt_of_le_of_lt hm hylt
      rw [ey, round_of_lt false x hxlt]
      simp only [le, signed_false, decide_eq_true_eq]
      exact hm
    · rw [ey]
      rcases round_cases false x with ⟨hx, -, ex⟩ | ⟨-, ex⟩ <;> rw [ex] <;> rfl
  · -- x not negative, y negative: both are zero
    rw [signed_false, signed_true] at h
    have hx : |x| = 0 := le_antisymm (by linarith) hx0
    have hy : |y| = 0 := le_antisymm (by linarith) hy0
    have h0 : round_mag (0 : ℚ) < (2 : ℚ) ^ (1024 : Nat) := by
      rw [round_mag_zero]
      positivity
    have ex := round_of_lt false x (by rw [hx]; exact h0)
    have ey := round_of_lt true y (by rw [hy]; exact h0)
    rw [ex, ey]
    simp only [le, signed_false, signed_true, decide_eq_true_eq, hx, hy, round_mag_zero]
    norm_num
  · -- x negative, y not negative
    rcases round_cases true x with ⟨hx, -, ex⟩ | ⟨-, ex⟩ <;>
      rcases round_cases false y with ⟨hy, -, ey⟩ | ⟨-, ey⟩ <;> rw [ex, ey]
    · simp only [le, signed_false, signed_true, decide_eq_true_eq]
      linarith
    · rfl
    · rfl
    · rfl
  · -- both negative
    rw [signed_true, signed_true] at h
    have hm := round_mag_mono _ _ hy0 (by linarith : |y| ≤ |x|)
    rcases round_cases true x with ⟨hx, hxlt, ex⟩ | ⟨hxge, ex⟩
    · have hylt : round_mag |y| < (2 : ℚ) ^ (1024 : Nat) := lt_of_le_of_lt hm hxlt
      rw [ex, round_of_lt true y hylt]
      simp only [le, signed_true, decide_eq_true_eq]
      linarith
    · rw [ex]
      rcases round_cases true y with ⟨hy, -, ey⟩ | ⟨-, ey⟩ <;> rw [ey] <;> rfl

/-- Roundings of ordered values are ordered. -/
theorem is_rounding_mono {d d' : Double} {v v' : ℚ} (h : is_rounding d v)
    (h' : is_rounding d' v') (hv : v ≤ v') : d ≤ d' := by
  obtain ⟨s, x, rfl, hx⟩ := h
  obtain ⟨t, y, rfl, hy⟩ := h'
  exact round_le_round s t x y (by rw [hx, hy]; exact hv)

/-- The signed rounding of `v` is a rounding of `v`. -/
theorem is_rounding_round_signed (z : Bool) (v : ℚ) : is_rounding (round_signed z v) v := by
  unfold round_signed
  split_ifs with h0
  · exact ⟨z, 0, rfl, by rw [h0]; cases z <;> simp [signed]⟩
  · refine ⟨decide (v < 0), v, rfl, ?_⟩
    by_cases hv : v < 0
    · simp only [hv, decide_True, signed_true, abs_of_neg hv, neg_neg]
    · simp only [hv, decide_False, signed_false, abs_of_nonneg (not_lt.mp hv)]

/-- Rounding a sign and a magnitude gives a rounding of the signed value. -/
theorem is_rounding_round (s : Bool) (a : ℚ) (ha : 0 ≤ a) : is_rounding (round s a) (signed s a) :=
  ⟨s, a, rfl, by rw [abs_of_nonneg ha]⟩

/-- A finite `double` is the rounding of its value. -/
theorem is_rounding_fin (s : Bool) (a : ℚ)
    (h : ∃ q : ℚ, round_mag |q| = a ∧ a < (2 : ℚ) ^ (1024 : Nat)) :
    is_rounding (fin s a h) (signed s a) := by
  obtain ⟨h0, hr, hlt⟩ := fin_inv h
  refine ⟨s, a, ?_, by rw [abs_of_nonneg h0]⟩
  have e : round_mag |a| = a := by rw [abs_of_nonneg h0]; exact hr
  have hlt' : round_mag |a| < (2 : ℚ) ^ (1024 : Nat) := by rw [e]; exact hlt
  rw [round_of_lt s a hlt']
  congr 1
  exact e.symm

/-- A rounding is never a NaN. -/
theorem is_rounding_not_nan {d : Double} {v : ℚ} (h : is_rounding d v) : d.is_nan = false := by
  obtain ⟨s, x, rfl, -⟩ := h
  rcases round_cases s x with ⟨hx, -, ex⟩ | ⟨-, ex⟩ <;> rw [ex] <;> rfl

/-- A rounding of a value that is a `double` is finite and has that value. -/
theorem is_rounding_exact {d : Double} {v : ℚ} (h : is_rounding d v) (k : Nat) (t : Int)
    (hk : k < 2 ^ 53) (ht : -1074 ≤ t) (hv : |v| = (k : ℚ) * (2 : ℚ) ^ t)
    (hlt : |v| < (2 : ℚ) ^ (1024 : Nat)) : d.is_finite = true ∧ d.val = v := by
  obtain ⟨s, x, rfl, hx⟩ := h
  have hax : |x| = |v| := by rw [← hx, abs_signed, abs_abs]
  have e : round_mag |x| = |x| := by rw [hax, hv]; exact round_mag_exact k t hk ht
  have hlt' : round_mag |x| < (2 : ℚ) ^ (1024 : Nat) := by rw [e, hax]; exact hlt
  rw [round_of_lt s x hlt']
  exact ⟨rfl, by simp only [val, e]; exact hx⟩

end Basics

end Double

end Binary64

namespace Binary64

namespace Double

section Order

theorem not_nan_of_le_left {a b : Double} (h : a ≤ b) : a.is_nan = false := by
  rw [le_iff] at h
  cases a <;> cases b <;> simp_all [le, is_nan]

theorem not_nan_of_le_right {a b : Double} (h : a ≤ b) : b.is_nan = false := by
  rw [le_iff] at h
  cases a <;> cases b <;> simp_all [le, is_nan]

theorem not_nan_of_lt_left {a b : Double} (h : a < b) : a.is_nan = false := by
  rw [lt_iff] at h
  cases a <;> cases b <;> simp_all [lt, is_nan]

theorem not_nan_of_finite {a : Double} (h : a.is_finite = true) : a.is_nan = false := by
  cases a <;> simp_all [is_finite, is_nan]

/-- The comparison `<=` is transitive. -/
theorem le_trans_d {a b c : Double} (h1 : a ≤ b) (h2 : b ≤ c) : a ≤ c := by
  rw [le_iff] at *
  cases a <;> cases b <;> cases c <;>
    simp only [le, Bool.or_eq_true, Bool.not_eq_true', decide_eq_true_eq] at h1 h2 ⊢ <;>
    first
    | exact le_trans h1 h2
    | (cases h1; done)
    | (cases h2; done)
    | rfl
    | exact h1
    | exact h2
    | (rename_i s t u; cases s <;> cases t <;> cases u <;> simp_all)

/-- Every `double` that is not a NaN is at most `+inf`. -/
theorem le_inf (a : Double) (ha : a.is_nan = false) : a ≤ inf false := by
  rw [le_iff]
  cases a <;> simp_all [le, is_nan]

/-- Finite `double`s compare as their values. -/
theorem le_iff_val {a b : Double} (ha : a.is_finite = true) (hb : b.is_finite = true) :
    a ≤ b ↔ a.val ≤ b.val := by
  rw [le_iff]
  cases a <;> cases b <;> simp_all [le, is_finite, val]

/-- Finite `double`s compare as their values. -/
theorem lt_iff_val {a b : Double} (ha : a.is_finite = true) (hb : b.is_finite = true) :
    a < b ↔ a.val < b.val := by
  rw [lt_iff]
  cases a <;> cases b <;> simp_all [lt, is_finite, val]

/-- A `double` at most a finite one is finite or `-inf`. -/
theorem cases_of_le_finite {a b : Double} (hb : b.is_finite = true) (h : a ≤ b) :
    a.is_finite = true ∨ a = inf true := by
  rw [le_iff] at h
  cases a <;> cases b <;> simp_all [le, is_finite]

/-- A `double` at least a finite one is finite or `+inf`. -/
theorem cases_of_finite_le {a b : Double} (ha : a.is_finite = true) (h : a ≤ b) :
    b.is_finite = true ∨ b = inf false := by
  rw [le_iff] at h
  cases a <;> cases b <;> simp_all [le, is_finite]

end Order

section Operations

theorem val_fin (s : Bool) (a : ℚ) (h) : (fin s a h).val = signed s a := rfl

/-- A finite `double` is the rounding of its value. -/
theorem is_rounding_self {a : Double} (ha : a.is_finite = true) : is_rounding a a.val := by
  cases a with
  | nan => cases ha
  | inf s => cases ha
  | fin s a h => exact is_rounding_fin s a h

theorem is_finite_neg (a : Double) : (neg a).is_finite = a.is_finite := by
  cases a <;> rfl

theorem val_neg (a : Double) : (neg a).val = -a.val := by
  cases a with
  | nan => simp [neg, val]
  | inf s => simp [neg, val]
  | fin s a h => cases s <;> simp [neg, val, signed]

/-- The sum of finite `double`s is a rounding of the exact sum. -/
theorem add_is_rounding {a b : Double} (ha : a.is_finite = true) (hb : b.is_finite = true) :
    is_rounding (a + b) (a.val + b.val) := by
  cases a with
  | nan => cases ha
  | inf s => cases ha
  | fin s a h =>
    cases b with
    | nan => cases hb
    | inf t => cases hb
    | fin t b h' => exact is_rounding_round_signed _ _

/-- The difference of finite `double`s is a rounding of the exact difference. -/
theorem sub_is_rounding {a b : Double} (ha : a.is_finite = true) (hb : b.is_finite = true) :
    is_rounding (a - b) (a.val - b.val) := by
  have h := add_is_rounding ha (by rw [is_finite_neg]; exact hb : (neg b).is_finite = true)
  rw [val_neg] at h
  rw [sub_eq_add_neg]
  exact h

/-- The product of finite `double`s is a rounding of the exact product. -/
theorem mul_is_rounding {a b : Double} (ha : a.is_finite = true) (hb : b.is_finite = true) :
    is_rounding (a * b) (a.val * b.val) := by
  cases a with
  | nan => cases ha
  | inf s => cases ha
  | fin s a h =>
    cases b with
    | nan => cases hb
    | inf t => cases hb
    | fin t b h' =>
      obtain ⟨ha0, -, -⟩ := fin_inv h
      obtain ⟨hb0, -, -⟩ := fin_inv h'
      refine ⟨xor s t, a * b, rfl, ?_⟩
      rw [abs_of_nonneg (mul_nonneg ha0 hb0)]
      cases s <;> cases t <;> simp [val, signed]

/-- The quotient of finite `double`s, the divisor not zero, is a rounding of
the exact quotient. -/
theorem div_is_rounding {a b : Double} (ha : a.is_finite = true) (hb : b.is_finite = true)
    (hb0 : b.val ≠ 0) : is_rounding (a / b) (a.val / b.val) := by
  cases a with
  | nan => cases ha
  | inf s => cases ha
  | fin s a h =>
    cases b with
    | nan => cases hb
    | inf t => cases hb
    | fin t b h' =>
      obtain ⟨ha0, -, -⟩ := fin_inv h
      obtain ⟨hb0', -, -⟩ := fin_inv h'
      have hbne : b ≠ 0 := by
        intro hb
        apply hb0
        simp [val, signed, hb]
      refine ⟨xor s t, a / b, ?_, ?_⟩
      · show div (fin s a h) (fin t b h') = _
        simp only [div, hbne, if_false]
      · rw [abs_of_nonneg (div_nonneg ha0 hb0')]
        cases s <;> cases t <;> simp [val, signed, neg_div, div_neg]

/-- The conversion of an integer is a rounding of the integer. -/
theorem of_int_is_rounding (n : Int) : is_rounding (of_int n) (n : ℚ) := by
  refine ⟨decide (n < 0), (n : ℚ), rfl, ?_⟩
  by_cases hn : n < 0
  · have : (n : ℚ) < 0 := by exact_mod_cast hn
    simp only [hn, decide_True, signed_true, abs_of_neg this, neg_neg]
  · have : (0 : ℚ) ≤ (n : ℚ) := by exact_mod_cast not_lt.mp hn
    simp only [hn, decide_False, signed_false, abs_of_nonneg this]

/-- A rounding of `m * 2 ^ t` with `|m| < 2 ^ 53` and `-1074 ≤ t ≤ 970` is
finite and exact. -/
theorem is_rounding_exact_int {d : Double} {v : ℚ} (h : is_rounding d v) (m t : Int)
    (hm : |m| < 2 ^ 53) (ht : -1074 ≤ t) (ht2 : t ≤ 970) (hv : v = (m : ℚ) * (2 : ℚ) ^ t) :
    d.is_finite = true ∧ d.val = v := by
  have hk : m.natAbs < 2 ^ 53 := by
    have : (m.natAbs : Int) < 2 ^ 53 := by rw [Int.natCast_natAbs]; exact hm
    exact_mod_cast this
  have habs : |v| = ((m.natAbs : Nat) : ℚ) * (2 : ℚ) ^ t := by
    rw [hv, abs_mul, abs_of_pos (two_zpow_pos t), Nat.cast_natAbs, Int.cast_abs]
  refine is_rounding_exact h m.natAbs t hk ht habs ?_
  rw [habs]
  have h1 : ((m.natAbs : Nat) : ℚ) < (2 : ℚ) ^ (53 : Int) := by
    have e : (2 : ℚ) ^ (53 : Int) = ((2 ^ 53 : Nat) : ℚ) := by norm_num
    rw [e]
    exact_mod_cast hk
  have h2 : (2 : ℚ) ^ t ≤ (2 : ℚ) ^ (970 : Int) := zpow_le_zpow_right₀ (by norm_num) ht2
  calc ((m.natAbs : Nat) : ℚ) * (2 : ℚ) ^ t
      ≤ ((m.natAbs : Nat) : ℚ) * (2 : ℚ) ^ (970 : Int) :=
        mul_le_mul_of_nonneg_left h2 (by positivity)
    _ < (2 : ℚ) ^ (53 : Int) * (2 : ℚ) ^ (970 : Int) :=
        mul_lt_mul_of_pos_right h1 (two_zpow_pos _)
    _ = (2 : ℚ) ^ (1023 : Int) := by rw [← zpow_add₀ (by norm_num : (2 : ℚ) ≠ 0)]; norm_num
    _ ≤ (2 : ℚ) ^ (1024 : Nat) := by
        rw [← zpow_natCast]
        exact zpow_le_zpow_right₀ (by norm_num) (by norm_num)

/-- The conversion of an integer below `2 ^ 53` in magnitude is exact. -/
theorem of_int_exact (n : Int) (hn : |n| < 2 ^ 53) :
    (of_int n).is_finite = true ∧ (of_int n).val = (n : ℚ) :=
  is_rounding_exact_int (of_int_is_rounding n) n 0 hn (by norm_num) (by norm_num) (by simp)

/-- A numeral below `2 ^ 53` is exact. -/
theorem ofNat_exact (n : Nat) (hn : n < 2 ^ 53) :
    (OfNat.ofNat n : Double).is_finite = true ∧ (OfNat.ofNat n : Double).val = (n : ℚ) := by
  have h := of_int_exact (n : Int) (by rw [abs_of_nonneg (by positivity)]; exact_mod_cast hn)
  simpa using h

end Operations

end Double

end Binary64

/-! ## Theorems: the search loop in `double` arithmetic -/

namespace PASAQ

namespace OnDouble

open Binary64 Binary64.Double

section SearchLemmas

/-- The state after one iteration, by the answer of the oracle. -/
theorem BinarySearchStep_fields (oracle : Double → Bool × List Double) (s : SearchState) :
    ((oracle ((s.U + s.L) / 2)).1 = true ∧
      (BinarySearchStep oracle s).L = (s.U + s.L) / 2 ∧ (BinarySearchStep oracle s).U = s.U ∧
      (BinarySearchStep oracle s).probes = s.probes ++ [(s.U + s.L) / 2]) ∨
    ((oracle ((s.U + s.L) / 2)).1 = false ∧
      (BinarySearchStep oracle s).L = s.L ∧ (BinarySearchStep oracle s).U = (s.U + s.L) / 2 ∧
      (BinarySearchStep oracle s).probes = s.probes ++ [(s.U + s.L) / 2]) := by
  unfold BinarySearchStep
  cases h : (oracle ((s.U + s.L) / 2)).1
  · right
    simp [h]
  · left
    simp [h]

/-- Every iteration makes one probe. -/
theorem BinarySearchStep_probes (oracle : Double → Bool × List Double) (s : SearchState) :
    (BinarySearchStep oracle s).probes.length = s.probes.length + 1 := by
  rcases BinarySearchStep_fields oracle s with ⟨-, -, -, h⟩ | ⟨-, -, -, h⟩ <;> rw [h] <;> simp

end SearchLemmas

end OnDouble

end PASAQ

namespace PASAQ

namespace OnDouble

open Binary64 Binary64.Double

section Soundness

end Soundness

end OnDouble

end PASAQ

namespace PASAQ

namespace OnDouble

open Binary64 Binary64.Double

section ExactRuns

end ExactRuns

end OnDouble

end PASAQ

namespace Binary64

namespace Double

section Exactness

/-- The value of a finite `double` is `k * 2 ^ t` in magnitude, with
`k < 2 ^ 53` and `t ≥ -1074`. -/
theorem finite_form {a : Double} (ha : a.is_finite = true) :
    ∃ (k : Nat) (t : Int), k < 2 ^ 53 ∧ -1074 ≤ t ∧ |a.val| = (k : ℚ) * (2 : ℚ) ^ t := by
  cases a with
  | nan => cases ha
  | inf s => cases ha
  | fin s a h =>
    obtain ⟨q, hq, -⟩ := h
    obtain ⟨k, t, hk, ht, e⟩ := round_mag_form |q| (abs_nonneg q)
    refine ⟨k, t, hk, ht, ?_⟩
    rw [val_fin, abs_signed, ← hq, abs_of_nonneg (round_mag_nonneg _ (abs_nonneg q)), e]

/-- The value of a finite `double` is below `2 ^ 1024` in magnitude. -/
theorem abs_val_lt {a : Double} (ha : a.is_finite = true) : |a.val| < (2 : ℚ) ^ (1024 : Nat) := by
  cases a with
  | nan => cases ha
  | inf s => cases ha
  | fin s a h =>
    obtain ⟨h0, -, hlt⟩ := fin_inv h
    rw [val_fin, abs_signed, abs_of_nonneg h0]
    exact hlt

/-- Two finite `double`s with the same value, not zero, are equal. -/
theorem eq_of_val {a b : Double} (ha : a.is_finite = true) (hb : b.is_finite = true)
    (hv : a.val = b.val) (hne : a.val ≠ 0) : a = b := by
  cases a with
  | nan => cases ha
  | inf s => cases ha
  | fin s x h =>
    cases b with
    | nan => cases hb
    | inf t => cases hb
    | fin t y h' =>
      obtain ⟨hx, -, -⟩ := fin_inv h
      obtain ⟨hy, -, -⟩ := fin_inv h'
      simp only [val_fin] at hv hne
      have hst : s = t ∧ x = y := by
        cases s <;> cases t <;> simp only [signed_false, signed_true] at hv hne
        · exact ⟨rfl, hv⟩
        · exact absurd (le_antisymm (by linarith) hx) hne
        · exact absurd (by linarith : x = 0) (by simpa using hne)
        · exact ⟨rfl, neg_injective hv⟩
      obtain ⟨rfl, rfl⟩ := hst
      rfl

/-- A rounding of the value of a finite `double`, not zero, is that `double`. -/
theorem eq_of_is_rounding {d a : Double} (ha : a.is_finite = true) (h : is_rounding d a.val)
    (hne : a.val ≠ 0) : d = a := by
  obtain ⟨k, t, hk, ht, e⟩ := finite_form ha
  obtain ⟨hf, hv⟩ := is_rounding_exact h k t hk ht e (abs_val_lt ha)
  exact eq_of_val hf ha hv (by rw [hv]; exact hne)

/-- The number 0 as a `double`. -/
theorem zero_finite : (0 : Double).is_finite = true ∧ (0 : Double).val = 0 := by
  have h := ofNat_exact 0 (by norm_num)
  simpa using h

/-- The number 1 as a `double`. -/
theorem one_finite : (1 : Double).is_finite = true ∧ (1 : Double).val = 1 := by
  have h := ofNat_exact 1 (by norm_num)
  simpa using h

end Exactness

end Double

end Binary64

namespace PASAQ

namespace OnDouble

open Binary64 Binary64.Double

section Toy

end Toy

end OnDouble

end PASAQ

namespace PASAQ

namespace OnDouble

open Binary64 Binary64.Double

section Stalls

/-- The first and the last bracket of the two traces: both start at `(30, 60)`;
the first ends at `(40, 40 + 2 ^ -47)`, the second at `(50, 50 + 2 ^ -47)`. -/
theorem stall_trace_ends :
    stall_trace_40.length = 53 ∧ stall_trace_50.length = 53 ∧
    (stall_trace_40.map (fun p => (scaled_47 p.1, scaled_47 p.2))).head? = some (30, 60) ∧
    (stall_trace_50.map (fun p => (scaled_47 p.1, scaled_47 p.2))).head? = some (30, 60) ∧
    scaled_47 5629499534213120 = 40 ∧ stall_trace_40.getLast? =
      some (5629499534213120, 5629499534213121) ∧
    scaled_47 7036874417766400 = 50 ∧ stall_trace_50.getLast? =
      some (7036874417766400, 7036874417766401) := by
  decide!

end Stalls

end OnDouble

end PASAQ

/-! ## Theorems: sums and quotients of `double`s that are not negative -/

namespace Binary64

namespace Double

section NonNegative

/-- A `double` that is at least 0 is `+inf` or finite with a value at least
0. -/
theorem nonneg_cases {a : Double} (h : 0 ≤ a) :
    a = inf false ∨ (a.is_finite = true ∧ 0 ≤ a.val) := by
  rcases cases_of_finite_le zero_finite.1 h with hf | hi
  · right
    refine ⟨hf, ?_⟩
    have := (le_iff_val zero_finite.1 hf).mp h
    rwa [zero_finite.2] at this
  · exact Or.inl hi

/-- A `double` that is not NaN is at most itself. -/
theorem le_refl_d {a : Double} (h : a.is_nan = false) : a ≤ a := by
  rw [le_iff]
  cases a <;> simp_all [le, is_nan]

/-- A finite `double` with a value at least 0 is at least 0. -/
theorem nonneg_of_val {a : Double} (hf : a.is_finite = true) (h : 0 ≤ a.val) : 0 ≤ a := by
  rw [le_iff_val zero_finite.1 hf, zero_finite.2]
  exact h

/-- The sum with `+inf` on the right is `+inf`. -/
theorem add_inf_of_nonneg {a : Double} (h : 0 ≤ a) : a + inf false = inf false := by
  rcases nonneg_cases h with rfl | ⟨hf, -⟩
  · rfl
  · cases a with
    | nan => cases hf
    | inf s => cases hf
    | fin s x hx => rfl

/-- The sum with `+inf` on the left is `+inf`. -/
theorem inf_add_of_nonneg {a : Double} (h : 0 ≤ a) : inf false + a = inf false := by
  rcases nonneg_cases h with rfl | ⟨hf, -⟩
  · rfl
  · cases a with
    | nan => cases hf
    | inf s => cases hf
    | fin s x hx => rfl

/-- The sum of two `double`s that are at least 0 is at least 0, and the sum is
monotone on such `double`s. -/
theorem add_mono_nonneg {a b a' b' : Double} (ha : 0 ≤ a) (hb : 0 ≤ b) (haa : a ≤ a')
    (hbb : b ≤ b') : 0 ≤ a + b ∧ a + b ≤ a' + b' := by
  have ha' : 0 ≤ a' := le_trans_d ha haa
  have hb' : 0 ≤ b' := le_trans_d hb hbb
  have key : ∀ {x y : Double}, 0 ≤ x → 0 ≤ y →
      (x + y = inf false ∧ (x = inf false ∨ y = inf false)) ∨
      (x.is_finite = true ∧ y.is_finite = true ∧ is_rounding (x + y) (x.val + y.val) ∧
        0 ≤ x.val + y.val) := by
    intro x y hx hy
    rcases nonneg_cases hx with rfl | ⟨hxf, hxv⟩
    · exact Or.inl ⟨inf_add_of_nonneg hy, Or.inl rfl⟩
    · rcases nonneg_cases hy with rfl | ⟨hyf, hyv⟩
      · exact Or.inl ⟨add_inf_of_nonneg hx, Or.inr rfl⟩
      · exact Or.inr ⟨hxf, hyf, add_is_rounding hxf hyf, by linarith⟩
  have h0 : is_rounding (0 : Double) 0 := by
    have := is_rounding_self zero_finite.1
    rwa [zero_finite.2] at this
  rcases key ha hb with ⟨e, hcase⟩ | ⟨haf, hbf, hr, hv⟩
  · have e' : a' + b' = inf false := by
      rcases hcase with rfl | rfl
      · rcases cases_of_finite_le zero_finite.1 ha' with hf | hi
        · rw [le_iff] at haa
          cases a' <;> simp_all [le, is_finite]
        · rw [hi]
          exact inf_add_of_nonneg hb'
      · rcases cases_of_finite_le zero_finite.1 hb' with hf | hi
        · rw [le_iff] at hbb
          cases b' <;> simp_all [le, is_finite]
        · rw [hi]
          exact add_inf_of_nonneg ha'
    rw [e, e']
    exact ⟨by decide!, by decide!⟩
  · refine ⟨is_rounding_mono h0 hr hv, ?_⟩
    rcases key ha' hb' with ⟨e', -⟩ | ⟨haf', hbf', hr', -⟩
    · rw [e']
      exact le_inf _ (is_rounding_not_nan hr)
    · refine is_rounding_mono hr hr' ?_
      have h1 := (le_iff_val haf haf').mp haa
      have h2 := (le_iff_val hbf hbf').mp hbb
      linarith

/-- A `double` that is at least 0 does not decrease when a `double` that is at
least 0 is added on the right. -/
theorem le_add_right_d {a b : Double} (ha : 0 ≤ a) (hb : 0 ≤ b) : a ≤ a + b := by
  rcases nonneg_cases ha with rfl | ⟨haf, hav⟩
  · rw [inf_add_of_nonneg hb]
    decide
  · rcases nonneg_cases hb with rfl | ⟨hbf, hbv⟩
    · rw [add_inf_of_nonneg ha]
      exact le_inf _ (not_nan_of_finite haf)
    · exact is_rounding_mono (is_rounding_self haf) (add_is_rounding haf hbf) (by linarith)

/-- A `double` that is at least 0 is at most its sum with a `double` that is at
least 0 on the left. -/
theorem le_add_left_d {a b : Double} (ha : 0 ≤ a) (hb : 0 ≤ b) : b ≤ a + b := by
  rcases nonneg_cases hb with rfl | ⟨hbf, hbv⟩
  · rw [add_inf_of_nonneg ha]
    decide
  · rcases nonneg_cases ha with rfl | ⟨haf, hav⟩
    · rw [inf_add_of_nonneg hb]
      exact le_inf _ (not_nan_of_finite hbf)
    · exact is_rounding_mono (is_rounding_self hbf) (add_is_rounding haf hbf) (by linarith)

/-- The quotient of a finite `double` that is at least 0 by a positive
`double` that is at least as large lies between 0 and 1. -/
theorem div_le_one_d {w S : Double} (hwf : w.is_finite = true) (hw : 0 ≤ w.val)
    (hS : 0 < S) (h : w ≤ S) : 0 ≤ w / S ∧ w / S ≤ 1 := by
  have h0 : is_rounding (0 : Double) 0 := by
    have := is_rounding_self zero_finite.1
    rwa [zero_finite.2] at this
  have h1 : is_rounding (1 : Double) 1 := by
    have := is_rounding_self one_finite.1
    rwa [one_finite.2] at this
  rcases cases_of_finite_le hwf h with hSf | rfl
  · have hSv : 0 < S.val := by
      have := (lt_iff_val zero_finite.1 hSf).mp hS
      rwa [zero_finite.2] at this
    have hr := div_is_rounding hwf hSf hSv.ne'
    have hle := (le_iff_val hwf hSf).mp h
    exact ⟨is_rounding_mono h0 hr (div_nonneg hw hSv.le),
      is_rounding_mono hr h1 ((div_le_one hSv).mpr hle)⟩
  · cases w with
    | nan => cases hwf
    | inf s => cases hwf
    | fin s x hx =>
      have e : fin s x hx / inf false = round s 0 := by
        show div (fin s x hx) (inf false) = _
        simp [div]
      rw [e]
      cases s <;> exact ⟨by decide!, by decide!⟩

/-- The product of a `double` between 0 and 1 with a finite `double` that is at
least 0 lies between 0 and that `double`. -/
theorem mul_le_of_le_one {q R : Double} (hq0 : 0 ≤ q) (hq1 : q ≤ 1) (hRf : R.is_finite = true)
    (hR : 0 ≤ R.val) : 0 ≤ q * R ∧ q * R ≤ R := by
  have h0 : is_rounding (0 : Double) 0 := by
    have := is_rounding_self zero_finite.1
    rwa [zero_finite.2] at this
  have hqf : q.is_finite = true := by
    rcases cases_of_le_finite one_finite.1 hq1 with h | h
    · exact h
    · rw [h] at hq0
      exact absurd hq0 (by decide!)
  have hqv0 : 0 ≤ q.val := by
    have := (le_iff_val zero_finite.1 hqf).mp hq0
    rwa [zero_finite.2] at this
  have hqv1 : q.val ≤ 1 := by
    have := (le_iff_val hqf one_finite.1).mp hq1
    rwa [one_finite.2] at this
  have hr := mul_is_rounding hqf hRf
  exact ⟨is_rounding_mono h0 hr (mul_nonneg hqv0 hR),
    is_rounding_mono hr (is_rounding_self hRf) (by nlinarith)⟩

/-- The running sum of `double`s that are at least 0 is at least its start and
at least every summand. -/
theorem foldl_add_ge (w : Nat → Double) :
    ∀ (n : Nat), (∀ j, j < n → 0 ≤ w j) → ∀ a : Double, 0 ≤ a →
      a ≤ (List.range n).foldl (fun sum j => sum + w j) a ∧
      ∀ i, i < n → w i ≤ (List.range n).foldl (fun sum j => sum + w j) a := by
  intro n
  induction n with
  | zero =>
    intro _ a ha
    exact ⟨le_refl_d (not_nan_of_le_right ha), fun i hi => absurd hi (by omega)⟩
  | succ n ih =>
    intro hw a ha
    obtain ⟨h1, h2⟩ := ih (fun j hj => hw j (by omega)) a ha
    rw [List.range_succ, List.foldl_append]
    simp only [List.foldl_cons, List.foldl_nil]
    have hS : 0 ≤ (List.range n).foldl (fun sum j => sum + w j) a := le_trans_d ha h1
    have hn := hw n (by omega)
    refine ⟨le_trans_d h1 (le_add_right_d hS hn), fun i hi => ?_⟩
    rcases Nat.lt_succ_iff_lt_or_eq.mp hi with hlt | rfl
    · exact le_trans_d (h2 i hlt) (le_add_right_d hS hn)
    · exact le_add_left_d hS hn

/-- Two running sums of `double`s that are at least 0 compare as their
summands. -/
theorem foldl_add_mono (f g : Nat → Double) :
    ∀ (n : Nat), (∀ i, i < n → 0 ≤ f i ∧ f i ≤ g i) → ∀ a a' : Double, 0 ≤ a → a ≤ a' →
      0 ≤ (List.range n).foldl (fun sum i => sum + f i) a ∧
      (List.range n).foldl (fun sum i => sum + f i) a ≤
        (List.range n).foldl (fun sum i => sum + g i) a' := by
  intro n
  induction n with
  | zero =>
    intro _ a a' ha haa
    exact ⟨ha, haa⟩
  | succ n ih =>
    intro h a a' ha haa
    obtain ⟨h1, h2⟩ := ih (fun i hi => h i (by omega)) a a' ha haa
    rw [List.range_succ, List.foldl_append, List.foldl_append]
    simp only [List.foldl_cons, List.foldl_nil]
    exact add_mono_nonneg h1 (h n (by omega)).1 h2 (h n (by omega)).2

/-- A fold over a list is the fold over its positions. -/
theorem foldl_eq_foldl_range {β : Type} (f : Double → β → Double) (d : β) :
    ∀ (l : List β) (a : Double),
      l.foldl f a = (List.range l.length).foldl (fun sum i => f sum (l.getD i d)) a := by
  intro l
  induction l using List.reverseRecOn with
  | nil => intro a; rfl
  | append_singleton l x ih =>
    intro a
    rw [List.length_append, List.length_singleton, List.range_succ, List.foldl_append,
      List.foldl_append]
    simp only [List.foldl_cons, List.foldl_nil]
    rw [ih a]
    have e1 : (l ++ [x]).getD l.length d = x := by simp
    rw [e1]
    congr 1
    apply List.foldl_ext
    intro s i hi
    rw [List.mem_range] at hi
    rw [List.getD_append _ _ _ _ hi]

end NonNegative

end Double

end Binary64

namespace Binary64

section Underflow

end Underflow

namespace Double

section Signs

/-- Equal magnitudes with the same sign are the same `double`. -/
theorem fin_congr (s : Bool) {a b : ℚ} (ha) (hb) (h : a = b) : fin s a ha = fin s b hb := by
  subst h
  rfl

/-- A rounding whose magnitude is 0, with the positive sign, is the `double`
0. -/
theorem round_eq_zero (q : ℚ) (h : round_mag |q| = 0) : round false q = 0 := by
  have h1 : round_mag |q| < (2 : ℚ) ^ (1024 : Nat) := by rw [h]; positivity
  have h2 : round_mag |(((0 : Nat) : Int) : ℚ)| < (2 : ℚ) ^ (1024 : Nat) := by
    simp [round_mag_zero]
  rw [round_of_lt false q h1]
  show _ = round false (((0 : Nat) : Int) : ℚ)
  rw [round_of_lt false _ h2]
  apply fin_congr
  rw [h]
  simp [round_mag_zero]

/-- A finite `double` with a positive value has the positive sign. -/
theorem pos_form {a : Double} (hf : a.is_finite = true) (h : 0 < a.val) :
    ∃ (x : ℚ) (hx : _), a = fin false x hx ∧ 0 < x := by
  cases a with
  | nan => cases hf
  | inf s => cases hf
  | fin s x hx =>
    obtain ⟨h0, -, -⟩ := fin_inv hx
    cases s
    · exact ⟨x, hx, rfl, by simpa [val, signed] using h⟩
    · simp only [val, signed_true] at h
      linarith

/-- Strict and weak comparisons of `double`s compose. -/
theorem lt_of_lt_of_le_d {a b c : Double} (h1 : a < b) (h2 : b ≤ c) : a < c := by
  rw [lt_iff] at h1 ⊢
  rw [le_iff] at h2
  cases a <;> cases b <;> cases c <;> simp_all [le, lt]
  linarith

end Signs

end Double

end Binary64

namespace Binary64

namespace Double

section RelativeError

/-- The base-2 logarithm of a magnitude of at least `2 ^ -1022` is at least
`-1022`. -/
theorem ilog2_ge_of_normal (q : ℚ) (h : (2 : ℚ) ^ (-1022 : Int) ≤ q) : -1022 ≤ ilog2 q := by
  have e : ilog2 ((2 : ℚ) ^ (-1022 : Int)) = -1022 :=
    ilog2_eq _ (-1022) le_rfl (zpow_lt_zpow_right₀ (by norm_num) (by norm_num))
  have := ilog2_mono _ q (two_zpow_pos _) h
  omega

/-- Rounding a magnitude of at least `2 ^ -1022` moves it by at most the
fraction `2 ^ -53` of it. -/
theorem round_mag_rel_error (q : ℚ) (h : (2 : ℚ) ^ (-1022 : Int) ≤ q) :
    |round_mag q - q| ≤ q * (2 : ℚ) ^ (-53 : Int) := by
  have hq : 0 < q := lt_of_lt_of_le (two_zpow_pos _) h
  have hl := ilog2_ge_of_normal q h
  obtain ⟨s1, -⟩ := ilog2_spec q hq
  have hu : ulp_exp q = ilog2 q - 52 := by
    unfold ulp_exp
    omega
  have he := round_mag_error q
  rw [hu] at he
  have e : (2 : ℚ) ^ (ilog2 q - 52) / 2 = (2 : ℚ) ^ ilog2 q * (2 : ℚ) ^ (-53 : Int) := by
    rw [show ilog2 q - 52 = ilog2 q + (-53) + 1 by ring,
      zpow_add_one₀ (by norm_num : (2 : ℚ) ≠ 0), zpow_add₀ (by norm_num : (2 : ℚ) ≠ 0)]
    ring
  rw [e] at he
  exact le_trans he (mul_le_mul_of_nonneg_right s1 (two_zpow_pos _).le)

/-- A finite rounding of a value of magnitude at least `2 ^ -1022` differs from
the value by at most the fraction `2 ^ -53` of its magnitude. -/
theorem is_rounding_rel_error {d : Double} {v : ℚ} (h : is_rounding d v)
    (hf : d.is_finite = true) (hv : (2 : ℚ) ^ (-1022 : Int) ≤ |v|) :
    |d.val - v| ≤ |v| * (2 : ℚ) ^ (-53 : Int) := by
  obtain ⟨s, x, rfl, hx⟩ := h
  have hax : |x| = |v| := by rw [← hx, abs_signed, abs_abs]
  rcases round_cases s x with ⟨hlt, -, ex⟩ | ⟨-, ex⟩
  · rw [ex, val_fin, ← hx]
    have e : signed s (round_mag |x|) - signed s |x| = signed s (round_mag |x| - |x|) := by
      cases s <;> simp [signed]
      ring
    rw [e, abs_signed, abs_signed, abs_abs]
    exact round_mag_rel_error |x| (by rw [hax]; exact hv)
  · rw [ex] at hf
    cases hf

/-- Rounding `1 + 2 ^ -53`, the middle between 1 and the next `double`, gives
1. -/
theorem round_one_plus_half_ulp : round false (1 + (2 : ℚ) ^ (-53 : Int)) = 1 := by
  decide!

/-- The product of a machine integer with the reciprocal of a positive machine
integer that is at least as large is at most 1 in `double` arithmetic. -/
theorem mul_reciprocal_le_one (n T : Int) (hT : 1 ≤ T) (hT2 : T < 2 ^ 31)
    (hn1 : -(2 ^ 31) ≤ n) (hn : n ≤ T) :
    (n : Double) * (1 / (T : Double)) ≤ 1 := by
  have hTq : (1 : ℚ) ≤ (T : ℚ) := by exact_mod_cast hT
  have hTq2 : (T : ℚ) < 2 ^ 31 := by exact_mod_cast hT2
  obtain ⟨tf, tv⟩ := of_int_exact T (by rw [abs_lt]; constructor <;> omega)
  obtain ⟨nf, nv⟩ := of_int_exact n (by rw [abs_lt]; constructor <;> omega)
  have hr : is_rounding ((1 : Double) / (T : Double)) (1 / (T : ℚ)) := by
    have h := div_is_rounding one_finite.1 tf (by
      show (of_int T).val ≠ 0
      rw [tv]
      linarith)
    rw [one_finite.2] at h
    have e : (of_int T).val = (T : ℚ) := tv
    rw [e] at h
    exact h
  have h1 : is_rounding (1 : Double) 1 := by
    have := is_rounding_self one_finite.1
    rwa [one_finite.2] at this
  have h0 : is_rounding (0 : Double) 0 := by
    have := is_rounding_self zero_finite.1
    rwa [zero_finite.2] at this
  have hrpos : (0 : ℚ) < 1 / (T : ℚ) := by positivity
  have hrle : 1 / (T : ℚ) ≤ 1 := by
    rw [div_le_one (by linarith)]
    exact hTq
  have hrf : ((1 : Double) / (T : Double)).is_finite = true := by
    have a := is_rounding_mono hr h1 hrle
    have b := is_rounding_mono h0 hr hrpos.le
    rcases cases_of_le_finite one_finite.1 a with h | h
    · exact h
    · rw [h] at b
      exact absurd b (by decide!)
  have hnorm : (2 : ℚ) ^ (-1022 : Int) ≤ |1 / (T : ℚ)| := by
    rw [abs_of_pos hrpos]
    have e : (2 : ℚ) ^ (-1022 : Int) ≤ (2 : ℚ) ^ (-31 : Int) :=
      zpow_le_zpow_right₀ (by norm_num) (by norm_num)
    have e2 : (2 : ℚ) ^ (-31 : Int) ≤ 1 / (T : ℚ) := by
      rw [zpow_neg, ← one_div]
      exact one_div_le_one_div_of_le (by linarith) (by
        have : (2 : ℚ) ^ (31 : Int) = 2 ^ 31 := by norm_num
        rw [this]
        exact hTq2.le)
    linarith
  have herr := is_rounding_rel_error hr hrf hnorm
  rw [abs_of_pos hrpos] at herr
  have hrv : ((1 : Double) / (T : Double)).val ≤ 1 / (T : ℚ) * (1 + (2 : ℚ) ^ (-53 : Int)) := by
    have := (abs_le.mp herr).2
    linarith
  have hrv0 : 0 ≤ ((1 : Double) / (T : Double)).val := by
    have b := is_rounding_mono h0 hr hrpos.le
    have := (le_iff_val zero_finite.1 hrf).mp b
    rwa [zero_finite.2] at this
  have hm := mul_is_rounding nf hrf
  have e : (of_int n).val = (n : ℚ) := nv
  have hm' : is_rounding ((n : Double) * ((1 : Double) / (T : Double)))
      ((n : ℚ) * ((1 : Double) / (T : Double)).val) := by
    have := hm
    rw [e] at this
    exact this
  have hprod : (n : ℚ) * ((1 : Double) / (T : Double)).val ≤ 1 + (2 : ℚ) ^ (-53 : Int) := by
    have hp := two_zpow_pos (-53)
    rcases le_or_lt n 0 with hn0 | hn0
    · have : (n : ℚ) ≤ 0 := by exact_mod_cast hn0
      have := mul_nonpos_of_nonpos_of_nonneg this hrv0
      linarith
    · have hnq : (n : ℚ) ≤ (T : ℚ) := by exact_mod_cast hn
      have hnq0 : (0 : ℚ) ≤ (n : ℚ) := by exact_mod_cast hn0.le
      calc (n : ℚ) * ((1 : Double) / (T : Double)).val
          ≤ (T : ℚ) * (1 / (T : ℚ) * (1 + (2 : ℚ) ^ (-53 : Int))) :=
            mul_le_mul hnq hrv hrv0 (by linarith)
        _ = 1 + (2 : ℚ) ^ (-53 : Int) := by
            have hT0 : (T : ℚ) ≠ 0 := by linarith
            rw [← mul_assoc, mul_one_div_cancel hT0, one_mul]
  have hround : is_rounding (round false (1 + (2 : ℚ) ^ (-53 : Int)))
      (1 + (2 : ℚ) ^ (-53 : Int)) := by
    have := is_rounding_round false (1 + (2 : ℚ) ^ (-53 : Int)) (by positivity)
    simpa using this
  have := is_rounding_mono hm' hround hprod
  rwa [round_one_plus_half_ulp] at this

/-- The function `std::max(a, 1.0)` returns 1 when `a` is at most 1. -/
theorem max_one_of_le {a : Double} (h : a ≤ 1) : Double.max a 1 = 1 := by
  unfold Double.max
  by_cases hlt : a < 1
  · rw [if_pos hlt]
  · rw [if_neg hlt]
    rcases cases_of_le_finite one_finite.1 h with hf | hi
    · have h1 := (le_iff_val hf one_finite.1).mp h
      have h2 : ¬ a.val < (1 : Double).val := fun hc => hlt ((lt_iff_val hf one_finite.1).mpr hc)
      have hv : a.val = (1 : Double).val := le_antisymm h1 (not_lt.mp h2)
      exact eq_of_val hf one_finite.1 hv (by rw [hv, one_finite.2]; norm_num)
    · rw [hi] at hlt
      exact absurd (by decide! : inf true < 1) hlt

end RelativeError

end Double

end Binary64

namespace Binary64

namespace Double

section AbsoluteError

/-- Rounding a magnitude moves it by at most the fraction `2 ^ -53` of it plus
`2 ^ -1075`, half the smallest positive `double`. -/
theorem round_mag_abs_error (q : ℚ) (hq : 0 ≤ q) :
    |round_mag q - q| ≤ q * (2 : ℚ) ^ (-53 : Int) + (2 : ℚ) ^ (-1075 : Int) := by
  have hp := two_zpow_pos (-53)
  have ht := two_zpow_pos (-1075)
  rcases hq.lt_or_eq with hpos | hz
  · by_cases hn : -1074 ≤ ilog2 q - 52
    · obtain ⟨s1, -⟩ := ilog2_spec q hpos
      have hu : ulp_exp q = ilog2 q - 52 := by
        unfold ulp_exp
        omega
      have he := round_mag_error q
      rw [hu] at he
      have e : (2 : ℚ) ^ (ilog2 q - 52) / 2 = (2 : ℚ) ^ ilog2 q * (2 : ℚ) ^ (-53 : Int) := by
        rw [show ilog2 q - 52 = ilog2 q + (-53) + 1 by ring,
          zpow_add_one₀ (by norm_num : (2 : ℚ) ≠ 0), zpow_add₀ (by norm_num : (2 : ℚ) ≠ 0)]
        ring
      rw [e] at he
      have := mul_le_mul_of_nonneg_right s1 hp.le
      linarith
    · have hu : ulp_exp q = -1074 := by
        unfold ulp_exp
        omega
      have he := round_mag_error q
      rw [hu] at he
      have e : (2 : ℚ) ^ (-1074 : Int) / 2 = (2 : ℚ) ^ (-1075 : Int) := by
        rw [show (-1074 : Int) = -1075 + 1 by norm_num, zpow_add_one₀ (by norm_num : (2 : ℚ) ≠ 0)]
        ring
      rw [e] at he
      have := mul_nonneg hq hp.le
      linarith
  · rw [← hz, round_mag_zero]
    simp only [sub_zero, abs_zero, zero_mul, zero_add]
    exact ht.le

/-- A finite rounding of a value differs from the value by at most the
fraction `2 ^ -53` of its magnitude plus `2 ^ -1075`. -/
theorem is_rounding_abs_error {d : Double} {v : ℚ} (h : is_rounding d v)
    (hf : d.is_finite = true) :
    |d.val - v| ≤ |v| * (2 : ℚ) ^ (-53 : Int) + (2 : ℚ) ^ (-1075 : Int) := by
  obtain ⟨s, x, rfl, hx⟩ := h
  have hax : |x| = |v| := by rw [← hx, abs_signed, abs_abs]
  rcases round_cases s x with ⟨hlt, -, ex⟩ | ⟨-, ex⟩
  · rw [ex, val_fin, ← hx]
    have e : signed s (round_mag |x|) - signed s |x| = signed s (round_mag |x| - |x|) := by
      cases s <;> simp [signed]
      ring
    rw [e, abs_signed, abs_signed, abs_abs]
    exact round_mag_abs_error |x| (abs_nonneg x)
  · rw [ex] at hf
    cases hf

/-- A finite quotient by a finite `double` has a finite numerator and a
denominator that is not 0. -/
theorem finite_div_inv {n d : Double} (hd : d.is_finite = true)
    (hu : (n / d).is_finite = true) : n.is_finite = true ∧ d.val ≠ 0 := by
  cases n with
  | nan => exact absurd hu (by simp [div_def, div, is_finite])
  | inf s =>
    cases d with
    | nan => cases hd
    | inf t => cases hd
    | fin t b hb => exact absurd hu (by simp [div_def, div, is_finite])
  | fin s a ha =>
    cases d with
    | nan => cases hd
    | inf t => cases hd
    | fin t b hb =>
      refine ⟨rfl, ?_⟩
      intro h0
      have hb0 : b = 0 := by
        cases t <;> simpa [val, signed] using h0
      rw [div_def] at hu
      simp only [div, hb0, if_true] at hu
      by_cases ha0 : a = 0
      · simp [ha0, is_finite] at hu
      · simp [ha0, is_finite] at hu

/-- A slope times the width of its segment reproduces the increment of the
curve up to rounding: for finite curve values `a`, `b` and a finite width
`r - l` of at most 1 in magnitude, a finite slope `(a - b) / (r - l)` times the
width differs from `a - b` by at most the fraction `2 ^ -51` of `|a - b|` plus
`2 ^ -1073`. -/
theorem secant_error {a b r l : Double} (ha : a.is_finite = true) (hb : b.is_finite = true)
    (hd : (r - l).is_finite = true) (hd1 : |(r - l).val| ≤ 1)
    (hu : ((a - b) / (r - l)).is_finite = true) :
    |((a - b) / (r - l)).val * (r - l).val - (a.val - b.val)| ≤
      (2 : ℚ) ^ (-51 : Int) * |a.val - b.val| + (2 : ℚ) ^ (-1073 : Int) := by
  obtain ⟨hn, hd0⟩ := finite_div_inv hd hu
  have e1 := is_rounding_abs_error (sub_is_rounding ha hb) hn
  have e2 := is_rounding_abs_error (div_is_rounding hn hd hd0) hu
  have hε : (2 : ℚ) ^ (-51 : Int) = 4 * (2 : ℚ) ^ (-53 : Int) := by
    rw [show (-51 : Int) = -53 + 1 + 1 by norm_num, zpow_add_one₀ (by norm_num : (2 : ℚ) ≠ 0),
      zpow_add_one₀ (by norm_num : (2 : ℚ) ≠ 0)]
    ring
  have hτ : (2 : ℚ) ^ (-1073 : Int) = 4 * (2 : ℚ) ^ (-1075 : Int) := by
    rw [show (-1073 : Int) = -1075 + 1 + 1 by norm_num,
      zpow_add_one₀ (by norm_num : (2 : ℚ) ≠ 0), zpow_add_one₀ (by norm_num : (2 : ℚ) ≠ 0)]
    ring
  have hε0 := two_zpow_pos (-53)
  have hτ0 := two_zpow_pos (-1075)
  have hε1 : (2 : ℚ) ^ (-53 : Int) ≤ 1 := zpow_le_one_of_nonpos₀ (by norm_num) (by norm_num)
  rw [hε, hτ]
  generalize (2 : ℚ) ^ (-53 : Int) = ε at *
  generalize (2 : ℚ) ^ (-1075 : Int) = τ at *
  generalize (a - b).val = n at *
  generalize (r - l).val = w at *
  generalize ((a - b) / (r - l)).val = u at *
  generalize a.val - b.val = D at *
  have hw0 : 0 < |w| := abs_pos.mpr hd0
  have hq : |n / w| * |w| = |n| := by
    rw [abs_div, div_mul_cancel₀ _ hw0.ne']
  have key : u * w - D = (n - D) + (u - n / w) * w := by
    field_simp
  rw [key]
  have t1 : |(u - n / w) * w| ≤ |n| * ε + τ := by
    rw [abs_mul]
    calc |u - n / w| * |w| ≤ (|n / w| * ε + τ) * |w| :=
          mul_le_mul_of_nonneg_right e2 (abs_nonneg w)
      _ = |n| * ε + τ * |w| := by rw [add_mul, mul_right_comm, hq]
      _ ≤ |n| * ε + τ := by
          have := mul_le_mul_of_nonneg_left hd1 hτ0.le
          linarith
  have t2 : |n| ≤ |D| + (|D| * ε + τ) := by
    have := abs_sub_abs_le_abs_sub n D
    linarith
  have t3 : |n| * ε ≤ (|D| + (|D| * ε + τ)) * ε := mul_le_mul_of_nonneg_right t2 hε0.le
  have hD := abs_nonneg D
  have t4 : |D| * ε * ε ≤ |D| * ε := by
    have := mul_le_mul_of_nonneg_left hε1 (mul_nonneg hD hε0.le)
    linarith
  have t5 : τ * ε ≤ τ := by
    have := mul_le_mul_of_nonneg_left hε1 hτ0.le
    linarith
  calc |(n - D) + (u - n / w) * w| ≤ |n - D| + |(u - n / w) * w| := abs_add _ _
    _ ≤ (|D| * ε + τ) + (|n| * ε + τ) := add_le_add e1 t1
    _ ≤ 4 * ε * |D| + 4 * τ := by nlinarith

end AbsoluteError

end Double

end Binary64

/-! ## Theorems: the search in `double` arithmetic, main results -/

namespace PASAQ

namespace OnDouble

open Binary64 Binary64.Double

section SearchClaims

end SearchClaims

end OnDouble

end PASAQ

/-! ## Theorems: no targets -/

namespace PASAQ

namespace OnDouble

open Binary64

section NoTargets

/-- C23 (counterexample): on the payoff matrix without targets
`EstimateBounds` does not fail with a degenerate-input error: whatever the
library function `exp`, it returns a pair, `(0, 0)`. -/
theorem EstimateBounds_no_targets_returns :
    no_targets.P_a.length = 0 ∧ no_targets.R_d.length = 0 ∧
    ∀ exp : Double → Double, EstimateBounds exp 1 no_targets (1 / 2) = (0, 0) :=
  ⟨rfl, rfl, fun _ => rfl⟩

/-- C23 (amended): when the payoff matrix has zero targets, neither function
reports an error. `EstimateBounds` returns the pair `(0, 0)`: the utility of
the empty uniform strategy and the empty sum of the rewards. `q_i` makes no
check either: the loop of its normaliser runs zero times, the normaliser is 0,
and its only read is at the requested position `i` of vectors that have no
entry, outside the vectors. -/
theorem EstimateBounds_no_targets (exp : Double → Double) (numRes : Int) (Pm : PayoffMatrix)
    (lambda : Double) (hT : Pm.P_a.length = 0) (hR : Pm.R_d.length = 0) :
    EstimateBounds exp numRes Pm lambda = (0, 0) ∧
    ∀ (i : Nat) (s : List Double),
      q_i_sum exp s Pm lambda = 0 ∧ q_i_reads i Pm = [i] ∧ Pm.P_a[i]? = none := by
  have hR0 : Pm.R_d = [] := List.length_eq_zero.mp hR
  have hP0 : Pm.P_a = [] := List.length_eq_zero.mp hT
  refine ⟨?_, fun i s => ⟨?_, ?_, ?_⟩⟩
  · simp [EstimateBounds, UD, hT, hR0]
  · simp [q_i_sum, hT]
  · simp [q_i_reads, hT]
  · simp [hP0]

/-- Witness of `EstimateBounds_no_targets`: the payoff matrix without targets. -/
theorem EstimateBounds_no_targets_witness :
    (no_targets.P_a.length = 0 ∧ no_targets.R_d.length = 0) ∧
    (EstimateBounds (fun _ => 1) 1 no_targets (1 / 2) = (0, 0) ∧
    ∀ (i : Nat) (s : List Double),
      q_i_sum (fun _ => 1) s no_targets (1 / 2) = 0 ∧ q_i_reads i no_targets = [i] ∧
        no_targets.P_a[i]? = none) :=
  ⟨⟨rfl, rfl⟩, EstimateBounds_no_targets (fun _ => 1) 1 no_targets (1 / 2) rfl rfl⟩

end NoTargets

end OnDouble

end PASAQ

/-! ## Theorems: the quantal response in `double` arithmetic -/

namespace PASAQ

namespace OnDouble

open Binary64 Binary64.Double

section Response

/-- When `exp` returns finite values that are at least 0 on the attacker
utilities of all targets, and a positive value on one of them, the normaliser
of the quantal response is positive and at least every weight. -/
theorem q_i_sum_bounds (exp : Double → Double) (s : List Double) (Pm : PayoffMatrix)
    (lambda : Double)
    (hfin : ∀ j, j < Pm.P_a.length → 0 ≤ exp (lambda * U_a j s Pm))
    (hpos : ∃ j, j < Pm.P_a.length ∧ 0 < exp (lambda * U_a j s Pm)) :
    0 < q_i_sum exp s Pm lambda ∧
    ∀ i, i < Pm.P_a.length → exp (lambda * U_a i s Pm) ≤ q_i_sum exp s Pm lambda := by
  obtain ⟨-, h2⟩ := foldl_add_ge (fun j => exp (lambda * U_a j s Pm)) Pm.P_a.length hfin 0
    (by decide!)
  obtain ⟨j, hj, hjpos⟩ := hpos
  exact ⟨lt_of_lt_of_le_d hjpos (h2 j hj), h2⟩

/-- When `exp` returns finite values that are at least 0 on the attacker
utilities of all targets, and a positive value on one of them, the quantal
response of every target lies between 0 and 1. -/
theorem q_i_bounds (exp : Double → Double) (s : List Double) (Pm : PayoffMatrix)
    (lambda : Double)
    (hfin : ∀ j, j < Pm.P_a.length →
      (exp (lambda * U_a j s Pm)).is_finite = true ∧ 0 ≤ exp (lambda * U_a j s Pm))
    (hpos : ∃ j, j < Pm.P_a.length ∧ 0 < exp (lambda * U_a j s Pm)) :
    ∀ i, i < Pm.P_a.length → 0 ≤ q_i exp i s Pm lambda ∧ q_i exp i s Pm lambda ≤ 1 := by
  obtain ⟨hS, hle⟩ := q_i_sum_bounds exp s Pm lambda (fun j hj => (hfin j hj).2) hpos
  intro i hi
  obtain ⟨hf, h0⟩ := hfin i hi
  have hv : 0 ≤ (exp (lambda * U_a i s Pm)).val := by
    have := (le_iff_val zero_finite.1 hf).mp h0
    rwa [zero_finite.2] at this
  exact div_le_one_d hf hv hS (hle i hi)

end Response

end OnDouble

end PASAQ

/-! ## Theorems: the bounds in `double` arithmetic -/

namespace PASAQ

namespace OnDouble

open Binary64 Binary64.Double

section Bounds

/-- A rounding of an integer below `2 ^ 53` in magnitude is finite and has the
integer as its value. -/
theorem is_rounding_int {d : Double} {v : ℚ} (h : is_rounding d v) (m : Int)
    (hm : |m| < 2 ^ 53) (hv : v = (m : ℚ)) : d.is_finite = true ∧ d.val = (m : ℚ) := by
  obtain ⟨f1, f2⟩ := is_rounding_exact_int h m 0 hm (by norm_num) (by norm_num)
    (by rw [hv]; simp)
  exact ⟨f1, f2.trans hv⟩

/-- With coverage 1 the defender utility of a target is its reward: for payoffs
in the range of `int`, `1 * R_d[i] + (1 - 1) * P_d[i]` is computed without
rounding. -/
theorem U_d_full_coverage (x : List Double) (Pm : PayoffMatrix) (i : Nat)
    (hx : x.getD i 0 = 1) (hR : |Pm.R_d.getD i 0| < 2 ^ 53) (hP : |Pm.P_d.getD i 0| < 2 ^ 53) :
    (U_d i x Pm).is_finite = true ∧ (U_d i x Pm).val = ((Pm.R_d.getD i 0 : Int) : ℚ) := by
  obtain ⟨rf, rv⟩ := of_int_exact (Pm.R_d.getD i 0) hR
  obtain ⟨pf, pv⟩ := of_int_exact (Pm.P_d.getD i 0) hP
  obtain ⟨of, ov⟩ := one_finite
  have h1 := is_rounding_int (mul_is_rounding of rf) (Pm.R_d.getD i 0) hR (by rw [ov, rv]; simp)
  have h2 := is_rounding_int (sub_is_rounding of of) 0 (by norm_num) (by rw [ov]; simp)
  have h3 := is_rounding_int (mul_is_rounding h2.1 pf) 0 (by norm_num) (by rw [h2.2]; simp)
  have h := is_rounding_int (add_is_rounding h1.1 h3.1) (Pm.R_d.getD i 0) hR
    (by rw [h1.2, h3.2]; simp)
  unfold U_d
  rw [hx]
  exact h

/-- An entry of a list of machine integers is a machine integer. -/
theorem getD_int_range (l : List Int) (i : Nat)
    (h : ∀ v ∈ l, -(LinProg.INT_MAX : Int) - 1 ≤ v ∧ v ≤ (LinProg.INT_MAX : Int)) :
    -(LinProg.INT_MAX : Int) - 1 ≤ l.getD i 0 ∧ l.getD i 0 ≤ (LinProg.INT_MAX : Int) := by
  by_cases hi : i < l.length
  · rw [List.getD_eq_getElem l 0 hi]
    exact h _ (List.getElem_mem hi)
  · rw [List.getD_eq_default l 0 (not_lt.mp hi)]
    simp [LinProg.INT_MAX]

/-- The lower estimate is at most the upper estimate when the coverage is 1,
the rewards are not negative and the quantal response is between 0 and 1. -/
theorem UD_le_sum_rewards (exp : Double → Double) (Pm : PayoffMatrix) (lambda : Double)
    (hRd : Pm.R_d.length = Pm.P_a.length)
    (hnn : ∀ v ∈ Pm.R_d, 0 ≤ v ∧ v ≤ (LinProg.INT_MAX : Int))
    (hP : ∀ v ∈ Pm.P_d, -(LinProg.INT_MAX : Int) - 1 ≤ v ∧ v ≤ (LinProg.INT_MAX : Int))
    (hq : ∀ i, i < Pm.P_a.length →
      0 ≤ q_i exp i (List.replicate Pm.P_a.length 1) Pm lambda ∧
      q_i exp i (List.replicate Pm.P_a.length 1) Pm lambda ≤ 1) :
    UD exp (List.replicate Pm.P_a.length 1) Pm lambda ≤
      Pm.R_d.foldl (fun second reward => second + ((reward : Int) : Double)) 0 := by
  rw [foldl_eq_foldl_range (fun second (reward : Int) => second + ((reward : Int) : Double)) 0
    Pm.R_d 0, hRd]
  unfold UD
  rw [List.length_replicate]
  refine (foldl_add_mono _ _ Pm.P_a.length (fun i hi => ?_) 0 0 (by decide!) (by decide!)).2
  have hRi : 0 ≤ Pm.R_d.getD i 0 ∧ Pm.R_d.getD i 0 ≤ (LinProg.INT_MAX : Int) := by
    rw [List.getD_eq_getElem Pm.R_d 0 (by rw [hRd]; exact hi)]
    exact hnn _ (List.getElem_mem _)
  have hPi := getD_int_range Pm.P_d i hP
  have hx : (List.replicate Pm.P_a.length (1 : Double)).getD i 0 = 1 := by
    rw [List.getD_eq_getElem _ 0 (by rw [List.length_replicate]; exact hi)]
    simp
  have hR53 : |Pm.R_d.getD i 0| < 2 ^ 53 := by
    rw [abs_lt]
    simp only [LinProg.INT_MAX] at hRi
    constructor <;> omega
  have hP53 : |Pm.P_d.getD i 0| < 2 ^ 53 := by
    rw [abs_lt]
    simp only [LinProg.INT_MAX] at hPi
    constructor <;> omega
  obtain ⟨uf, uv⟩ := U_d_full_coverage (List.replicate Pm.P_a.length 1) Pm i hx hR53 hP53
  obtain ⟨rf, rv⟩ := of_int_exact (Pm.R_d.getD i 0) hR53
  have hu0 : 0 ≤ (U_d i (List.replicate Pm.P_a.length 1) Pm).val := by
    rw [uv]
    exact_mod_cast hRi.1
  obtain ⟨m1, m2⟩ := mul_le_of_le_one (hq i hi).1 (hq i hi).2 uf hu0
  refine ⟨m1, le_trans_d m2 ?_⟩
  show U_d i (List.replicate Pm.P_a.length 1) Pm ≤ of_int (Pm.R_d.getD i 0)
  rw [le_iff_val uf rf, uv, rv]

/-- C4 (amended): in `double` arithmetic, for every payoff matrix with at
least one target (four vectors of machine integers of equal length `T ≥ 1`)
whose defender rewards are all non-negative, every resource budget
`numRes ≤ T` (so that the uniform coverage `max(numRes * (1.0 / T), 1.0)` is
1.0) and every `lambda` for which `exp` returns a finite value that is at
least 0 on the attacker utility of every target and a positive value on at
least one target (no overflow, and not every weight underflows to 0), the
pair returned by `EstimateBounds` satisfies `lower ≤ upper`. -/
theorem EstimateBounds_lower_le_upper_on_double (exp : Double → Double) (Pm : PayoffMatrix)
    (numRes : Int) (lambda : Double)
    (hT : 1 ≤ Pm.P_a.length) (hTmax : Pm.P_a.length ≤ LinProg.INT_MAX)
    (hRd : Pm.R_d.length = Pm.P_a.length) (_hPd : Pm.P_d.length = Pm.P_a.length)
    (_hRa : Pm.R_a.length = Pm.P_a.length)
    (hnn : ∀ v ∈ Pm.R_d, 0 ≤ v ∧ v ≤ (LinProg.INT_MAX : Int))
    (hP : ∀ v ∈ Pm.P_d, -(LinProg.INT_MAX : Int) - 1 ≤ v ∧ v ≤ (LinProg.INT_MAX : Int))
    (hres0 : -(LinProg.INT_MAX : Int) - 1 ≤ numRes) (hres : numRes ≤ (Pm.P_a.length : Int))
    (hfin : ∀ j, j < Pm.P_a.length →
      (exp (lambda * U_a j (List.replicate Pm.P_a.length 1) Pm)).is_finite = true ∧
      0 ≤ exp (lambda * U_a j (List.replicate Pm.P_a.length 1) Pm))
    (hpos : ∃ j, j < Pm.P_a.length ∧
      0 < exp (lambda * U_a j (List.replicate Pm.P_a.length 1) Pm)) :
    (EstimateBounds exp numRes Pm lambda).1 ≤ (EstimateBounds exp numRes Pm lambda).2 := by
  have hcov : Double.max ((numRes : Double) * (1 / ((Pm.P_a.length : Int) : Double))) 1 = 1 := by
    apply max_one_of_le
    simp only [LinProg.INT_MAX] at hTmax hres0
    exact mul_reciprocal_le_one numRes (Pm.P_a.length : Int) (by omega) (by omega) (by omega) hres
  show UD exp (List.replicate Pm.P_a.length
      (Double.max ((numRes : Double) * (1 / ((Pm.P_a.length : Int) : Double))) 1)) Pm lambda ≤
    Pm.R_d.foldl (fun second reward => second + ((reward : Int) : Double)) 0
  rw [hcov]
  exact UD_le_sum_rewards exp Pm lambda hRd hnn hP
    (q_i_bounds exp (List.replicate Pm.P_a.length 1) Pm lambda hfin hpos)

/-- Witness of `EstimateBounds_lower_le_upper_on_double`: the toy instance with
one resource, `lambda = 1/2` and a library whose `exp` returns 1. -/
theorem EstimateBounds_lower_le_upper_on_double_witness :
    (1 ≤ toy.P_a.length ∧ toy.P_a.length ≤ LinProg.INT_MAX ∧ toy.R_d.length = toy.P_a.length ∧
      toy.P_d.length = toy.P_a.length ∧ toy.R_a.length = toy.P_a.length ∧
      (∀ v ∈ toy.R_d, 0 ≤ v ∧ v ≤ (LinProg.INT_MAX : Int)) ∧
      (∀ v ∈ toy.P_d, -(LinProg.INT_MAX : Int) - 1 ≤ v ∧ v ≤ (LinProg.INT_MAX : Int)) ∧
      -(LinProg.INT_MAX : Int) - 1 ≤ 1 ∧ (1 : Int) ≤ (toy.P_a.length : Int) ∧
      (∀ j, j < toy.P_a.length →
        ((fun _ => (1 : Double))
          ((1 / 2 : Double) * U_a j (List.replicate toy.P_a.length 1) toy)).is_finite = true ∧
        0 ≤ (fun _ => (1 : Double))
          ((1 / 2 : Double) * U_a j (List.replicate toy.P_a.length 1) toy)) ∧
      ∃ j, j < toy.P_a.length ∧
        0 < (fun _ => (1 : Double))
          ((1 / 2 : Double) * U_a j (List.replicate toy.P_a.length 1) toy)) ∧
    (EstimateBounds (fun _ => 1) 1 toy (1 / 2)).1 ≤ (EstimateBounds (fun _ => 1) 1 toy (1 / 2)).2 :=
  have h1 : (1 : Double).is_finite = true ∧ (0 : Double) ≤ 1 ∧ (0 : Double) < 1 := by decide!
  ⟨⟨by decide, by decide, rfl, rfl, rfl, by decide, by decide, by decide, by decide,
      fun _ _ => ⟨h1.1, h1.2.1⟩, 0, by decide, h1.2.2⟩,
    EstimateBounds_lower_le_upper_on_double (fun _ => 1) toy 1 (1 / 2) (by decide) (by decide)
      rfl rfl rfl (by decide) (by decide) (by decide) (by decide)
      (fun _ _ => ⟨h1.1, h1.2.1⟩) ⟨0, by decide, h1.2.2⟩⟩

end Bounds

end OnDouble

end PASAQ

/-! ## Theorems: the secant slopes in `double` arithmetic -/

namespace PASAQ

namespace OnDouble

open Binary64 Binary64.Double

section Segments

/-- The right end of segment `k` of `K` is a finite `double` between 0 and 1,
for `0 ≤ k ≤ K`. -/
theorem segment_right_bounds (K k : Int) (hK : 1 ≤ K) (hK2 : K < 2 ^ 31) (hk0 : 0 ≤ k)
    (hk : k ≤ K) :
    (segment_right K k).is_finite = true ∧ 0 ≤ (segment_right K k).val ∧
      (segment_right K k).val ≤ 1 := by
  obtain ⟨kf, kv⟩ := of_int_exact k (by rw [abs_lt]; constructor <;> omega)
  obtain ⟨Kf, Kv⟩ := of_int_exact K (by rw [abs_lt]; constructor <;> omega)
  have hKq : (0 : ℚ) < (K : ℚ) := by exact_mod_cast (by omega : (0 : Int) < K)
  have hr : is_rounding (segment_right K k) ((k : ℚ) / (K : ℚ)) := by
    have h := div_is_rounding kf Kf (by rw [Kv]; exact hKq.ne')
    rw [kv, Kv] at h
    exact h
  have h0 : is_rounding (0 : Double) 0 := by
    have := is_rounding_self zero_finite.1
    rwa [zero_finite.2] at this
  have h1 : is_rounding (1 : Double) 1 := by
    have := is_rounding_self one_finite.1
    rwa [one_finite.2] at this
  have hq0 : (0 : ℚ) ≤ (k : ℚ) / (K : ℚ) := div_nonneg (by exact_mod_cast hk0) hKq.le
  have hq1 : (k : ℚ) / (K : ℚ) ≤ 1 := (div_le_one hKq).mpr (by exact_mod_cast hk)
  have a := is_rounding_mono h0 hr hq0
  have b := is_rounding_mono hr h1 hq1
  have hf : (segment_right K k).is_finite = true := by
    rcases cases_of_le_finite one_finite.1 b with h | h
    · exact h
    · rw [h] at a
      exact absurd a (by decide!)
  refine ⟨hf, ?_, ?_⟩
  · have := (le_iff_val zero_finite.1 hf).mp a
    rwa [zero_finite.2] at this
  · have := (le_iff_val hf one_finite.1).mp b
    rwa [one_finite.2] at this

/-- The left end of segment `k + 1` is the same `double` as the right end of
segment `k`, for `0 ≤ k < 2 ^ 31`. -/
theorem segment_left_succ (K k : Int) (hk0 : 0 ≤ k) (hk : k < 2 ^ 31) :
    segment_left K (k + 1) = segment_right K k := by
  have e : ((k + 1 : Int) : Double) - 1 = ((k : Int) : Double) := by
    obtain ⟨kf, kv⟩ := of_int_exact k (by rw [abs_lt]; constructor <;> omega)
    obtain ⟨sf, sv⟩ := of_int_exact (k + 1) (by rw [abs_lt]; constructor <;> omega)
    rcases hk0.lt_or_eq with hpos | hz
    · have h := is_rounding_int (sub_is_rounding sf one_finite.1) k
        (by rw [abs_lt]; constructor <;> omega) (by rw [sv, one_finite.2]; push_cast; ring)
      refine eq_of_val h.1 kf (h.2.trans kv.symm) ?_
      have hne : ((k : Int) : ℚ) ≠ 0 := by exact_mod_cast hpos.ne'
      exact fun h0 => hne (h.2.symm.trans h0)
    · rw [← hz]
      decide!
  unfold segment_left segment_right
  rw [e]

/-- The right end of segment 0, which is the left end of segment 1, is the
`double` 0. -/
theorem segment_right_zero (K : Int) (hK : 1 ≤ K) (hK2 : K < 2 ^ 31) :
    segment_right K 0 = 0 := by
  obtain ⟨Kf, Kv⟩ := of_int_exact K (by rw [abs_lt]; constructor <;> omega)
  have hKq : (0 : ℚ) < (K : ℚ) := by exact_mod_cast (by omega : (0 : Int) < K)
  obtain ⟨x, hx, e, hx0⟩ := pos_form Kf (by rw [Kv]; exact hKq)
  have e0 : ((0 : Int) : Double) = fin false (round_mag |((0 : Int) : ℚ)|)
      ⟨((0 : Int) : ℚ), rfl, by simp [round_mag_zero]⟩ :=
    round_of_lt false _ (by simp [round_mag_zero])
  have eK : ((K : Int) : Double) = fin false x hx := e
  unfold segment_right
  rw [eK, e0]
  show div _ _ = _
  simp only [div, hx0.ne', if_false]
  apply round_eq_zero
  simp [round_mag_zero]

/-- The right end of the last segment is the `double` 1. -/
theorem segment_right_last (K : Int) (hK : 1 ≤ K) (hK2 : K < 2 ^ 31) :
    segment_right K K = 1 := by
  obtain ⟨Kf, Kv⟩ := of_int_exact K (by rw [abs_lt]; constructor <;> omega)
  have hKq : (0 : ℚ) < (K : ℚ) := by exact_mod_cast (by omega : (0 : Int) < K)
  have h := div_is_rounding Kf Kf (by rw [Kv]; exact hKq.ne')
  rw [Kv, div_self hKq.ne', ← one_finite.2] at h
  exact eq_of_is_rounding one_finite.1 h (by rw [one_finite.2]; norm_num)

/-- The width of a segment is a finite `double` of at most 1 in magnitude. -/
theorem segment_width_bounds (K k : Int) (hK : 1 ≤ K) (hK2 : K < 2 ^ 31) (hk0 : 1 ≤ k)
    (hk : k ≤ K) :
    (segment_right K k - segment_left K k).is_finite = true ∧
      |(segment_right K k - segment_left K k).val| ≤ 1 := by
  obtain ⟨rf, r0, r1⟩ := segment_right_bounds K k hK hK2 (by omega) hk
  have el : segment_left K k = segment_right K (k - 1) := by
    have := segment_left_succ K (k - 1) (by omega) (by omega)
    rwa [sub_add_cancel] at this
  obtain ⟨lf, l0, l1⟩ := segment_right_bounds K (k - 1) hK hK2 (by omega) (by omega)
  rw [el]
  have hr := sub_is_rounding rf lf
  have h1 : is_rounding (1 : Double) 1 := by
    have := is_rounding_self one_finite.1
    rwa [one_finite.2] at this
  have hm1 : is_rounding (-1 : Double) (-1) := by
    have hf : (-1 : Double).is_finite = true := by decide!
    have hv : (-1 : Double).val = -1 := by decide!
    have := is_rounding_self hf
    rwa [hv] at this
  have a := is_rounding_mono hm1 hr (by linarith)
  have b := is_rounding_mono hr h1 (by linarith)
  have hf : (segment_right K k - segment_right K (k - 1)).is_finite = true := by
    rcases cases_of_le_finite one_finite.1 b with h | h
    · exact h
    · rw [h] at a
      exact absurd a (by decide!)
  refine ⟨hf, ?_⟩
  have hfm : (-1 : Double).is_finite = true := by decide!
  have hvm : (-1 : Double).val = -1 := by decide!
  have a' := (le_iff_val hfm hf).mp a
  have b' := (le_iff_val hf one_finite.1).mp b
  rw [hvm] at a'
  rw [one_finite.2] at b'
  exact abs_le.mpr ⟨a', b'⟩

/-- The slopes of a curve `F` over the first `m` segments, each times the width
of its segment, add up to the increase of `F` from 0 to the right end of
segment `m`, up to rounding: the difference is at most the sum over the
segments of the fraction `2 ^ -51` of the increment plus `2 ^ -1073`. -/
theorem secant_sum_error (F : Double → Double) (K : Int) (hK : 1 ≤ K) (hK2 : K < 2 ^ 31) :
    ∀ m : Nat, (m : Int) ≤ K →
      (∀ k : Nat, k ≤ m → (F (segment_right K k)).is_finite = true) →
      (∀ k : Nat, k < m →
        ((F (segment_right K ((k + 1 : Nat) : Int)) - F (segment_left K ((k + 1 : Nat) : Int))) /
          (segment_right K ((k + 1 : Nat) : Int) -
            segment_left K ((k + 1 : Nat) : Int))).is_finite = true) →
      |Finset.sum (Finset.range m) (fun k =>
          ((F (segment_right K ((k + 1 : Nat) : Int)) -
              F (segment_left K ((k + 1 : Nat) : Int))) /
            (segment_right K ((k + 1 : Nat) : Int) -
              segment_left K ((k + 1 : Nat) : Int))).val *
          (segment_right K ((k + 1 : Nat) : Int) - segment_left K ((k + 1 : Nat) : Int)).val) -
        ((F (segment_right K (m : Int))).val - (F (segment_right K 0)).val)| ≤
      Finset.sum (Finset.range m) (fun k =>
        (2 : ℚ) ^ (-51 : Int) *
          |(F (segment_right K ((k + 1 : Nat) : Int))).val -
            (F (segment_left K ((k + 1 : Nat) : Int))).val| + (2 : ℚ) ^ (-1073 : Int)) := by
  intro m
  induction m with
  | zero =>
    intro _ _ _
    simp
  | succ m ih =>
    intro hm hF hu
    have ih' := ih (by push_cast at hm ⊢; omega) (fun k hk => hF k (by omega))
      (fun k hk => hu k (by omega))
    have el : segment_left K ((m + 1 : Nat) : Int) = segment_right K (m : Int) := by
      have := segment_left_succ K (m : Int) (by omega) (by push_cast at hm; omega)
      rw [← this]
      push_cast
      rfl
    obtain ⟨wf, w1⟩ := segment_width_bounds K ((m + 1 : Nat) : Int) hK hK2
      (by push_cast; omega) hm
    have hs := secant_error (hF (m + 1) le_rfl)
      (by rw [el]; exact hF m (by omega) :
        (F (segment_left K ((m + 1 : Nat) : Int))).is_finite = true) wf w1 (hu m (by omega))
    rw [Finset.sum_range_succ, Finset.sum_range_succ]
    have hsplit : ∀ (S u D a b c : ℚ), b = c → S + u - (a - D) = (S - (c - D)) + (u - (a - b)) := by
      intro S u D a b c h
      rw [h]
      ring
    rw [hsplit _ _ _ _ (F (segment_left K ((m + 1 : Nat) : Int))).val
      (F (segment_right K (m : Int))).val (by rw [el])]
    exact le_trans (abs_add _ _) (add_le_add ih' hs)

end Segments

end OnDouble

end PASAQ

namespace PASAQ

namespace OnDouble

open Binary64 Binary64.Double

section Slopes

/-- With equal attacker payoffs (`beta = 0`) the argument of `exp` in `f1` and
`f2` is the `double` `-0` at the ends of the first three of ten segments. -/
theorem flat_exponents :
    ∀ k : Nat, k ≤ 3 →
      -beta 1 equal_attacker_payoffs (1 / 2) * segment_right 10 (k : Int) = -0 ∧
      segment_left 10 ((k + 1 : Nat) : Int) = segment_right 10 (k : Int) := by
  decide!

/-- Each of the first three of ten segments has the slope 1 for the curve
`f2(x) = x * 1`; the three slopes times the width `1.0 / 10` add up to
`0.30000000000000004`, which is not the `double` `3.0 / 10`, and the exact sum
`3/10` of the slopes times the width `1/10` is not the value of that `double`
either. -/
theorem flat_slopes :
    (∀ k : Nat, k < 3 →
      (segment_right 10 ((k + 1 : Nat) : Int) * 1 - segment_right 10 (k : Int) * 1) /
        (segment_right 10 ((k + 1 : Nat) : Int) - segment_right 10 (k : Int)) = (1 : Double)) ∧
    (0 + (1 : Double) * (1 / ((10 : Int) : Double)) + 1 * (1 / ((10 : Int) : Double)) +
      1 * (1 / ((10 : Int) : Double)) ≠ segment_right 10 3 * 1) ∧
    ((1 : Double).val * (1 / 10 : ℚ) + (1 : Double).val * (1 / 10 : ℚ) +
      (1 : Double).val * (1 / 10 : ℚ) ≠ (segment_right 10 3 * 1 : Double).val) := by
  decide!

/-- The curve `f2` at 0 has the value 0 when it is finite. -/
theorem f2_zero_val (exp : Double → Double) (i : Nat) (Pm : PayoffMatrix) (lambda : Double)
    (h : (f2 exp i 0 Pm lambda).is_finite = true) : (f2 exp i 0 Pm lambda).val = 0 := by
  unfold f2 at h ⊢
  have he : (exp (-beta i Pm lambda * 0)).is_finite = true := by
    have h0 : (0 : Double) = fin false (round_mag |(((0 : Nat) : Int) : ℚ)|)
        ⟨(((0 : Nat) : Int) : ℚ), rfl, by simp [round_mag_zero]⟩ :=
      round_of_lt false _ (by simp [round_mag_zero])
    cases hx : exp (-beta i Pm lambda * 0) with
    | nan =>
      rw [hx, h0] at h
      exact absurd h (by simp [mul_def, mul, is_finite])
    | inf s =>
      rw [hx, h0] at h
      exact absurd h (by simp [mul_def, mul, is_finite, round_mag_zero])
    | fin s a ha => rfl
  have hr := mul_is_rounding zero_finite.1 he
  rw [zero_finite.2, zero_mul] at hr
  exact (is_rounding_int hr 0 (by norm_num) (by simp)).2.trans (by simp)

/-- C19 (counterexample): in `double` arithmetic the secant slopes are not
exact at the segment endpoints. On a target with equal attacker payoffs
(`beta = 0`, so that `f2(i, x) = x * exp(-0)`), with `K = 10`, `m = 3` and
every `exp` that returns 1 for `exp(-0)`: each slope `u_ik` is 1, the curve at
the endpoint is `f2(i, 3.0 / 10) = 3.0 / 10`, and the sum over `k = 1..3` of
`u_ik * (1.0 / 10)` is not `f2(i, 3.0 / 10)`, neither when the sum is taken in
`double` arithmetic nor when it is taken exactly with the width `1/10`. -/
theorem secant_slopes_not_exact :
    (1 : Int) ≤ 10 ∧ (3 : Int) ≤ 10 ∧ equal_attacker_payoffs.P_a.length = 2 ∧
    ∀ exp : Double → Double, exp (-0) = 1 →
      (u_ik exp equal_attacker_payoffs (1 / 2) 10 1 1 = 1 ∧
        u_ik exp equal_attacker_payoffs (1 / 2) 10 1 2 = 1 ∧
        u_ik exp equal_attacker_payoffs (1 / 2) 10 1 3 = 1) ∧
      f2 exp 1 (segment_right 10 3) equal_attacker_payoffs (1 / 2) = segment_right 10 3 * 1 ∧
      (0 + u_ik exp equal_attacker_payoffs (1 / 2) 10 1 1 * (1 / ((10 : Int) : Double)) +
          u_ik exp equal_attacker_payoffs (1 / 2) 10 1 2 * (1 / ((10 : Int) : Double)) +
          u_ik exp equal_attacker_payoffs (1 / 2) 10 1 3 * (1 / ((10 : Int) : Double)) ≠
        f2 exp 1 (segment_right 10 3) equal_attacker_payoffs (1 / 2)) ∧
      ((u_ik exp equal_attacker_payoffs (1 / 2) 10 1 1).val * (1 / 10 : ℚ) +
          (u_ik exp equal_attacker_payoffs (1 / 2) 10 1 2).val * (1 / 10 : ℚ) +
          (u_ik exp equal_attacker_payoffs (1 / 2) 10 1 3).val * (1 / 10 : ℚ) ≠
        (f2 exp 1 (segment_right 10 3) equal_attacker_payoffs (1 / 2)).val) := by
  refine ⟨by decide, by decide, rfl, fun exp hexp => ?_⟩
  have hf : ∀ k : Nat, k ≤ 3 →
      f2 exp 1 (segment_right 10 (k : Int)) equal_attacker_payoffs (1 / 2) =
        segment_right 10 (k : Int) * 1 := by
    intro k hk
    unfold f2
    rw [(flat_exponents k hk).1, hexp]
  have hu : ∀ k : Nat, k < 3 →
      u_ik exp equal_attacker_payoffs (1 / 2) 10 1 ((k + 1 : Nat) : Int) = 1 := by
    intro k hk
    unfold u_ik
    rw [(flat_exponents k (by omega)).2, hf (k + 1) (by omega), hf k (by omega)]
    exact flat_slopes.1 k hk
  have h1 : u_ik exp equal_attacker_payoffs (1 / 2) 10 1 1 = 1 := hu 0 (by decide)
  have h2 : u_ik exp equal_attacker_payoffs (1 / 2) 10 1 2 = 1 := hu 1 (by decide)
  have h3 : u_ik exp equal_attacker_payoffs (1 / 2) 10 1 3 = 1 := hu 2 (by decide)
  have h4 : f2 exp 1 (segment_right 10 3) equal_attacker_payoffs (1 / 2) =
      segment_right 10 3 * 1 := hf 3 le_rfl
  rw [h1, h2, h3, h4]
  exact ⟨⟨rfl, rfl, rfl⟩, rfl, flat_slopes.2.1, flat_slopes.2.2⟩

/-- C19 (amended): in `double` arithmetic the piecewise-linear approximation is
exact at the segment endpoints up to rounding only. For every target index
`i`, every `K ≥ 1` in the range of `int` and every `m ≤ K` such that the
curves `f1` and `f2` are finite at the ends of the first `m` segments and the
slopes `y_ik` and `u_ik` of these segments are finite (no overflow): the
segments chain (the left end of the first segment is 0, the right end of the
last one is 1, and the left end of every segment is the same `double` as the
right end of the one before), and the sum over `k = 1..m` of `u_ik` times the
width `right - left` of segment `k` differs from `f2(i, right_m)` by at most
the sum over these segments of `2 ^ -51` times the size of the increment of
`f2` plus `2 ^ -1073`; likewise the slopes `y_ik` and `f1(i, right_m) -
f1(i, 0)`. -/
theorem secant_slopes_up_to_rounding (exp : Double → Double) (Pm : PayoffMatrix)
    (lambda : Double) (K : Int) (i m : Nat) (hK : 1 ≤ K) (hK2 : K ≤ (LinProg.INT_MAX : Int))
    (hm : (m : Int) ≤ K)
    (hf1 : ∀ k : Nat, k ≤ m → (f1 exp i (segment_right K (k : Int)) Pm lambda).is_finite = true)
    (hf2 : ∀ k : Nat, k ≤ m → (f2 exp i (segment_right K (k : Int)) Pm lambda).is_finite = true)
    (hy : ∀ k : Nat, k < m → (y_ik exp Pm lambda K i ((k + 1 : Nat) : Int)).is_finite = true)
    (hu : ∀ k : Nat, k < m → (u_ik exp Pm lambda K i ((k + 1 : Nat) : Int)).is_finite = true) :
    (segment_left K 1 = 0 ∧ segment_right K K = 1 ∧
      ∀ k : Int, 1 ≤ k → k < K → segment_left K (k + 1) = segment_right K k) ∧
    |Finset.sum (Finset.range m) (fun k =>
        (u_ik exp Pm lambda K i ((k + 1 : Nat) : Int)).val *
          (segment_right K ((k + 1 : Nat) : Int) - segment_left K ((k + 1 : Nat) : Int)).val) -
      (f2 exp i (segment_right K (m : Int)) Pm lambda).val| ≤
    Finset.sum (Finset.range m) (fun k =>
      (2 : ℚ) ^ (-51 : Int) *
        |(f2 exp i (segment_right K ((k + 1 : Nat) : Int)) Pm lambda).val -
          (f2 exp i (segment_left K ((k + 1 : Nat) : Int)) Pm lambda).val| +
        (2 : ℚ) ^ (-1073 : Int)) ∧
    |Finset.sum (Finset.range m) (fun k =>
        (y_ik exp Pm lambda K i ((k + 1 : Nat) : Int)).val *
          (segment_right K ((k + 1 : Nat) : Int) - segment_left K ((k + 1 : Nat) : Int)).val) -
      ((f1 exp i (segment_right K (m : Int)) Pm lambda).val - (f1 exp i 0 Pm lambda).val)| ≤
    Finset.sum (Finset.range m) (fun k =>
      (2 : ℚ) ^ (-51 : Int) *
        |(f1 exp i (segment_right K ((k + 1 : Nat) : Int)) Pm lambda).val -
          (f1 exp i (segment_left K ((k + 1 : Nat) : Int)) Pm lambda).val| +
        (2 : ℚ) ^ (-1073 : Int)) := by
  have hK3 : K < 2 ^ 31 := by
    simp only [LinProg.INT_MAX] at hK2
    omega
  have e0 : segment_right K 0 = 0 := segment_right_zero K hK hK3
  have hchain : segment_left K 1 = 0 ∧ segment_right K K = 1 ∧
      ∀ k : Int, 1 ≤ k → k < K → segment_left K (k + 1) = segment_right K k := by
    refine ⟨?_, segment_right_last K hK hK3, fun k hk1 hk2 =>
      segment_left_succ K k (by omega) (by omega)⟩
    have := segment_left_succ K 0 le_rfl (by norm_num)
    rw [zero_add] at this
    rw [this, e0]
  refine ⟨hchain, ?_, ?_⟩
  · have h := secant_sum_error (fun x => f2 exp i x Pm lambda) K hK hK3 m hm hf2 hu
    have hz : (f2 exp i (segment_right K 0) Pm lambda).val = 0 := by
      have := hf2 0 (Nat.zero_le m)
      rw [Nat.cast_zero, e0] at this
      rw [e0]
      exact f2_zero_val exp i Pm lambda this
    simp only [hz, sub_zero] at h
    exact h
  · have h := secant_sum_error (fun x => f1 exp i x Pm lambda) K hK hK3 m hm hf1 hy
    simp only [e0] at h
    exact h

/-- Witness of `secant_slopes_up_to_rounding`: the toy instance with two
segments, both filled, and a library whose `exp` returns 1. -/
theorem secant_slopes_up_to_rounding_witness :
    ((1 : Int) ≤ 2 ∧ (2 : Int) ≤ (LinProg.INT_MAX : Int) ∧ ((2 : Nat) : Int) ≤ 2 ∧
      (∀ k : Nat, k ≤ 2 →
        (f1 (fun _ => 1) 0 (segment_right 2 (k : Int)) toy (1 / 2)).is_finite = true) ∧
      (∀ k : Nat, k ≤ 2 →
        (f2 (fun _ => 1) 0 (segment_right 2 (k : Int)) toy (1 / 2)).is_finite = true) ∧
      (∀ k : Nat, k < 2 →
        (y_ik (fun _ => 1) toy (1 / 2) 2 0 ((k + 1 : Nat) : Int)).is_finite = true) ∧
      (∀ k : Nat, k < 2 →
        (u_ik (fun _ => 1) toy (1 / 2) 2 0 ((k + 1 : Nat) : Int)).is_finite = true)) ∧
    ((segment_left 2 1 = 0 ∧ segment_right 2 2 = 1 ∧
      ∀ k : Int, 1 ≤ k → k < 2 → segment_left 2 (k + 1) = segment_right 2 k) ∧
    |Finset.sum (Finset.range 2) (fun k =>
        (u_ik (fun _ => 1) toy (1 / 2) 2 0 ((k + 1 : Nat) : Int)).val *
          (segment_right 2 ((k + 1 : Nat) : Int) - segment_left 2 ((k + 1 : Nat) : Int)).val) -
      (f2 (fun _ => 1) 0 (segment_right 2 ((2 : Nat) : Int)) toy (1 / 2)).val| ≤
    Finset.sum (Finset.range 2) (fun k =>
      (2 : ℚ) ^ (-51 : Int) *
        |(f2 (fun _ => 1) 0 (segment_right 2 ((k + 1 : Nat) : Int)) toy (1 / 2)).val -
          (f2 (fun _ => 1) 0 (segment_left 2 ((k + 1 : Nat) : Int)) toy (1 / 2)).val| +
        (2 : ℚ) ^ (-1073 : Int)) ∧
    |Finset.sum (Finset.range 2) (fun k =>
        (y_ik (fun _ => 1) toy (1 / 2) 2 0 ((k + 1 : Nat) : Int)).val *
          (segment_right 2 ((k + 1 : Nat) : Int) - segment_left 2 ((k + 1 : Nat) : Int)).val) -
      ((f1 (fun _ => 1) 0 (segment_right 2 ((2 : Nat) : Int)) toy (1 / 2)).val -
        (f1 (fun _ => 1) 0 0 toy (1 / 2)).val)| ≤
    Finset.sum (Finset.range 2) (fun k =>
      (2 : ℚ) ^ (-51 : Int) *
        |(f1 (fun _ => 1) 0 (segment_right 2 ((k + 1 : Nat) : Int)) toy (1 / 2)).val -
          (f1 (fun _ => 1) 0 (segment_left 2 ((k + 1 : Nat) : Int)) toy (1 / 2)).val| +
        (2 : ℚ) ^ (-1073 : Int))) :=
  have h : (1 : Int) ≤ 2 ∧ (2 : Int) ≤ (LinProg.INT_MAX : Int) ∧ ((2 : Nat) : Int) ≤ 2 ∧
      (∀ k : Nat, k ≤ 2 →
        (f1 (fun _ => 1) 0 (segment_right 2 (k : Int)) toy (1 / 2)).is_finite = true) ∧
      (∀ k : Nat, k ≤ 2 →
        (f2 (fun _ => 1) 0 (segment_right 2 (k : Int)) toy (1 / 2)).is_finite = true) ∧
      (∀ k : Nat, k < 2 →
        (y_ik (fun _ => 1) toy (1 / 2) 2 0 ((k + 1 : Nat) : Int)).is_finite = true) ∧
      (∀ k : Nat, k < 2 →
        (u_ik (fun _ => 1) toy (1 / 2) 2 0 ((k + 1 : Nat) : Int)).is_finite = true) := by
    decide!
  ⟨h, secant_slopes_up_to_rounding (fun _ => 1) toy (1 / 2) 2 0 2 h.1 h.2.1 h.2.2.1 h.2.2.2.1
    h.2.2.2.2.1 h.2.2.2.2.2.1 h.2.2.2.2.2.2⟩

end Slopes

end OnDouble

end PASAQ
